import Mathlib

set_option maxRecDepth 100000

/-! A shallow embedding of the block file-system simulator (`fs-sim.c`).

The on-disk superblock is a 16-byte free-block bitmap followed by 126 inodes of
8 bytes.  Bytes are natural numbers; arrays are functions from the index.  The
global variables `sb`, `cwd`, `fs_buffer` and the virtual disk `vd` are the
fields of `State`, threaded explicitly through every operation.
-/

namespace FS

/-! ## Data model (`fs-sim.h`) -/

/-- The five bytes of `char name[5]`. -/
structure Name where
  c0 : Nat
  c1 : Nat
  c2 : Nat
  c3 : Nat
  c4 : Nat
deriving DecidableEq, Repr

/-- The struct `Inode`: name, `isused_size`, `start_block`, `isdir_parent`. -/
structure Inode where
  name : Name
  isused_size : Nat
  start_block : Nat
  isdir_parent : Nat
deriving DecidableEq, Repr

/-- The struct `Superblock`: `free_block_list[16]` and `inode[126]`. -/
structure Superblock where
  free_block_list : Nat → Nat
  inode : Nat → Inode

/-- One 1024-byte block of the virtual disk. -/
abbrev Block := List Nat

/-- The global state: superblock in memory, the blocks of the mounted disk,
the current working directory and the shared buffer. -/
structure State where
  sb : Superblock
  disk : Nat → Block
  cwd : Nat
  fs_buffer : Block

/-- The errors the engine prints on standard error. -/
inductive FsError where
  | superblock_full
  | already_exists
  | cannot_allocate
  | does_not_exist
deriving DecidableEq, Repr

/-- The expression `isused_size & (1 << 7)`, tested for non-zero. -/
def Inode.isused (n : Inode) : Bool := n.isused_size &&& 128 != 0

/-- The expression `isused_size & ~(1 << 7)` stored in a `uint8_t`. -/
def Inode.size (n : Inode) : Nat := n.isused_size &&& 127

/-- The expression `isdir_parent & (1 << 7)`, tested for non-zero. -/
def Inode.isdir (n : Inode) : Bool := n.isdir_parent &&& 128 != 0

/-- The expression `isdir_parent & ~(1 << 7)` stored in a `uint8_t`. -/
def Inode.parent (n : Inode) : Nat := n.isdir_parent &&& 127

/-- An inode whose eight bytes are zero. -/
def zeroInode : Inode := ⟨⟨0, 0, 0, 0, 0⟩, 0, 0, 0⟩

/-- The array `zero_buff[1024] = {0}`. -/
def zero_buff : Block := List.replicate 1024 0

/-- The literal `".\0\0\0\0"`. -/
def dot : Name := ⟨46, 0, 0, 0, 0⟩

/-- The literal `"..\0\0\0"`. -/
def dotdot : Name := ⟨46, 46, 0, 0, 0⟩

/-- The call `strncpy(dst, src, 5)`: bytes are copied up to the first NUL, the
rest of the five bytes is filled with NUL. -/
def strncpy5 (src : Name) : Name :=
  if src.c0 = 0 then ⟨0, 0, 0, 0, 0⟩
  else if src.c1 = 0 then ⟨src.c0, 0, 0, 0, 0⟩
  else if src.c2 = 0 then ⟨src.c0, src.c1, 0, 0, 0⟩
  else if src.c3 = 0 then ⟨src.c0, src.c1, src.c2, 0, 0⟩
  else src

/-- The eight bytes of an inode in memory order. -/
def Inode.bytes (n : Inode) : List Nat :=
  [n.name.c0, n.name.c1, n.name.c2, n.name.c3, n.name.c4,
   n.isused_size, n.start_block, n.isdir_parent]

/-- The 1024 bytes of the superblock as `write(vd, sb, 1024)` sends them. -/
def Superblock.image (sb : Superblock) : Block :=
  (List.range 16).map sb.free_block_list ++
    ((List.range 126).map (fun i => (sb.inode i).bytes)).flatten

/-- The function `write_superblock`: block 0 of the disk receives the image. -/
def write_superblock (st : State) : State :=
  { st with disk := Function.update st.disk 0 st.sb.image }

/-- The test `free_block_list[i / 8] & (1 << (7 - i % 8))` for non-zero. -/
def bit_is_set (fbl : Nat → Nat) (i : Nat) : Bool :=
  fbl (i / 8) &&& (1 <<< (7 - i % 8)) != 0

/-- One iteration of the loop of `set_fbl_bits`. -/
def set_fbl_bit (set : Bool) (fbl : Nat → Nat) (i : Nat) : Nat → Nat :=
  if i = 0 then fbl
  else fun byte =>
    if byte = i / 8 then
      if set then (fbl byte ||| (1 <<< (7 - i % 8))) % 256
      else fbl byte &&& (255 ^^^ (1 <<< (7 - i % 8)))
    else fbl byte

/-- The function `set_fbl_bits(start_idx, size, set)`. -/
def set_fbl_bits (sb : Superblock) (start_idx size : Nat) (set : Bool) : Superblock :=
  { sb with free_block_list :=
      (List.range' start_idx size).foldl (set_fbl_bit set) sb.free_block_list }

/-- The function `file_exists(name)`: the first used inode with this name whose
parent is the current working directory; `none` stands for `-1`. -/
def file_exists (st : State) (name : Name) : Option Nat :=
  (List.range 126).find? (fun i =>
    (st.sb.inode i).isused && decide (name = (st.sb.inode i).name)
      && decide ((st.sb.inode i).parent = st.cwd))

/-! ## `consistency_check` -/

/-- The body of the first loop: `true` when it executes `return 1`. -/
def check1_inode (n : Inode) : Bool :=
  if n.isused then n.name.c0 == 0
  else
    (n.name.c0 != 0 || n.name.c1 != 0 || n.name.c2 != 0 || n.name.c3 != 0 || n.name.c4 != 0)
      || n.isused_size != 0 || n.start_block != 0 || n.isdir_parent != 0

/-- The locals `alloced_blocks` and `fbl_error` of `consistency_check`. -/
structure Cover where
  alloced_blocks : Nat → Nat
  fbl_error : Nat

/-- The body of the inner loop over the blocks of one file. -/
def mark_block (c : Cover) (k : Nat) : Cover :=
  if c.alloced_blocks k = 1 then { c with fbl_error := 1 }
  else { c with alloced_blocks := Function.update c.alloced_blocks k 1 }

/-- The body of the second loop; `none` when it executes `return 2`. -/
def check2_inode (c : Cover) (n : Inode) : Option Cover :=
  if n.isused then
    if !n.isdir then
      if n.start_block < 1 ∨ n.start_block > 127 then none
      else if (n.start_block : Int) + ((n.size : Int) - 1) > 127 then none
      else some ((List.range' n.start_block n.size).foldl mark_block c)
    else some c
  else some c

/-- The second loop over the 126 inodes. -/
def check2 (sb : Superblock) : Option Cover :=
  (List.range 126).foldlM (fun c i => check2_inode c (sb.inode i)) ⟨fun _ => 0, 0⟩

/-- The body of the third loop: `true` when it executes `return 3`. -/
def check3_inode (n : Inode) : Bool :=
  n.isused && n.isdir && (n.size != 0 || n.start_block != 0)

/-- The body of the fourth loop: `true` when it executes `return 4`. -/
def check4_inode (sb : Superblock) (i : Nat) : Bool :=
  let n := sb.inode i
  if n.isused then
    if i = n.parent ∨ n.parent = 126 then true
    else if n.parent ≤ 125 then
      if !(sb.inode n.parent).isused then true
      else if !(sb.inode n.parent).isdir then true
      else false
    else false
  else false

/-- The body of the outer fifth loop: `true` when it executes `return 5`. -/
def check5_inode (sb : Superblock) (i : Nat) : Bool :=
  if !(sb.inode i).isused then false
  else (List.range 126).any (fun k =>
    (sb.inode k).isused && decide (i ≠ k)
      && (decide ((sb.inode i).name = (sb.inode k).name)
        && decide ((sb.inode i).parent = (sb.inode k).parent)))

/-- The body of the last loop: `true` when it executes `return 6`. -/
def check6_block (sb : Superblock) (c : Cover) (i : Nat) : Bool :=
  if i = 0 then false
  else if !bit_is_set sb.free_block_list i then c.alloced_blocks i == 1
  else false

/-- The function `consistency_check`. -/
def consistency_check (sb : Superblock) : Nat :=
  if (List.range 126).any (fun i => check1_inode (sb.inode i)) then 1
  else match check2 sb with
    | none => 2
    | some c =>
      if (List.range 126).any (fun i => check3_inode (sb.inode i)) then 3
      else if (List.range 126).any (check4_inode sb) then 4
      else if (List.range 126).any (check5_inode sb) then 5
      else if c.fbl_error ≠ 0 then 6
      else if (List.range 128).any (check6_block sb c) then 6
      else 0

/-! ## `fs_create` -/

/-- The locals of the first loop of `fs_create`: whether `inode` is non-NULL,
`idx` and `i`. -/
structure ScanState where
  found : Bool
  idx : Nat
  i : Nat

/-- The loop `while ((inode == NULL) && (i < 126))`, unrolled `fuel` times. -/
def create_scan (sb : Superblock) : Nat → ScanState → ScanState
  | 0, s => s
  | fuel + 1, s =>
    if !s.found && decide (s.i < 126) then
      create_scan sb fuel
        (if !(sb.inode s.i).isused then ⟨true, s.i, s.i + 1⟩ else ⟨s.found, s.idx, s.i + 1⟩)
    else s

/-- The loop that looks for `size` contiguous free blocks, over the remaining
indices and with the current `block_count`; `none` stands for `-1`. -/
def alloc_scan (fbl : Nat → Nat) (size : Nat) : List Nat → Nat → Option Nat
  | [], _ => none
  | i :: rest, block_count =>
    if i = 0 then alloc_scan fbl size rest block_count
    else if !bit_is_set fbl i then
      if block_count + 1 = size then some (i - size + 1)
      else alloc_scan fbl size rest (block_count + 1)
    else alloc_scan fbl size rest 0

/-- The assignments at the end of `fs_create`, with the chosen inode index and
the start block found. -/
def create_commit (st : State) (idx : Nat) (name : Name) (size start_block_idx : Nat) : State :=
  let inode : Inode :=
    { name := strncpy5 name
      isused_size := (size % 256) ||| 128
      start_block := if size = 0 then 0 else start_block_idx % 256
      isdir_parent := if size = 0 then (st.cwd % 256) ||| 128 else st.cwd % 256 }
  let sb1 : Superblock := { st.sb with inode := Function.update st.sb.inode idx inode }
  let sb2 : Superblock := if 0 < size then set_fbl_bits sb1 start_block_idx size true else sb1
  write_superblock { st with sb := sb2 }

/-- The function `fs_create(name, size)`: the new state and the error printed,
if any. -/
def fs_create (st : State) (name : Name) (size : Nat) : State × Option FsError :=
  let s := create_scan st.sb 126 ⟨false, 0, 0⟩
  if s.i = 126 then (st, some FsError.superblock_full)
  else if (file_exists st name).isSome then (st, some FsError.already_exists)
  else if name = dot ∨ name = dotdot then (st, some FsError.already_exists)
  else if 0 < size then
    match alloc_scan st.sb.free_block_list size (List.range 128) 0 with
    | none => (st, some FsError.cannot_allocate)
    | some start_block_idx => (create_commit st s.idx name size start_block_idx, none)
  else (create_commit st s.idx name size 0, none)

/-! ## `delete_file` and `fs_delete` -/

/-- The inode `inode_idx` with its eight bytes set to zero. -/
def zero_inode (sb : Superblock) (inode_idx : Nat) : Superblock :=
  { sb with inode := Function.update sb.inode inode_idx zeroInode }

/-- The `size` writes of `zero_buff` after `lseek(vd, 1024 * start_block)`. -/
def zero_blocks (disk : Nat → Block) (start_block size : Nat) : Nat → Block :=
  (List.range' start_block size).foldl (fun d k => Function.update d k zero_buff) disk

/-- The recursive function `delete_file(inode_idx)`; `fuel` bounds the nesting
of the calls and `none` means that the bound was reached. -/
def delete_file : Nat → Nat → State → Option State
  | 0, _, _ => none
  | fuel + 1, inode_idx, st =>
    let size := (st.sb.inode inode_idx).size
    let start_block := (st.sb.inode inode_idx).start_block
    let isdir := (st.sb.inode inode_idx).isdir
    let st1 : Option State :=
      if isdir then
        (List.range 126).foldlM (fun (s : State) i =>
          if i = inode_idx then some s
          else if (s.sb.inode i).isused && decide ((s.sb.inode i).parent = inode_idx) then
            delete_file fuel i s
          else some s) st
      else
        some { st with
          disk := zero_blocks st.disk start_block size
          sb := set_fbl_bits st.sb start_block size false }
    st1.map (fun s => { s with sb := zero_inode s.sb inode_idx })

/-- The body of the loop over the children in `delete_file(inode_idx)`, with
the recursive calls bounded by `fuel`. -/
def delete_step (fuel inode_idx : Nat) (s : State) (i : Nat) : Option State :=
  if i = inode_idx then some s
  else if (s.sb.inode i).isused && decide ((s.sb.inode i).parent = inode_idx) then
    delete_file fuel i s
  else some s

/-- The function `fs_delete(name)`; `none` when the recursion does not end
within `fuel` nested calls. -/
def fs_delete (fuel : Nat) (st : State) (name : Name) : Option (State × Option FsError) :=
  match file_exists st name with
  | none => some (st, some FsError.does_not_exist)
  | some idx => (delete_file fuel idx st).map (fun s => (write_superblock s, none))

/-! ## The rules of the specification -/

/-- Rule 1: an unused slot is eight zero bytes, a used slot has a non-zero
first name byte. -/
def Rule1 (sb : Superblock) : Prop :=
  ∀ i, i < 126 →
    ((sb.inode i).isused = false → sb.inode i = zeroInode) ∧
    ((sb.inode i).isused = true → (sb.inode i).name.c0 ≠ 0)

/-- Rule 2 as the checker applies it: a used file has its start block in
1..127 and `start_block + size - 1 <= 127`. -/
def Rule2 (sb : Superblock) : Prop :=
  ∀ i, i < 126 → (sb.inode i).isused = true → (sb.inode i).isdir = false →
    1 ≤ (sb.inode i).start_block ∧ (sb.inode i).start_block ≤ 127 ∧
      (sb.inode i).start_block + (sb.inode i).size - 1 ≤ 127

/-- Invariant 2 of the data model: rule 2 and, in addition, `size >= 1`. -/
def Inv2 (sb : Superblock) : Prop :=
  ∀ i, i < 126 → (sb.inode i).isused = true → (sb.inode i).isdir = false →
    1 ≤ (sb.inode i).start_block ∧ (sb.inode i).start_block + (sb.inode i).size - 1 ≤ 127 ∧
      1 ≤ (sb.inode i).size

/-- Rule 3: a used directory has size 0 and start block 0. -/
def Rule3 (sb : Superblock) : Prop :=
  ∀ i, i < 126 → (sb.inode i).isused = true → (sb.inode i).isdir = true →
    (sb.inode i).size = 0 ∧ (sb.inode i).start_block = 0

/-- Rule 4: the parent of a used inode is not the inode itself and not 126, and
when it is in 0..125 it is a used directory. -/
def Rule4 (sb : Superblock) : Prop :=
  ∀ i, i < 126 → (sb.inode i).isused = true →
    (sb.inode i).parent ≠ i ∧ (sb.inode i).parent ≠ 126 ∧
      ((sb.inode i).parent ≤ 125 →
        (sb.inode (sb.inode i).parent).isused = true ∧
        (sb.inode (sb.inode i).parent).isdir = true)

/-- Rule 5: two different used inodes with the same parent have different
names. -/
def Rule5 (sb : Superblock) : Prop :=
  ∀ i, i < 126 → ∀ k, k < 126 →
    (i ≠ k ∧ (sb.inode i).isused = true ∧ (sb.inode k).isused = true ∧
      (sb.inode i).parent = (sb.inode k).parent) → (sb.inode i).name ≠ (sb.inode k).name

/-- Block `j` lies in the range `[start_block, start_block + size)` of the
inode, which is a used file. -/
def covers (n : Inode) (j : Nat) : Bool :=
  n.isused && !n.isdir && decide (n.start_block ≤ j) && decide (j < n.start_block + n.size)

/-- The number of used file inodes among the first `n` whose range contains
block `j`. -/
def coverCountBelow (sb : Superblock) (n j : Nat) : Nat :=
  (List.range n).countP (fun i => covers (sb.inode i) j)

/-- The number of used file inodes whose range contains block `j`. -/
def coverCount (sb : Superblock) (j : Nat) : Nat := coverCountBelow sb 126 j

/-- The inode fails the second loop of the checker. -/
def violates2 (n : Inode) : Prop :=
  n.isused = true ∧ n.isdir = false ∧
    (n.start_block < 1 ∨ n.start_block > 127 ∨ n.start_block + n.size > 128)

/-- Rule 6 read as an equivalence: bit `j` (in 1..127) is set exactly when
block `j` is covered by exactly one used file inode. -/
def Rule6 (sb : Superblock) : Prop :=
  ∀ j, 1 ≤ j → j ≤ 127 → (bit_is_set sb.free_block_list j = true ↔ coverCount sb j = 1)

/-- No block of the data region is in the range of two used file inodes. -/
def NoOverlap (sb : Superblock) : Prop :=
  ∀ j, 1 ≤ j → j ≤ 127 → coverCount sb j ≤ 1

/-- Every bit of 1..127 is set exactly when a used file covers the block. -/
def BitmapExact (sb : Superblock) : Prop :=
  ∀ j, 1 ≤ j → j ≤ 127 →
    (bit_is_set sb.free_block_list j = true ↔ ∃ i, i < 126 ∧ covers (sb.inode i) j = true)

/-- No block lies in the ranges of two different used files. -/
def RangesDisjoint (sb : Superblock) : Prop :=
  ∀ j i k, i < 126 → k < 126 →
    covers (sb.inode i) j = true → covers (sb.inode k) j = true → i = k

/-- The rules 1 to 5 with `size >= 1` for files, the bitmap that agrees with
the ranges of the files, and ranges that do not overlap. -/
def Consistent (sb : Superblock) : Prop :=
  Rule1 sb ∧ Inv2 sb ∧ Rule3 sb ∧ Rule4 sb ∧ Rule5 sb ∧ BitmapExact sb ∧ RangesDisjoint sb

/-- Whether following the parent field from index `i` arrives at 127 after
exactly `d` steps, all of them from indices in 0..125. -/
def depthIs (sb : Superblock) : Nat → Nat → Bool
  | 0, i => i == 127
  | d + 1, i => decide (i < 126) && depthIs sb d (sb.inode i).parent

/-- Rule number `k` of the checker, for `k` in 1..5. -/
def RuleHolds (k : Nat) (sb : Superblock) : Prop :=
  match k with
  | 1 => Rule1 sb
  | 2 => Rule2 sb
  | 3 => Rule3 sb
  | 4 => Rule4 sb
  | 5 => Rule5 sb
  | _ => True

/-- The six invariants of the data model, rule 6 read as an equivalence. -/
def Invariants (sb : Superblock) : Prop :=
  Rule1 sb ∧ Inv2 sb ∧ Rule3 sb ∧ Rule4 sb ∧ Rule5 sb ∧ Rule6 sb

/-- The current working directory is 127 or the index of a used directory
inode. -/
def CwdOK (st : State) : Prop :=
  st.cwd = 127 ∨ (st.cwd < 126 ∧ (st.sb.inode st.cwd).isused = true ∧
    (st.sb.inode st.cwd).isdir = true)

/-- Whether following the parent field from index `i` arrives at 127 in at
most `k` steps without leaving the indices 0..125. -/
def reachesRoot (sb : Superblock) : Nat → Nat → Bool
  | 0, i => i == 127
  | k + 1, i => i == 127 || (decide (i < 126) && reachesRoot sb k (sb.inode i).parent)

/-- A validated name: the first byte is not zero and zero bytes only pad the
end. -/
def Name.validated (n : Name) : Prop :=
  n.c0 ≠ 0 ∧ (n.c1 = 0 → n.c2 = 0) ∧ (n.c2 = 0 → n.c3 = 0) ∧ (n.c3 = 0 → n.c4 = 0)

/-- The blocks `s .. s + size - 1` lie in 1..127 and are all marked free. -/
def IsFreeRun (fbl : Nat → Nat) (size s : Nat) : Prop :=
  1 ≤ s ∧ s + size - 1 ≤ 127 ∧ ∀ j, j < size → bit_is_set fbl (s + j) = false

/-- The start `s` is the smallest start of a free run of `size` blocks. -/
def IsFirstFit (fbl : Nat → Nat) (size s : Nat) : Prop :=
  IsFreeRun fbl size s ∧ ∀ t, t < s → ¬ IsFreeRun fbl size t

instance (sb : Superblock) : Decidable (Rule1 sb) := by unfold Rule1; infer_instance
instance (sb : Superblock) : Decidable (Rule2 sb) := by unfold Rule2; infer_instance
instance (sb : Superblock) : Decidable (Inv2 sb) := by unfold Inv2; infer_instance
instance (sb : Superblock) : Decidable (Rule3 sb) := by unfold Rule3; infer_instance
instance (sb : Superblock) : Decidable (Rule4 sb) := by unfold Rule4; infer_instance
instance (sb : Superblock) : Decidable (Rule5 sb) := by unfold Rule5; infer_instance
instance (sb : Superblock) : Decidable (Rule6 sb) := by unfold Rule6; infer_instance
instance (sb : Superblock) : Decidable (NoOverlap sb) := by unfold NoOverlap; infer_instance
instance (sb : Superblock) : Decidable (Invariants sb) := by unfold Invariants; infer_instance
instance (st : State) : Decidable (CwdOK st) := by unfold CwdOK; infer_instance
instance (n : Name) : Decidable n.validated := by unfold Name.validated; infer_instance
instance (fbl : Nat → Nat) (size s : Nat) : Decidable (IsFreeRun fbl size s) := by
  unfold IsFreeRun; infer_instance
instance (fbl : Nat → Nat) (size s : Nat) : Decidable (IsFirstFit fbl size s) := by
  unfold IsFirstFit; infer_instance

/-- The inode that `fs_create` stores, as a value. -/
def new_inode (cwd : Nat) (name : Name) (size start_block_idx : Nat) : Inode :=
  { name := strncpy5 name
    isused_size := (size % 256) ||| 128
    start_block := if size = 0 then 0 else start_block_idx % 256
    isdir_parent := if size = 0 then (cwd % 256) ||| 128 else cwd % 256 }

/-- What a call `delete_file(c)` on a used inode `c` of depth `e` guarantees
about the state `s2` it returns from the state `s`: the invariants hold again,
the inode `c` is free, every inode is as before or zero, and the inodes of
depth at most `e` other than `c` are as before. -/
def DeletePost (s : State) (c e : Nat) (s2 : State) : Prop :=
  Consistent s2.sb ∧ s2.cwd = s.cwd ∧ s2.fs_buffer = s.fs_buffer ∧
  (s2.sb.inode c).isused = false ∧
  (∀ i, s2.sb.inode i = s.sb.inode i ∨ s2.sb.inode i = zeroInode) ∧
  (∀ i e2, depthIs s.sb e2 i = true → e2 ≤ e → i ≠ c → s2.sb.inode i = s.sb.inode i)

/-- The invariant of the loop over the children of the directory `t` of depth
`d` in `delete_file`, after the indices below `n`, from the state `s0`. -/
def DeleteLoopInv (s0 : State) (t d n : Nat) (s : State) : Prop :=
  Consistent s.sb ∧ s.cwd = s0.cwd ∧ s.fs_buffer = s0.fs_buffer ∧
  (∀ i, s.sb.inode i = s0.sb.inode i ∨ s.sb.inode i = zeroInode) ∧
  (∀ i e, depthIs s0.sb e i = true → e ≤ d + 1 → (e ≤ d ∨ n ≤ i) →
    s.sb.inode i = s0.sb.inode i) ∧
  (∀ i, i < n → i ≠ t → ¬ ((s.sb.inode i).isused = true ∧ (s.sb.inode i).parent = t))

/-! ## Concrete states -/

/-- The bitmap of a fresh disk: only bit 0 is set. -/
def freshBitmap : Nat → Nat := fun b => if b = 0 then 128 else 0

/-- The superblock of a fresh disk. -/
def freshSb : Superblock := ⟨freshBitmap, fun _ => zeroInode⟩

/-- A freshly mounted all-zero disk. -/
def freshState : State := ⟨freshSb, fun _ => zero_buff, 127, zero_buff⟩

/-- The padded name of the single character with code `a`. -/
def name1 (a : Nat) : Name := ⟨a, 0, 0, 0, 0⟩

/-- A superblock that violates rule 4 only: directory `a` in inode 0 has the
unused inode 5 as parent. -/
def rule4Sb : Superblock :=
  ⟨freshBitmap, fun i => if i = 0 then ⟨name1 97, 128, 0, 133⟩ else zeroInode⟩

/-- Two one-block files that both occupy block 5, whose bit is clear. -/
def overlapSb : Superblock :=
  ⟨freshBitmap, fun i =>
    if i = 0 then ⟨name1 97, 129, 5, 127⟩
    else if i = 1 then ⟨name1 98, 129, 5, 127⟩ else zeroInode⟩

/-- No inode is used, and the bits 0 and 1 of the bitmap are set. -/
def strayBitSb : Superblock :=
  ⟨fun b => if b = 0 then 192 else 0, fun _ => zeroInode⟩

/-- A used file inode of size 0 with start block 5, in the root directory. -/
def emptyFileSb : Superblock :=
  ⟨freshBitmap, fun i => if i = 0 then ⟨name1 97, 128, 5, 127⟩ else zeroInode⟩

/-- The superblock after `C foo 3` on a fresh disk. -/
def fooSb : Superblock :=
  ⟨fun b => if b = 0 then 240 else 0,
   fun i => if i = 0 then ⟨⟨102, 111, 111, 0, 0⟩, 131, 1, 127⟩ else zeroInode⟩

/-- The name made of the two small letters with indices `i / 26` and `i % 26`. -/
def name2 (i : Nat) : Name := ⟨97 + i / 26, 97 + i % 26, 0, 0, 0⟩

/-- The inodes 0..124 are directories of the root with distinct names, and the
inode 125 is free. -/
def slot125Sb : Superblock :=
  ⟨freshBitmap, fun i => if i < 125 then ⟨name2 i, 128, 0, 255⟩ else zeroInode⟩

/-- The state with superblock `slot125Sb`, in the root directory. -/
def slot125State : State := ⟨slot125Sb, fun _ => zero_buff, 127, zero_buff⟩

/-- The bitmap with the bits 0, 3 and 4 set: the free runs are 1..2 and
5..127. -/
def holeBitmap : Nat → Nat := fun b => if b = 0 then 152 else 0

/-- The state after `C foo 3` on a fresh disk, block contents left aside. -/
def fooState : State := ⟨fooSb, fun _ => zero_buff, 127, zero_buff⟩

/-! ## `fs_read`, `fs_write` and `fs_buff` -/

/-- The errors that `fs_read` and `fs_write` print on standard error. -/
inductive RwError where
  | file_does_not_exist
  | no_such_block
deriving DecidableEq, Repr

/-- The function `fs_read(name, block_num)`: the new state and the error
printed, if any.  The disk is a total map: every index has a block. -/
def fs_read (st : State) (name : Name) (block_num : Int) : State × Option RwError :=
  match file_exists st name with
  | none => (st, some RwError.file_does_not_exist)
  | some idx =>
    let size := (st.sb.inode idx).size
    let start_block := (st.sb.inode idx).start_block
    if (st.sb.inode idx).isdir then (st, some RwError.file_does_not_exist)
    else if block_num < 0 ∨ block_num > (size : Int) - 1 then (st, some RwError.no_such_block)
    else ({ st with fs_buffer := st.disk (((start_block : Int) + block_num).toNat) }, none)

/-- The function `fs_write(name, block_num)`: the new state and the error
printed, if any. -/
def fs_write (st : State) (name : Name) (block_num : Int) : State × Option RwError :=
  match file_exists st name with
  | none => (st, some RwError.file_does_not_exist)
  | some idx =>
    let size := (st.sb.inode idx).size
    let start_block := (st.sb.inode idx).start_block
    if (st.sb.inode idx).isdir then (st, some RwError.file_does_not_exist)
    else if block_num < 0 ∨ block_num > (size : Int) - 1 then (st, some RwError.no_such_block)
    else
      ({ st with disk :=
          Function.update st.disk (((start_block : Int) + block_num).toNat) st.fs_buffer }, none)

/-- The function `fs_buff(buff)`: the buffer is zeroed and receives the 1024
bytes of `buff`. -/
def fs_buff (st : State) (buff : Block) : State :=
  { st with fs_buffer := buff }

/-! ## `fs_defrag` -/

/-- The scan loop of `fs_defrag` over the remaining indices, with the current
`lowest_avail_idx`; the result is `lowest_avail_idx` and `next_used_idx`, where
`none` stands for `-1`. -/
def defrag_scan (fbl : Nat → Nat) : List Nat → Option Nat → Option Nat × Option Nat
  | [], lowest_avail_idx => (lowest_avail_idx, none)
  | i :: rest, lowest_avail_idx =>
    if i = 0 then defrag_scan fbl rest lowest_avail_idx
    else if !bit_is_set fbl i then
      defrag_scan fbl rest (if lowest_avail_idx = none then some i else lowest_avail_idx)
    else if lowest_avail_idx ≠ none then (lowest_avail_idx, some i)
    else defrag_scan fbl rest lowest_avail_idx

/-- The search for the inode of the block `next_used_idx`: the first used file
inode with this start block. -/
def defrag_find (sb : Superblock) (next_used_idx : Nat) : Option Nat :=
  (List.range 126).find? (fun i =>
    decide ((sb.inode i).start_block = next_used_idx) && !(sb.inode i).isdir
      && (sb.inode i).isused)

/-- One iteration of the loop that moves the blocks: block `start_block + i`
is read, zeroed on the disk and written to block `lowest_avail_idx + i`. -/
def move_block (start_block lowest_avail_idx : Nat) (disk : Nat → Block) (i : Nat) :
    Nat → Block :=
  fun k =>
    if k = lowest_avail_idx + i then disk (start_block + i)
    else if k = start_block + i then zero_buff
    else disk k

/-- The loop that moves the `size` blocks of a file. -/
def move_blocks (disk : Nat → Block) (start_block lowest_avail_idx size : Nat) : Nat → Block :=
  (List.range size).foldl (move_block start_block lowest_avail_idx) disk

/-- The move of the file in inode `inode_idx` to the block `lowest_avail_idx`:
the blocks, the two calls of `set_fbl_bits`, the new start block and
`write_superblock`. -/
def defrag_move (st : State) (inode_idx lowest_avail_idx : Nat) : State :=
  let size := (st.sb.inode inode_idx).size
  let start_block := (st.sb.inode inode_idx).start_block
  let disk1 := move_blocks st.disk start_block lowest_avail_idx size
  let sb1 := set_fbl_bits st.sb start_block size false
  let sb2 := set_fbl_bits sb1 lowest_avail_idx size true
  let inode : Inode := { sb2.inode inode_idx with start_block := lowest_avail_idx % 256 }
  let sb3 : Superblock := { sb2 with inode := Function.update sb2.inode inode_idx inode }
  write_superblock { st with sb := sb3, disk := disk1 }

/-- What one iteration of the outer loop of `fs_defrag` does. -/
inductive DefragStep where
  | finished
  | moved (st : State) (fbl_idx : Nat)
  | undefined

/-- One iteration of the outer loop of `fs_defrag` from the resume index
`fbl_idx`.  When no inode starts at `next_used_idx` the pointer `inode` is
used without a value: the behaviour is undefined. -/
def defrag_step (st : State) (fbl_idx : Nat) : DefragStep :=
  match defrag_scan st.sb.free_block_list (List.range' fbl_idx (128 - fbl_idx)) none with
  | (_, none) => DefragStep.finished
  | (none, some _) => DefragStep.finished
  | (some lowest_avail_idx, some next_used_idx) =>
    match defrag_find st.sb next_used_idx with
    | none => DefragStep.undefined
    | some inode_idx =>
      DefragStep.moved (defrag_move st inode_idx lowest_avail_idx)
        (lowest_avail_idx + (st.sb.inode inode_idx).size)

/-- How a run of `fs_defrag` ends. -/
inductive DefragResult where
  | done (st : State)
  | undefined
  | out_of_fuel

/-- The outer loop of `fs_defrag`, at most `fuel` iterations. -/
def defrag_loop : Nat → State → Nat → DefragResult
  | 0, _, _ => DefragResult.out_of_fuel
  | fuel + 1, st, fbl_idx =>
    match defrag_step st fbl_idx with
    | DefragStep.finished => DefragResult.done st
    | DefragStep.undefined => DefragResult.undefined
    | DefragStep.moved st2 fbl_idx2 => defrag_loop fuel st2 fbl_idx2

/-- The function `fs_defrag`. -/
def fs_defrag (fuel : Nat) (st : State) : DefragResult := defrag_loop fuel st 0

/-! ## `fs_mount` -/

/-- The superblock that `read(vd_new, sb_new, 1024)` stores from the first
block of a disk; a byte that the block does not have reads as 0. -/
def Superblock.decode (image : Block) : Superblock :=
  { free_block_list := fun b => if b < 16 then image.getD b 0 else 0
    inode := fun i =>
      if i < 126 then
        { name := ⟨image.getD (16 + 8 * i) 0, image.getD (16 + 8 * i + 1) 0,
            image.getD (16 + 8 * i + 2) 0, image.getD (16 + 8 * i + 3) 0,
            image.getD (16 + 8 * i + 4) 0⟩
          isused_size := image.getD (16 + 8 * i + 5) 0
          start_block := image.getD (16 + 8 * i + 6) 0
          isdir_parent := image.getD (16 + 8 * i + 7) 0 }
      else zeroInode }

/-- The globals of the program: whether a disk is mounted (`vd != -1`), the
name of the mounted disk, and the state of `State`. -/
structure Session where
  mounted : Bool
  disk_name : List Nat
  state : State

/-- The errors that `fs_mount` prints on standard error. -/
inductive MountError where
  | cannot_find_disk
  | inconsistent (code : Nat)
deriving DecidableEq, Repr

/-- The function `fs_mount(new_disk_name)`.  The host file system is outside
the program: `opened` is the content of the file that `open` finds under the
name, or `none` when `open` fails. -/
def fs_mount (s : Session) (new_disk_name : List Nat) (opened : Option (Nat → Block)) :
    Session × Option MountError :=
  match opened with
  | none => (s, some MountError.cannot_find_disk)
  | some vd_new =>
    let sb_new := Superblock.decode (vd_new 0)
    let error := consistency_check sb_new
    if error ≠ 0 then (s, some (MountError.inconsistent error))
    else
      ({ mounted := true
         disk_name := new_disk_name
         state := { s.state with sb := sb_new, disk := vd_new, cwd := 127 } }, none)

/-! ## Predicates for the effect of `fs_delete` -/

/-- Whether `i` is a used inode in the subtree of inode `t`: `i` is `t`, or the
parent chain of `i` arrives at `t` in at most `k` steps over used inodes. -/
def inSubtree (sb : Superblock) (t : Nat) : Nat → Nat → Bool
  | 0, i => decide (i < 126) && (sb.inode i).isused && decide (i = t)
  | k + 1, i =>
    decide (i < 126) && (sb.inode i).isused &&
      (decide (i = t) || inSubtree sb t k (sb.inode i).parent)

/-- The inode `i` is a used inode of the subtree of `t`, at any depth. -/
def InSubtree (sb : Superblock) (t i : Nat) : Prop := ∃ k, inSubtree sb t k i = true

/-- What a call `delete_file(t)` on a used inode `t` of depth `d` does to the
state `s`: rule 4 holds again; an inode is as before or zero, the inodes of
the subtree of `t` are zero and no other inode changes; a bit is only cleared,
and only for a block of a file of the subtree; a block is only zeroed, and
only when it is a block of a file of the subtree; the bits and blocks of
every inode that changed are cleared and zeroed. -/
def DeleteEffect (s : State) (t d : Nat) (s2 : State) : Prop :=
  Rule4 s2.sb ∧ s2.cwd = s.cwd ∧ s2.fs_buffer = s.fs_buffer ∧
  (∀ i, s2.sb.inode i = s.sb.inode i ∨ s2.sb.inode i = zeroInode) ∧
  (∀ i e, depthIs s.sb e i = true → e ≤ d → i ≠ t → s2.sb.inode i = s.sb.inode i) ∧
  (∀ i, s2.sb.inode i ≠ s.sb.inode i → InSubtree s.sb t i) ∧
  (∀ i, InSubtree s.sb t i → s2.sb.inode i = zeroInode) ∧
  (∀ j, bit_is_set s2.sb.free_block_list j = true → bit_is_set s.sb.free_block_list j = true) ∧
  (∀ j, bit_is_set s.sb.free_block_list j = true →
    bit_is_set s2.sb.free_block_list j = false →
    j ≠ 0 ∧ ∃ i, InSubtree s.sb t i ∧ covers (s.sb.inode i) j = true) ∧
  (∀ k, s2.disk k = s.disk k ∨ s2.disk k = zero_buff) ∧
  (∀ k, s2.disk k ≠ s.disk k → ∃ i, InSubtree s.sb t i ∧ covers (s.sb.inode i) k = true) ∧
  (∀ i, s2.sb.inode i ≠ s.sb.inode i → ∀ j, covers (s.sb.inode i) j = true →
    (j ≠ 0 → bit_is_set s2.sb.free_block_list j = false) ∧ s2.disk j = zero_buff)

/-- The invariant of the loop over the children of the directory `t` of depth
`d` in `delete_file`, after the indices below `n`, from the state `s0`. -/
def DeleteEffectLoop (s0 : State) (t d n : Nat) (s : State) : Prop :=
  Rule4 s.sb ∧ s.cwd = s0.cwd ∧ s.fs_buffer = s0.fs_buffer ∧
  (∀ i, s.sb.inode i = s0.sb.inode i ∨ s.sb.inode i = zeroInode) ∧
  (∀ i e, depthIs s0.sb e i = true → e ≤ d → s.sb.inode i = s0.sb.inode i) ∧
  (∀ i, s.sb.inode i ≠ s0.sb.inode i → InSubtree s0.sb t i) ∧
  (∀ c, c < n → c ≠ t → (s0.sb.inode c).isused = true → (s0.sb.inode c).parent = t →
    ∀ i, InSubtree s0.sb c i → s.sb.inode i = zeroInode) ∧
  (∀ j, bit_is_set s.sb.free_block_list j = true → bit_is_set s0.sb.free_block_list j = true) ∧
  (∀ j, bit_is_set s0.sb.free_block_list j = true →
    bit_is_set s.sb.free_block_list j = false →
    j ≠ 0 ∧ ∃ i, InSubtree s0.sb t i ∧ covers (s0.sb.inode i) j = true) ∧
  (∀ k, s.disk k = s0.disk k ∨ s.disk k = zero_buff) ∧
  (∀ k, s.disk k ≠ s0.disk k → ∃ i, InSubtree s0.sb t i ∧ covers (s0.sb.inode i) k = true) ∧
  (∀ i, s.sb.inode i ≠ s0.sb.inode i → ∀ j, covers (s0.sb.inode i) j = true →
    (j ≠ 0 → bit_is_set s.sb.free_block_list j = false) ∧ s.disk j = zero_buff)

/-! ## More concrete states -/

/-- The state after `C a 2`, `C b 2`, `D a` on a fresh disk: file `b` is in
inode 1 and occupies the blocks 3 and 4; the blocks hold zeros. -/
def gapState : State :=
  ⟨⟨fun b => if b = 0 then 152 else 0,
    fun i => if i = 1 then ⟨name1 98, 130, 3, 127⟩ else zeroInode⟩,
   fun _ => zero_buff, 127, zero_buff⟩

/-- The state after `C dir 0`, `Y dir`, `C f 1`, `Y ..` on a fresh disk:
directory `dir` in inode 0 and file `f` in inode 1 with block 1, whose content
is a block of 1024 bytes 7. -/
def dirState : State :=
  ⟨⟨fun b => if b = 0 then 192 else 0,
    fun i =>
      if i = 0 then ⟨⟨100, 105, 114, 0, 0⟩, 128, 0, 255⟩
      else if i = 1 then ⟨name1 102, 129, 1, 0⟩ else zeroInode⟩,
   fun k => if k = 1 then List.replicate 1024 7 else zero_buff, 127, zero_buff⟩

/-- The first 24 bytes of a superblock that violates rule 4 only: the bitmap
with bit 0 set, and in inode 0 the directory `a` with the unused inode 5 as
parent. -/
def rule4Block : Block :=
  [128, 0, 0, 0, 0, 0, 0, 0, 0, 0, 0, 0, 0, 0, 0, 0, 97, 0, 0, 0, 0, 128, 0, 133]

/-! ## Predicates for the effect of `fs_defrag` -/

/-- The states after each file move of `fs_defrag`, in order, for at most
`fuel` iterations of the outer loop from the resume index `fbl_idx`. -/
def defrag_moves : Nat → State → Nat → List State
  | 0, _, _ => []
  | fuel + 1, st, fbl_idx =>
    match defrag_step st fbl_idx with
    | DefragStep.moved st2 fbl_idx2 => st2 :: defrag_moves fuel st2 fbl_idx2
    | _ => []

/-- The inode is a used file. -/
def Inode.isfile (n : Inode) : Bool := n.isused && !n.isdir

/-- The sum of the sizes of all used file inodes. -/
def totalSize (sb : Superblock) : Nat :=
  ((List.range 126).map (fun i => if (sb.inode i).isfile then (sb.inode i).size else 0)).sum

/-- The sum of the sizes of the used file inodes whose start block is below
`b`. -/
def sizeBelow (sb : Superblock) (b : Nat) : Nat :=
  ((List.range 126).map (fun i =>
    if (sb.inode i).isfile && decide ((sb.inode i).start_block < b)
    then (sb.inode i).size else 0)).sum

/-- The blocks of inode `i`, from `start_block` to `start_block + size - 1`. -/
def file_blocks (st : State) (i : Nat) : List Block :=
  (List.range (st.sb.inode i).size).map (fun k => st.disk ((st.sb.inode i).start_block + k))

/-- The concatenation of the blocks of inode `i`. -/
def file_content (st : State) (i : Nat) : List Nat := (file_blocks st i).flatten

/-- No free block precedes a used block in the data region. -/
def Packed (sb : Superblock) : Prop :=
  ∀ i j, 1 ≤ i → i < j → j ≤ 127 →
    bit_is_set sb.free_block_list i = false → bit_is_set sb.free_block_list j = false

/-- The invariant of the outer loop of `fs_defrag` at the resume index `f`:
the state is consistent and every block of the data region below `f` is
used. -/
def DefragInv (st : State) (f : Nat) : Prop :=
  Consistent st.sb ∧ f ≤ 127 ∧
    ∀ j, 1 ≤ j → j < f → bit_is_set st.sb.free_block_list j = true

/-- What file moves of `fs_defrag` keep between the state `st` before and the
state `s2` after: the current directory and the buffer; every byte of every
inode but `start_block`; every inode that is not a used file; the blocks of
every file, read from its start block; the order of the start blocks. -/
def DefragRel (st s2 : State) : Prop :=
  s2.cwd = st.cwd ∧ s2.fs_buffer = st.fs_buffer ∧
  (∀ i, (s2.sb.inode i).name = (st.sb.inode i).name ∧
    (s2.sb.inode i).isused_size = (st.sb.inode i).isused_size ∧
    (s2.sb.inode i).isdir_parent = (st.sb.inode i).isdir_parent) ∧
  (∀ i, ¬ (i < 126 ∧ (st.sb.inode i).isfile = true) → s2.sb.inode i = st.sb.inode i) ∧
  (∀ i, i < 126 → (st.sb.inode i).isfile = true → ∀ k, k < (st.sb.inode i).size →
    s2.disk ((s2.sb.inode i).start_block + k) = st.disk ((st.sb.inode i).start_block + k)) ∧
  (∀ i g, i < 126 → g < 126 → (st.sb.inode i).isfile = true → (st.sb.inode g).isfile = true →
    (st.sb.inode i).start_block < (st.sb.inode g).start_block →
    (s2.sb.inode i).start_block < (s2.sb.inode g).start_block)

/-! ## Concrete states for `fs_defrag` -/

/-- One file `a` of three blocks in the blocks 2, 3 and 4, which hold bytes 1,
bytes 2 and bytes 3; block 1 is free. -/
def shiftState : State :=
  ⟨⟨fun b => if b = 0 then 184 else 0,
    fun i => if i = 0 then ⟨name1 97, 131, 2, 127⟩ else zeroInode⟩,
   fun k =>
      if k = 2 then List.replicate 1024 1
      else if k = 3 then List.replicate 1024 2
      else if k = 4 then List.replicate 1024 3 else zero_buff,
   127, zero_buff⟩

/-- The file `c` of one block in inode 0 and block 5, and the file `b` of two
blocks in inode 1 and the blocks 2 and 3; the blocks 1 and 4 are free. -/
def orderState : State :=
  ⟨⟨fun b => if b = 0 then 180 else 0,
    fun i =>
      if i = 0 then ⟨name1 99, 129, 5, 127⟩
      else if i = 1 then ⟨name1 98, 130, 2, 127⟩ else zeroInode⟩,
   fun _ => zero_buff, 127, zero_buff⟩

/-- The rules 1 to 3, with `size >= 1` for files, checked on the inodes below
`n` only. -/
def Rules123Below (n : Nat) (sb : Superblock) : Prop :=
  (∀ i, i < n →
    ((sb.inode i).isused = false → sb.inode i = zeroInode) ∧
    ((sb.inode i).isused = true → (sb.inode i).name.c0 ≠ 0)) ∧
  (∀ i, i < n → (sb.inode i).isused = true → (sb.inode i).isdir = false →
    1 ≤ (sb.inode i).start_block ∧ (sb.inode i).start_block + (sb.inode i).size - 1 ≤ 127 ∧
      1 ≤ (sb.inode i).size) ∧
  (∀ i, i < n → (sb.inode i).isused = true → (sb.inode i).isdir = true →
    (sb.inode i).size = 0 ∧ (sb.inode i).start_block = 0)

/-- The rules 4 and 5 checked on the inodes below `n` only. -/
def Rules45Below (n : Nat) (sb : Superblock) : Prop :=
  (∀ i, i < n → (sb.inode i).isused = true →
    (sb.inode i).parent ≠ i ∧ (sb.inode i).parent ≠ 126 ∧
      ((sb.inode i).parent ≤ 125 →
        (sb.inode (sb.inode i).parent).isused = true ∧
        (sb.inode (sb.inode i).parent).isdir = true)) ∧
  (∀ i, i < n → ∀ k, k < n →
    (i ≠ k ∧ (sb.inode i).isused = true ∧ (sb.inode k).isused = true ∧
      (sb.inode i).parent = (sb.inode k).parent) → (sb.inode i).name ≠ (sb.inode k).name)

/-- Rule 6 as an equivalence, counting the inodes below `n` only. -/
def Rule6Below (n : Nat) (sb : Superblock) : Prop :=
  ∀ j, 1 ≤ j → j ≤ 127 →
    (bit_is_set sb.free_block_list j = true ↔ coverCountBelow sb n j = 1)

/-- No block of the data region is in the range of two used files below `n`. -/
def NoOverlapBelow (n : Nat) (sb : Superblock) : Prop :=
  ∀ j, 1 ≤ j → j ≤ 127 → coverCountBelow sb n j ≤ 1

instance (n : Nat) (sb : Superblock) : Decidable (Rules123Below n sb) := by
  unfold Rules123Below; infer_instance
instance (n : Nat) (sb : Superblock) : Decidable (Rules45Below n sb) := by
  unfold Rules45Below; infer_instance
instance (n : Nat) (sb : Superblock) : Decidable (Rule6Below n sb) := by
  unfold Rule6Below; infer_instance
instance (n : Nat) (sb : Superblock) : Decidable (NoOverlapBelow n sb) := by
  unfold NoOverlapBelow; infer_instance

/-! ## `fs_cd` -/

/-- The error that `fs_cd` prints on standard error. -/
inductive CdError where
  | does_not_exist
deriving DecidableEq, Repr

/-- The function `fs_cd(name)`: the new state and the error printed, if any.
For `".."` the loop looks for the index `i` below 126 that equals `cwd` and has
the directory flag; when there is none the function returns without a
change. -/
def fs_cd (st : State) (name : Name) : State × Option CdError :=
  if name = dot then (st, none)
  else if name = dotdot then
    if st.cwd = 127 then (st, none)
    else
      match (List.range 126).find? (fun i => (st.sb.inode i).isdir && decide (i = st.cwd)) with
      | some i => ({ st with cwd := (st.sb.inode i).parent }, none)
      | none => (st, none)
  else
    match file_exists st name with
    | none => (st, some CdError.does_not_exist)
    | some idx =>
      if !(st.sb.inode idx).isdir then (st, some CdError.does_not_exist)
      else ({ st with cwd := idx }, none)

/-! ## `fs_ls` -/

/-- What `printf` reads for `%-5s` from the array `char name[5]`, which `fs_ls`
fills with the five bytes of the inode name and no terminating NUL: the bytes
before the first zero byte.  When none of the five bytes is zero, `printf`
reads past the end of the array: the result is `none`. -/
def printed_name (n : Name) : Option (List Nat) :=
  if [n.c0, n.c1, n.c2, n.c3, n.c4].contains 0 then
    some ([n.c0, n.c1, n.c2, n.c3, n.c4].takeWhile (fun c => c != 0))
  else none

/-- One line that `fs_ls` prints: the characters that `printf` reads for the
name (`none` when it reads past the array), the number, and whether the line
ends with `KB` (a file). -/
structure LsRecord where
  name : Option (List Nat)
  count : Nat
  kb : Bool
deriving DecidableEq, Repr

/-- The loop that counts the children of directory `d`, from 2. -/
def count_children (sb : Superblock) (d : Nat) : Nat :=
  (List.range 126).foldl (fun n i =>
    if decide ((sb.inode i).parent = d) && (sb.inode i).isused then n + 1 else n) 2

/-- The number that `fs_ls` prints for `".."`. -/
def ls_prevwd (st : State) : Nat :=
  if st.cwd = 127 then count_children st.sb st.cwd
  else
    match (List.range 126).find? (fun i =>
      (st.sb.inode i).isdir && decide (i = st.cwd) && (st.sb.inode i).isused) with
    | some i => count_children st.sb (st.sb.inode i).parent
    | none => 2

/-- The body of the last loop of `fs_ls`: the line printed for inode `i`, if
any. -/
def ls_entry (st : State) (i : Nat) : Option LsRecord :=
  if (st.sb.inode i).isdir && (st.sb.inode i).isused then
    if (st.sb.inode i).parent = st.cwd then
      some ⟨printed_name (st.sb.inode i).name, count_children st.sb i, false⟩
    else none
  else if (st.sb.inode i).parent = st.cwd ∧ (st.sb.inode i).isused = true then
    some ⟨printed_name (st.sb.inode i).name, (st.sb.inode i).size, true⟩
  else none

/-- The function `fs_ls`: the lines printed, in order; the names of the first
two lines are the string literals `"."` and `".."`.  It assigns no global. -/
def fs_ls (st : State) : List LsRecord :=
  ⟨some [46], count_children st.sb st.cwd, false⟩ ::
    ⟨some [46, 46], ls_prevwd st, false⟩ ::
    (List.range 126).filterMap (ls_entry st)

/-- The number of a directory in a listing, in the words of the
specification: 2 plus the number of used inodes whose parent is `d`. -/
def childCount (sb : Superblock) (d : Nat) : Nat :=
  2 + ((List.range 126).filter (fun i =>
    (sb.inode i).isused && decide ((sb.inode i).parent = d))).length

/-- The characters of a name: its bytes before the first zero byte, all five
when none is zero. -/
def Name.chars (n : Name) : List Nat :=
  [n.c0, n.c1, n.c2, n.c3, n.c4].takeWhile (fun c => c != 0)

/-- The listing in the words of the specification: every entry has the
characters of its name. -/
def ls_spec (st : State) : List LsRecord :=
  ⟨some [46], childCount st.sb st.cwd, false⟩ ::
  ⟨some [46, 46], if st.cwd = 127 then childCount st.sb st.cwd
    else childCount st.sb (st.sb.inode st.cwd).parent, false⟩ ::
  ((List.range 126).filter (fun i =>
    (st.sb.inode i).isused && decide ((st.sb.inode i).parent = st.cwd))).map (fun i =>
      if (st.sb.inode i).isdir then
        ⟨some (st.sb.inode i).name.chars, childCount st.sb i, false⟩
      else ⟨some (st.sb.inode i).name.chars, (st.sb.inode i).size, true⟩)

/-! ## The command tokenizer of `fs-main.c` -/

/-- A C string: the bytes before the terminating NUL. -/
abbrev CString := List Nat

/-- One call of `strtok` on the rest of the string: the leading delimiters are
skipped; `none` when nothing is left; else the token, up to the next delimiter,
and the rest behind that delimiter. -/
def strtok (delim : CString) (s : CString) : Option (CString × CString) :=
  match s.dropWhile (fun c => delim.contains c) with
  | [] => none
  | c :: rest =>
    some ((c :: rest).takeWhile (fun c => !delim.contains c),
      ((c :: rest).dropWhile (fun c => !delim.contains c)).drop 1)

/-- The struct `Command` after `parse_command`: the entries of `argv` that were
assigned, `size`, `type` and `buff`. -/
structure Command where
  argv : List CString
  size : Nat
  type : Option CString
  buff : Block
deriving DecidableEq, Repr

/-- The function `parse_buff(str, cmd)`: the value returned and `cmd->buff`,
which was all zeros before the call. -/
def parse_buff (str : CString) : Nat × Block :=
  if str.length ≤ 2 then (1, zero_buff)
  else
    let buffer_string := str.drop 2
    let len := if buffer_string.getLast? = some 10 then buffer_string.length - 1
      else buffer_string.length
    if len > 1024 ∨ len ≤ 0 then (1, zero_buff)
    else (2, buffer_string.take len ++ List.replicate (1024 - len) 0)

/-- The loop of `parse_command` from the second call of `strtok` on: the tokens
stored in `argv`, at most `fuel` of them. -/
def parse_tokens (delim : CString) : Nat → CString → List CString
  | 0, _ => []
  | fuel + 1, s =>
    match strtok delim s with
    | none => []
    | some (token, rest) => token :: parse_tokens delim fuel rest

/-- The function `parse_command(str, delim, cmd)` on a command whose buffer is
zero.  Every call of `strtok` that returns a token consumes a byte, so the
length of the string bounds the number of iterations. -/
def parse_command (str delim : CString) : Command :=
  match strtok delim str with
  | none => ⟨[], 0, none, zero_buff⟩
  | some (token, rest) =>
    if token = [66] then
      ⟨[token], (parse_buff str).1, if (parse_buff str).1 ≠ 0 then some token else none,
        (parse_buff str).2⟩
    else
      ⟨token :: parse_tokens delim rest.length rest,
        (token :: parse_tokens delim rest.length rest).length, some token, zero_buff⟩

/-- The delimiters that `main` passes to `parse_command`: space, newline and
the double quote. -/
def main_delim : CString := [32, 10, 34]

/-- A line made of fields, each followed by a run of separators. -/
def build_line : List (CString × CString) → CString
  | [] => []
  | (field, sep) :: rest => field ++ sep ++ build_line rest

/-- The fields separated by single spaces. -/
def spaced_line : List CString → CString
  | [] => []
  | [field] => field
  | field :: rest => field ++ 32 :: spaced_line rest

/-- The items are fields and separator runs for the delimiters `delim`: a
field is not empty and has no delimiter; a run has delimiters only, and is not
empty unless it is the last one. -/
def WellSeparated (delim : CString) : List (CString × CString) → Prop
  | [] => True
  | (field, sep) :: rest =>
    field ≠ [] ∧ (∀ c ∈ field, delim.contains c = false) ∧
    (∀ c ∈ sep, delim.contains c = true) ∧ (rest ≠ [] → sep ≠ []) ∧
    WellSeparated delim rest

/-- A decision procedure for `WellSeparated`. -/
def WellSeparated.dec (delim : CString) :
    (items : List (CString × CString)) → Decidable (WellSeparated delim items)
  | [] => isTrue trivial
  | (field, sep) :: rest =>
    have : Decidable (WellSeparated delim rest) := WellSeparated.dec delim rest
    by unfold WellSeparated; infer_instance

instance (delim : CString) (items : List (CString × CString)) :
    Decidable (WellSeparated delim items) := WellSeparated.dec delim items

/-! ## A session of operations -/

/-- The operations of the engine on a mounted disk. -/
inductive Op where
  | create (name : Name) (size : Nat)
  | delete (name : Name)
  | read (name : Name) (block_num : Int)
  | write (name : Name) (block_num : Int)
  | buff (b : Block)
  | ls
  | defrag
  | cd (name : Name)

/-- One operation; `none` when `delete_file` does not return within 127 nested
calls or when `fs_defrag` does not end within `iters` iterations or reads the
pointer that has no value. -/
def step (iters : Nat) (st : State) : Op → Option State
  | Op.create name size => some (fs_create st name size).1
  | Op.delete name => (fs_delete 127 st name).map Prod.fst
  | Op.read name k => some (fs_read st name k).1
  | Op.write name k => some (fs_write st name k).1
  | Op.buff b => some (fs_buff st b)
  | Op.ls => some st
  | Op.defrag =>
    match fs_defrag iters st with
    | DefragResult.done s => some s
    | _ => none
  | Op.cd name => some (fs_cd st name).1

/-- A sequence of operations, from left to right. -/
def run (iters : Nat) (st : State) (ops : List Op) : Option State :=
  ops.foldlM (step iters) st

/-- The names of the `create` operations of the sequence are validated. -/
def ValidOps : List Op → Prop
  | [] => True
  | Op.create name _ :: rest => name.validated ∧ ValidOps rest
  | _ :: rest => ValidOps rest

/-- A decision procedure for `ValidOps`. -/
def ValidOps.dec : (ops : List Op) → Decidable (ValidOps ops)
  | [] => isTrue trivial
  | op :: rest =>
    have : Decidable (ValidOps rest) := ValidOps.dec rest
    by cases op <;> unfold ValidOps <;> infer_instance

instance (ops : List Op) : Decidable (ValidOps ops) := ValidOps.dec ops

/-- The state of a session: the superblock is consistent, the current
directory is 127 or a used directory, and its parent chain arrives at 127. -/
def SessionInv (st : State) : Prop :=
  Consistent st.sb ∧ CwdOK st ∧ ∃ d, depthIs st.sb d st.cwd = true

/-- What the engine keeps of the current directory: rule 4 holds, the current
directory is 127 or a used directory, and its parent chain arrives at 127. -/
def CwdInv (st : State) : Prop :=
  Rule4 st.sb ∧ CwdOK st ∧ ∃ d, depthIs st.sb d st.cwd = true

/-! ## The moves of `fs_defrag`, one by one -/

/-- What the scan and the inode search of one iteration of `fs_defrag` find:
the index of the inode to move and `lowest_avail_idx`. -/
def defrag_pick (st : State) (fbl_idx : Nat) : Option (Nat × Nat) :=
  match defrag_scan st.sb.free_block_list (List.range' fbl_idx (128 - fbl_idx)) none with
  | (some lowest_avail_idx, some next_used_idx) =>
    (defrag_find st.sb next_used_idx).map (fun inode_idx => (inode_idx, lowest_avail_idx))
  | _ => none

/-- The moves of a run of `fs_defrag`, in order: the index of the inode moved
and the resume index `fbl_idx` after the move. -/
def defrag_trace : Nat → State → Nat → List (Nat × Nat)
  | 0, _, _ => []
  | fuel + 1, st, fbl_idx =>
    match defrag_pick st fbl_idx with
    | none => []
    | some (inode_idx, lowest_avail_idx) =>
      (inode_idx, lowest_avail_idx + (st.sb.inode inode_idx).size) ::
        defrag_trace fuel (defrag_move st inode_idx lowest_avail_idx)
          (lowest_avail_idx + (st.sb.inode inode_idx).size)

/-! ## The calls of `delete_file`, one by one -/

/-- The function `delete_file(inode_idx)` with the list of the inode indices
of all calls, in the order in which they return. -/
def delete_file_calls : Nat → Nat → State → Option (State × List Nat)
  | 0, _, _ => none
  | fuel + 1, inode_idx, st =>
    let size := (st.sb.inode inode_idx).size
    let start_block := (st.sb.inode inode_idx).start_block
    let isdir := (st.sb.inode inode_idx).isdir
    let st1 : Option (State × List Nat) :=
      if isdir then
        (List.range 126).foldlM (fun (p : State × List Nat) i =>
          if i = inode_idx then some p
          else if (p.1.sb.inode i).isused && decide ((p.1.sb.inode i).parent = inode_idx) then
            (delete_file_calls fuel i p.1).map (fun q => (q.1, p.2 ++ q.2))
          else some p) (st, [])
      else
        some ({ st with
          disk := zero_blocks st.disk start_block size
          sb := set_fbl_bits st.sb start_block size false }, [])
    st1.map (fun p => ({ p.1 with sb := zero_inode p.1.sb inode_idx }, p.2 ++ [inode_idx]))

/-- The body of the loop over the children in `delete_file_calls`. -/
def delete_calls_step (fuel inode_idx : Nat) (p : State × List Nat) (i : Nat) :
    Option (State × List Nat) :=
  if i = inode_idx then some p
  else if (p.1.sb.inode i).isused && decide ((p.1.sb.inode i).parent = inode_idx) then
    (delete_file_calls fuel i p.1).map (fun q => (q.1, p.2 ++ q.2))
  else some p

/-- The function `fs_delete(name)` with the inode indices of the calls of
`delete_file`, bounded by `fuel` nested calls. -/
def fs_delete_calls (fuel : Nat) (st : State) (name : Name) : Option (State × List Nat) :=
  match file_exists st name with
  | none => some (st, [])
  | some idx => (delete_file_calls fuel idx st).map (fun p => (write_superblock p.1, p.2))

/-! ## States for `fs_write` and the session -/

/-- The state `gapState` with bytes 9 in the buffer. -/
def gapWriteState : State := { gapState with fs_buffer := List.replicate 1024 9 }

/-- A disk whose superblock has bit 0 set and no inode. -/
def freshDisk : Nat → Block := fun k => if k = 0 then [128] else zero_buff

/-- A disk whose superblock has the bits 0 and 2 set and no inode. -/
def strayDisk : Nat → Block := fun k => if k = 0 then [160] else zero_buff

/-- The session before a mount. -/
def noSession : Session := ⟨false, [], ⟨freshSb, fun _ => zero_buff, 127, zero_buff⟩⟩

/-- The items with every separator run replaced by one space, and by nothing
after the last field. -/
def respace : List (CString × CString) → List (CString × CString)
  | [] => []
  | [(field, _)] => [(field, [])]
  | (field, _) :: rest => (field, [32]) :: respace rest

/-! ## The content of the free blocks -/

/-- Every data block `i` in 1..127 whose bitmap bit is clear holds 1024 zero
bytes. -/
def ZeroFree (st : State) : Prop :=
  ∀ i, 1 ≤ i → i ≤ 127 → bit_is_set st.sb.free_block_list i = false → st.disk i = zero_buff

/-! ## The checker and the rules -/

theorem any_range_false {n : Nat} {p : Nat → Bool} :
    (List.range n).any p = false ↔ ∀ i, i < n → p i = false := by
  simp [List.any_eq_false]

theorem any_range_true {n : Nat} {p : Nat → Bool} :
    (List.range n).any p = true ↔ ∃ i, i < n ∧ p i = true := by
  simp [List.any_eq_true]

theorem check1_inode_false (n : Inode) :
    check1_inode n = false ↔
      ((n.isused = false → n = zeroInode) ∧ (n.isused = true → n.name.c0 ≠ 0)) := by
  rcases n with ⟨⟨a, b, c, d, e⟩, u, s, p⟩
  unfold check1_inode
  cases h : Inode.isused ⟨⟨a, b, c, d, e⟩, u, s, p⟩
  · simp [zeroInode]
    tauto
  · simp

theorem check1_false_iff (sb : Superblock) :
    (List.range 126).any (fun i => check1_inode (sb.inode i)) = false ↔ Rule1 sb := by
  rw [any_range_false]
  unfold Rule1
  constructor
  · intro h i hi
    exact (check1_inode_false _).1 (h i hi)
  · intro h i hi
    exact (check1_inode_false _).2 (h i hi)

theorem check3_inode_false (n : Inode) :
    check3_inode n = false ↔
      (n.isused = true → n.isdir = true → n.size = 0 ∧ n.start_block = 0) := by
  unfold check3_inode
  cases n.isused <;> cases n.isdir <;> simp

theorem check3_false_iff (sb : Superblock) :
    (List.range 126).any (fun i => check3_inode (sb.inode i)) = false ↔ Rule3 sb := by
  rw [any_range_false]
  unfold Rule3
  constructor
  · intro h i hi
    exact (check3_inode_false _).1 (h i hi)
  · intro h i hi
    exact (check3_inode_false _).2 (h i hi)

theorem parent_le (n : Inode) : n.parent ≤ 127 := by
  unfold Inode.parent
  exact Nat.and_le_right

theorem size_le (n : Inode) : n.size ≤ 127 := by
  unfold Inode.size
  exact Nat.and_le_right

theorem check4_inode_false (sb : Superblock) (i : Nat) :
    check4_inode sb i = false ↔
      ((sb.inode i).isused = true →
        (sb.inode i).parent ≠ i ∧ (sb.inode i).parent ≠ 126 ∧
          ((sb.inode i).parent ≤ 125 →
            (sb.inode (sb.inode i).parent).isused = true ∧
            (sb.inode (sb.inode i).parent).isdir = true)) := by
  unfold check4_inode
  cases h : (sb.inode i).isused
  · simp [h]
  · by_cases h1 : i = (sb.inode i).parent
    · simp [h, h1.symm]
    · by_cases h2 : (sb.inode i).parent = 126
      · simp [h, h2]
      · by_cases h3 : (sb.inode i).parent ≤ 125
        · cases h4 : (sb.inode (sb.inode i).parent).isused <;>
            cases h5 : (sb.inode (sb.inode i).parent).isdir <;>
            simp [h, h1, h2, h3, h4, h5, Ne.symm h1]
        · simp [h, h1, h2, h3, Ne.symm h1]

theorem check4_false_iff (sb : Superblock) :
    (List.range 126).any (check4_inode sb) = false ↔ Rule4 sb := by
  rw [any_range_false]
  unfold Rule4
  constructor
  · intro h i hi
    exact (check4_inode_false sb i).1 (h i hi)
  · intro h i hi
    exact (check4_inode_false sb i).2 (h i hi)

theorem check5_false_iff (sb : Superblock) :
    (List.range 126).any (check5_inode sb) = false ↔ Rule5 sb := by
  rw [any_range_false]
  unfold Rule5
  constructor
  · intro h i hi k hk hh
    have := h i hi
    unfold check5_inode at this
    simp only [hh.2.1, Bool.not_true, Bool.false_eq_true, if_false] at this
    rw [any_range_false] at this
    have h2 := this k hk
    simp [hh.1, hh.2.2.1, hh.2.2.2] at h2
    exact h2
  · intro h i hi
    unfold check5_inode
    cases hu : (sb.inode i).isused
    · simp
    · simp only [Bool.not_true, Bool.false_eq_true, if_false]
      rw [any_range_false]
      intro k hk
      by_cases hik : i = k
      · simp [hik]
      · cases huk : (sb.inode k).isused
        · simp
        · by_cases hp : (sb.inode i).parent = (sb.inode k).parent
          · have := h i hi k hk ⟨hik, hu, huk, hp⟩
            simp [this]
          · simp [hp]

theorem coverCountBelow_succ (sb : Superblock) (n j : Nat) :
    coverCountBelow sb (n + 1) j
      = coverCountBelow sb n j + (if covers (sb.inode n) j = true then 1 else 0) := by
  unfold coverCountBelow
  rw [List.range_succ, List.countP_append]
  simp [List.countP_cons]

theorem coverCountBelow_zero (sb : Superblock) (j : Nat) : coverCountBelow sb 0 j = 0 := by
  simp [coverCountBelow]

theorem mark_block_alloced (c : Cover) (k j : Nat) :
    (mark_block c k).alloced_blocks j = 1 ↔ (j = k ∨ c.alloced_blocks j = 1) := by
  unfold mark_block
  split
  · rename_i h
    simp only
    constructor
    · intro h'; exact Or.inr h'
    · rintro (h' | h')
      · rw [h']; exact h
      · exact h'
  · simp only
    by_cases hj : j = k
    · subst hj; simp
    · rw [Function.update_noteq hj]; simp [hj]

theorem mark_block_err (c : Cover) (k : Nat) :
    (mark_block c k).fbl_error ≠ 0 ↔ (c.fbl_error ≠ 0 ∨ c.alloced_blocks k = 1) := by
  unfold mark_block
  split
  · rename_i h; simp [h]
  · rename_i h; simp [h]

theorem mark_fold_alloced (c : Cover) (s m : Nat) (j : Nat) :
    ((List.range' s m).foldl mark_block c).alloced_blocks j = 1 ↔
      ((s ≤ j ∧ j < s + m) ∨ c.alloced_blocks j = 1) := by
  induction m with
  | zero => simp
  | succ m ih =>
    rw [List.range'_concat, List.foldl_append]
    simp only [List.foldl_cons, List.foldl_nil, Nat.one_mul]
    rw [mark_block_alloced, ih]
    constructor
    · rintro (h | h | h)
      · left; omega
      · left; omega
      · right; exact h
    · rintro (h | h)
      · by_cases hj : j = s + m
        · left; exact hj
        · right; left; omega
      · right; right; exact h

theorem mark_fold_err (c : Cover) (s m : Nat) :
    ((List.range' s m).foldl mark_block c).fbl_error ≠ 0 ↔
      (c.fbl_error ≠ 0 ∨ ∃ k, s ≤ k ∧ k < s + m ∧ c.alloced_blocks k = 1) := by
  induction m with
  | zero =>
    simp only [List.range'_zero, List.foldl_nil, Nat.add_zero]
    constructor
    · intro h; exact Or.inl h
    · rintro (h | ⟨k, h1, h2, _⟩)
      · exact h
      · omega
  | succ m ih =>
    rw [List.range'_concat, List.foldl_append]
    simp only [List.foldl_cons, List.foldl_nil, Nat.one_mul]
    rw [mark_block_err, ih, mark_fold_alloced]
    constructor
    · rintro ((h | ⟨k, h1, h2, h3⟩) | (h | h))
      · left; exact h
      · right; exact ⟨k, h1, by omega, h3⟩
      · omega
      · right; exact ⟨s + m, by omega, by omega, h⟩
    · rintro (h | ⟨k, h1, h2, h3⟩)
      · left; left; exact h
      · by_cases hk : k = s + m
        · subst hk; right; right; exact h3
        · left; right; exact ⟨k, h1, by omega, h3⟩

theorem violates2_iff_not (n : Inode) :
    ¬ violates2 n ↔ (n.isused = true → n.isdir = false →
      1 ≤ n.start_block ∧ n.start_block ≤ 127 ∧ n.start_block + n.size - 1 ≤ 127) := by
  unfold violates2
  constructor
  · intro h hu hd
    by_contra hc
    apply h
    refine ⟨hu, hd, ?_⟩
    omega
  · rintro h ⟨hu, hd, hv⟩
    have := h hu hd
    omega

theorem covers_iff (n : Inode) (j : Nat) :
    covers n j = true ↔
      (n.isused = true ∧ n.isdir = false ∧ n.start_block ≤ j ∧ j < n.start_block + n.size) := by
  unfold covers
  simp [and_assoc]

theorem check2_inode_none (c : Cover) (n : Inode) :
    check2_inode c n = none ↔ violates2 n := by
  unfold check2_inode violates2
  cases hu : n.isused <;> cases hd : n.isdir <;> simp
  omega

theorem check2_inode_some (c c' : Cover) (n : Inode) (h : check2_inode c n = some c') :
    (∀ j, c'.alloced_blocks j = 1 ↔ (covers n j = true ∨ c.alloced_blocks j = 1)) ∧
    (c'.fbl_error ≠ 0 ↔
      (c.fbl_error ≠ 0 ∨ ∃ k, covers n k = true ∧ c.alloced_blocks k = 1)) := by
  unfold check2_inode at h
  cases hu : n.isused
  · simp [hu] at h
    subst h
    simp [covers_iff, hu]
  · cases hd : n.isdir
    · simp only [hu, hd, Bool.not_false, if_true] at h
      split at h
      · simp at h
      · split at h
        · simp at h
        · simp only [Option.some.injEq] at h
          subst h
          constructor
          · intro j
            rw [mark_fold_alloced, covers_iff]
            simp [hu, hd]
          · rw [mark_fold_err]
            simp [covers_iff, hu, hd, and_assoc]
    · simp [hu, hd] at h
      subst h
      simp [covers_iff, hu, hd]

theorem check2_fold (sb : Superblock) (n : Nat) :
    match (List.range n).foldlM (fun c i => check2_inode c (sb.inode i))
        (⟨fun _ => 0, 0⟩ : Cover) with
    | none => ∃ i, i < n ∧ violates2 (sb.inode i)
    | some c =>
      (∀ i, i < n → ¬ violates2 (sb.inode i)) ∧
      (∀ j, c.alloced_blocks j = 1 ↔ 1 ≤ coverCountBelow sb n j) ∧
      (c.fbl_error ≠ 0 ↔ ∃ k, 2 ≤ coverCountBelow sb n k) := by
  induction n with
  | zero =>
    simp [coverCountBelow_zero]
  | succ n ih =>
    rw [List.range_succ, List.foldlM_append]
    cases hpre : (List.range n).foldlM (fun c i => check2_inode c (sb.inode i))
        (⟨fun _ => 0, 0⟩ : Cover) with
    | none =>
      rw [hpre] at ih
      obtain ⟨i, hi, hv⟩ := ih
      simp only [Option.bind_eq_bind, Option.none_bind]
      exact ⟨i, by omega, hv⟩
    | some c =>
      rw [hpre] at ih
      obtain ⟨h1, h2, h3⟩ := ih
      simp only [Option.bind_eq_bind, Option.some_bind, List.foldlM_cons, List.foldlM_nil]
      cases hstep : check2_inode c (sb.inode n) with
      | none =>
        simp only [Option.bind_eq_bind, Option.none_bind]
        exact ⟨n, by omega, (check2_inode_none c _).1 hstep⟩
      | some c' =>
        simp only [Option.bind_eq_bind, Option.some_bind, Option.pure_def, Option.bind_some]
        have hnv : ¬ violates2 (sb.inode n) := by
          intro hv
          rw [(check2_inode_none c _).2 hv] at hstep
          exact Option.noConfusion hstep
        obtain ⟨ha, he⟩ := check2_inode_some c c' _ hstep
        refine ⟨?_, ?_, ?_⟩
        · intro i hi
          by_cases hin : i = n
          · subst hin; exact hnv
          · exact h1 i (by omega)
        · intro j
          rw [ha, h2, coverCountBelow_succ]
          by_cases hc : covers (sb.inode n) j = true
          · simp [hc]
          · simp [hc]
        · rw [he, h3]
          constructor
          · rintro (⟨k, hk⟩ | ⟨k, hk1, hk2⟩)
            · exact ⟨k, by rw [coverCountBelow_succ]; omega⟩
            · refine ⟨k, ?_⟩
              rw [coverCountBelow_succ, if_pos hk1]
              have := (h2 k).1 hk2
              omega
          · rintro ⟨k, hk⟩
            rw [coverCountBelow_succ] at hk
            by_cases hc : covers (sb.inode n) k = true
            · rw [if_pos hc] at hk
              by_cases h2k : 2 ≤ coverCountBelow sb n k
              · exact Or.inl ⟨k, h2k⟩
              · exact Or.inr ⟨k, hc, (h2 k).2 (by omega)⟩
            · rw [if_neg hc] at hk
              exact Or.inl ⟨k, hk⟩

theorem check2_none_iff (sb : Superblock) : check2 sb = none ↔ ¬ Rule2 sb := by
  have h := check2_fold sb 126
  unfold check2
  cases hc : (List.range 126).foldlM (fun c i => check2_inode c (sb.inode i))
      (⟨fun _ => 0, 0⟩ : Cover) with
  | none =>
    rw [hc] at h
    obtain ⟨i, hi, hv⟩ := h
    simp only [true_iff]
    intro hr
    exact (violates2_iff_not _).2 (hr i hi) hv
  | some c =>
    rw [hc] at h
    simp only [reduceCtorEq, false_iff, not_not]
    intro i hi
    exact (violates2_iff_not _).1 (h.1 i hi)

theorem check2_some (sb : Superblock) (c : Cover) (h : check2 sb = some c) :
    (∀ j, c.alloced_blocks j = 1 ↔ 1 ≤ coverCount sb j) ∧
    (c.fbl_error ≠ 0 ↔ ∃ k, 2 ≤ coverCount sb k) := by
  have h' := check2_fold sb 126
  unfold check2 at h
  rw [h] at h'
  exact h'.2

theorem check6_true_iff (sb : Superblock) (c : Cover) :
    (List.range 128).any (check6_block sb c) = true ↔
      ∃ i, 1 ≤ i ∧ i ≤ 127 ∧ bit_is_set sb.free_block_list i = false ∧
        c.alloced_blocks i = 1 := by
  rw [any_range_true]
  constructor
  · rintro ⟨i, hi, h⟩
    unfold check6_block at h
    by_cases h0 : i = 0
    · simp [h0] at h
    · cases hb : bit_is_set sb.free_block_list i
      · simp [h0, hb] at h
        exact ⟨i, by omega, by omega, hb, h⟩
      · simp [h0, hb] at h
  · rintro ⟨i, h1, h2, hb, ha⟩
    refine ⟨i, by omega, ?_⟩
    unfold check6_block
    have h0 : i ≠ 0 := by omega
    simp [h0, hb, ha]

theorem coverCount_pos_iff (sb : Superblock) (j : Nat) :
    1 ≤ coverCount sb j ↔ ∃ i, i < 126 ∧ covers (sb.inode i) j = true := by
  unfold coverCount coverCountBelow
  rw [Nat.succ_le_iff, List.countP_pos_iff]
  simp

theorem covered_range (sb : Superblock) (h2 : Rule2 sb) (j : Nat) (h : 1 ≤ coverCount sb j) :
    1 ≤ j ∧ j ≤ 127 := by
  obtain ⟨i, hi, hc⟩ := (coverCount_pos_iff sb j).1 h
  rw [covers_iff] at hc
  obtain ⟨hu, hd, hs, he⟩ := hc
  have := h2 i hi hu hd
  omega

/-- The result of the checker once the five first rules hold. -/
theorem consistency_check_of_rules (sb : Superblock) (h1 : Rule1 sb) (h2 : Rule2 sb)
    (h3 : Rule3 sb) (h4 : Rule4 sb) (h5 : Rule5 sb) :
    (((∃ k, 2 ≤ coverCount sb k) ∨
        (∃ i, 1 ≤ i ∧ i ≤ 127 ∧ bit_is_set sb.free_block_list i = false ∧
          1 ≤ coverCount sb i)) → consistency_check sb = 6) ∧
    (¬ ((∃ k, 2 ≤ coverCount sb k) ∨
        (∃ i, 1 ≤ i ∧ i ≤ 127 ∧ bit_is_set sb.free_block_list i = false ∧
          1 ≤ coverCount sb i)) → consistency_check sb = 0) := by
  unfold consistency_check
  rw [(check1_false_iff sb).2 h1]
  cases hc : check2 sb with
  | none => exact absurd h2 ((check2_none_iff sb).1 hc)
  | some c =>
    obtain ⟨ha, he⟩ := check2_some sb c hc
    simp only [Bool.false_eq_true, if_false]
    rw [(check3_false_iff sb).2 h3, (check4_false_iff sb).2 h4, (check5_false_iff sb).2 h5]
    simp only [Bool.false_eq_true, if_false]
    constructor
    · rintro (hE | h6)
      · rw [if_pos (he.2 hE)]
      · obtain ⟨i, hi1, hi2, hb, hcnt⟩ := h6
        rw [if_pos ((check6_true_iff sb c).2 ⟨i, hi1, hi2, hb, (ha i).2 hcnt⟩)]
        split_ifs <;> rfl
    · intro hn
      have hne : ¬ c.fbl_error ≠ 0 := fun h => hn (Or.inl (he.1 h))
      rw [if_neg hne]
      have h6' : ¬ (List.range 128).any (check6_block sb c) = true := by
        rw [check6_true_iff]
        rintro ⟨i, hi1, hi2, hb, hal⟩
        exact hn (Or.inr ⟨i, hi1, hi2, hb, (ha i).1 hal⟩)
      rw [if_neg h6']

theorem consistency_check_eq_one (sb : Superblock) (h1 : ¬ Rule1 sb) :
    consistency_check sb = 1 := by
  unfold consistency_check
  have : (List.range 126).any (fun i => check1_inode (sb.inode i)) = true := by
    cases h : (List.range 126).any (fun i => check1_inode (sb.inode i))
    · exact absurd ((check1_false_iff sb).1 h) h1
    · rfl
  rw [this]; rfl

theorem consistency_check_eq_two_iff (sb : Superblock) (h1 : Rule1 sb) :
    consistency_check sb = 2 ↔ ¬ Rule2 sb := by
  unfold consistency_check
  rw [(check1_false_iff sb).2 h1]
  simp only [Bool.false_eq_true, if_false]
  cases hc : check2 sb with
  | none =>
    simp only [true_iff]
    exact (check2_none_iff sb).1 hc
  | some c =>
    have h2 : ¬ ¬ Rule2 sb := fun h => by
      rw [(check2_none_iff sb).2 h] at hc
      exact Option.noConfusion hc
    simp only [h2, iff_false]
    split_ifs <;> simp

theorem consistency_check_ladder (sb : Superblock) (h1 : Rule1 sb) (h2 : Rule2 sb) :
    (¬ Rule3 sb → consistency_check sb = 3) ∧
    (Rule3 sb → ¬ Rule4 sb → consistency_check sb = 4) ∧
    (Rule3 sb → Rule4 sb → ¬ Rule5 sb → consistency_check sb = 5) := by
  unfold consistency_check
  rw [(check1_false_iff sb).2 h1]
  simp only [Bool.false_eq_true, if_false]
  cases hc : check2 sb with
  | none => exact absurd h2 ((check2_none_iff sb).1 hc)
  | some c =>
    simp only
    refine ⟨?_, ?_, ?_⟩
    · intro h3
      have : (List.range 126).any (fun i => check3_inode (sb.inode i)) = true := by
        cases h : (List.range 126).any (fun i => check3_inode (sb.inode i))
        · exact absurd ((check3_false_iff sb).1 h) h3
        · rfl
      rw [this]; rfl
    · intro h3 h4
      rw [(check3_false_iff sb).2 h3]
      have : (List.range 126).any (check4_inode sb) = true := by
        cases h : (List.range 126).any (check4_inode sb)
        · exact absurd ((check4_false_iff sb).1 h) h4
        · rfl
      rw [this]; rfl
    · intro h3 h4 h5
      rw [(check3_false_iff sb).2 h3, (check4_false_iff sb).2 h4]
      have : (List.range 126).any (check5_inode sb) = true := by
        cases h : (List.range 126).any (check5_inode sb)
        · exact absurd ((check5_false_iff sb).1 h) h5
        · rfl
      rw [this]; rfl

/-- C2: when one of the rules 1 to 5 is violated, `consistency_check` returns
the number of the first violated rule, whatever the bitmap and the overlaps. -/
theorem consistency_check_smallest_violated (sb : Superblock) (k : Nat)
    (hk1 : 1 ≤ k) (hk5 : k ≤ 5) (hviol : ¬ RuleHolds k sb)
    (hmin : ∀ j, 1 ≤ j → j < k → RuleHolds j sb) :
    consistency_check sb = k := by
  have hk : k = 1 ∨ k = 2 ∨ k = 3 ∨ k = 4 ∨ k = 5 := by omega
  rcases hk with rfl | rfl | rfl | rfl | rfl
  · exact consistency_check_eq_one sb hviol
  · exact (consistency_check_eq_two_iff sb (hmin 1 (by omega) (by omega))).2 hviol
  · exact (consistency_check_ladder sb (hmin 1 (by omega) (by omega))
      (hmin 2 (by omega) (by omega))).1 hviol
  · exact (consistency_check_ladder sb (hmin 1 (by omega) (by omega))
      (hmin 2 (by omega) (by omega))).2.1 (hmin 3 (by omega) (by omega)) hviol
  · exact (consistency_check_ladder sb (hmin 1 (by omega) (by omega))
      (hmin 2 (by omega) (by omega))).2.2 (hmin 3 (by omega) (by omega))
      (hmin 4 (by omega) (by omega)) hviol

/-- On a superblock that satisfies rules 1 to 5 the checker returns 0 or 6,
according to the overlaps and to the covered blocks whose bit is clear. -/
theorem checker_zero_or_six (sb : Superblock) (h1 : Rule1 sb) (h2 : Rule2 sb)
    (h3 : Rule3 sb) (h4 : Rule4 sb) (h5 : Rule5 sb) :
    (consistency_check sb = 0 ∨ consistency_check sb = 6) ∧
    ((∃ j, 1 ≤ j ∧ j ≤ 127 ∧ (2 ≤ coverCount sb j ∨
        (1 ≤ coverCount sb j ∧ bit_is_set sb.free_block_list j = false))) →
      consistency_check sb = 6) ∧
    (Rule6 sb → NoOverlap sb → consistency_check sb = 0) := by
  obtain ⟨hA, hB⟩ := consistency_check_of_rules sb h1 h2 h3 h4 h5
  refine ⟨?_, ?_, ?_⟩
  · by_cases hc : (∃ k, 2 ≤ coverCount sb k) ∨
        (∃ i, 1 ≤ i ∧ i ≤ 127 ∧ bit_is_set sb.free_block_list i = false ∧
          1 ≤ coverCount sb i)
    · exact Or.inr (hA hc)
    · exact Or.inl (hB hc)
  · rintro ⟨j, hj1, hj2, h | ⟨hc, hb⟩⟩
    · exact hA (Or.inl ⟨j, h⟩)
    · exact hA (Or.inr ⟨j, hj1, hj2, hb, hc⟩)
  · intro h6 hno
    apply hB
    rintro (⟨k, hk⟩ | ⟨i, hi1, hi2, hb, hc⟩)
    · have hr := covered_range sb h2 k (by omega)
      have := hno k hr.1 hr.2
      omega
    · have hle := hno i hi1 hi2
      have hone : coverCount sb i = 1 := by omega
      have := (h6 i hi1 hi2).2 hone
      rw [hb] at this
      exact Bool.noConfusion this

/-! ## Superblocks with few inodes -/

theorem zeroInode_unused : zeroInode.isused = false := by decide

theorem covers_zeroInode (j : Nat) : covers zeroInode j = false := by
  unfold covers
  rw [zeroInode_unused]
  rfl

theorem coverCountBelow_sparse (sb : Superblock) (n j : Nat)
    (hz : ∀ i, n ≤ i → sb.inode i = zeroInode) :
    ∀ m, coverCountBelow sb (n + m) j = coverCountBelow sb n j := by
  intro m
  induction m with
  | zero => rfl
  | succ m ih =>
    rw [← Nat.add_assoc, coverCountBelow_succ, ih, hz (n + m) (by omega), covers_zeroInode]
    simp

/-- When every inode from `n` on is zero, the rules 1 to 5 follow from their
check on the inodes below `n`. -/
theorem rules_of_below (sb : Superblock) (n : Nat)
    (hz : ∀ i, n ≤ i → sb.inode i = zeroInode) (h123 : Rules123Below n sb)
    (h45 : Rules45Below n sb) :
    Rule1 sb ∧ Inv2 sb ∧ Rule2 sb ∧ Rule3 sb ∧ Rule4 sb ∧ Rule5 sb := by
  obtain ⟨h1, h2, h3⟩ := h123
  obtain ⟨h4, h5⟩ := h45
  have hun : ∀ i, n ≤ i → (sb.inode i).isused = true → False := by
    intro i hi hu
    rw [hz i hi, zeroInode_unused] at hu
    exact Bool.noConfusion hu
  have hi2 : Inv2 sb := by
    intro i hi hu
    by_cases hin : i < n
    · exact h2 i hin hu
    · exact (hun i (by omega) hu).elim
  refine ⟨?_, hi2, ?_, ?_, ?_, ?_⟩
  · intro i hi
    by_cases hin : i < n
    · exact h1 i hin
    · exact ⟨fun _ => hz i (by omega), fun hu => (hun i (by omega) hu).elim⟩
  · intro i hi hu hd
    have := hi2 i hi hu hd
    omega
  · intro i hi hu
    by_cases hin : i < n
    · exact h3 i hin hu
    · exact (hun i (by omega) hu).elim
  · intro i hi hu
    by_cases hin : i < n
    · exact h4 i hin hu
    · exact (hun i (by omega) hu).elim
  · intro i hi k hk hik
    by_cases hin : i < n
    · by_cases hkn : k < n
      · exact h5 i hin k hkn hik
      · exact (hun k (by omega) hik.2.2.1).elim
    · exact (hun i (by omega) hik.2.1).elim

/-- When every inode from `n` on is zero, rule 6 follows from its check with
the inodes below `n`. -/
theorem rule6_of_below (sb : Superblock) (n : Nat) (hn : n ≤ 126)
    (hz : ∀ i, n ≤ i → sb.inode i = zeroInode) (h6 : Rule6Below n sb) : Rule6 sb := by
  intro j hj1 hj2
  have := coverCountBelow_sparse sb n j hz (126 - n)
  rw [show n + (126 - n) = 126 by omega] at this
  unfold coverCount
  rw [this]
  exact h6 j hj1 hj2

/-- When every inode from `n` on is zero, the six invariants follow from their
check on the inodes below `n`. -/
theorem invariants_of_below (sb : Superblock) (n : Nat) (hn : n ≤ 126)
    (hz : ∀ i, n ≤ i → sb.inode i = zeroInode) (h123 : Rules123Below n sb)
    (h45 : Rules45Below n sb) (h6 : Rule6Below n sb) :
    Invariants sb := by
  obtain ⟨r1, r2, _, r3, r4, r5⟩ := rules_of_below sb n hz h123 h45
  exact ⟨r1, r2, r3, r4, r5, rule6_of_below sb n hn hz h6⟩

/-- When every inode from `n` on is zero, files do not overlap when the files
below `n` do not. -/
theorem noOverlap_of_below (sb : Superblock) (n : Nat) (hn : n ≤ 126)
    (hz : ∀ i, n ≤ i → sb.inode i = zeroInode) (h : NoOverlapBelow n sb) :
    NoOverlap sb := by
  intro j hj1 hj2
  have := coverCountBelow_sparse sb n j hz (126 - n)
  rw [show n + (126 - n) = 126 by omega] at this
  unfold coverCount
  rw [this]
  exact h j hj1 hj2

theorem two_inodes_zero (a b : Inode) (i : Nat) (hi : 2 ≤ i) :
    (if i = 0 then a else if i = 1 then b else zeroInode) = zeroInode := by
  rw [if_neg (by omega), if_neg (by omega)]


theorem one_inode_zero (a : Inode) (i : Nat) (hi : 1 ≤ i) :
    (if i = 0 then a else zeroInode) = zeroInode := by
  rw [if_neg (by omega)]

/-! ## Claims about `consistency_check` -/

/-- Witness of C2: on a superblock that violates rule 4 only, the result is 4. -/
theorem consistency_check_smallest_violated_witness :
    ¬ RuleHolds 4 rule4Sb ∧ consistency_check rule4Sb = 4 :=
  ⟨by show ¬ Rule4 rule4Sb; decide!,
   consistency_check_smallest_violated rule4Sb 4 (by decide) (by decide)
    (by show ¬ Rule4 rule4Sb; decide!)
    (by
      intro j h1 h2
      have hj : j = 1 ∨ j = 2 ∨ j = 3 := by omega
      rcases hj with rfl | rfl | rfl
      · show Rule1 rule4Sb; decide!
      · show Rule2 rule4Sb; decide!
      · show Rule3 rule4Sb; decide!)⟩

/-- C3 (amended): on a superblock that satisfies rules 1 to 5 the checker
returns 0 or 6; it returns 6 when some block of 1..127 lies in the ranges of
two used files, or lies in the range of a used file while its bit is clear;
it returns 0 when every bit of 1..127 is set exactly for the blocks covered by
one file and no block is covered twice. -/
theorem consistency_check_rule6 (sb : Superblock) (h1 : Rule1 sb) (h2 : Rule2 sb)
    (h3 : Rule3 sb) (h4 : Rule4 sb) (h5 : Rule5 sb) :
    (consistency_check sb = 0 ∨ consistency_check sb = 6) ∧
    ((∃ j, 1 ≤ j ∧ j ≤ 127 ∧ (2 ≤ coverCount sb j ∨
        (1 ≤ coverCount sb j ∧ bit_is_set sb.free_block_list j = false))) →
      consistency_check sb = 6) ∧
    (Rule6 sb → NoOverlap sb → consistency_check sb = 0) :=
  checker_zero_or_six sb h1 h2 h3 h4 h5

/-- The rules 1 to 5 hold after `C foo 3` on a fresh disk. -/
theorem fooSb_rules :
    Rule1 fooSb ∧ Rule2 fooSb ∧ Rule3 fooSb ∧ Rule4 fooSb ∧ Rule5 fooSb := by
  obtain ⟨r1, _, r2, r3, r4, r5⟩ :=
    rules_of_below fooSb 1 (fun i hi => one_inode_zero _ i hi) (by decide!) (by decide!)
  exact ⟨r1, r2, r3, r4, r5⟩

/-- Rule 6 holds after `C foo 3` on a fresh disk and no two files overlap. -/
theorem fooSb_rule6 : Rule6 fooSb ∧ NoOverlap fooSb :=
  ⟨rule6_of_below fooSb 1 (by omega) (fun i hi => one_inode_zero _ i hi) (by decide!),
    noOverlap_of_below fooSb 1 (by omega) (fun i hi => one_inode_zero _ i hi) (by decide!)⟩

/-- Witness of C3: the superblock after `C foo 3` passes the checker. -/
theorem consistency_check_rule6_witness :
    Rule6 fooSb ∧ NoOverlap fooSb ∧ consistency_check fooSb = 0 :=
  ⟨fooSb_rule6.1, fooSb_rule6.2,
   (consistency_check_rule6 fooSb fooSb_rules.1 fooSb_rules.2.1 fooSb_rules.2.2.1
      fooSb_rules.2.2.2.1 fooSb_rules.2.2.2.2).2.2 fooSb_rule6.1 fooSb_rule6.2⟩

/-- Counterexample to C3 as stated.  First part: rules 1 to 5 hold, block 5 is
in the ranges of two files and its bit is clear, so every bit of 1..127 is set
exactly when one file covers the block, yet the checker returns 6.  Second
part: rules 1 to 5 hold, bit 1 is set and no file covers block 1, yet the
checker returns 0. -/
theorem consistency_check_rule6_counterexample :
    (Rule1 overlapSb ∧ Rule2 overlapSb ∧ Rule3 overlapSb ∧ Rule4 overlapSb ∧
      Rule5 overlapSb ∧ Rule6 overlapSb ∧ consistency_check overlapSb = 6) ∧
    (Rule1 strayBitSb ∧ Rule2 strayBitSb ∧ Rule3 strayBitSb ∧ Rule4 strayBitSb ∧
      Rule5 strayBitSb ∧ ¬ Rule6 strayBitSb ∧
      bit_is_set strayBitSb.free_block_list 1 = true ∧ coverCount strayBitSb 1 = 0 ∧
      consistency_check strayBitSb = 0) := by
  obtain ⟨a1, _, a2, a3, a4, a5⟩ :=
    rules_of_below overlapSb 2 (fun i hi => two_inodes_zero _ _ i hi) (by decide!) (by decide!)
  obtain ⟨b1, _, b2, b3, b4, b5⟩ :=
    rules_of_below strayBitSb 0 (fun _ _ => rfl) (by decide!) (by decide!)
  have a6 : Rule6 overlapSb :=
    rule6_of_below overlapSb 2 (by omega) (fun i hi => two_inodes_zero _ _ i hi) (by decide!)
  have hbit : bit_is_set strayBitSb.free_block_list 1 = true := by decide!
  have hcnt : coverCount strayBitSb 1 = 0 := by decide!
  refine ⟨⟨a1, a2, a3, a4, a5, a6, by decide!⟩, ⟨b1, b2, b3, b4, b5, ?_, hbit, hcnt, by decide!⟩⟩
  intro h6
  have := (h6 1 (by omega) (by omega)).1 hbit
  rw [hcnt] at this
  exact absurd this (by decide)

/-- C4 (amended): on a superblock that satisfies rule 1, a used file inode of
size 0 makes `consistency_check` return 2 when its start block is 0 or above
127; when its start block is in 2..127 the result is 2 exactly when another
inode fails the range test of the second loop. -/
theorem consistency_check_size_zero_file (sb : Superblock) (k : Nat) (h1 : Rule1 sb)
    (hk : k < 126) (hu : (sb.inode k).isused = true) (hd : (sb.inode k).isdir = false)
    (hs : (sb.inode k).size = 0) :
    (((sb.inode k).start_block = 0 ∨ 127 < (sb.inode k).start_block) →
      consistency_check sb = 2) ∧
    ((2 ≤ (sb.inode k).start_block ∧ (sb.inode k).start_block ≤ 127) →
      (consistency_check sb = 2 ↔ ∃ i, i < 126 ∧ i ≠ k ∧ violates2 (sb.inode i))) := by
  constructor
  · intro hst
    rw [consistency_check_eq_two_iff sb h1]
    intro h2
    have := h2 k hk hu hd
    omega
  · intro hst
    rw [consistency_check_eq_two_iff sb h1]
    constructor
    · intro h2
      by_contra hne
      apply h2
      intro i hi
      by_cases hik : i = k
      · subst hik
        intro _ _
        omega
      · apply (violates2_iff_not _).1
        intro hv
        exact hne ⟨i, hi, hik, hv⟩
    · rintro ⟨i, hi, _, hv⟩ h2
      exact (violates2_iff_not _).2 (h2 i hi) hv

/-- Witness of C4 (amended): the size-0 file of `emptyFileSb` starts at block 5
and no other inode is used, so the result is not 2. -/
theorem consistency_check_size_zero_file_witness :
    Rule1 emptyFileSb ∧ (emptyFileSb.inode 0).size = 0 ∧
    (consistency_check emptyFileSb = 2 ↔
      ∃ i, i < 126 ∧ i ≠ 0 ∧ violates2 (emptyFileSb.inode i)) :=
  ⟨by decide!, by decide,
   (consistency_check_size_zero_file emptyFileSb 0 (by decide!) (by decide) (by decide)
      (by decide) (by decide)).2 (by decide)⟩

/-- Counterexample to C4 as stated: rule 1 holds, inode 0 is a used file of
size 0, and `consistency_check` returns 0. -/
theorem consistency_check_size_zero_file_counterexample :
    Rule1 emptyFileSb ∧ (emptyFileSb.inode 0).isused = true ∧
    (emptyFileSb.inode 0).isdir = false ∧ (emptyFileSb.inode 0).size = 0 ∧
    consistency_check emptyFileSb = 0 := by
  decide!

/-! ## Lookup, the free-slot search and the errors of `fs_create` -/

theorem find_range_spec (p : Nat → Bool) (n : Nat) :
    match (List.range n).find? p with
    | none => ∀ i, i < n → p i = false
    | some i => i < n ∧ p i = true ∧ ∀ j, j < i → p j = false := by
  induction n with
  | zero => simp
  | succ n ih =>
    rw [List.range_succ, List.find?_append]
    cases h : (List.range n).find? p with
    | none =>
      rw [h] at ih
      simp only [Option.none_or, List.find?_cons, List.find?_nil]
      cases hp : p n with
      | false =>
        simp only
        intro i hi
        by_cases hin : i = n
        · rw [hin]; exact hp
        · exact ih i (by omega)
      | true =>
        simp only
        exact ⟨by omega, hp, ih⟩
    | some i =>
      rw [h] at ih
      simp only [Option.or]
      exact ⟨by omega, ih.2.1, ih.2.2⟩

theorem file_exists_none_iff (st : State) (name : Name) :
    file_exists st name = none ↔
      ∀ i, i < 126 → ¬ ((st.sb.inode i).isused = true ∧ name = (st.sb.inode i).name ∧
        (st.sb.inode i).parent = st.cwd) := by
  have h := find_range_spec (fun i =>
    (st.sb.inode i).isused && decide (name = (st.sb.inode i).name)
      && decide ((st.sb.inode i).parent = st.cwd)) 126
  unfold file_exists
  cases hf : (List.range 126).find? (fun i =>
    (st.sb.inode i).isused && decide (name = (st.sb.inode i).name)
      && decide ((st.sb.inode i).parent = st.cwd)) with
  | none =>
    rw [hf] at h
    simp only [true_iff]
    intro i hi hc
    have := h i hi
    simp [hc.1, hc.2.1.symm, hc.2.2] at this
  | some k =>
    rw [hf] at h
    simp only [reduceCtorEq, false_iff]
    intro hall
    apply hall k h.1
    have := h.2.1
    simp only [Bool.and_eq_true, decide_eq_true_eq] at this
    exact ⟨this.1.1, this.1.2, this.2⟩

theorem file_exists_some (st : State) (name : Name) (k : Nat)
    (h : file_exists st name = some k) :
    k < 126 ∧ (st.sb.inode k).isused = true ∧ name = (st.sb.inode k).name ∧
      (st.sb.inode k).parent = st.cwd ∧
      ∀ j, j < k → ¬ ((st.sb.inode j).isused = true ∧ name = (st.sb.inode j).name ∧
        (st.sb.inode j).parent = st.cwd) := by
  have hs := find_range_spec (fun i =>
    (st.sb.inode i).isused && decide (name = (st.sb.inode i).name)
      && decide ((st.sb.inode i).parent = st.cwd)) 126
  unfold file_exists at h
  rw [h] at hs
  obtain ⟨h1, h2, h3⟩ := hs
  simp only [Bool.and_eq_true, decide_eq_true_eq] at h2
  refine ⟨h1, h2.1.1, h2.1.2, h2.2, ?_⟩
  intro j hj hc
  have := h3 j hj
  simp [hc.1, hc.2.2] at this
  exact this hc.2.1

theorem create_scan_found (sb : Superblock) (fuel a b : Nat) :
    create_scan sb fuel ⟨true, a, b⟩ = ⟨true, a, b⟩ := by
  cases fuel <;> simp [create_scan]

theorem create_scan_spec (sb : Superblock) (fuel : Nat) :
    ∀ i0 idx0, i0 + fuel = 126 →
      ((create_scan sb fuel ⟨false, idx0, i0⟩).found = true ∧
        i0 ≤ (create_scan sb fuel ⟨false, idx0, i0⟩).idx ∧
        (create_scan sb fuel ⟨false, idx0, i0⟩).idx < 126 ∧
        (create_scan sb fuel ⟨false, idx0, i0⟩).i
          = (create_scan sb fuel ⟨false, idx0, i0⟩).idx + 1 ∧
        (sb.inode (create_scan sb fuel ⟨false, idx0, i0⟩).idx).isused = false ∧
        ∀ j, i0 ≤ j → j < (create_scan sb fuel ⟨false, idx0, i0⟩).idx →
          (sb.inode j).isused = true) ∨
      ((create_scan sb fuel ⟨false, idx0, i0⟩).found = false ∧
        (create_scan sb fuel ⟨false, idx0, i0⟩).i = 126 ∧
        ∀ j, i0 ≤ j → j < 126 → (sb.inode j).isused = true) := by
  induction fuel with
  | zero =>
    intro i0 idx0 h
    right
    simp only [create_scan]
    exact ⟨trivial, by omega, by intro j h1 h2; omega⟩
  | succ fuel ih =>
    intro i0 idx0 h
    have hlt : i0 < 126 := by omega
    simp only [create_scan, Bool.not_false, Bool.true_and, decide_eq_true_eq, hlt, if_true]
    cases hu : (sb.inode i0).isused with
    | false =>
      left
      simp only [Bool.not_false, if_true, create_scan_found]
      exact ⟨trivial, le_refl _, hlt, trivial, hu, by intro j h1 h2; omega⟩
    | true =>
      simp only [Bool.not_true, Bool.false_eq_true, if_false]
      rcases ih (i0 + 1) idx0 (by omega) with hfound | hnot
      · left
        obtain ⟨h1, h2, h3, h4, h5, h6⟩ := hfound
        refine ⟨h1, by omega, h3, h4, h5, ?_⟩
        intro j hj1 hj2
        by_cases hj : j = i0
        · rw [hj]; exact hu
        · exact h6 j (by omega) hj2
      · right
        obtain ⟨h1, h2, h3⟩ := hnot
        refine ⟨h1, h2, ?_⟩
        intro j hj1 hj2
        by_cases hj : j = i0
        · rw [hj]; exact hu
        · exact h3 j (by omega) hj2

/-- The first loop of `fs_create` ends with `i = 126` exactly when none of the
slots 0..124 is free. -/
theorem create_scan_full_iff (sb : Superblock) :
    (create_scan sb 126 ⟨false, 0, 0⟩).i = 126 ↔
      ∀ j, j < 125 → (sb.inode j).isused = true := by
  rcases create_scan_spec sb 126 0 0 (by omega) with h | h
  · obtain ⟨_, _, h3, h4, h5, h6⟩ := h
    constructor
    · intro hi j hj
      exact h6 j (by omega) (by omega)
    · intro hall
      by_cases hidx : (create_scan sb 126 ⟨false, 0, 0⟩).idx = 125
      · omega
      · have := hall (create_scan sb 126 ⟨false, 0, 0⟩).idx (by omega)
        rw [h5] at this
        exact Bool.noConfusion this
  · obtain ⟨_, h2, h3⟩ := h
    constructor
    · intro _ j hj
      exact h3 j (by omega) (by omega)
    · intro _
      exact h2

/-- When the first loop of `fs_create` ends with `i` different from 126, `idx`
is the lowest free slot. -/
theorem create_scan_idx (sb : Superblock) (h : (create_scan sb 126 ⟨false, 0, 0⟩).i ≠ 126) :
    (create_scan sb 126 ⟨false, 0, 0⟩).idx < 125 ∧
    (sb.inode (create_scan sb 126 ⟨false, 0, 0⟩).idx).isused = false ∧
    ∀ j, j < (create_scan sb 126 ⟨false, 0, 0⟩).idx → (sb.inode j).isused = true := by
  rcases create_scan_spec sb 126 0 0 (by omega) with h' | h'
  · obtain ⟨_, _, h3, h4, h5, h6⟩ := h'
    exact ⟨by omega, h5, fun j hj => h6 j (by omega) hj⟩
  · exact absurd h'.2.1 h

theorem fs_create_full_iff (st : State) (name : Name) (size : Nat) :
    (fs_create st name size).2 = some FsError.superblock_full ↔
      ∀ j, j < 125 → (st.sb.inode j).isused = true := by
  rw [← create_scan_full_iff]
  unfold fs_create
  simp only
  split_ifs with h1 h2 h3 h4
  · simp [h1]
  · simp [h1]
  · simp [h1]
  · split <;> simp [h1]
  · simp [h1]

/-- C5, the code at the failing input: the slots 0..124 are used and slot 125
is free, and `fs_create` still reports that the superblock is full and leaves
slot 125 free. -/
theorem fs_create_slot125_reports_full :
    (∀ i, i < 125 → (slot125Sb.inode i).isused = true) ∧
    (slot125Sb.inode 125).isused = false ∧
    (fs_create slot125State (name1 122) 0).2 = some FsError.superblock_full ∧
    ((fs_create slot125State (name1 122) 0).1.sb.inode 125).isused = false := by
  decide!

/-- C8: `fs_create` reports a full superblock when no slot is free, whatever
the name and the bitmap; and when it does not report a full superblock and the
name is taken in the current directory, or is `.` or `..`, it reports that the
name exists, whatever the bitmap. -/
theorem fs_create_check_order (st : State) (name : Name) (size : Nat) :
    ((∀ i, i < 126 → (st.sb.inode i).isused = true) →
      (fs_create st name size).2 = some FsError.superblock_full) ∧
    ((fs_create st name size).2 ≠ some FsError.superblock_full →
      ((∃ i, i < 126 ∧ (st.sb.inode i).isused = true ∧ (st.sb.inode i).name = name ∧
          (st.sb.inode i).parent = st.cwd) ∨ name = dot ∨ name = dotdot) →
      (fs_create st name size).2 = some FsError.already_exists) := by
  constructor
  · intro hall
    rw [fs_create_full_iff]
    intro j hj
    exact hall j (by omega)
  · intro hnf hex
    unfold fs_create at hnf ⊢
    simp only at hnf ⊢
    by_cases h1 : (create_scan st.sb 126 ⟨false, 0, 0⟩).i = 126
    · simp [h1] at hnf
    · rw [if_neg h1]
      by_cases h2 : (file_exists st name).isSome = true
      · rw [if_pos h2]
      · rw [if_neg h2]
        rcases hex with ⟨i, hi, hu, hn, hp⟩ | hdots
        · exfalso
          apply h2
          cases hf : file_exists st name with
          | none => exact absurd ⟨hu, hn.symm, hp⟩ ((file_exists_none_iff st name).1 hf i hi)
          | some k => rfl
        · rw [if_pos hdots]

/-- When `fs_create` reports an error, the state is the one before the call. -/
theorem fs_create_error_state (st : State) (name : Name) (size : Nat) (e : FsError)
    (he : (fs_create st name size).2 = some e) : (fs_create st name size).1 = st := by
  unfold fs_create at he ⊢
  simp only at he ⊢
  by_cases h1 : (create_scan st.sb 126 ⟨false, 0, 0⟩).i = 126
  · rw [if_pos h1]
  · rw [if_neg h1] at he ⊢
    by_cases h2 : (file_exists st name).isSome = true
    · rw [if_pos h2]
    · rw [if_neg h2] at he ⊢
      by_cases h3 : name = dot ∨ name = dotdot
      · rw [if_pos h3]
      · rw [if_neg h3] at he ⊢
        by_cases h4 : 0 < size
        · rw [if_pos h4] at he ⊢
          cases ha : alloc_scan st.sb.free_block_list size (List.range 128) 0 with
          | none => rfl
          | some s => rw [ha] at he; simp at he
        · rw [if_neg h4] at he
          simp at he

/-- Witness of C8: after `C foo 3`, `C foo 1` reports that the name exists. -/
theorem fs_create_check_order_witness :
    (fs_create fooState ⟨102, 111, 111, 0, 0⟩ 1).2 = some FsError.already_exists :=
  (fs_create_check_order fooState ⟨102, 111, 111, 0, 0⟩ 1).2 (by decide)
    (Or.inl ⟨0, by decide, by decide, by decide, by decide⟩)

/-- C9: when `fs_create` reports an error the state is the one before the
call; `fs_delete` reports that the name does not exist exactly when no used
inode has this name with the current directory as parent, and then the state
is the one before the call. -/
theorem failed_create_delete_no_mutation (st : State) (name : Name) (size fuel : Nat) :
    (∀ e, (fs_create st name size).2 = some e → (fs_create st name size).1 = st) ∧
    ((∀ i, i < 126 → ¬ ((st.sb.inode i).isused = true ∧ name = (st.sb.inode i).name ∧
        (st.sb.inode i).parent = st.cwd)) ↔
      ∃ s, fs_delete fuel st name = some (s, some FsError.does_not_exist)) ∧
    (∀ s, fs_delete fuel st name = some (s, some FsError.does_not_exist) → s = st) := by
  refine ⟨?_, ?_, ?_⟩
  · intro e he
    exact fs_create_error_state st name size e he
  · rw [← file_exists_none_iff]
    unfold fs_delete
    cases hf : file_exists st name with
    | none => simp
    | some k =>
      simp only [reduceCtorEq, false_iff, not_exists]
      intro s hs
      cases hd : delete_file fuel k st with
      | none => simp [hd] at hs
      | some s' => simp [hd] at hs
  · intro s hs
    unfold fs_delete at hs
    cases hf : file_exists st name with
    | none =>
      simp [hf] at hs
      exact hs.symm
    | some k =>
      rw [hf] at hs
      cases hd : delete_file fuel k st with
      | none => simp [hd] at hs
      | some s' => simp [hd] at hs

/-- Witness of C9: after `C foo 3`, the failed `C foo 1` leaves the state. -/
theorem failed_create_delete_no_mutation_witness :
    (fs_create fooState ⟨102, 111, 111, 0, 0⟩ 1).1 = fooState :=
  (failed_create_delete_no_mutation fooState ⟨102, 111, 111, 0, 0⟩ 1 0).1
    FsError.already_exists (by decide)

/-! ## The bitmap -/

theorem and_two_pow_ne_zero (x b : Nat) : (x &&& (1 <<< b) != 0) = x.testBit b := by
  rw [Nat.one_shiftLeft]
  cases h : x.testBit b
  · have : x &&& 2 ^ b = 0 := by
      apply Nat.eq_of_testBit_eq
      intro i
      rw [Nat.testBit_and, Nat.testBit_two_pow, Nat.zero_testBit]
      by_cases hi : b = i
      · subst hi; simp [h]
      · simp [hi]
    simp [this]
  · have : x &&& 2 ^ b ≠ 0 := by
      intro h0
      have := congrArg (fun y => Nat.testBit y b) h0
      simp [Nat.testBit_and, Nat.testBit_two_pow, h] at this
    simp [this]

theorem bit_is_set_eq (fbl : Nat → Nat) (j : Nat) :
    bit_is_set fbl j = (fbl (j / 8)).testBit (7 - j % 8) := by
  unfold bit_is_set
  exact and_two_pow_ne_zero _ _

theorem same_bit_iff (i j : Nat) : (j / 8 = i / 8 ∧ 7 - j % 8 = 7 - i % 8) ↔ j = i := by
  omega

theorem testBit_255_xor (b c : Nat) (hb : b ≤ 7) :
    (255 ^^^ 2 ^ b).testBit c = (decide (c < 8) && !decide (b = c)) := by
  rw [Nat.testBit_xor, Nat.testBit_two_pow]
  have : (255 : Nat) = 2 ^ 8 - 1 := by norm_num
  rw [this, Nat.testBit_two_pow_sub_one]
  by_cases h1 : c < 8 <;> by_cases h2 : b = c <;> simp [h1, h2]
  omega

theorem bit_is_set_set_fbl_bit (set : Bool) (fbl : Nat → Nat) (i j : Nat) :
    bit_is_set (set_fbl_bit set fbl i) j =
      if j = i ∧ i ≠ 0 then set else bit_is_set fbl j := by
  unfold set_fbl_bit
  by_cases h0 : i = 0
  · simp [h0]
  · rw [if_neg h0]
    rw [bit_is_set_eq, bit_is_set_eq]
    by_cases hb : j / 8 = i / 8
    · simp only [hb, if_true]
      have hi7 : 7 - i % 8 ≤ 7 := by omega
      cases set
      · simp only [Bool.false_eq_true, if_false]
        rw [Nat.testBit_and, Nat.one_shiftLeft, testBit_255_xor _ _ hi7]
        by_cases hji : j = i
        · subst hji; simp [h0]
        · have : 7 - i % 8 ≠ 7 - j % 8 := by omega
          have h8 : 7 - j % 8 < 8 := by omega
          simp [hji, this, h8]
      · simp only [if_true]
        have : (256 : Nat) = 2 ^ 8 := by norm_num
        rw [this, Nat.testBit_mod_two_pow, Nat.testBit_or, Nat.one_shiftLeft,
          Nat.testBit_two_pow]
        have h8 : 7 - j % 8 < 8 := by omega
        by_cases hji : j = i
        · subst hji; simp [h0, h8]
        · have : 7 - i % 8 ≠ 7 - j % 8 := by omega
          simp [hji, this, h8]
    · have hji : j ≠ i := by intro h; apply hb; rw [h]
      simp [hb, hji]

theorem bit_is_set_fold (set : Bool) (fbl : Nat → Nat) (s n j : Nat) :
    bit_is_set ((List.range' s n).foldl (set_fbl_bit set) fbl) j =
      if s ≤ j ∧ j < s + n ∧ j ≠ 0 then set else bit_is_set fbl j := by
  induction n with
  | zero =>
    have : ¬ (s ≤ j ∧ j < s + 0 ∧ j ≠ 0) := by omega
    rw [if_neg this]
    rfl
  | succ n ih =>
    rw [List.range'_concat, List.foldl_append]
    simp only [List.foldl_cons, List.foldl_nil, Nat.one_mul]
    rw [bit_is_set_set_fbl_bit, ih]
    by_cases hj : j = s + n
    · by_cases h0 : s + n = 0
      · have h1 : ¬ (j = s + n ∧ s + n ≠ 0) := by omega
        have h2 : ¬ (s ≤ j ∧ j < s + n ∧ j ≠ 0) := by omega
        have h3 : ¬ (s ≤ j ∧ j < s + (n + 1) ∧ j ≠ 0) := by omega
        rw [if_neg h1, if_neg h2, if_neg h3]
      · have h1 : j = s + n ∧ s + n ≠ 0 := ⟨hj, h0⟩
        have h3 : s ≤ j ∧ j < s + (n + 1) ∧ j ≠ 0 := by omega
        rw [if_pos h1, if_pos h3]
    · have h1 : ¬ (j = s + n ∧ s + n ≠ 0) := by omega
      rw [if_neg h1]
      by_cases h2 : s ≤ j ∧ j < s + n ∧ j ≠ 0
      · have h3 : s ≤ j ∧ j < s + (n + 1) ∧ j ≠ 0 := by omega
        rw [if_pos h2, if_pos h3]
      · have h3 : ¬ (s ≤ j ∧ j < s + (n + 1) ∧ j ≠ 0) := by omega
        rw [if_neg h2, if_neg h3]

/-- The bits read after `set_fbl_bits(start_idx, size, set)`. -/
theorem bit_is_set_set_fbl_bits (sb : Superblock) (s n : Nat) (set : Bool) (j : Nat) :
    bit_is_set (set_fbl_bits sb s n set).free_block_list j =
      if s ≤ j ∧ j < s + n ∧ j ≠ 0 then set else bit_is_set sb.free_block_list j := by
  unfold set_fbl_bits
  exact bit_is_set_fold set _ s n j

theorem set_fbl_bits_inode (sb : Superblock) (s n : Nat) (set : Bool) :
    (set_fbl_bits sb s n set).inode = sb.inode := rfl

theorem set_fbl_bit_untouched (set : Bool) (fbl : Nat → Nat) (i b : Nat) (h : i / 8 ≠ b) :
    set_fbl_bit set fbl i b = fbl b := by
  unfold set_fbl_bit
  by_cases h0 : i = 0
  · rw [if_pos h0]
  · rw [if_neg h0]
    show (if b = i / 8 then _ else fbl b) = fbl b
    rw [if_neg (fun hb => h hb.symm)]

theorem set_fbl_bit_lt (set : Bool) (fbl : Nat → Nat) (i b : Nat) (h : fbl b < 256) :
    set_fbl_bit set fbl i b < 256 := by
  unfold set_fbl_bit
  by_cases h0 : i = 0
  · rw [if_pos h0]; exact h
  · rw [if_neg h0]
    show (if b = i / 8 then _ else fbl b) < 256
    by_cases hb : b = i / 8
    · rw [if_pos hb]
      cases set
      · simp only [Bool.false_eq_true, if_false]
        exact lt_of_le_of_lt Nat.and_le_left h
      · simp only [if_true]
        exact Nat.mod_lt _ (by norm_num)
    · rw [if_neg hb]; exact h

theorem fold_untouched (set : Bool) (fbl : Nat → Nat) (s n b : Nat)
    (h : ∀ i, s ≤ i → i < s + n → i / 8 ≠ b) :
    (List.range' s n).foldl (set_fbl_bit set) fbl b = fbl b := by
  induction n with
  | zero => rfl
  | succ n ih =>
    rw [List.range'_concat, List.foldl_append]
    simp only [List.foldl_cons, List.foldl_nil, Nat.one_mul]
    rw [set_fbl_bit_untouched _ _ _ _ (h (s + n) (by omega) (by omega))]
    exact ih (fun i h1 h2 => h i h1 (by omega))

theorem fold_lt (set : Bool) (fbl : Nat → Nat) (s n b : Nat) (h : fbl b < 256) :
    (List.range' s n).foldl (set_fbl_bit set) fbl b < 256 := by
  induction n with
  | zero => exact h
  | succ n ih =>
    rw [List.range'_concat, List.foldl_append]
    simp only [List.foldl_cons, List.foldl_nil, Nat.one_mul]
    exact set_fbl_bit_lt _ _ _ _ ih

theorem byte_ext (x y : Nat) (hx : x < 256) (hy : y < 256)
    (h : ∀ p, p < 8 → x.testBit p = y.testBit p) : x = y := by
  apply Nat.eq_of_testBit_eq
  intro p
  by_cases hp : p < 8
  · exact h p hp
  · have h8 : (256 : Nat) ≤ 2 ^ p := by
      have : (2 : Nat) ^ 8 ≤ 2 ^ p := Nat.pow_le_pow_right (by norm_num) (by omega)
      simpa using this
    rw [Nat.testBit_lt_two_pow (lt_of_lt_of_le hx h8),
      Nat.testBit_lt_two_pow (lt_of_lt_of_le hy h8)]

theorem testBit_eq_bit_is_set (fbl : Nat → Nat) (b p : Nat) (hp : p < 8) :
    (fbl b).testBit p = bit_is_set fbl (8 * b + (7 - p)) := by
  rw [bit_is_set_eq]
  have h1 : (8 * b + (7 - p)) / 8 = b := by omega
  have h2 : 7 - (8 * b + (7 - p)) % 8 = p := by omega
  rw [h1, h2]

/-- Setting and then clearing a run of free blocks gives the bitmap back. -/
theorem clear_set_free_run (fbl : Nat → Nat) (s n : Nat)
    (hbytes : ∀ b, b < 16 → fbl b < 256) (hend : s + n ≤ 128)
    (hfree : ∀ j, s ≤ j → j < s + n → j ≠ 0 → bit_is_set fbl j = false) :
    (List.range' s n).foldl (set_fbl_bit false)
      ((List.range' s n).foldl (set_fbl_bit true) fbl) = fbl := by
  funext b
  by_cases hb : b < 16
  · apply byte_ext
    · exact fold_lt _ _ _ _ _ (fold_lt _ _ _ _ _ (hbytes b hb))
    · exact hbytes b hb
    · intro p hp
      rw [testBit_eq_bit_is_set _ b p hp, testBit_eq_bit_is_set _ b p hp,
        bit_is_set_fold, bit_is_set_fold]
      by_cases hj : s ≤ 8 * b + (7 - p) ∧ 8 * b + (7 - p) < s + n ∧ 8 * b + (7 - p) ≠ 0
      · rw [if_pos hj, hfree _ hj.1 hj.2.1 hj.2.2]
      · rw [if_neg hj, if_neg hj]
  · have hu : ∀ i, s ≤ i → i < s + n → i / 8 ≠ b := by
      intro i h1 h2
      omega
    rw [fold_untouched _ _ _ _ _ hu, fold_untouched _ _ _ _ _ hu]

theorem zero_blocks_spec (disk : Nat → Block) (s n k : Nat) :
    zero_blocks disk s n k = if s ≤ k ∧ k < s + n then zero_buff else disk k := by
  unfold zero_blocks
  induction n with
  | zero =>
    have : ¬ (s ≤ k ∧ k < s + 0) := by omega
    rw [if_neg this]
    rfl
  | succ n ih =>
    rw [List.range'_concat, List.foldl_append]
    simp only [List.foldl_cons, List.foldl_nil, Nat.one_mul]
    by_cases hk : k = s + n
    · subst hk
      rw [Function.update_same, if_pos (by omega)]
    · rw [Function.update_noteq hk, ih]
      by_cases h1 : s ≤ k ∧ k < s + n
      · rw [if_pos h1, if_pos (by omega)]
      · rw [if_neg h1, if_neg (by omega)]

/-! ## The block search of `fs_create` -/

theorem alloc_scan_spec (fbl : Nat → Nat) (size : Nat) (m : Nat) :
    ∀ i c, i + m = 128 → 1 ≤ i → c < size → c < i →
      (∀ j, j < c → bit_is_set fbl (i - c + j) = false) →
      (∀ t, 1 ≤ t → t < i - c → ¬ IsFreeRun fbl size t) →
      match alloc_scan fbl size (List.range' i m) c with
      | some s => IsFirstFit fbl size s
      | none => ∀ t, ¬ IsFreeRun fbl size t := by
  induction m with
  | zero =>
    intro i c hi h1 hc hci hfree hno
    simp only [List.range'_zero, alloc_scan]
    intro t ht
    obtain ⟨ht1, ht2, _⟩ := ht
    exact hno t ht1 (by omega) ⟨ht1, ht2, by assumption⟩
  | succ m ih =>
    intro i c hi h1 hc hci hfree hno
    rw [List.range'_succ]
    have hi0 : i ≠ 0 := by omega
    simp only [alloc_scan, hi0, if_false]
    cases hb : bit_is_set fbl i with
    | false =>
      simp only [Bool.not_false, if_true]
      by_cases hsz : c + 1 = size
      · rw [if_pos hsz]
        simp only
        have hstart : i - size + 1 = i - c := by omega
        rw [hstart]
        refine ⟨⟨by omega, by omega, ?_⟩, ?_⟩
        · intro j hj
          by_cases hjc : j < c
          · exact hfree j hjc
          · have : i - c + j = i := by omega
            rw [this]; exact hb
        · intro t ht hrun
          exact hno t hrun.1 ht hrun
      · rw [if_neg hsz]
        apply ih (i + 1) (c + 1) (by omega) (by omega) (by omega) (by omega)
        · intro j hj
          by_cases hjc : j < c
          · have : i + 1 - (c + 1) + j = i - c + j := by omega
            rw [this]; exact hfree j hjc
          · have : i + 1 - (c + 1) + j = i := by omega
            rw [this]; exact hb
        · intro t ht1 ht2
          exact hno t ht1 (by omega)
    | true =>
      simp only [Bool.not_true, Bool.false_eq_true, if_false]
      apply ih (i + 1) 0 (by omega) (by omega) (by omega) (by omega)
      · intro j hj; omega
      · intro t ht1 ht2 hrun
        by_cases hlt : t < i - c
        · exact hno t ht1 hlt hrun
        · have := hrun.2.2 (i - t) (by omega)
          have h2 : t + (i - t) = i := by omega
          rw [h2, hb] at this
          exact Bool.noConfusion this

theorem alloc_scan_range (fbl : Nat → Nat) (size : Nat) (hs : 1 ≤ size) :
    match alloc_scan fbl size (List.range 128) 0 with
    | some s => IsFirstFit fbl size s
    | none => ∀ t, ¬ IsFreeRun fbl size t := by
  have h := alloc_scan_spec fbl size 127 1 0 (by omega) (by omega) (by omega) (by omega)
    (by intro j hj; omega) (by intro t h1 h2; omega)
  have hr : List.range 128 = 0 :: List.range' 1 127 := by decide
  have hstep : alloc_scan fbl size (0 :: List.range' 1 127) 0
      = alloc_scan fbl size (List.range' 1 127) 0 := by
    rw [alloc_scan]
    exact if_pos rfl
  rw [hr, hstep]
  exact h

theorem firstFit_unique (fbl : Nat → Nat) (size s t : Nat)
    (hs : IsFirstFit fbl size s) (ht : IsFirstFit fbl size t) : s = t := by
  by_contra hne
  rcases Nat.lt_or_gt_of_ne hne with h | h
  · exact ht.2 s h hs.1
  · exact hs.2 t h ht.1

theorem alloc_scan_some_iff (fbl : Nat → Nat) (size s : Nat) (hs : 1 ≤ size) :
    alloc_scan fbl size (List.range 128) 0 = some s ↔ IsFirstFit fbl size s := by
  have h := alloc_scan_range fbl size hs
  constructor
  · intro he
    rw [he] at h
    exact h
  · intro hf
    cases ha : alloc_scan fbl size (List.range 128) 0 with
    | none =>
      rw [ha] at h
      exact absurd hf.1 (h s)
    | some t =>
      rw [ha] at h
      rw [firstFit_unique fbl size s t hf h]

theorem alloc_scan_none_iff (fbl : Nat → Nat) (size : Nat) (hs : 1 ≤ size) :
    alloc_scan fbl size (List.range 128) 0 = none ↔ ∀ t, ¬ IsFreeRun fbl size t := by
  have h := alloc_scan_range fbl size hs
  constructor
  · intro he
    rw [he] at h
    exact h
  · intro hf
    cases ha : alloc_scan fbl size (List.range 128) 0 with
    | none => rfl
    | some t =>
      rw [ha] at h
      exact absurd h.1 (hf t)

/-- C7: for a size in 1..127 the block search of `fs_create` returns the
smallest start of a free run of that size inside 1..127, and returns nothing
exactly when there is no such run; once the earlier checks of `fs_create` have
passed, that is exactly when the allocation error is reported.  On a fresh
disk a file of 127 blocks starts at block 1 and fills the bits 1..127, and
with the free runs 1..2 and 5..127 a file of 3 blocks starts at block 5. -/
theorem block_search_first_fit (fbl : Nat → Nat) (size : Nat)
    (h1 : 1 ≤ size) (h127 : size ≤ 127) :
    (∀ s, alloc_scan fbl size (List.range 128) 0 = some s ↔ IsFirstFit fbl size s) ∧
    (alloc_scan fbl size (List.range 128) 0 = none ↔ ∀ s, ¬ IsFreeRun fbl size s) ∧
    (∀ (st : State) (name : Name), st.sb.free_block_list = fbl →
      (fs_create st name size).2 ≠ some FsError.superblock_full →
      (fs_create st name size).2 ≠ some FsError.already_exists →
      ((fs_create st name size).2 = some FsError.cannot_allocate ↔
        ∀ s, ¬ IsFreeRun fbl size s)) ∧
    (alloc_scan freshBitmap 127 (List.range 128) 0 = some 1 ∧
      ((fs_create freshState (name1 97) 127).1.sb.inode 0).start_block = 1 ∧
      ∀ j, j < 128 → 1 ≤ j →
        bit_is_set (fs_create freshState (name1 97) 127).1.sb.free_block_list j = true) ∧
    alloc_scan holeBitmap 3 (List.range 128) 0 = some 5 := by
  refine ⟨fun s => alloc_scan_some_iff fbl size s h1, alloc_scan_none_iff fbl size h1,
    ?_, by decide!, by decide!⟩
  intro st name hfbl hnf hne
  rw [← alloc_scan_none_iff fbl size h1, ← hfbl]
  unfold fs_create at hnf hne ⊢
  simp only at hnf hne ⊢
  by_cases c1 : (create_scan st.sb 126 ⟨false, 0, 0⟩).i = 126
  · simp [c1] at hnf
  · rw [if_neg c1] at hne ⊢
    by_cases c2 : (file_exists st name).isSome = true
    · simp [c2] at hne
    · rw [if_neg c2] at hne ⊢
      by_cases c3 : name = dot ∨ name = dotdot
      · simp [c3] at hne
      · rw [if_neg c3, if_pos (by omega : 0 < size)]
        cases ha : alloc_scan st.sb.free_block_list size (List.range 128) 0 <;> simp

/-- Witness of C7: the search for 3 blocks on the bitmap with the free runs
1..2 and 5..127. -/
theorem block_search_first_fit_witness :
    IsFirstFit holeBitmap 3 5 :=
  ((block_search_first_fit holeBitmap 3 (by decide) (by decide)).1 5).1 (by decide!)

/-! ## The effect of a successful `fs_create` -/

theorem enc_used (s : Nat) : (((s % 256) ||| 128) &&& 128 != 0) = true := by
  rw [show (128 : Nat) = 1 <<< 7 from rfl, and_two_pow_ne_zero, Nat.testBit_or,
    Nat.one_shiftLeft, Nat.testBit_two_pow_self]
  simp

theorem enc_low : ∀ s, s < 128 → ((s % 256) ||| 128) &&& 127 = s := by decide

theorem enc_plain_flag : ∀ s, s < 128 → ((s % 256) &&& 128 != 0) = false := by decide

theorem enc_plain_low : ∀ s, s < 128 → (s % 256) &&& 127 = s := by decide

theorem strncpy5_validated (n : Name) (h : n.validated) : strncpy5 n = n := by
  obtain ⟨h0, h1, h2, h3⟩ := h
  rcases n with ⟨a, b, c, d, e⟩
  simp only at h0 h1 h2 h3
  unfold strncpy5
  simp only
  by_cases hb : b = 0
  · have hc := h1 hb
    have hd := h2 hc
    have he := h3 hd
    simp [h0, hb, hc, hd, he]
  · by_cases hc : c = 0
    · have hd := h2 hc
      have he := h3 hd
      simp [h0, hb, hc, hd, he]
    · by_cases hd : d = 0
      · have he := h3 hd
        simp [h0, hb, hc, hd, he]
      · simp [h0, hb, hc, hd]

/-- The inode that `fs_create` writes into the chosen slot. -/
theorem create_commit_inode (st : State) (idx : Nat) (name : Name) (size s : Nat) (j : Nat) :
    (create_commit st idx name size s).sb.inode j =
      if j = idx then
        { name := strncpy5 name
          isused_size := (size % 256) ||| 128
          start_block := if size = 0 then 0 else s % 256
          isdir_parent := if size = 0 then (st.cwd % 256) ||| 128 else st.cwd % 256 }
      else st.sb.inode j := by
  unfold create_commit write_superblock
  simp only
  by_cases hs : 0 < size
  · rw [if_pos hs, set_fbl_bits_inode]
    by_cases hj : j = idx
    · subst hj; simp
    · simp [hj, Function.update_noteq hj]
  · rw [if_neg hs]
    by_cases hj : j = idx
    · subst hj; simp
    · simp [hj, Function.update_noteq hj]

theorem create_commit_bitmap (st : State) (idx : Nat) (name : Name) (size s : Nat) :
    (create_commit st idx name size s).sb.free_block_list =
      (set_fbl_bits st.sb s size true).free_block_list := by
  unfold create_commit write_superblock
  simp only
  by_cases hs : 0 < size
  · rw [if_pos hs]; rfl
  · rw [if_neg hs]
    have : size = 0 := by omega
    subst this
    rfl

theorem create_commit_cwd (st : State) (idx : Nat) (name : Name) (size s : Nat) :
    (create_commit st idx name size s).cwd = st.cwd := rfl

theorem create_commit_disk (st : State) (idx : Nat) (name : Name) (size s : Nat) (k : Nat)
    (hk : k ≠ 0) : (create_commit st idx name size s).disk k = st.disk k := by
  unfold create_commit write_superblock
  simp only
  exact Function.update_noteq hk _ _

/-- The steps of a successful `fs_create`. -/
theorem fs_create_ok (st st' : State) (name : Name) (size : Nat)
    (h : fs_create st name size = (st', none)) :
    (create_scan st.sb 126 ⟨false, 0, 0⟩).i ≠ 126 ∧ file_exists st name = none ∧
    name ≠ dot ∧ name ≠ dotdot ∧
    ((size = 0 ∧
        st' = create_commit st (create_scan st.sb 126 ⟨false, 0, 0⟩).idx name 0 0) ∨
      (0 < size ∧ ∃ s, alloc_scan st.sb.free_block_list size (List.range 128) 0 = some s ∧
        st' = create_commit st (create_scan st.sb 126 ⟨false, 0, 0⟩).idx name size s)) := by
  unfold fs_create at h
  simp only at h
  by_cases c1 : (create_scan st.sb 126 ⟨false, 0, 0⟩).i = 126
  · simp [c1] at h
  · rw [if_neg c1] at h
    by_cases c2 : (file_exists st name).isSome = true
    · simp [c2] at h
    · rw [if_neg c2] at h
      by_cases c3 : name = dot ∨ name = dotdot
      · simp [c3] at h
      · rw [if_neg c3] at h
        have hfe : file_exists st name = none := by
          cases hf : file_exists st name with
          | none => rfl
          | some k => simp [hf] at c2
        refine ⟨c1, hfe, fun hd => c3 (Or.inl hd), fun hd => c3 (Or.inr hd), ?_⟩
        by_cases c4 : 0 < size
        · rw [if_pos c4] at h
          right
          cases ha : alloc_scan st.sb.free_block_list size (List.range 128) 0 with
          | none => simp [ha] at h
          | some s =>
            rw [ha] at h
            simp only [Prod.mk.injEq, and_true] at h
            exact ⟨c4, s, rfl, h.symm⟩
        · rw [if_neg c4] at h
          left
          have hz : size = 0 := by omega
          subst hz
          simp only [Prod.mk.injEq, and_true] at h
          exact ⟨rfl, h.symm⟩

/-- C6: a successful `fs_create` writes the lowest free slot and nothing else
in the inode table: the name, the used bit, the size, the start of the run
found (0 for a directory), the directory bit and the parent; the run found is
the first fit and its bits are set; a directory leaves the bitmap as it is. -/
theorem fs_create_success_effect (st st' : State) (name : Name) (size : Nat)
    (hname : name.validated) (hcwd : st.cwd ≤ 127)
    (h : fs_create st name size = (st', none)) :
    ∃ idx, idx < 126 ∧ (st.sb.inode idx).isused = false ∧
      (∀ j, j < idx → (st.sb.inode j).isused = true) ∧
      (st'.sb.inode idx).name = name ∧
      (st'.sb.inode idx).isused = true ∧
      (st'.sb.inode idx).size = size ∧
      (size = 0 → (st'.sb.inode idx).start_block = 0) ∧
      (size ≠ 0 → IsFirstFit st.sb.free_block_list size (st'.sb.inode idx).start_block) ∧
      (st'.sb.inode idx).isdir = decide (size = 0) ∧
      (st'.sb.inode idx).parent = st.cwd ∧
      (∀ j, j ≠ idx → st'.sb.inode j = st.sb.inode j) ∧
      (size = 0 → st'.sb.free_block_list = st.sb.free_block_list) ∧
      (∀ j, bit_is_set st'.sb.free_block_list j =
        if (st'.sb.inode idx).start_block ≤ j ∧ j < (st'.sb.inode idx).start_block + size
            ∧ size ≠ 0
        then true else bit_is_set st.sb.free_block_list j) := by
  obtain ⟨c1, _, _, _, hcase⟩ := fs_create_ok st st' name size h
  obtain ⟨hidx, hfree, hlow⟩ := create_scan_idx st.sb c1
  have hcw : st.cwd < 128 := by omega
  refine ⟨(create_scan st.sb 126 ⟨false, 0, 0⟩).idx, by omega, hfree, hlow, ?_⟩
  rcases hcase with ⟨hz, hst⟩ | ⟨hpos, s, hs, hst⟩
  · subst hz
    subst hst
    have hi := create_commit_inode st (create_scan st.sb 126 ⟨false, 0, 0⟩).idx name 0 0
      (create_scan st.sb 126 ⟨false, 0, 0⟩).idx
    rw [if_pos rfl] at hi
    rw [hi]
    refine ⟨strncpy5_validated name hname, ?_, ?_, ?_, ?_, ?_, ?_, ?_, ?_, ?_⟩
    · exact enc_used 0
    · exact enc_low 0 (by omega)
    · intro _; rfl
    · intro hne; exact absurd rfl hne
    · simp only [Inode.isdir, if_true, decide_True]
      exact enc_used _
    · simp only [Inode.parent, if_true]
      exact enc_low _ hcw
    · intro j hj
      rw [create_commit_inode, if_neg hj]
    · intro _
      rw [create_commit_bitmap]
      rfl
    · intro j
      rw [create_commit_bitmap, bit_is_set_set_fbl_bits]
      simp
  · subst hst
    have hff := (alloc_scan_some_iff st.sb.free_block_list size s hpos).1 hs
    have hs127 : s ≤ 127 := by have := hff.1.2.1; omega
    have hsz : size < 128 := by have := hff.1.2.1; have := hff.1.1; omega
    have hne : size ≠ 0 := by omega
    have hi := create_commit_inode st (create_scan st.sb 126 ⟨false, 0, 0⟩).idx name size s
      (create_scan st.sb 126 ⟨false, 0, 0⟩).idx
    rw [if_pos rfl, if_neg hne, if_neg hne, Nat.mod_eq_of_lt (by omega : s < 256)] at hi
    rw [hi]
    refine ⟨strncpy5_validated name hname, ?_, ?_, ?_, ?_, ?_, ?_, ?_, ?_, ?_⟩
    · exact enc_used size
    · exact enc_low size hsz
    · intro h0; exact absurd h0 hne
    · intro _; exact hff
    · simp only [Inode.isdir, hne, decide_False]
      exact enc_plain_flag _ hcw
    · simp only [Inode.parent]
      exact enc_plain_low _ hcw
    · intro j hj
      rw [create_commit_inode, if_neg hj]
    · intro h0; exact absurd h0 hne
    · intro j
      rw [create_commit_bitmap, bit_is_set_set_fbl_bits]
      have h1 := hff.1.1
      by_cases hj : s ≤ j ∧ j < s + size
      · have hj' : s ≤ j ∧ j < s + size ∧ j ≠ 0 := by omega
        have hj'' : s ≤ j ∧ j < s + size ∧ size ≠ 0 := by omega
        rw [if_pos hj', if_pos hj'']
      · have hj' : ¬ (s ≤ j ∧ j < s + size ∧ j ≠ 0) := by omega
        have hj'' : ¬ (s ≤ j ∧ j < s + size ∧ size ≠ 0) := by omega
        rw [if_neg hj', if_neg hj'']

/-- Witness of C6: `C foo 3` on a fresh disk fills inode 0. -/
theorem fs_create_success_effect_witness :
    ∃ idx, idx < 126 ∧ (freshState.sb.inode idx).isused = false ∧
      ((fs_create freshState ⟨102, 111, 111, 0, 0⟩ 3).1.sb.inode idx).name
        = ⟨102, 111, 111, 0, 0⟩ ∧
      ((fs_create freshState ⟨102, 111, 111, 0, 0⟩ 3).1.sb.inode idx).size = 3 ∧
      ((fs_create freshState ⟨102, 111, 111, 0, 0⟩ 3).1.sb.inode idx).parent = 127 := by
  obtain ⟨idx, h1, h2, _, h4, _, h6, _, _, _, h10, _⟩ :=
    fs_create_success_effect freshState (fs_create freshState ⟨102, 111, 111, 0, 0⟩ 3).1
      ⟨102, 111, 111, 0, 0⟩ 3 (by decide) (by decide) (Prod.ext rfl (by decide!))
  exact ⟨idx, h1, h2, h4, h6, h10⟩

/-! ## The invariants in terms of single inodes -/

theorem coverCountBelow_pos_iff (sb : Superblock) (n j : Nat) :
    1 ≤ coverCountBelow sb n j ↔ ∃ i, i < n ∧ covers (sb.inode i) j = true := by
  unfold coverCountBelow
  rw [Nat.succ_le_iff, List.countP_pos_iff]
  simp

theorem coverCountBelow_le_one_iff (sb : Superblock) (n j : Nat) :
    coverCountBelow sb n j ≤ 1 ↔
      ∀ i k, i < n → k < n → covers (sb.inode i) j = true →
        covers (sb.inode k) j = true → i = k := by
  induction n with
  | zero =>
    rw [coverCountBelow_zero]
    simp
  | succ n ih =>
    rw [coverCountBelow_succ]
    by_cases hc : covers (sb.inode n) j = true
    · rw [if_pos hc]
      constructor
      · intro hle i k hi hk hci hck
        have h0 : ¬ 1 ≤ coverCountBelow sb n j := by omega
        rw [coverCountBelow_pos_iff] at h0
        by_cases hin : i = n
        · by_cases hkn : k = n
          · omega
          · exact absurd ⟨k, by omega, hck⟩ h0
        · exact absurd ⟨i, by omega, hci⟩ h0
      · intro hall
        have h0 : ¬ 1 ≤ coverCountBelow sb n j := by
          rw [coverCountBelow_pos_iff]
          rintro ⟨i, hi, hci⟩
          have := hall i n (by omega) (by omega) hci hc
          omega
        omega
    · rw [if_neg hc, Nat.add_zero, ih]
      constructor
      · intro hall i k hi hk hci hck
        have hin : i ≠ n := fun h => hc (h ▸ hci)
        have hkn : k ≠ n := fun h => hc (h ▸ hck)
        exact hall i k (by omega) (by omega) hci hck
      · intro hall i k hi hk hci hck
        exact hall i k (by omega) (by omega) hci hck

theorem covers_range_of_inv2 (sb : Superblock) (h2 : Inv2 sb) (i j : Nat) (hi : i < 126)
    (hc : covers (sb.inode i) j = true) : 1 ≤ j ∧ j ≤ 127 := by
  rw [covers_iff] at hc
  obtain ⟨hu, hd, hs, he⟩ := hc
  have := h2 i hi hu hd
  omega

theorem rule2_of_inv2 (sb : Superblock) (h2 : Inv2 sb) : Rule2 sb := by
  intro i hi hu hd
  have := h2 i hi hu hd
  omega

/-- The six invariants without overlap, in terms of single inodes. -/
theorem consistent_iff (sb : Superblock) :
    Consistent sb ↔ (Invariants sb ∧ NoOverlap sb) := by
  unfold Consistent Invariants
  constructor
  · rintro ⟨h1, h2, h3, h4, h5, hb, hd⟩
    have hno : NoOverlap sb := by
      intro j _ _
      unfold coverCount
      rw [coverCountBelow_le_one_iff]
      intro i k hi hk hci hck
      exact hd j i k hi hk hci hck
    refine ⟨⟨h1, h2, h3, h4, h5, ?_⟩, hno⟩
    intro j hj1 hj2
    rw [hb j hj1 hj2, ← coverCount_pos_iff]
    have := hno j hj1 hj2
    omega
  · rintro ⟨⟨h1, h2, h3, h4, h5, h6⟩, hno⟩
    refine ⟨h1, h2, h3, h4, h5, ?_, ?_⟩
    · intro j hj1 hj2
      rw [h6 j hj1 hj2, ← coverCount_pos_iff]
      have := hno j hj1 hj2
      omega
    · intro j i k hi hk hci hck
      have hr := covers_range_of_inv2 sb h2 i j hi hci
      have := hno j hr.1 hr.2
      unfold coverCount at this
      rw [coverCountBelow_le_one_iff] at this
      exact this i k hi hk hci hck

/-- A superblock with the six invariants and without overlap passes the
checker. -/
theorem consistent_check (sb : Superblock) (h : Consistent sb) :
    consistency_check sb = 0 := by
  obtain ⟨hinv, hno⟩ := (consistent_iff sb).1 h
  obtain ⟨h1, h2, h3, h4, h5, h6⟩ := hinv
  exact (checker_zero_or_six sb h1 (rule2_of_inv2 sb h2) h3 h4 h5).2.2 h6 hno

/-! ## Adding and removing one inode -/

theorem covers_unused (n : Inode) (j : Nat) (h : n.isused = false) : covers n j = false := by
  unfold covers
  rw [h]
  rfl

theorem covers_dir (n : Inode) (j : Nat) (h : n.isdir = true) : covers n j = false := by
  unfold covers
  rw [h]
  simp

/-- Removing an inode without children keeps the invariants, when the bits of
its blocks are cleared. -/
theorem consistent_remove (sb : Superblock) (fbl' : Nat → Nat) (t : Nat)
    (h : Consistent sb) (ht : t < 126)
    (hchild : ∀ i, i < 126 → (sb.inode i).isused = true → (sb.inode i).parent ≠ t)
    (hbits : ∀ j, 1 ≤ j → j ≤ 127 →
      bit_is_set fbl' j = (bit_is_set sb.free_block_list j && !covers (sb.inode t) j)) :
    Consistent ⟨fbl', Function.update sb.inode t zeroInode⟩ := by
  obtain ⟨h1, h2, h3, h4, h5, hb, hd⟩ := h
  have hne : ∀ i, i ≠ t → Function.update sb.inode t zeroInode i = sb.inode i :=
    fun i hi => Function.update_noteq hi _ _
  have hsame : Function.update sb.inode t zeroInode t = zeroInode := Function.update_same _ _ _
  have hused : ∀ i, (Function.update sb.inode t zeroInode i).isused = true →
      i ≠ t ∧ (sb.inode i).isused = true := by
    intro i hu
    by_cases hi : i = t
    · subst hi
      rw [hsame, zeroInode_unused] at hu
      exact Bool.noConfusion hu
    · rw [hne i hi] at hu
      exact ⟨hi, hu⟩
  have hcov : ∀ i j, covers (Function.update sb.inode t zeroInode i) j = true →
      i ≠ t ∧ covers (sb.inode i) j = true := by
    intro i j hc
    by_cases hi : i = t
    · subst hi
      rw [hsame, covers_zeroInode] at hc
      exact Bool.noConfusion hc
    · rw [hne i hi] at hc
      exact ⟨hi, hc⟩
  refine ⟨?_, ?_, ?_, ?_, ?_, ?_, ?_⟩
  · intro i hi
    show (((Function.update sb.inode t zeroInode i).isused = false →
        Function.update sb.inode t zeroInode i = zeroInode) ∧
      ((Function.update sb.inode t zeroInode i).isused = true →
        (Function.update sb.inode t zeroInode i).name.c0 ≠ 0))
    by_cases hit : i = t
    · subst hit
      rw [hsame]
      exact ⟨fun _ => rfl, fun hu => by rw [zeroInode_unused] at hu; exact Bool.noConfusion hu⟩
    · rw [hne i hit]
      exact h1 i hi
  · intro i hi hu hdir
    obtain ⟨hit, _⟩ := hused i hu
    change (Function.update sb.inode t zeroInode i).isused = true at hu
    change (Function.update sb.inode t zeroInode i).isdir = false at hdir
    show 1 ≤ (Function.update sb.inode t zeroInode i).start_block ∧
      (Function.update sb.inode t zeroInode i).start_block +
        (Function.update sb.inode t zeroInode i).size - 1 ≤ 127 ∧
      1 ≤ (Function.update sb.inode t zeroInode i).size
    rw [hne i hit] at hu hdir ⊢
    exact h2 i hi hu hdir
  · intro i hi hu hdir
    obtain ⟨hit, _⟩ := hused i hu
    change (Function.update sb.inode t zeroInode i).isused = true at hu
    change (Function.update sb.inode t zeroInode i).isdir = true at hdir
    show (Function.update sb.inode t zeroInode i).size = 0 ∧
      (Function.update sb.inode t zeroInode i).start_block = 0
    rw [hne i hit] at hu hdir ⊢
    exact h3 i hi hu hdir
  · intro i hi hu
    obtain ⟨hit, hu'⟩ := hused i hu
    show (Function.update sb.inode t zeroInode i).parent ≠ i ∧
      (Function.update sb.inode t zeroInode i).parent ≠ 126 ∧
      ((Function.update sb.inode t zeroInode i).parent ≤ 125 →
        (Function.update sb.inode t zeroInode
          (Function.update sb.inode t zeroInode i).parent).isused = true ∧
        (Function.update sb.inode t zeroInode
          (Function.update sb.inode t zeroInode i).parent).isdir = true)
    rw [hne i hit]
    obtain ⟨ha, hb', hc⟩ := h4 i hi hu'
    refine ⟨ha, hb', ?_⟩
    intro hp
    rw [hne _ (hchild i hi hu')]
    exact hc hp
  · intro i hi k hk hcond
    obtain ⟨hik, hui, huk, hpar⟩ := hcond
    obtain ⟨hit, hui'⟩ := hused i hui
    obtain ⟨hkt, huk'⟩ := hused k huk
    change (Function.update sb.inode t zeroInode i).parent =
      (Function.update sb.inode t zeroInode k).parent at hpar
    show (Function.update sb.inode t zeroInode i).name ≠
      (Function.update sb.inode t zeroInode k).name
    rw [hne i hit, hne k hkt] at hpar ⊢
    exact h5 i hi k hk ⟨hik, hui', huk', hpar⟩
  · intro j hj1 hj2
    show bit_is_set fbl' j = true ↔
      ∃ i, i < 126 ∧ covers (Function.update sb.inode t zeroInode i) j = true
    rw [hbits j hj1 hj2]
    constructor
    · intro hbit
      simp only [Bool.and_eq_true, Bool.not_eq_true'] at hbit
      obtain ⟨i, hi, hc⟩ := (hb j hj1 hj2).1 hbit.1
      have hit : i ≠ t := by
        intro hit
        rw [hit, hbit.2] at hc
        exact Bool.noConfusion hc
      exact ⟨i, hi, by rw [hne i hit]; exact hc⟩
    · rintro ⟨i, hi, hc⟩
      obtain ⟨hit, hc'⟩ := hcov i j hc
      simp only [Bool.and_eq_true, Bool.not_eq_true']
      refine ⟨(hb j hj1 hj2).2 ⟨i, hi, hc'⟩, ?_⟩
      cases hct : covers (sb.inode t) j with
      | false => rfl
      | true => exact absurd (hd j i t hi ht hc' hct) hit
  · intro j i k hi hk hci hck
    obtain ⟨_, hci'⟩ := hcov i j hci
    obtain ⟨_, hck'⟩ := hcov k j hck
    exact hd j i k hi hk hci' hck'

/-- Filling a free slot with a well-formed inode keeps the invariants, when
the bits of its blocks were clear and are set. -/
theorem consistent_create (sb : Superblock) (fbl' : Nat → Nat) (idx : Nat) (n : Inode)
    (h : Consistent sb) (hidx : idx < 126) (hfree : (sb.inode idx).isused = false)
    (hnu : n.isused = true) (hname : n.name.c0 ≠ 0)
    (hfile : n.isdir = false →
      1 ≤ n.start_block ∧ n.start_block + n.size - 1 ≤ 127 ∧ 1 ≤ n.size)
    (hdir : n.isdir = true → n.size = 0 ∧ n.start_block = 0)
    (hpar : n.parent = 127 ∨ (n.parent < 126 ∧ (sb.inode n.parent).isused = true ∧
      (sb.inode n.parent).isdir = true))
    (huniq : ∀ i, i < 126 → (sb.inode i).isused = true →
      (sb.inode i).parent = n.parent → (sb.inode i).name ≠ n.name)
    (hrun : ∀ j, covers n j = true → bit_is_set sb.free_block_list j = false)
    (hbits : ∀ j, 1 ≤ j → j ≤ 127 →
      bit_is_set fbl' j = (bit_is_set sb.free_block_list j || covers n j)) :
    Consistent ⟨fbl', Function.update sb.inode idx n⟩ := by
  obtain ⟨h1, h2, h3, h4, h5, hb, hd⟩ := h
  have hne : ∀ i, i ≠ idx → Function.update sb.inode idx n i = sb.inode i :=
    fun i hi => Function.update_noteq hi _ _
  have hsame : Function.update sb.inode idx n idx = n := Function.update_same _ _ _
  have hpidx : n.parent ≠ idx := by
    rcases hpar with hp | ⟨_, hp, _⟩
    · omega
    · intro he
      rw [he, hfree] at hp
      exact Bool.noConfusion hp
  have hcovold : ∀ j, covers (sb.inode idx) j = false := fun j => covers_unused _ j hfree
  refine ⟨?_, ?_, ?_, ?_, ?_, ?_, ?_⟩
  · intro i hi
    show (((Function.update sb.inode idx n i).isused = false →
        Function.update sb.inode idx n i = zeroInode) ∧
      ((Function.update sb.inode idx n i).isused = true →
        (Function.update sb.inode idx n i).name.c0 ≠ 0))
    by_cases hit : i = idx
    · subst hit
      rw [hsame]
      exact ⟨fun hu => by rw [hnu] at hu; exact Bool.noConfusion hu, fun _ => hname⟩
    · rw [hne i hit]
      exact h1 i hi
  · intro i hi hu hdr
    change (Function.update sb.inode idx n i).isused = true at hu
    change (Function.update sb.inode idx n i).isdir = false at hdr
    show 1 ≤ (Function.update sb.inode idx n i).start_block ∧
      (Function.update sb.inode idx n i).start_block +
        (Function.update sb.inode idx n i).size - 1 ≤ 127 ∧
      1 ≤ (Function.update sb.inode idx n i).size
    by_cases hit : i = idx
    · subst hit
      rw [hsame] at hdr ⊢
      exact hfile hdr
    · rw [hne i hit] at hu hdr ⊢
      exact h2 i hi hu hdr
  · intro i hi hu hdr
    change (Function.update sb.inode idx n i).isused = true at hu
    change (Function.update sb.inode idx n i).isdir = true at hdr
    show (Function.update sb.inode idx n i).size = 0 ∧
      (Function.update sb.inode idx n i).start_block = 0
    by_cases hit : i = idx
    · subst hit
      rw [hsame] at hdr ⊢
      exact hdir hdr
    · rw [hne i hit] at hu hdr ⊢
      exact h3 i hi hu hdr
  · intro i hi hu
    change (Function.update sb.inode idx n i).isused = true at hu
    show (Function.update sb.inode idx n i).parent ≠ i ∧
      (Function.update sb.inode idx n i).parent ≠ 126 ∧
      ((Function.update sb.inode idx n i).parent ≤ 125 →
        (Function.update sb.inode idx n
          (Function.update sb.inode idx n i).parent).isused = true ∧
        (Function.update sb.inode idx n
          (Function.update sb.inode idx n i).parent).isdir = true)
    by_cases hit : i = idx
    · subst hit
      rw [hsame, hne _ hpidx]
      refine ⟨hpidx, ?_, ?_⟩
      · rcases hpar with hp | ⟨hp, _, _⟩ <;> omega
      · intro hle
        rcases hpar with hp | ⟨_, hp1, hp2⟩
        · omega
        · exact ⟨hp1, hp2⟩
    · rw [hne i hit] at hu ⊢
      obtain ⟨ha, hb', hc⟩ := h4 i hi hu
      refine ⟨ha, hb', ?_⟩
      intro hp
      have hpu := hc hp
      have hpne : (sb.inode i).parent ≠ idx := by
        intro he
        rw [he, hfree] at hpu
        exact Bool.noConfusion hpu.1
      rw [hne _ hpne]
      exact hpu
  · intro i hi k hk hcond
    obtain ⟨hik, hui, huk, hpp⟩ := hcond
    change (Function.update sb.inode idx n i).isused = true at hui
    change (Function.update sb.inode idx n k).isused = true at huk
    change (Function.update sb.inode idx n i).parent =
      (Function.update sb.inode idx n k).parent at hpp
    show (Function.update sb.inode idx n i).name ≠ (Function.update sb.inode idx n k).name
    by_cases hit : i = idx
    · have hkt : k ≠ idx := fun hk' => hik (hit.trans hk'.symm)
      rw [hit, hsame, hne k hkt] at hpp ⊢
      rw [hne k hkt] at huk
      exact fun he => huniq k hk huk hpp.symm he.symm
    · rw [hne i hit] at hui hpp ⊢
      by_cases hkt : k = idx
      · rw [hkt, hsame] at hpp ⊢
        exact huniq i hi hui hpp
      · rw [hne k hkt] at huk hpp ⊢
        exact h5 i hi k hk ⟨hik, hui, huk, hpp⟩
  · intro j hj1 hj2
    show bit_is_set fbl' j = true ↔
      ∃ i, i < 126 ∧ covers (Function.update sb.inode idx n i) j = true
    rw [hbits j hj1 hj2]
    simp only [Bool.or_eq_true]
    constructor
    · rintro (hbit | hcn)
      · obtain ⟨i, hi, hc⟩ := (hb j hj1 hj2).1 hbit
        have hit : i ≠ idx := by
          intro hit
          rw [hit, hcovold] at hc
          exact Bool.noConfusion hc
        exact ⟨i, hi, by rw [hne i hit]; exact hc⟩
      · exact ⟨idx, hidx, by rw [hsame]; exact hcn⟩
    · rintro ⟨i, hi, hc⟩
      by_cases hit : i = idx
      · rw [hit, hsame] at hc
        exact Or.inr hc
      · rw [hne i hit] at hc
        exact Or.inl ((hb j hj1 hj2).2 ⟨i, hi, hc⟩)
  · intro j i k hi hk hci hck
    change covers (Function.update sb.inode idx n i) j = true at hci
    change covers (Function.update sb.inode idx n k) j = true at hck
    have hjr : ∀ m, m < 126 → m ≠ idx → covers (sb.inode m) j = true →
        covers n j = true → False := by
      intro m hm _ hcm hcn
      have hr := covers_range_of_inv2 sb h2 m j hm hcm
      have hset := (hb j hr.1 hr.2).2 ⟨m, hm, hcm⟩
      rw [hrun j hcn] at hset
      exact Bool.noConfusion hset
    by_cases hit : i = idx
    · by_cases hkt : k = idx
      · rw [hit, hkt]
      · rw [hit, hsame] at hci
        rw [hne k hkt] at hck
        exact absurd hci (fun hcn => hjr k hk hkt hck hcn)
    · rw [hne i hit] at hci
      by_cases hkt : k = idx
      · rw [hkt, hsame] at hck
        exact absurd hck (fun hcn => hjr i hi hit hci hcn)
      · rw [hne k hkt] at hck
        exact hd j i k hi hk hci hck

/-! ## `fs_create` keeps the invariants -/

theorem create_commit_sb (st : State) (idx : Nat) (name : Name) (size s : Nat) :
    (create_commit st idx name size s).sb =
      ⟨(set_fbl_bits st.sb s size true).free_block_list,
        Function.update st.sb.inode idx (new_inode st.cwd name size s)⟩ := by
  unfold create_commit write_superblock
  simp only
  by_cases hs : 0 < size
  · rw [if_pos hs]; rfl
  · rw [if_neg hs]
    have : size = 0 := by omega
    subst this
    rfl

theorem new_inode_fields (cwd : Nat) (name : Name) (size s : Nat)
    (hcw : cwd < 128) (hsz : size < 128) (hs : s < 256) :
    (new_inode cwd name size s).isused = true ∧
    (new_inode cwd name size s).size = size ∧
    (new_inode cwd name size s).isdir = decide (size = 0) ∧
    (new_inode cwd name size s).parent = cwd ∧
    (new_inode cwd name size s).start_block = (if size = 0 then 0 else s) ∧
    (new_inode cwd name size s).name = strncpy5 name := by
  refine ⟨enc_used size, enc_low size hsz, ?_, ?_, ?_, rfl⟩
  · by_cases h0 : size = 0
    · simp only [new_inode, Inode.isdir, h0, if_true, decide_True]
      exact enc_used _
    · simp only [new_inode, Inode.isdir, h0, if_false, decide_False]
      exact enc_plain_flag _ hcw
  · by_cases h0 : size = 0
    · simp only [new_inode, Inode.parent, h0, if_true]
      exact enc_low _ hcw
    · simp only [new_inode, Inode.parent, h0, if_false]
      exact enc_plain_low _ hcw
  · by_cases h0 : size = 0
    · simp only [new_inode, h0, if_true]
    · simp only [new_inode, h0, if_false]
      exact Nat.mod_eq_of_lt hs

/-- The commit of `fs_create` keeps the invariants. -/
theorem create_commit_consistent (st : State) (idx : Nat) (name : Name) (size s : Nat)
    (h : Consistent st.sb) (hcwd : CwdOK st) (hname : name.validated)
    (hidx : idx < 126) (hfree : (st.sb.inode idx).isused = false)
    (hfe : file_exists st name = none)
    (hrun : size ≠ 0 → IsFreeRun st.sb.free_block_list size s) :
    Consistent (create_commit st idx name size s).sb := by
  rw [create_commit_sb]
  have hcw : st.cwd < 128 := by
    rcases hcwd with hc | ⟨hc, _, _⟩ <;> omega
  by_cases h0 : size = 0
  · subst h0
    obtain ⟨f1, f2, f3, f4, f5, f6⟩ := new_inode_fields st.cwd name 0 0 hcw (by omega) (by omega)
    have hsame : new_inode st.cwd name 0 s = new_inode st.cwd name 0 0 := rfl
    rw [hsame]
    simp only [decide_True] at f3
    apply consistent_create st.sb _ idx _ h hidx hfree f1
    · rw [f6, strncpy5_validated name hname]; exact hname.1
    · intro hd; rw [f3] at hd; exact Bool.noConfusion hd
    · intro _; exact ⟨f2, f5⟩
    · rw [f4]
      rcases hcwd with hc | hc
      · exact Or.inl hc
      · exact Or.inr hc
    · intro i hi hu hp hn
      rw [f4] at hp
      rw [f6, strncpy5_validated name hname] at hn
      exact (file_exists_none_iff st name).1 hfe i hi ⟨hu, hn.symm, hp⟩
    · intro j hc
      rw [covers_dir _ j f3] at hc
      exact Bool.noConfusion hc
    · intro j _ _
      rw [covers_dir _ j f3, Bool.or_false]
      rfl
  · obtain ⟨hr1, hr2, hr3⟩ := hrun h0
    have hsz : size < 128 := by omega
    have hs : s < 256 := by omega
    obtain ⟨f1, f2, f3, f4, f5, f6⟩ := new_inode_fields st.cwd name size s hcw hsz hs
    simp only [h0, decide_False, if_false] at f3 f5
    have hcov : ∀ j, covers (new_inode st.cwd name size s) j = true ↔ (s ≤ j ∧ j < s + size) := by
      intro j
      rw [covers_iff, f1, f2, f3, f5]
      simp
    apply consistent_create st.sb _ idx _ h hidx hfree f1
    · rw [f6, strncpy5_validated name hname]; exact hname.1
    · intro _; rw [f2, f5]; exact ⟨hr1, hr2, by omega⟩
    · intro hd; rw [f3] at hd; exact Bool.noConfusion hd
    · rw [f4]
      rcases hcwd with hc | hc
      · exact Or.inl hc
      · exact Or.inr hc
    · intro i hi hu hp hn
      rw [f4] at hp
      rw [f6, strncpy5_validated name hname] at hn
      exact (file_exists_none_iff st name).1 hfe i hi ⟨hu, hn.symm, hp⟩
    · intro j hc
      obtain ⟨hj1, hj2⟩ := (hcov j).1 hc
      have := hr3 (j - s) (by omega)
      rw [show s + (j - s) = j by omega] at this
      exact this
    · intro j hj1 _
      rw [bit_is_set_set_fbl_bits]
      by_cases hj : s ≤ j ∧ j < s + size
      · rw [if_pos ⟨hj.1, hj.2, by omega⟩, (hcov j).2 hj, Bool.or_true]
      · have hcf : covers (new_inode st.cwd name size s) j = false := by
          cases hc : covers (new_inode st.cwd name size s) j with
          | false => rfl
          | true => exact absurd ((hcov j).1 hc) hj
        rw [if_neg (fun hh => hj ⟨hh.1, hh.2.1⟩), hcf, Bool.or_false]

/-- The function `fs_create` keeps the invariants, whether it succeeds or not. -/
theorem fs_create_consistent (st : State) (name : Name) (size : Nat)
    (h : Consistent st.sb) (hcwd : CwdOK st) (hname : name.validated) :
    Consistent (fs_create st name size).1.sb := by
  cases he : (fs_create st name size).2 with
  | some e =>
    rw [fs_create_error_state st name size e he]
    exact h
  | none =>
    have hpair : fs_create st name size = ((fs_create st name size).1, none) :=
      Prod.ext rfl he
    obtain ⟨c1, hfe, _, _, hcase⟩ := fs_create_ok st _ name size hpair
    obtain ⟨hidx, hfree, _⟩ := create_scan_idx st.sb c1
    rcases hcase with ⟨hz, hst⟩ | ⟨hpos, s, hs, hst⟩
    · rw [hst]
      exact create_commit_consistent st _ name 0 0 h hcwd hname (by omega) hfree hfe
        (fun hne => absurd rfl hne)
    · rw [hst]
      exact create_commit_consistent st _ name size s h hcwd hname (by omega) hfree hfe
        (fun _ => ((alloc_scan_some_iff _ size s hpos).1 hs).1)

/-! ## `fs_create` followed by `fs_delete` -/

theorem delete_file_succ (fuel t : Nat) (st : State) :
    delete_file (fuel + 1) t st =
      (if (st.sb.inode t).isdir then (List.range 126).foldlM (delete_step fuel t) st
        else some { st with
          disk := zero_blocks st.disk (st.sb.inode t).start_block (st.sb.inode t).size
          sb := set_fbl_bits st.sb (st.sb.inode t).start_block (st.sb.inode t).size false }).map
        (fun s => { s with sb := zero_inode s.sb t }) := rfl

theorem fold_no_children (fuel t : Nat) (st : State) (n : Nat)
    (h : ∀ i, i < n → i ≠ t →
      ¬ ((st.sb.inode i).isused = true ∧ (st.sb.inode i).parent = t)) :
    (List.range n).foldlM (delete_step fuel t) st = some st := by
  induction n with
  | zero => rfl
  | succ n ih =>
    rw [List.range_succ, List.foldlM_append, ih (fun i hi => h i (by omega))]
    simp only [Option.bind_eq_bind, Option.some_bind, List.foldlM_cons, List.foldlM_nil]
    unfold delete_step
    by_cases hn : n = t
    · rw [if_pos hn]; rfl
    · rw [if_neg hn]
      have := h n (by omega) hn
      have hc : ((st.sb.inode n).isused && decide ((st.sb.inode n).parent = t)) = false := by
        cases hu : (st.sb.inode n).isused
        · rfl
        · by_cases hp : (st.sb.inode n).parent = t
          · exact absurd ⟨hu, hp⟩ this
          · simp [hp]
      rw [hc]
      rfl

theorem superblock_ext (a b : Superblock) (h1 : a.free_block_list = b.free_block_list)
    (h2 : a.inode = b.inode) : a = b := by
  cases a; cases b
  simp only at h1 h2
  rw [h1, h2]

theorem fbl_fold_zero (set : Bool) (sb : Superblock) (s : Nat) :
    (set_fbl_bits sb s 0 set).free_block_list = sb.free_block_list := rfl

/-- The helper behind C10: deleting what a successful `fs_create` has just made. -/
theorem delete_after_create (st st1 : State) (name : Name) (size fuel : Nat)
    (h1 : Rule1 st.sb) (h4 : Rule4 st.sb) (hcwd : st.cwd ≤ 127)
    (hbytes : ∀ b, b < 16 → st.sb.free_block_list b < 256)
    (hname : name.validated) (hc : fs_create st name size = (st1, none)) :
    ∃ st2, fs_delete (fuel + 1) st1 name = some (st2, none) ∧ st2.sb = st.sb ∧
      st2.cwd = st.cwd ∧ st2.fs_buffer = st.fs_buffer ∧
      (∀ k, bit_is_set st.sb.free_block_list k = false →
        bit_is_set st1.sb.free_block_list k = true → st2.disk k = zero_buff) := by
  obtain ⟨c1, hfe, _, _, hcase⟩ := fs_create_ok st st1 name size hc
  obtain ⟨hidx, hfree, _⟩ := create_scan_idx st.sb c1
  have hcw : st.cwd < 128 := by omega
  -- the start block and the facts about the run
  have hex : ∃ s, st1 = create_commit st (create_scan st.sb 126 ⟨false, 0, 0⟩).idx name size s ∧
      (size ≠ 0 → IsFreeRun st.sb.free_block_list size s) ∧ (size = 0 → s = 0) := by
    rcases hcase with ⟨hz, hst⟩ | ⟨hpos, s, hs, hst⟩
    · subst hz
      exact ⟨0, hst, fun hne => absurd rfl hne, fun _ => rfl⟩
    · exact ⟨s, hst, fun _ => ((alloc_scan_some_iff _ size s hpos).1 hs).1, fun h0 => by omega⟩
  obtain ⟨s, hst, hrun, hs0⟩ := hex
  generalize hidxdef : (create_scan st.sb 126 ⟨false, 0, 0⟩).idx = idx at *
  have hsz : size < 128 := by
    by_cases h0 : size = 0
    · omega
    · obtain ⟨hr1, hr2, _⟩ := hrun h0
      omega
  have hs256 : s < 256 := by
    by_cases h0 : size = 0
    · have := hs0 h0; omega
    · obtain ⟨hr1, hr2, _⟩ := hrun h0
      omega
  obtain ⟨f1, f2, f3, f4, f5, f6⟩ := new_inode_fields st.cwd name size s hcw hsz hs256
  rw [strncpy5_validated name hname] at f6
  have hsb1 := create_commit_sb st idx name size s
  rw [← hst] at hsb1
  have hin : ∀ i, st1.sb.inode i = if i = idx then new_inode st.cwd name size s
      else st.sb.inode i := by
    intro i
    rw [hsb1]
    show Function.update st.sb.inode idx (new_inode st.cwd name size s) i = _
    rw [Function.update_apply]
  have hcwd1 : st1.cwd = st.cwd := by rw [hst]; rfl
  have hbuf1 : st1.fs_buffer = st.fs_buffer := by rw [hst]; rfl
  -- the lookup finds the new inode
  have hfind : file_exists st1 name = some idx := by
    cases hf : file_exists st1 name with
    | none =>
      have := (file_exists_none_iff st1 name).1 hf idx (by omega)
      rw [hin idx, if_pos rfl, f1, f4, f6, hcwd1] at this
      exact absurd ⟨rfl, rfl, rfl⟩ this
    | some k =>
      obtain ⟨hk, hku, hkn, hkp, _⟩ := file_exists_some st1 name k hf
      by_cases hki : k = idx
      · rw [hki]
      · rw [hin k, if_neg hki] at hku hkn hkp
        rw [hcwd1] at hkp
        exact absurd ⟨hku, hkn, hkp⟩ ((file_exists_none_iff st name).1 hfe k hk)
  -- the new inode has no children
  have hnochild : ∀ i, i < 126 → i ≠ idx →
      ¬ ((st1.sb.inode i).isused = true ∧ (st1.sb.inode i).parent = idx) := by
    intro i hi hne hcon
    rw [hin i, if_neg hne] at hcon
    have := (h4 i hi hcon.1).2.2 (by rw [hcon.2]; omega)
    rw [hcon.2, hfree] at this
    exact Bool.noConfusion this.1
  have hzero : st.sb.inode idx = zeroInode := (h1 idx (by omega)).1 hfree
  have hinode_back : Function.update st1.sb.inode idx zeroInode = st.sb.inode := by
    funext i
    rw [Function.update_apply]
    by_cases hi : i = idx
    · rw [if_pos hi, hi, hzero]
    · rw [if_neg hi, hin i, if_neg hi]
  have hbit1 : ∀ k, bit_is_set st1.sb.free_block_list k =
      if s ≤ k ∧ k < s + size ∧ k ≠ 0 then true else bit_is_set st.sb.free_block_list k := by
    intro k
    rw [hsb1]
    exact bit_is_set_set_fbl_bits st.sb s size true k
  unfold fs_delete
  rw [hfind]
  simp only
  rw [delete_file_succ, hin idx, if_pos rfl, f2, f3, f5]
  by_cases h0 : size = 0
  · simp only [h0, decide_True, if_true]
    rw [fold_no_children fuel idx st1 126 (fun i hi hne => hnochild i hi hne)]
    simp only [Option.map_some']
    refine ⟨_, rfl, ?_, hcwd1, hbuf1, ?_⟩
    · apply superblock_ext
      · show st1.sb.free_block_list = st.sb.free_block_list
        rw [hsb1, h0]
        rfl
      · exact hinode_back
    · intro k hk0 hk1
      rw [hbit1 k, h0] at hk1
      have : ¬ (s ≤ k ∧ k < s + 0 ∧ k ≠ 0) := by omega
      rw [if_neg this, hk0] at hk1
      exact Bool.noConfusion hk1
  · simp only [h0, decide_False, if_false, Bool.false_eq_true]
    simp only [Option.map_some']
    obtain ⟨hr1, hr2, hr3⟩ := hrun h0
    refine ⟨_, rfl, ?_, hcwd1, hbuf1, ?_⟩
    · apply superblock_ext
      · show (set_fbl_bits st1.sb s size false).free_block_list = st.sb.free_block_list
        rw [hsb1]
        apply clear_set_free_run st.sb.free_block_list s size hbytes (by omega)
        intro j hj1 hj2 _
        have := hr3 (j - s) (by omega)
        rw [show s + (j - s) = j by omega] at this
        exact this
      · exact hinode_back
    · intro k hk0 hk1
      rw [hbit1 k] at hk1
      by_cases hk : s ≤ k ∧ k < s + size ∧ k ≠ 0
      · show Function.update (zero_blocks st1.disk s size) 0 _ k = zero_buff
        rw [Function.update_noteq hk.2.2, zero_blocks_spec, if_pos ⟨hk.1, hk.2.1⟩]
      · rw [if_neg hk, hk0] at hk1
        exact Bool.noConfusion hk1

/-- C10: on a state with the six invariants, after a successful `fs_create`
with a validated name, `fs_delete` of the same name succeeds and leaves the
superblock (bitmap and inode table, hence its 1024-byte image) equal to the one
before the create, and every block that the create had allocated is zero. -/
theorem create_then_delete_restores (st st1 : State) (name : Name) (size fuel : Nat)
    (hinv : Invariants st.sb) (hcwd : st.cwd ≤ 127)
    (hbytes : ∀ b, b < 16 → st.sb.free_block_list b < 256)
    (hname : name.validated) (hc : fs_create st name size = (st1, none)) :
    ∃ st2, fs_delete (fuel + 1) st1 name = some (st2, none) ∧ st2.sb = st.sb ∧
      st2.sb.image = st.sb.image ∧
      (∀ k, bit_is_set st.sb.free_block_list k = false →
        bit_is_set st1.sb.free_block_list k = true → st2.disk k = zero_buff) := by
  obtain ⟨st2, h1, h2, _, _, h5⟩ :=
    delete_after_create st st1 name size fuel hinv.1 hinv.2.2.2.1 hcwd hbytes hname hc
  exact ⟨st2, h1, h2, by rw [h2], h5⟩

/-- The six invariants hold on a fresh disk. -/
theorem freshSb_invariants : Invariants freshSb :=
  invariants_of_below freshSb 0 (by omega) (fun _ _ => rfl) (by decide!) (by decide!)
    (by decide!)

/-- Witness of C10: `C foo 3` and then `D foo` on a fresh disk. -/
theorem create_then_delete_restores_witness :
    ∃ st2, fs_delete 1 (fs_create freshState ⟨102, 111, 111, 0, 0⟩ 3).1
        ⟨102, 111, 111, 0, 0⟩ = some (st2, none) ∧ st2.sb = freshState.sb := by
  obtain ⟨st2, h1, h2, _⟩ :=
    create_then_delete_restores freshState (fs_create freshState ⟨102, 111, 111, 0, 0⟩ 3).1
      ⟨102, 111, 111, 0, 0⟩ 3 0 freshSb_invariants (by decide) (by decide) (by decide)
      (Prod.ext rfl (by decide!))
  exact ⟨st2, h1, h2⟩

/-! ## Parent chains -/

theorem depthIs_succ (sb : Superblock) (d i : Nat) :
    depthIs sb (d + 1) i = true ↔ (i < 126 ∧ depthIs sb d (sb.inode i).parent = true) := by
  simp [depthIs]

theorem depthIs_zero (sb : Superblock) (i : Nat) : depthIs sb 0 i = true ↔ i = 127 := by
  simp [depthIs]

theorem depthIs_unique (sb : Superblock) (d : Nat) :
    ∀ e i, depthIs sb d i = true → depthIs sb e i = true → d = e := by
  induction d with
  | zero =>
    intro e i h1 h2
    rw [depthIs_zero] at h1
    cases e with
    | zero => rfl
    | succ e =>
      rw [depthIs_succ] at h2
      omega
  | succ d ih =>
    intro e i h1 h2
    rw [depthIs_succ] at h1
    cases e with
    | zero =>
      rw [depthIs_zero] at h2
      omega
    | succ e =>
      rw [depthIs_succ] at h2
      rw [ih e _ h1.2 h2.2]

theorem depthIs_iterate (sb : Superblock) (a : Nat) :
    ∀ d i, depthIs sb d i = true → a ≤ d →
      depthIs sb (d - a) ((fun x => (sb.inode x).parent)^[a] i) = true := by
  induction a with
  | zero => intro d i h _; exact h
  | succ a ih =>
    intro d i h had
    cases d with
    | zero => omega
    | succ d =>
      rw [depthIs_succ] at h
      rw [Function.iterate_succ_apply, show d + 1 - (a + 1) = d - a by omega]
      exact ih d _ h.2 (by omega)

/-- A parent chain that arrives at 127 has at most 126 steps. -/
theorem depthIs_le (sb : Superblock) (d i : Nat) (h : depthIs sb d i = true) : d ≤ 126 := by
  have hmaps : ∀ a ∈ Finset.range d,
      (fun x => (sb.inode x).parent)^[a] i ∈ Finset.range 126 := by
    intro a ha
    rw [Finset.mem_range] at ha ⊢
    have := depthIs_iterate sb a d i h (by omega)
    rw [show d - a = (d - a - 1) + 1 by omega, depthIs_succ] at this
    exact this.1
  have hinj : Set.InjOn (fun a => (fun x => (sb.inode x).parent)^[a] i)
      (Finset.range d : Set Nat) := by
    intro a ha b hb hab
    simp only [Finset.coe_range, Set.mem_Iio] at ha hb
    simp only at hab
    have h1 := depthIs_iterate sb a d i h (by omega)
    have h2 := depthIs_iterate sb b d i h (by omega)
    rw [hab] at h1
    have := depthIs_unique sb _ _ _ h1 h2
    omega
  have := Finset.card_le_card_of_injOn _ hmaps hinj
  simpa using this

theorem reachesRoot_depth (sb : Superblock) (k : Nat) :
    ∀ i, reachesRoot sb k i = true → ∃ d, depthIs sb d i = true := by
  induction k with
  | zero =>
    intro i h
    exact ⟨0, by simpa [reachesRoot, depthIs] using h⟩
  | succ k ih =>
    intro i h
    simp only [reachesRoot, Bool.or_eq_true, beq_iff_eq, Bool.and_eq_true,
      decide_eq_true_eq] at h
    rcases h with h | ⟨h1, h2⟩
    · exact ⟨0, (depthIs_zero sb i).2 h⟩
    · obtain ⟨d, hd⟩ := ih _ h2
      exact ⟨d + 1, (depthIs_succ sb d i).2 ⟨h1, hd⟩⟩

theorem depthIs_transfer (sb sb' : Superblock) (d : Nat)
    (h : ∀ i e, depthIs sb e i = true → e ≤ d → sb'.inode i = sb.inode i) :
    ∀ e i, e ≤ d → depthIs sb e i = true → depthIs sb' e i = true := by
  intro e
  induction e with
  | zero =>
    intro i _ hd
    rw [depthIs_zero] at hd ⊢
    exact hd
  | succ e ih =>
    intro i he hd
    have heq := h i (e + 1) hd he
    rw [depthIs_succ] at hd ⊢
    rw [heq]
    exact ⟨hd.1, ih _ (by omega) hd.2⟩

theorem depthIs_transfer_succ (sb sb' : Superblock) (d : Nat)
    (h : ∀ i e, depthIs sb e i = true → e ≤ d → sb'.inode i = sb.inode i)
    (e i : Nat) (he : e ≤ d + 1) (hi : sb'.inode i = sb.inode i)
    (hd : depthIs sb e i = true) : depthIs sb' e i = true := by
  cases e with
  | zero =>
    rw [depthIs_zero] at hd ⊢
    exact hd
  | succ e =>
    rw [depthIs_succ] at hd ⊢
    rw [hi]
    exact ⟨hd.1, depthIs_transfer sb sb' d h e _ (by omega) hd.2⟩

/-! ## `delete_file` and `fs_delete` keep the invariants -/

theorem zero_inode_inode (sb : Superblock) (t : Nat) :
    (zero_inode sb t).inode = Function.update sb.inode t zeroInode := rfl

/-- The loop over the children in `delete_file`, given what the nested calls
guarantee. -/
theorem delete_loop (fuel t d : Nat) (s0 : State)
    (IH : ∀ (s : State) (c : Nat), Consistent s.sb → c < 126 →
      (s.sb.inode c).isused = true → depthIs s.sb (d + 1) c = true →
      ∃ s2, delete_file fuel c s = some s2 ∧ DeletePost s c (d + 1) s2)
    (h0 : Consistent s0.sb) (hdep : depthIs s0.sb d t = true) :
    ∀ n, n ≤ 126 →
      ∃ s, (List.range n).foldlM (delete_step fuel t) s0 = some s ∧
        DeleteLoopInv s0 t d n s := by
  intro n
  induction n with
  | zero =>
    intro _
    refine ⟨s0, rfl, h0, rfl, rfl, fun i => Or.inl rfl, fun _ _ _ _ _ => rfl, ?_⟩
    intro i hi
    omega
  | succ n ih =>
    intro hn
    obtain ⟨s, hs, hc, hcwd, hbuf, hz, hkeep, hdone⟩ := ih (by omega)
    rw [List.range_succ, List.foldlM_append, hs]
    simp only [Option.bind_eq_bind, Option.some_bind, List.foldlM_cons, List.foldlM_nil]
    -- the inodes of depth at most d are those of s0
    have hlow : ∀ i e, depthIs s0.sb e i = true → e ≤ d → s.sb.inode i = s0.sb.inode i :=
      fun i e he hed => hkeep i e he (by omega) (Or.inl hed)
    unfold delete_step
    by_cases hnt : n = t
    · rw [if_pos hnt]
      refine ⟨s, rfl, hc, hcwd, hbuf, hz, ?_, ?_⟩
      · intro i e he hed hor
        apply hkeep i e he hed
        rcases hor with h | h
        · exact Or.inl h
        · exact Or.inr (by omega)
      · intro i hi hit
        by_cases hin : i = n
        · omega
        · exact hdone i (by omega) hit
    · rw [if_neg hnt]
      by_cases hchild : (s.sb.inode n).isused = true ∧ (s.sb.inode n).parent = t
      · have hcond : ((s.sb.inode n).isused && decide ((s.sb.inode n).parent = t)) = true := by
          simp [hchild.1, hchild.2]
        rw [hcond, if_pos rfl]
        have hdt : depthIs s.sb d t = true :=
          depthIs_transfer s0.sb s.sb d hlow d t (le_refl _) hdep
        have hdn : depthIs s.sb (d + 1) n = true := by
          rw [depthIs_succ, hchild.2]
          exact ⟨by omega, hdt⟩
        obtain ⟨s2, hs2, hc2, hcwd2, hbuf2, hfree2, hz2, hkeep2⟩ :=
          IH s n hc (by omega) hchild.1 hdn
        rw [hs2]
        simp only [Option.some_bind, Option.pure_def, Option.bind_some]
        refine ⟨s2, rfl, hc2, hcwd2.trans hcwd, hbuf2.trans hbuf, ?_, ?_, ?_⟩
        · intro i
          rcases hz2 i with h | h
          · rw [h]; exact hz i
          · exact Or.inr h
        · intro i e he hed hor
          have hs_i : s.sb.inode i = s0.sb.inode i := by
            apply hkeep i e he hed
            rcases hor with h | h
            · exact Or.inl h
            · exact Or.inr (by omega)
          have hde : depthIs s.sb e i = true :=
            depthIs_transfer_succ s0.sb s.sb d hlow e i hed hs_i he
          have hine : i ≠ n := by
            rcases hor with h | h
            · intro hin
              rw [hin] at hde
              have := depthIs_unique s.sb _ _ _ hde hdn
              omega
            · omega
          rw [hkeep2 i e hde hed hine, hs_i]
        · intro i hi hit
          by_cases hin : i = n
          · rw [hin, hfree2]
            intro hcon
            exact Bool.noConfusion hcon.1
          · have hprev := hdone i (by omega) hit
            rcases hz2 i with h | h
            · rw [h]; exact hprev
            · rw [h, zeroInode_unused]
              intro hcon
              exact Bool.noConfusion hcon.1
      · have hcond : ((s.sb.inode n).isused && decide ((s.sb.inode n).parent = t)) = false := by
          cases hu : (s.sb.inode n).isused
          · rfl
          · by_cases hp : (s.sb.inode n).parent = t
            · exact absurd ⟨hu, hp⟩ hchild
            · simp [hp]
        rw [hcond]
        simp only [Bool.false_eq_true, if_false]
        refine ⟨s, rfl, hc, hcwd, hbuf, hz, ?_, ?_⟩
        · intro i e he hed hor
          apply hkeep i e he hed
          rcases hor with h | h
          · exact Or.inl h
          · exact Or.inr (by omega)
        · intro i hi hit
          by_cases hin : i = n
          · rw [hin]; exact hchild
          · exact hdone i (by omega) hit

/-- The function `delete_file` on a used inode whose parent chain arrives at
127 ends within 127 nested calls and keeps the invariants. -/
theorem delete_file_spec (fuel : Nat) :
    ∀ (st : State) (t d : Nat), Consistent st.sb → t < 126 →
      (st.sb.inode t).isused = true → depthIs st.sb d t = true → 127 ≤ fuel + d →
      ∃ s2, delete_file fuel t st = some s2 ∧ DeletePost st t d s2 := by
  induction fuel with
  | zero =>
    intro st t d _ _ _ hdep hf
    have := depthIs_le st.sb d t hdep
    omega
  | succ fuel ih =>
    intro st t d hc ht hu hdep hf
    rw [delete_file_succ]
    obtain ⟨h1, h2, h3, h4, h5, hb, hd⟩ := hc
    cases hdir : (st.sb.inode t).isdir with
    | false =>
      simp only [Bool.false_eq_true, if_false, Option.map_some']
      refine ⟨_, rfl, ?_, rfl, rfl, ?_, ?_, ?_⟩
      · show Consistent (zero_inode (set_fbl_bits st.sb _ _ false) t)
        apply consistent_remove st.sb _ t ⟨h1, h2, h3, h4, h5, hb, hd⟩ ht
        · intro i hi hui hp
          have := (h4 i hi hui).2.2 (by rw [hp]; omega)
          rw [hp, hdir] at this
          exact Bool.noConfusion this.2
        · intro j hj1 hj2
          rw [bit_is_set_set_fbl_bits]
          have hcv := covers_iff (st.sb.inode t) j
          by_cases hin : (st.sb.inode t).start_block ≤ j ∧
              j < (st.sb.inode t).start_block + (st.sb.inode t).size
          · rw [if_pos ⟨hin.1, hin.2, by omega⟩, hcv.2 ⟨hu, hdir, hin.1, hin.2⟩]
            simp
          · have hcf : covers (st.sb.inode t) j = false := by
              cases hcc : covers (st.sb.inode t) j with
              | false => rfl
              | true =>
                have := hcv.1 hcc
                exact absurd ⟨this.2.2.1, this.2.2.2⟩ hin
            rw [if_neg (fun hh => hin ⟨hh.1, hh.2.1⟩), hcf]
            simp
      · show ((Function.update st.sb.inode t zeroInode) t).isused = false
        rw [Function.update_same]
        exact zeroInode_unused
      · intro i
        show (Function.update st.sb.inode t zeroInode) i = st.sb.inode i ∨
          (Function.update st.sb.inode t zeroInode) i = zeroInode
        by_cases hi : i = t
        · right; rw [hi, Function.update_same]
        · left; exact Function.update_noteq hi _ _
      · intro i e _ _ hi
        show (Function.update st.sb.inode t zeroInode) i = st.sb.inode i
        exact Function.update_noteq hi _ _
    | true =>
      simp only [if_true]
      obtain ⟨s, hs, hcs, hcwd, hbuf, hz, hkeep, hdone⟩ :=
        delete_loop fuel t d st
          (fun s c hsc hc126 hcu hcd => ih s c (d + 1) hsc hc126 hcu hcd (by omega))
          ⟨h1, h2, h3, h4, h5, hb, hd⟩ hdep 126 (le_refl _)
      rw [hs]
      simp only [Option.map_some']
      have hst : s.sb.inode t = st.sb.inode t := hkeep t d hdep (by omega) (Or.inl (le_refl _))
      refine ⟨_, rfl, ?_, hcwd, hbuf, ?_, ?_, ?_⟩
      · show Consistent (zero_inode s.sb t)
        apply consistent_remove s.sb _ t hcs ht
        · intro i hi hui hp
          by_cases hit : i = t
          · have := (hcs.2.2.2.1 i hi hui).1
            rw [hit] at this hp
            exact this hp
          · exact hdone i hi hit ⟨hui, hp⟩
        · intro j _ _
          rw [covers_dir _ j (by rw [hst]; exact hdir)]
          simp
      · show ((Function.update s.sb.inode t zeroInode) t).isused = false
        rw [Function.update_same]
        exact zeroInode_unused
      · intro i
        show (Function.update s.sb.inode t zeroInode) i = st.sb.inode i ∨
          (Function.update s.sb.inode t zeroInode) i = zeroInode
        by_cases hi : i = t
        · right; rw [hi, Function.update_same]
        · rw [Function.update_noteq hi]
          exact hz i
      · intro i e he hed hi
        show (Function.update s.sb.inode t zeroInode) i = st.sb.inode i
        rw [Function.update_noteq hi]
        exact hkeep i e he (by omega) (Or.inl hed)

/-- The function `fs_delete` keeps the invariants when the parent chain of the
current directory arrives at 127. -/
theorem fs_delete_consistent (st : State) (name : Name) (k : Nat)
    (h : Consistent st.sb) (hroot : reachesRoot st.sb k st.cwd = true) :
    ∃ s2 e, fs_delete 127 st name = some (s2, e) ∧ Consistent s2.sb ∧
      s2.cwd = st.cwd ∧ s2.fs_buffer = st.fs_buffer := by
  unfold fs_delete
  cases hf : file_exists st name with
  | none => exact ⟨st, _, rfl, h, rfl, rfl⟩
  | some t =>
    obtain ⟨ht, hu, _, hp, _⟩ := file_exists_some st name t hf
    obtain ⟨d, hd⟩ := reachesRoot_depth st.sb k st.cwd hroot
    have hdt : depthIs st.sb (d + 1) t = true := by
      rw [depthIs_succ, hp]
      exact ⟨ht, hd⟩
    obtain ⟨s2, hs2, hc2, hcwd2, hbuf2, _⟩ :=
      delete_file_spec 127 st t (d + 1) h ht hu hdt (by omega)
    simp only
    rw [hs2]
    exact ⟨write_superblock s2, none, rfl, hc2, hcwd2, hbuf2⟩

/-! ## A fresh disk -/

/-- On a fresh disk no two files overlap. -/
theorem freshSb_noOverlap : NoOverlap freshSb :=
  noOverlap_of_below freshSb 0 (by omega) (fun _ _ => rfl) (by decide!)

/-! ## `fs_read`, `fs_write` and `fs_mount` -/

theorem file_exists_congr (st st2 : State) (name : Name) (h1 : st2.sb = st.sb)
    (h2 : st2.cwd = st.cwd) : file_exists st2 name = file_exists st name := by
  unfold file_exists
  rw [h1, h2]

/-- The four outcomes of `fs_read`. -/
theorem fs_read_cases (st : State) (name : Name) (k : Int) :
    (file_exists st name = none ∧ fs_read st name k = (st, some RwError.file_does_not_exist)) ∨
    (∃ idx, file_exists st name = some idx ∧ (st.sb.inode idx).isdir = true ∧
      fs_read st name k = (st, some RwError.file_does_not_exist)) ∨
    (∃ idx, file_exists st name = some idx ∧ (st.sb.inode idx).isdir = false ∧
      (k < 0 ∨ ((st.sb.inode idx).size : Int) ≤ k) ∧
      fs_read st name k = (st, some RwError.no_such_block)) ∨
    (∃ idx, file_exists st name = some idx ∧ (st.sb.inode idx).isdir = false ∧
      0 ≤ k ∧ k < ((st.sb.inode idx).size : Int) ∧
      fs_read st name k =
        ({ st with
            fs_buffer := st.disk ((((st.sb.inode idx).start_block : Int) + k).toNat) },
          none)) := by
  unfold fs_read
  cases hf : file_exists st name with
  | none => exact Or.inl ⟨rfl, rfl⟩
  | some idx =>
    right
    cases hd : (st.sb.inode idx).isdir with
    | true =>
      left
      exact ⟨idx, rfl, hd, by simp [hd]⟩
    | false =>
      right
      by_cases hk : k < 0 ∨ k > ((st.sb.inode idx).size : Int) - 1
      · left
        refine ⟨idx, rfl, hd, by omega, ?_⟩
        simp only [hd, Bool.false_eq_true, if_false, if_pos hk]
      · right
        refine ⟨idx, rfl, hd, by omega, by omega, ?_⟩
        simp only [hd, Bool.false_eq_true, if_false, if_neg hk]

/-- The four outcomes of `fs_write`. -/
theorem fs_write_cases (st : State) (name : Name) (k : Int) :
    (file_exists st name = none ∧ fs_write st name k = (st, some RwError.file_does_not_exist)) ∨
    (∃ idx, file_exists st name = some idx ∧ (st.sb.inode idx).isdir = true ∧
      fs_write st name k = (st, some RwError.file_does_not_exist)) ∨
    (∃ idx, file_exists st name = some idx ∧ (st.sb.inode idx).isdir = false ∧
      (k < 0 ∨ ((st.sb.inode idx).size : Int) ≤ k) ∧
      fs_write st name k = (st, some RwError.no_such_block)) ∨
    (∃ idx, file_exists st name = some idx ∧ (st.sb.inode idx).isdir = false ∧
      0 ≤ k ∧ k < ((st.sb.inode idx).size : Int) ∧
      fs_write st name k =
        ({ st with
            disk := Function.update st.disk
                ((((st.sb.inode idx).start_block : Int) + k).toNat) st.fs_buffer }, none)) := by
  unfold fs_write
  cases hf : file_exists st name with
  | none => exact Or.inl ⟨rfl, rfl⟩
  | some idx =>
    right
    cases hd : (st.sb.inode idx).isdir with
    | true =>
      left
      exact ⟨idx, rfl, hd, by simp [hd]⟩
    | false =>
      right
      by_cases hk : k < 0 ∨ k > ((st.sb.inode idx).size : Int) - 1
      · left
        refine ⟨idx, rfl, hd, by omega, ?_⟩
        simp only [hd, Bool.false_eq_true, if_false, if_pos hk]
      · right
        refine ⟨idx, rfl, hd, by omega, by omega, ?_⟩
        simp only [hd, Bool.false_eq_true, if_false, if_neg hk]

/-- C12: when `fs_write(n, k)` succeeds, the `fs_read(n, k)` that follows
succeeds and leaves the shared buffer as it was before the write. -/
theorem write_then_read (st : State) (name : Name) (k : Int)
    (hw : (fs_write st name k).2 = none) :
    (fs_read (fs_write st name k).1 name k).2 = none ∧
    (fs_read (fs_write st name k).1 name k).1.fs_buffer = st.fs_buffer := by
  rcases fs_write_cases st name k with ⟨_, h⟩ | ⟨_, _, _, h⟩ | ⟨_, _, _, _, h⟩ |
      ⟨idx, hf, hd, hk0, hk1, h⟩
  · rw [h] at hw; exact absurd hw (by simp)
  · rw [h] at hw; exact absurd hw (by simp)
  · rw [h] at hw; exact absurd hw (by simp)
  · rw [h]
    simp only
    have hf2 : file_exists { st with
        disk := Function.update st.disk
            ((((st.sb.inode idx).start_block : Int) + k).toNat) st.fs_buffer } name
        = some idx := by
      exact (file_exists_congr _ st name rfl rfl).trans hf
    rcases fs_read_cases { st with
        disk := Function.update st.disk
            ((((st.sb.inode idx).start_block : Int) + k).toNat) st.fs_buffer } name k with
      ⟨h1, _⟩ | ⟨j, h1, h2, _⟩ | ⟨j, h1, h2, h3, _⟩ | ⟨j, h1, h2, h3, h4, h5⟩
    · rw [hf2] at h1; exact absurd h1 (by simp)
    · rw [hf2] at h1
      simp only [Option.some.injEq] at h1
      subst h1
      simp only at h2
      rw [hd] at h2
      exact absurd h2 (by simp)
    · rw [hf2] at h1
      simp only [Option.some.injEq] at h1
      subst h1
      simp only at h3
      omega
    · rw [hf2] at h1
      simp only [Option.some.injEq] at h1
      subst h1
      rw [h5]
      simp only
      exact ⟨trivial, Function.update_same _ _ _⟩

/-- Witness of C12: after `C a 2`, `C b 2`, `D a`, the write of block 1 of `b`
and the read that follows. -/
theorem write_then_read_witness :
    (fs_read (fs_write gapState (name1 98) 1).1 (name1 98) 1).1.fs_buffer
      = gapState.fs_buffer :=
  (write_then_read gapState (name1 98) 1 (by decide)).2

/-- C13: `fs_read` and `fs_write` report that the file does not exist exactly
when no used inode has the name in the current directory or the inode found is
a directory; otherwise they report that the block does not exist exactly when
`k < 0` or `k >= size`; after an error the state is the one before the call;
otherwise the read copies block `start_block + k` into the buffer and the
write copies the buffer into block `start_block + k`, and nothing else
changes. -/
theorem read_write_outcomes (st : State) (name : Name) (k : Int) :
    (((fs_read st name k).2 = some RwError.file_does_not_exist ↔
        ((∀ i, i < 126 → ¬ ((st.sb.inode i).isused = true ∧
            name = (st.sb.inode i).name ∧ (st.sb.inode i).parent = st.cwd)) ∨
          ∃ idx, file_exists st name = some idx ∧ (st.sb.inode idx).isdir = true)) ∧
      ((fs_write st name k).2 = some RwError.file_does_not_exist ↔
        ((∀ i, i < 126 → ¬ ((st.sb.inode i).isused = true ∧
            name = (st.sb.inode i).name ∧ (st.sb.inode i).parent = st.cwd)) ∨
          ∃ idx, file_exists st name = some idx ∧ (st.sb.inode idx).isdir = true))) ∧
    (∀ idx, file_exists st name = some idx → (st.sb.inode idx).isdir = false →
      (((fs_read st name k).2 = some RwError.no_such_block ↔
          (k < 0 ∨ ((st.sb.inode idx).size : Int) ≤ k)) ∧
        ((fs_write st name k).2 = some RwError.no_such_block ↔
          (k < 0 ∨ ((st.sb.inode idx).size : Int) ≤ k)))) ∧
    (∀ e, ((fs_read st name k).2 = some e → (fs_read st name k).1 = st) ∧
      ((fs_write st name k).2 = some e → (fs_write st name k).1 = st)) ∧
    (∀ idx, file_exists st name = some idx →
      ((fs_read st name k).2 = none →
        (fs_read st name k).1 = { st with
          fs_buffer := st.disk ((((st.sb.inode idx).start_block : Int) + k).toNat) }) ∧
      ((fs_write st name k).2 = none →
        (fs_write st name k).1 = { st with
          disk := Function.update st.disk
              ((((st.sb.inode idx).start_block : Int) + k).toNat) st.fs_buffer })) := by
  have hR := fs_read_cases st name k
  have hW := fs_write_cases st name k
  refine ⟨⟨?_, ?_⟩, ?_, ?_, ?_⟩
  · rw [← file_exists_none_iff]
    rcases hR with ⟨h0, h⟩ | ⟨i, h0, h1, h⟩ | ⟨i, h0, h1, h2, h⟩ | ⟨i, h0, h1, h2, h3, h⟩
    · rw [h]; simp [h0]
    · rw [h]; simp [h0, h1]
    · rw [h]; simp [h0, h1]
    · rw [h]; simp [h0, h1]
  · rw [← file_exists_none_iff]
    rcases hW with ⟨h0, h⟩ | ⟨i, h0, h1, h⟩ | ⟨i, h0, h1, h2, h⟩ | ⟨i, h0, h1, h2, h3, h⟩
    · rw [h]; simp [h0]
    · rw [h]; simp [h0, h1]
    · rw [h]; simp [h0, h1]
    · rw [h]; simp [h0, h1]
  · intro idx hf hd
    constructor
    · rcases hR with ⟨h0, h⟩ | ⟨i, h0, h1, h⟩ | ⟨i, h0, h1, h2, h⟩ | ⟨i, h0, h1, h2, h3, h⟩
      · rw [hf] at h0; exact absurd h0 (by simp)
      · rw [hf] at h0
        simp only [Option.some.injEq] at h0
        subst h0
        rw [hd] at h1
        exact absurd h1 (by simp)
      · rw [hf] at h0
        simp only [Option.some.injEq] at h0
        subst h0
        rw [h]
        simp only [true_iff]
        exact h2
      · rw [hf] at h0
        simp only [Option.some.injEq] at h0
        subst h0
        rw [h]
        simp only [reduceCtorEq, false_iff]
        omega
    · rcases hW with ⟨h0, h⟩ | ⟨i, h0, h1, h⟩ | ⟨i, h0, h1, h2, h⟩ | ⟨i, h0, h1, h2, h3, h⟩
      · rw [hf] at h0; exact absurd h0 (by simp)
      · rw [hf] at h0
        simp only [Option.some.injEq] at h0
        subst h0
        rw [hd] at h1
        exact absurd h1 (by simp)
      · rw [hf] at h0
        simp only [Option.some.injEq] at h0
        subst h0
        rw [h]
        simp only [true_iff]
        exact h2
      · rw [hf] at h0
        simp only [Option.some.injEq] at h0
        subst h0
        rw [h]
        simp only [reduceCtorEq, false_iff]
        omega
  · intro e
    constructor
    · rcases hR with ⟨h0, h⟩ | ⟨i, h0, h1, h⟩ | ⟨i, h0, h1, h2, h⟩ | ⟨i, h0, h1, h2, h3, h⟩ <;>
        rw [h] <;> simp
    · rcases hW with ⟨h0, h⟩ | ⟨i, h0, h1, h⟩ | ⟨i, h0, h1, h2, h⟩ | ⟨i, h0, h1, h2, h3, h⟩ <;>
        rw [h] <;> simp
  · intro idx hf
    constructor
    · rcases hR with ⟨h0, h⟩ | ⟨i, h0, h1, h⟩ | ⟨i, h0, h1, h2, h⟩ | ⟨i, h0, h1, h2, h3, h⟩
      · rw [h]; simp
      · rw [h]; simp
      · rw [h]; simp
      · rw [hf] at h0
        simp only [Option.some.injEq] at h0
        subst h0
        rw [h]
        intro _
        rfl
    · rcases hW with ⟨h0, h⟩ | ⟨i, h0, h1, h⟩ | ⟨i, h0, h1, h2, h⟩ | ⟨i, h0, h1, h2, h3, h⟩
      · rw [h]; simp
      · rw [h]; simp
      · rw [h]; simp
      · rw [hf] at h0
        simp only [Option.some.injEq] at h0
        subst h0
        rw [h]
        intro _
        rfl

/-- C20: a mount that fails, because the disk is not found or because
`consistency_check` returns a non-zero code on the superblock read, leaves
every global as it was; a mount on which the check returns 0 installs the
superblock read, the new disk and its name, and sets the current directory to
127. -/
theorem mount_all_or_nothing (s : Session) (new_disk_name : List Nat) (vd_new : Nat → Block) :
    (fs_mount s new_disk_name none).1 = s ∧
    (consistency_check (Superblock.decode (vd_new 0)) ≠ 0 →
      (fs_mount s new_disk_name (some vd_new)).1 = s ∧
      (fs_mount s new_disk_name (some vd_new)).2 =
        some (MountError.inconsistent (consistency_check (Superblock.decode (vd_new 0))))) ∧
    (consistency_check (Superblock.decode (vd_new 0)) = 0 →
      (fs_mount s new_disk_name (some vd_new)).2 = none ∧
      (fs_mount s new_disk_name (some vd_new)).1.state.sb = Superblock.decode (vd_new 0) ∧
      (fs_mount s new_disk_name (some vd_new)).1.state.cwd = 127 ∧
      (fs_mount s new_disk_name (some vd_new)).1.state.disk = vd_new ∧
      (fs_mount s new_disk_name (some vd_new)).1.disk_name = new_disk_name ∧
      (fs_mount s new_disk_name (some vd_new)).1.mounted = true ∧
      (fs_mount s new_disk_name (some vd_new)).1.state.fs_buffer = s.state.fs_buffer) := by
  refine ⟨rfl, ?_, ?_⟩
  · intro h
    unfold fs_mount
    simp only [h, ne_eq, not_false_eq_true, if_true, and_self]
  · intro h
    unfold fs_mount
    simp only [h, ne_eq, not_true_eq_false, if_false, and_self]

/-- Witness of C13: after `C a 2`, `C b 2`, `D a`, file `b` has no block 2. -/
theorem read_write_outcomes_witness :
    (fs_read gapState (name1 98) 2).2 = some RwError.no_such_block :=
  ((read_write_outcomes gapState (name1 98) 2).2.1 1 (by decide) (by decide)).1.2
    (Or.inr (by decide))

/-- Witness of C20: the mount of a disk whose superblock violates rule 4 only
(directory `a` in inode 0 with the unused inode 5 as parent) leaves the
session, and the mount of a disk whose first block starts with the byte 128
and has zeros elsewhere sets the current directory to 127. -/
theorem mount_all_or_nothing_witness :
    (fs_mount ⟨true, [100], gapState⟩ [98] (some (fun _ => rule4Block))).1
      = ⟨true, [100], gapState⟩ ∧
    (fs_mount ⟨true, [100], gapState⟩ [98] (some (fun _ => [128]))).1.state.cwd = 127 :=
  ⟨((mount_all_or_nothing ⟨true, [100], gapState⟩ [98] (fun _ => rule4Block)).2.1
      (by decide!)).1,
   ((mount_all_or_nothing ⟨true, [100], gapState⟩ [98] (fun _ => [128])).2.2
      (by decide!)).2.2.1⟩

/-! ## The subtree of an inode -/

theorem inSubtree_zero (sb : Superblock) (t i : Nat) :
    inSubtree sb t 0 i = true ↔ (i < 126 ∧ (sb.inode i).isused = true ∧ i = t) := by
  simp [inSubtree, and_assoc]

theorem inSubtree_succ (sb : Superblock) (t k i : Nat) :
    inSubtree sb t (k + 1) i = true ↔
      (i < 126 ∧ (sb.inode i).isused = true ∧
        (i = t ∨ inSubtree sb t k (sb.inode i).parent = true)) := by
  simp [inSubtree, and_assoc]

theorem inSubtree_used (sb : Superblock) (t k i : Nat) (h : inSubtree sb t k i = true) :
    i < 126 ∧ (sb.inode i).isused = true := by
  cases k with
  | zero => exact ⟨((inSubtree_zero sb t i).1 h).1, ((inSubtree_zero sb t i).1 h).2.1⟩
  | succ k => exact ⟨((inSubtree_succ sb t k i).1 h).1, ((inSubtree_succ sb t k i).1 h).2.1⟩

theorem InSubtree_self (sb : Superblock) (t : Nat) (ht : t < 126)
    (hu : (sb.inode t).isused = true) : InSubtree sb t t :=
  ⟨0, (inSubtree_zero sb t t).2 ⟨ht, hu, rfl⟩⟩

theorem InSubtree_step (sb : Superblock) (c i : Nat) (hi : i < 126)
    (hu : (sb.inode i).isused = true) (h : InSubtree sb c (sb.inode i).parent) :
    InSubtree sb c i := by
  obtain ⟨k, hk⟩ := h
  exact ⟨k + 1, (inSubtree_succ sb c k i).2 ⟨hi, hu, Or.inr hk⟩⟩

theorem InSubtree_child (sb : Superblock) (t c : Nat) (ht : t < 126)
    (hut : (sb.inode t).isused = true) (hp : (sb.inode c).parent = t) :
    ∀ k i, inSubtree sb c k i = true → InSubtree sb t i := by
  intro k
  induction k with
  | zero =>
    intro i h
    obtain ⟨hi, hu, hic⟩ := (inSubtree_zero sb c i).1 h
    apply InSubtree_step sb t i hi hu
    rw [hic, hp]
    exact InSubtree_self sb t ht hut
  | succ k ih =>
    intro i h
    obtain ⟨hi, hu, hor⟩ := (inSubtree_succ sb c k i).1 h
    apply InSubtree_step sb t i hi hu
    rcases hor with hic | hrec
    · rw [hic, hp]
      exact InSubtree_self sb t ht hut
    · exact ih _ hrec

theorem InSubtree_cases (sb : Superblock) (t : Nat) :
    ∀ k i, inSubtree sb t k i = true →
      i = t ∨ ∃ c, c < 126 ∧ (sb.inode c).isused = true ∧ (sb.inode c).parent = t ∧
        InSubtree sb c i := by
  intro k
  induction k with
  | zero =>
    intro i h
    exact Or.inl ((inSubtree_zero sb t i).1 h).2.2
  | succ k ih =>
    intro i h
    obtain ⟨hi, hu, hor⟩ := (inSubtree_succ sb t k i).1 h
    rcases hor with hit | hrec
    · exact Or.inl hit
    · right
      rcases ih _ hrec with hp | ⟨c, hc, huc, hpc, hsub⟩
      · exact ⟨i, hi, hu, hp, InSubtree_self sb i hi hu⟩
      · exact ⟨c, hc, huc, hpc, InSubtree_step sb c i hi hu hsub⟩

theorem used_same (s s0 : State)
    (hz : ∀ i, s.sb.inode i = s0.sb.inode i ∨ s.sb.inode i = zeroInode) (i : Nat)
    (hu : (s.sb.inode i).isused = true) : s.sb.inode i = s0.sb.inode i := by
  rcases hz i with h | h
  · exact h
  · rw [h, zeroInode_unused] at hu
    exact Bool.noConfusion hu

theorem inSubtree_down (s s0 : State)
    (hz : ∀ i, s.sb.inode i = s0.sb.inode i ∨ s.sb.inode i = zeroInode) (c : Nat) :
    ∀ k i, inSubtree s.sb c k i = true → inSubtree s0.sb c k i = true := by
  intro k
  induction k with
  | zero =>
    intro i h
    obtain ⟨hi, hu, hic⟩ := (inSubtree_zero s.sb c i).1 h
    have he := used_same s s0 hz i hu
    exact (inSubtree_zero s0.sb c i).2 ⟨hi, by rw [← he]; exact hu, hic⟩
  | succ k ih =>
    intro i h
    obtain ⟨hi, hu, hor⟩ := (inSubtree_succ s.sb c k i).1 h
    have he := used_same s s0 hz i hu
    refine (inSubtree_succ s0.sb c k i).2 ⟨hi, by rw [← he]; exact hu, ?_⟩
    rcases hor with hic | hrec
    · exact Or.inl hic
    · right
      rw [← he]
      exact ih _ hrec

theorem inSubtree_up (s s0 : State)
    (hz : ∀ i, s.sb.inode i = s0.sb.inode i ∨ s.sb.inode i = zeroInode)
    (h4 : Rule4 s.sb) (c : Nat) :
    ∀ k i, (s.sb.inode i).isused = true → inSubtree s0.sb c k i = true →
      inSubtree s.sb c k i = true := by
  intro k
  induction k with
  | zero =>
    intro i hu h
    obtain ⟨hi, _, hic⟩ := (inSubtree_zero s0.sb c i).1 h
    exact (inSubtree_zero s.sb c i).2 ⟨hi, hu, hic⟩
  | succ k ih =>
    intro i hu h
    obtain ⟨hi, _, hor⟩ := (inSubtree_succ s0.sb c k i).1 h
    have he := used_same s s0 hz i hu
    refine (inSubtree_succ s.sb c k i).2 ⟨hi, hu, ?_⟩
    rcases hor with hic | hrec
    · exact Or.inl hic
    · right
      have hp126 := (inSubtree_used s0.sb c k _ hrec).1
      rw [← he] at hrec hp126
      have hpu := ((h4 i hi hu).2.2 (by omega)).1
      exact ih _ hpu hrec

theorem inSubtree_depth (sb : Superblock) (t d : Nat) (hd : depthIs sb d t = true) :
    ∀ k i, inSubtree sb t k i = true →
      ∃ e, depthIs sb e i = true ∧ d ≤ e ∧ (e = d → i = t) := by
  intro k
  induction k with
  | zero =>
    intro i h
    have hit := ((inSubtree_zero sb t i).1 h).2.2
    exact ⟨d, by rw [hit]; exact hd, le_refl _, fun _ => hit⟩
  | succ k ih =>
    intro i h
    obtain ⟨hi, _, hor⟩ := (inSubtree_succ sb t k i).1 h
    rcases hor with hit | hrec
    · exact ⟨d, by rw [hit]; exact hd, le_refl _, fun _ => hit⟩
    · obtain ⟨e, he, hde, _⟩ := ih _ hrec
      exact ⟨e + 1, (depthIs_succ sb e i).2 ⟨hi, he⟩, by omega, fun h => by omega⟩

theorem inSubtree_file (sb : Superblock) (t : Nat) (h4 : Rule4 sb)
    (hf : (sb.inode t).isdir = false) :
    ∀ k i, inSubtree sb t k i = true → i = t := by
  intro k
  induction k with
  | zero =>
    intro i h
    exact ((inSubtree_zero sb t i).1 h).2.2
  | succ k ih =>
    intro i h
    obtain ⟨hi, hu, hor⟩ := (inSubtree_succ sb t k i).1 h
    rcases hor with hit | hrec
    · exact hit
    · have hp := ih _ hrec
      have ht126 := (inSubtree_used sb t k _ hrec).1
      have := ((h4 i hi hu).2.2 (by omega)).2
      rw [hp, hf] at this
      exact Bool.noConfusion this

/-- Rule 4 survives the removal of an inode that has no used child. -/
theorem rule4_remove (sb : Superblock) (fbl2 : Nat → Nat) (t : Nat) (h4 : Rule4 sb)
    (hchild : ∀ i, i < 126 → (sb.inode i).isused = true → (sb.inode i).parent ≠ t) :
    Rule4 ⟨fbl2, Function.update sb.inode t zeroInode⟩ := by
  intro i hi hu
  change (Function.update sb.inode t zeroInode i).isused = true at hu
  show (Function.update sb.inode t zeroInode i).parent ≠ i ∧
    (Function.update sb.inode t zeroInode i).parent ≠ 126 ∧
    ((Function.update sb.inode t zeroInode i).parent ≤ 125 →
      (Function.update sb.inode t zeroInode
        (Function.update sb.inode t zeroInode i).parent).isused = true ∧
      (Function.update sb.inode t zeroInode
        (Function.update sb.inode t zeroInode i).parent).isdir = true)
  have hit : i ≠ t := by
    intro hit
    rw [hit, Function.update_same, zeroInode_unused] at hu
    exact Bool.noConfusion hu
  rw [Function.update_noteq hit] at hu ⊢
  obtain ⟨ha, hb, hc⟩ := h4 i hi hu
  refine ⟨ha, hb, ?_⟩
  intro hp
  rw [Function.update_noteq (hchild i hi hu)]
  exact hc hp

theorem covers_congr (a b : Inode) (h : a = b) (j : Nat) : covers a j = covers b j := by
  rw [h]

theorem inSubtree_root_used (sb : Superblock) (c : Nat) :
    ∀ k i, inSubtree sb c k i = true → c < 126 ∧ (sb.inode c).isused = true := by
  intro k
  induction k with
  | zero =>
    intro i h
    obtain ⟨hi, hu, hic⟩ := (inSubtree_zero sb c i).1 h
    rw [← hic]
    exact ⟨hi, hu⟩
  | succ k ih =>
    intro i h
    obtain ⟨hi, hu, hor⟩ := (inSubtree_succ sb c k i).1 h
    rcases hor with hic | hrec
    · rw [← hic]
      exact ⟨hi, hu⟩
    · exact ih _ hrec

/-- An inode of the subtree of the child `n` that is still used in the state
`s` makes `n` a used child in `s`. -/
theorem subtree_alive (s s0 : State)
    (hz : ∀ i, s.sb.inode i = s0.sb.inode i ∨ s.sb.inode i = zeroInode)
    (h4 : Rule4 s.sb) (n i : Nat) (hsub : InSubtree s0.sb n i)
    (hu : (s.sb.inode i).isused = true) :
    InSubtree s.sb n i ∧ (s.sb.inode n).isused = true := by
  obtain ⟨k, hk⟩ := hsub
  have h := inSubtree_up s s0 hz h4 n k i hu hk
  exact ⟨⟨k, h⟩, (inSubtree_root_used s.sb n k i h).2⟩

theorem zero_of_unused (s s0 : State)
    (hz : ∀ i, s.sb.inode i = s0.sb.inode i ∨ s.sb.inode i = zeroInode) (i : Nat)
    (hu0 : (s0.sb.inode i).isused = true) (hu : (s.sb.inode i).isused = false) :
    s.sb.inode i = zeroInode := by
  rcases hz i with h | h
  · rw [h, hu0] at hu
    exact Bool.noConfusion hu
  · exact h

/-- The loop over the children in `delete_file`, with the exact effect of the
nested calls. -/
theorem delete_effect_loop (fuel t d : Nat) (s0 : State)
    (IH : ∀ (s : State) (c : Nat), Rule4 s.sb → c < 126 →
      (s.sb.inode c).isused = true → depthIs s.sb (d + 1) c = true →
      ∃ s2, delete_file fuel c s = some s2 ∧ DeleteEffect s c (d + 1) s2)
    (h4 : Rule4 s0.sb) (ht : t < 126) (hut : (s0.sb.inode t).isused = true)
    (hdep : depthIs s0.sb d t = true) :
    ∀ n, n ≤ 126 →
      ∃ s, (List.range n).foldlM (delete_step fuel t) s0 = some s ∧
        DeleteEffectLoop s0 t d n s := by
  intro n
  induction n with
  | zero =>
    intro _
    refine ⟨s0, rfl, h4, rfl, rfl, fun i => Or.inl rfl, fun _ _ _ _ => rfl,
      fun i h => absurd rfl h, ?_, fun j h => h, ?_, fun k => Or.inl rfl,
      fun k h => absurd rfl h, fun i h => absurd rfl h⟩
    · intro c hc
      omega
    · intro j h1 h2
      rw [h1] at h2
      exact Bool.noConfusion h2
  | succ n ih =>
    intro hn
    obtain ⟨s, hs, hR4, hcwd, hbuf, hz, hlow, hL3, hL4, hB1, hB2, hD1, hD2, hZ⟩ := ih (by omega)
    rw [List.range_succ, List.foldlM_append, hs]
    simp only [Option.bind_eq_bind, Option.some_bind, List.foldlM_cons, List.foldlM_nil]
    -- the case where the state does not change
    have hskip : (n = t ∨ ¬ ((s.sb.inode n).isused = true ∧ (s.sb.inode n).parent = t)) →
        DeleteEffectLoop s0 t d (n + 1) s := by
      intro hcase
      refine ⟨hR4, hcwd, hbuf, hz, hlow, hL3, ?_, hB1, hB2, hD1, hD2, hZ⟩
      intro c hc hct hcu hcp i hsub
      by_cases hcn : c = n
      · subst hcn
        rcases hcase with h | h
        · exact absurd h hct
        · cases hui : (s.sb.inode i).isused with
          | false =>
            obtain ⟨k, hk⟩ := hsub
            exact zero_of_unused s s0 hz i (inSubtree_used s0.sb c k i hk).2 hui
          | true =>
            obtain ⟨_, hun⟩ := subtree_alive s s0 hz hR4 c i hsub hui
            have he := used_same s s0 hz c hun
            exact absurd ⟨hun, by rw [he]; exact hcp⟩ h
      · exact hL4 c (by omega) hct hcu hcp i hsub
    unfold delete_step
    by_cases hnt : n = t
    · rw [if_pos hnt]
      exact ⟨s, rfl, hskip (Or.inl hnt)⟩
    · rw [if_neg hnt]
      by_cases hchild : (s.sb.inode n).isused = true ∧ (s.sb.inode n).parent = t
      · have hcond : ((s.sb.inode n).isused && decide ((s.sb.inode n).parent = t)) = true := by
          simp [hchild.1, hchild.2]
        rw [hcond, if_pos rfl]
        have hen := used_same s s0 hz n hchild.1
        have hun0 : (s0.sb.inode n).isused = true := by rw [← hen]; exact hchild.1
        have hpn0 : (s0.sb.inode n).parent = t := by rw [← hen]; exact hchild.2
        have hdt : depthIs s.sb d t = true :=
          depthIs_transfer s0.sb s.sb d hlow d t (le_refl _) hdep
        have hdn : depthIs s.sb (d + 1) n = true := by
          rw [depthIs_succ, hchild.2]
          exact ⟨by omega, hdt⟩
        obtain ⟨s2, hs2, gR4, gcwd, gbuf, gz, gF, gP3, gP4, gB1, gB2, gD1, gD2, gZ⟩ :=
          IH s n hR4 (by omega) hchild.1 hdn
        rw [hs2]
        simp only [Option.some_bind, Option.pure_def, Option.bind_some]
        -- from the subtree of `n` in `s` to the subtree of `t` in `s0`
        have hsubT : ∀ i, InSubtree s.sb n i → InSubtree s0.sb t i := by
          rintro i ⟨k, hk⟩
          exact InSubtree_child s0.sb t n ht hut hpn0 k i (inSubtree_down s s0 hz n k i hk)
        have hcovS : ∀ i, InSubtree s.sb n i → s.sb.inode i = s0.sb.inode i := by
          rintro i ⟨k, hk⟩
          exact used_same s s0 hz i (inSubtree_used s.sb n k i hk).2
        refine ⟨s2, rfl, gR4, gcwd.trans hcwd, gbuf.trans hbuf, ?_, ?_, ?_, ?_, ?_, ?_, ?_,
          ?_, ?_⟩
        · intro i
          rcases gz i with h | h
          · rw [h]; exact hz i
          · exact Or.inr h
        · intro i e he hed
          have hs_i := hlow i e he hed
          have hde : depthIs s.sb e i = true := depthIs_transfer s0.sb s.sb d hlow e i hed he
          have hine : i ≠ n := by
            intro hin
            rw [hin] at hde
            have := depthIs_unique s.sb _ _ _ hde hdn
            omega
          rw [gF i e hde (by omega) hine, hs_i]
        · intro i hne
          by_cases hch : s2.sb.inode i = s.sb.inode i
          · exact hL3 i (by rw [← hch]; exact hne)
          · exact hsubT i (gP3 i hch)
        · intro c hc hct hcu hcp i hsub
          by_cases hcn : c = n
          · subst hcn
            cases hui : (s.sb.inode i).isused with
            | false =>
              obtain ⟨k, hk⟩ := hsub
              have h0 := zero_of_unused s s0 hz i (inSubtree_used s0.sb c k i hk).2 hui
              rcases gz i with h | h
              · rw [h]; exact h0
              · exact h
            | true =>
              exact gP4 i (subtree_alive s s0 hz hR4 c i hsub hui).1
          · have h0 := hL4 c (by omega) hct hcu hcp i hsub
            rcases gz i with h | h
            · rw [h]; exact h0
            · exact h
        · intro j hj
          exact hB1 j (gB1 j hj)
        · intro j hj0 hj2
          cases hjs : bit_is_set s.sb.free_block_list j with
          | false => exact hB2 j hj0 hjs
          | true =>
            obtain ⟨hj, i, hi, hc⟩ := gB2 j hjs hj2
            exact ⟨hj, i, hsubT i hi, by rw [← hcovS i hi]; exact hc⟩
        · intro k
          rcases gD1 k with h | h
          · rw [h]; exact hD1 k
          · exact Or.inr h
        · intro k hne
          by_cases hch : s2.disk k = s.disk k
          · exact hD2 k (by rw [← hch]; exact hne)
          · obtain ⟨i, hi, hc⟩ := gD2 k hch
            exact ⟨i, hsubT i hi, by rw [← hcovS i hi]; exact hc⟩
        · intro i hne j hc
          by_cases hch : s.sb.inode i = s0.sb.inode i
          · have hne2 : s2.sb.inode i ≠ s.sb.inode i := by rw [hch]; exact hne
            exact gZ i hne2 j (by rw [hch]; exact hc)
          · obtain ⟨hb, hdk⟩ := hZ i hch j hc
            constructor
            · intro hj
              cases hb2 : bit_is_set s2.sb.free_block_list j with
              | false => rfl
              | true =>
                have := gB1 j hb2
                rw [hb hj] at this
                exact Bool.noConfusion this
            · rcases gD1 j with h | h
              · rw [h]; exact hdk
              · exact h
      · have hcond : ((s.sb.inode n).isused && decide ((s.sb.inode n).parent = t)) = false := by
          cases hu : (s.sb.inode n).isused
          · rfl
          · by_cases hp : (s.sb.inode n).parent = t
            · exact absurd ⟨hu, hp⟩ hchild
            · simp [hp]
        rw [hcond]
        simp only [Bool.false_eq_true, if_false]
        exact ⟨s, rfl, hskip (Or.inr hchild)⟩
/-- The exact effect of `delete_file` on a used inode whose parent chain
arrives at 127, on a state with rule 4. -/
theorem delete_file_effect (fuel : Nat) :
    ∀ (st : State) (t d : Nat), Rule4 st.sb → t < 126 →
      (st.sb.inode t).isused = true → depthIs st.sb d t = true → 127 ≤ fuel + d →
      ∃ s2, delete_file fuel t st = some s2 ∧ DeleteEffect st t d s2 := by
  induction fuel with
  | zero =>
    intro st t d _ _ _ hdep hf
    have := depthIs_le st.sb d t hdep
    omega
  | succ fuel ih =>
    intro st t d h4 ht hu hdep hf
    rw [delete_file_succ]
    cases hdir : (st.sb.inode t).isdir with
    | false =>
      simp only [Bool.false_eq_true, if_false, Option.map_some']
      have hself : InSubtree st.sb t t := InSubtree_self st.sb t ht hu
      have hcovt : ∀ j, (st.sb.inode t).start_block ≤ j →
          j < (st.sb.inode t).start_block + (st.sb.inode t).size →
          covers (st.sb.inode t) j = true :=
        fun j h1 h2 => (covers_iff _ j).2 ⟨hu, hdir, h1, h2⟩
      have hbit : ∀ j, bit_is_set (set_fbl_bits st.sb (st.sb.inode t).start_block
          (st.sb.inode t).size false).free_block_list j =
          if (st.sb.inode t).start_block ≤ j ∧
            j < (st.sb.inode t).start_block + (st.sb.inode t).size ∧ j ≠ 0 then false
          else bit_is_set st.sb.free_block_list j :=
        fun j => bit_is_set_set_fbl_bits _ _ _ _ j
      have hchg : ∀ i, Function.update st.sb.inode t zeroInode i ≠ st.sb.inode i → i = t := by
        intro i hne
        by_contra hit
        exact hne (Function.update_noteq hit _ _)
      refine ⟨_, rfl, ?_, rfl, rfl, ?_, ?_, ?_, ?_, ?_, ?_, ?_, ?_, ?_⟩
      · show Rule4 (zero_inode (set_fbl_bits st.sb _ _ false) t)
        apply rule4_remove st.sb _ t h4
        intro i hi hui hp
        have := ((h4 i hi hui).2.2 (by rw [hp]; omega)).2
        rw [hp, hdir] at this
        exact Bool.noConfusion this
      · intro i
        show (Function.update st.sb.inode t zeroInode) i = st.sb.inode i ∨
          (Function.update st.sb.inode t zeroInode) i = zeroInode
        by_cases hi : i = t
        · right; rw [hi, Function.update_same]
        · left; exact Function.update_noteq hi _ _
      · intro i e _ _ hi
        show (Function.update st.sb.inode t zeroInode) i = st.sb.inode i
        exact Function.update_noteq hi _ _
      · intro i hne
        rw [hchg i hne]
        exact hself
      · rintro i ⟨k, hk⟩
        show (Function.update st.sb.inode t zeroInode) i = zeroInode
        rw [inSubtree_file st.sb t h4 hdir k i hk, Function.update_same]
      · intro j hj
        change bit_is_set (set_fbl_bits st.sb _ _ false).free_block_list j = true at hj
        rw [hbit j] at hj
        split_ifs at hj with hin
        exact hj
      · intro j hj0 hj2
        change bit_is_set (set_fbl_bits st.sb _ _ false).free_block_list j = false at hj2
        rw [hbit j] at hj2
        split_ifs at hj2 with hin
        · exact ⟨hin.2.2, t, hself, hcovt j hin.1 hin.2.1⟩
        · rw [hj0] at hj2
          exact Bool.noConfusion hj2
      · intro k
        show zero_blocks st.disk _ _ k = st.disk k ∨ zero_blocks st.disk _ _ k = zero_buff
        rw [zero_blocks_spec]
        split_ifs
        · exact Or.inr rfl
        · exact Or.inl rfl
      · intro k hne
        change zero_blocks st.disk _ _ k ≠ st.disk k at hne
        rw [zero_blocks_spec] at hne
        split_ifs at hne with hin
        · exact ⟨t, hself, hcovt k hin.1 hin.2⟩
        · exact absurd rfl hne
      · intro i hne j hc
        have hit := hchg i hne
        rw [hit, covers_iff] at hc
        constructor
        · intro hj
          show bit_is_set (set_fbl_bits st.sb _ _ false).free_block_list j = false
          rw [hbit j, if_pos ⟨hc.2.2.1, hc.2.2.2, hj⟩]
        · show zero_blocks st.disk _ _ j = zero_buff
          rw [zero_blocks_spec, if_pos ⟨hc.2.2.1, hc.2.2.2⟩]
    | true =>
      simp only [if_true]
      obtain ⟨s, hs, hR4, hcwd, hbuf, hz, hlow, hL3, hL4, hB1, hB2, hD1, hD2, hZ⟩ :=
        delete_effect_loop fuel t d st
          (fun s c hsc hc126 hcu hcd => ih s c (d + 1) hsc hc126 hcu hcd (by omega))
          h4 ht hu hdep 126 (le_refl _)
      rw [hs]
      simp only [Option.map_some']
      have hst : s.sb.inode t = st.sb.inode t := hlow t d hdep (le_refl _)
      have hself : InSubtree st.sb t t := InSubtree_self st.sb t ht hu
      have hchg : ∀ i, Function.update s.sb.inode t zeroInode i ≠ st.sb.inode i →
          i = t ∨ s.sb.inode i ≠ st.sb.inode i := by
        intro i hne
        by_cases hit : i = t
        · exact Or.inl hit
        · right
          rw [Function.update_noteq hit] at hne
          exact hne
      refine ⟨_, rfl, ?_, hcwd, hbuf, ?_, ?_, ?_, ?_, hB1, hB2, hD1, hD2, ?_⟩
      · show Rule4 (zero_inode s.sb t)
        apply rule4_remove s.sb _ t hR4
        intro i hi hui hp
        have hit : i ≠ t := by
          intro hit
          have := (hR4 i hi hui).1
          rw [hit] at this hp
          exact this hp
        have he := used_same s st hz i hui
        have h0 := hL4 i hi hit (by rw [← he]; exact hui) (by rw [← he]; exact hp) i
          (InSubtree_self st.sb i hi (by rw [← he]; exact hui))
        rw [h0, zeroInode_unused] at hui
        exact Bool.noConfusion hui
      · intro i
        show (Function.update s.sb.inode t zeroInode) i = st.sb.inode i ∨
          (Function.update s.sb.inode t zeroInode) i = zeroInode
        by_cases hi : i = t
        · right; rw [hi, Function.update_same]
        · rw [Function.update_noteq hi]
          exact hz i
      · intro i e he hed hi
        show (Function.update s.sb.inode t zeroInode) i = st.sb.inode i
        rw [Function.update_noteq hi]
        exact hlow i e he hed
      · intro i hne
        rcases hchg i hne with hit | hch
        · rw [hit]; exact hself
        · exact hL3 i hch
      · rintro i ⟨k, hk⟩
        show (Function.update s.sb.inode t zeroInode) i = zeroInode
        by_cases hit : i = t
        · rw [hit, Function.update_same]
        · rw [Function.update_noteq hit]
          rcases InSubtree_cases st.sb t k i hk with h | ⟨c, hc, huc, hpc, hsub⟩
          · exact absurd h hit
          · have hct : c ≠ t := by
              intro hct
              have := (h4 c hc huc).1
              rw [hct] at this hpc
              exact this hpc
            exact hL4 c hc hct huc hpc i hsub
      · intro i hne j hc
        rcases hchg i hne with hit | hch
        · rw [hit, covers_dir _ j hdir] at hc
          exact Bool.noConfusion hc
        · exact hZ i hch j hc

/-- The helper behind C11: the exact effect of `fs_delete` on the target and
its subtree. -/
theorem fs_delete_effect (st : State) (name : Name) (k D : Nat)
    (h4 : Rule4 st.sb) (h2 : Inv2 st.sb) (hroot : reachesRoot st.sb k st.cwd = true)
    (hD : file_exists st name = some D) :
    ∃ s2, fs_delete 127 st name = some (s2, none) ∧
      s2.cwd = st.cwd ∧ s2.fs_buffer = st.fs_buffer ∧
      (∀ i, InSubtree st.sb D i → s2.sb.inode i = zeroInode) ∧
      (∀ i, ¬ InSubtree st.sb D i → s2.sb.inode i = st.sb.inode i) ∧
      (∀ i j, InSubtree st.sb D i → covers (st.sb.inode i) j = true →
        s2.disk j = zero_buff ∧ bit_is_set s2.sb.free_block_list j = false) ∧
      (∀ j, (¬ ∃ i, InSubtree st.sb D i ∧ covers (st.sb.inode i) j = true) →
        bit_is_set s2.sb.free_block_list j = bit_is_set st.sb.free_block_list j ∧
        (j ≠ 0 → s2.disk j = st.disk j)) := by
  obtain ⟨ht, hu, _, hp, _⟩ := file_exists_some st name D hD
  obtain ⟨d, hd⟩ := reachesRoot_depth st.sb k st.cwd hroot
  have hdt : depthIs st.sb (d + 1) D = true := by
    rw [depthIs_succ, hp]
    exact ⟨ht, hd⟩
  obtain ⟨s2, hs2, gR4, gcwd, gbuf, gz, gF, gP3, gP4, gB1, gB2, gD1, gD2, gZ⟩ :=
    delete_file_effect 127 st D (d + 1) h4 ht hu hdt (by omega)
  unfold fs_delete
  rw [hD]
  simp only
  rw [hs2]
  simp only [Option.map_some']
  refine ⟨write_superblock s2, rfl, gcwd, gbuf, gP4, ?_, ?_, ?_⟩
  · intro i hns
    by_contra hne
    exact hns (gP3 i hne)
  · intro i j hsub hc
    obtain ⟨kk, hkk⟩ := hsub
    have hi := inSubtree_used st.sb D kk i hkk
    have hj := covers_range_of_inv2 st.sb h2 i j hi.1 hc
    have hne : s2.sb.inode i ≠ st.sb.inode i := by
      rw [gP4 i ⟨kk, hkk⟩]
      intro he
      have := hi.2
      rw [← he, zeroInode_unused] at this
      exact Bool.noConfusion this
    obtain ⟨hb, hdk⟩ := gZ i hne j hc
    constructor
    · show Function.update s2.disk 0 _ j = zero_buff
      rw [Function.update_noteq (by omega)]
      exact hdk
    · exact hb (by omega)
  · intro j hnc
    constructor
    · show bit_is_set s2.sb.free_block_list j = bit_is_set st.sb.free_block_list j
      cases hb2 : bit_is_set s2.sb.free_block_list j with
      | true => exact (gB1 j hb2).symm
      | false =>
        cases hb : bit_is_set st.sb.free_block_list j with
        | false => rfl
        | true => exact absurd (gB2 j hb hb2).2 hnc
    · intro hj
      show Function.update s2.disk 0 _ j = st.disk j
      rw [Function.update_noteq hj]
      by_contra hne
      exact hnc (gD2 j hne)

/-! ## The scan of `fs_defrag` -/

theorem defrag_scan_cons (fbl : Nat → Nat) (i : Nat) (rest : List Nat) (low : Option Nat) :
    defrag_scan fbl (i :: rest) low =
      if i = 0 then defrag_scan fbl rest low
      else if !bit_is_set fbl i then
        defrag_scan fbl rest (if low = none then some i else low)
      else if low ≠ none then (low, some i)
      else defrag_scan fbl rest low := rfl

/-- The scan once a free block `L` is known: it stops at the first used
block. -/
theorem defrag_scan_some (fbl : Nat → Nat) (L : Nat) :
    ∀ (n a : Nat),
      (defrag_scan fbl (List.range' a n) (some L) = (some L, none) ∧
        ∀ j, a ≤ j → j < a + n → j ≠ 0 → bit_is_set fbl j = false) ∨
      (∃ U, defrag_scan fbl (List.range' a n) (some L) = (some L, some U) ∧
        a ≤ U ∧ U < a + n ∧ U ≠ 0 ∧ bit_is_set fbl U = true ∧
        ∀ j, a ≤ j → j < U → j ≠ 0 → bit_is_set fbl j = false) := by
  intro n
  induction n with
  | zero =>
    intro a
    left
    exact ⟨rfl, fun j h1 h2 => by omega⟩
  | succ n ih =>
    intro a
    rw [List.range'_succ, defrag_scan_cons]
    by_cases ha : a = 0
    · rw [if_pos ha]
      rcases ih (a + 1) with ⟨h1, h2⟩ | ⟨U, h1, h2, h3, h4, h5, h6⟩
      · left
        refine ⟨h1, fun j hj1 hj2 hj0 => h2 j (by omega) (by omega) hj0⟩
      · right
        exact ⟨U, h1, by omega, by omega, h4, h5, fun j hj1 hj2 hj0 => h6 j (by omega) hj2 hj0⟩
    · rw [if_neg ha]
      cases hb : bit_is_set fbl a with
      | false =>
        simp only [Bool.not_false, if_true, reduceCtorEq, if_false]
        rcases ih (a + 1) with ⟨h1, h2⟩ | ⟨U, h1, h2, h3, h4, h5, h6⟩
        · left
          refine ⟨h1, fun j hj1 hj2 hj0 => ?_⟩
          by_cases hja : j = a
          · rw [hja]; exact hb
          · exact h2 j (by omega) (by omega) hj0
        · right
          refine ⟨U, h1, by omega, by omega, h4, h5, fun j hj1 hj2 hj0 => ?_⟩
          by_cases hja : j = a
          · rw [hja]; exact hb
          · exact h6 j (by omega) hj2 hj0
      | true =>
        simp only [Bool.not_true, Bool.false_eq_true, if_false, ne_eq, reduceCtorEq,
          not_false_eq_true, if_true]
        right
        exact ⟨a, rfl, le_refl _, by omega, ha, hb, fun j hj1 hj2 => by omega⟩

/-- The scan from the start: either no used block follows a free block, or
the scan returns the first free block `L` and the first used block `U` after
it. -/
theorem defrag_scan_none (fbl : Nat → Nat) :
    ∀ (n a : Nat),
      ((defrag_scan fbl (List.range' a n) none).2 = none ∧
        ∀ i j, a ≤ i → i < j → j < a + n → i ≠ 0 →
          bit_is_set fbl i = false → bit_is_set fbl j = false) ∨
      (∃ L U, defrag_scan fbl (List.range' a n) none = (some L, some U) ∧
        a ≤ L ∧ L ≠ 0 ∧ L < U ∧ U < a + n ∧
        bit_is_set fbl L = false ∧ bit_is_set fbl U = true ∧
        (∀ i, a ≤ i → i < L → i ≠ 0 → bit_is_set fbl i = true) ∧
        (∀ j, L < j → j < U → bit_is_set fbl j = false)) := by
  intro n
  induction n with
  | zero =>
    intro a
    left
    exact ⟨rfl, fun i j h1 h2 h3 => by omega⟩
  | succ n ih =>
    intro a
    rw [List.range'_succ, defrag_scan_cons]
    by_cases ha : a = 0
    · rw [if_pos ha]
      rcases ih (a + 1) with ⟨h1, h2⟩ | ⟨L, U, h1, h2, h3, h4, h5, h6, h7, h8, h9⟩
      · left
        exact ⟨h1, fun i j hi hij hj hi0 => h2 i j (by omega) hij (by omega) hi0⟩
      · right
        exact ⟨L, U, h1, by omega, h3, h4, by omega, h6, h7,
          fun i hi1 hi2 hi0 => h8 i (by omega) hi2 hi0, h9⟩
    · rw [if_neg ha]
      cases hb : bit_is_set fbl a with
      | false =>
        simp only [Bool.not_false, if_true]
        rcases defrag_scan_some fbl a n (a + 1) with ⟨h1, h2⟩ | ⟨U, h1, h2, h3, h4, h5, h6⟩
        · left
          rw [h1]
          refine ⟨rfl, fun i j hi hij hj hi0 _ => h2 j (by omega) (by omega) (by omega)⟩
        · right
          exact ⟨a, U, h1, le_refl _, ha, by omega, by omega, hb, h5,
            fun i hi1 hi2 => by omega, fun j hj1 hj2 => h6 j (by omega) hj2 (by omega)⟩
      | true =>
        simp only [Bool.not_true, Bool.false_eq_true, if_false, ne_eq, not_true_eq_false]
        rcases ih (a + 1) with ⟨h1, h2⟩ | ⟨L, U, h1, h2, h3, h4, h5, h6, h7, h8, h9⟩
        · left
          refine ⟨h1, fun i j hi hij hj hi0 hbi => ?_⟩
          by_cases hia : i = a
          · rw [hia, hb] at hbi
            exact Bool.noConfusion hbi
          · exact h2 i j (by omega) hij (by omega) hi0 hbi
        · right
          refine ⟨L, U, h1, by omega, h3, h4, by omega, h6, h7, fun i hi1 hi2 hi0 => ?_, h9⟩
          by_cases hia : i = a
          · rw [hia]; exact hb
          · exact h8 i (by omega) hi2 hi0

/-! ## One file move of `fs_defrag` -/

theorem move_block_apply (U L : Nat) (d : Nat → Block) (i k : Nat) :
    move_block U L d i k =
      if k = L + i then d (U + i) else if k = U + i then zero_buff else d k := rfl

/-- The blocks after the loop that moves `n` blocks from `U` down to `L`. -/
theorem move_blocks_spec (disk : Nat → Block) (U L : Nat) (hLU : L < U) :
    ∀ n k, move_blocks disk U L n k =
      if L ≤ k ∧ k < L + n then disk (U + (k - L))
      else if U ≤ k ∧ k < U + n then zero_buff else disk k := by
  intro n
  induction n with
  | zero =>
    intro k
    have h1 : ¬ (L ≤ k ∧ k < L + 0) := by omega
    have h2 : ¬ (U ≤ k ∧ k < U + 0) := by omega
    rw [if_neg h1, if_neg h2]
    rfl
  | succ n ih =>
    intro k
    unfold move_blocks at ih ⊢
    rw [List.range_succ, List.foldl_append, List.foldl_cons, List.foldl_nil, move_block_apply,
      ih (U + n), ih k]
    split_ifs <;> first | rfl | omega | (congr 1; omega)

theorem defrag_move_cwd (st : State) (idx L : Nat) : (defrag_move st idx L).cwd = st.cwd := rfl

theorem defrag_move_buffer (st : State) (idx L : Nat) :
    (defrag_move st idx L).fs_buffer = st.fs_buffer := rfl

theorem defrag_move_inode (st : State) (idx L : Nat) :
    (defrag_move st idx L).sb.inode =
      Function.update st.sb.inode idx { st.sb.inode idx with start_block := L % 256 } := rfl

theorem defrag_move_bit (st : State) (idx L j : Nat) :
    bit_is_set (defrag_move st idx L).sb.free_block_list j =
      if L ≤ j ∧ j < L + (st.sb.inode idx).size ∧ j ≠ 0 then true
      else if (st.sb.inode idx).start_block ≤ j ∧
        j < (st.sb.inode idx).start_block + (st.sb.inode idx).size ∧ j ≠ 0 then false
      else bit_is_set st.sb.free_block_list j := by
  show bit_is_set (set_fbl_bits (set_fbl_bits st.sb (st.sb.inode idx).start_block
    (st.sb.inode idx).size false) L (st.sb.inode idx).size true).free_block_list j = _
  rw [bit_is_set_set_fbl_bits, bit_is_set_set_fbl_bits]

theorem defrag_move_disk (st : State) (idx L k : Nat) (hk : k ≠ 0) :
    (defrag_move st idx L).disk k =
      move_blocks st.disk (st.sb.inode idx).start_block L (st.sb.inode idx).size k := by
  show Function.update _ 0 _ k = _
  rw [Function.update_noteq hk]

theorem isfile_iff (n : Inode) : n.isfile = true ↔ (n.isused = true ∧ n.isdir = false) := by
  unfold Inode.isfile
  cases n.isused <;> cases n.isdir <;> simp

theorem covers_iff_isfile (n : Inode) (j : Nat) :
    covers n j = true ↔ (n.isfile = true ∧ n.start_block ≤ j ∧ j < n.start_block + n.size) := by
  rw [covers_iff, isfile_iff]
  tauto

/-- An inode with a new start block has the bytes `isused_size` and
`isdir_parent` and the name it had. -/
theorem restart_fields (n : Inode) (L : Nat) :
    ({ n with start_block := L } : Inode).isused = n.isused ∧
    ({ n with start_block := L } : Inode).isdir = n.isdir ∧
    ({ n with start_block := L } : Inode).size = n.size ∧
    ({ n with start_block := L } : Inode).parent = n.parent ∧
    ({ n with start_block := L } : Inode).name = n.name ∧
    ({ n with start_block := L } : Inode).isfile = n.isfile :=
  ⟨rfl, rfl, rfl, rfl, rfl, rfl⟩

/-- Moving a file down to a run of free blocks that ends where the file
starts keeps the state consistent. -/
theorem consistent_move (sb : Superblock) (fbl2 : Nat → Nat) (ino2 : Nat → Inode)
    (idx L : Nat)
    (hne : ∀ i, i ≠ idx → ino2 i = sb.inode i)
    (hsame : ino2 idx = ⟨(sb.inode idx).name, (sb.inode idx).isused_size, L,
      (sb.inode idx).isdir_parent⟩)
    (h : Consistent sb) (hidx : idx < 126) (hf : (sb.inode idx).isfile = true)
    (hL1 : 1 ≤ L) (hLU : L < (sb.inode idx).start_block)
    (hfree : ∀ j, L ≤ j → j < (sb.inode idx).start_block →
      bit_is_set sb.free_block_list j = false)
    (hbits : ∀ j, bit_is_set fbl2 j =
      if L ≤ j ∧ j < L + (sb.inode idx).size ∧ j ≠ 0 then true
      else if (sb.inode idx).start_block ≤ j ∧
        j < (sb.inode idx).start_block + (sb.inode idx).size ∧ j ≠ 0 then false
      else bit_is_set sb.free_block_list j) :
    Consistent ⟨fbl2, ino2⟩ := by
  obtain ⟨h1, h2, h3, h4, h5, hb, hd⟩ := h
  obtain ⟨hu, hdir⟩ := (isfile_iff _).1 hf
  have hfld : ∀ i,
      (ino2 i).isused = (sb.inode i).isused ∧ (ino2 i).isdir = (sb.inode i).isdir ∧
      (ino2 i).size = (sb.inode i).size ∧ (ino2 i).parent = (sb.inode i).parent ∧
      (ino2 i).name = (sb.inode i).name := by
    intro i
    by_cases hi : i = idx
    · rw [hi, hsame]
      exact ⟨rfl, rfl, rfl, rfl, rfl⟩
    · rw [hne i hi]
      exact ⟨rfl, rfl, rfl, rfl, rfl⟩
  have hi2 := h2 idx hidx hu hdir
  have hcov : ∀ j, covers (ino2 idx) j = true ↔
      (L ≤ j ∧ j < L + (sb.inode idx).size) := by
    intro j
    rw [hsame, covers_iff]
    show ((sb.inode idx).isused = true ∧ (sb.inode idx).isdir = false ∧ L ≤ j ∧
      j < L + (sb.inode idx).size) ↔ _
    tauto
  have hcov0 : ∀ j, covers (sb.inode idx) j = true ↔
      ((sb.inode idx).start_block ≤ j ∧
        j < (sb.inode idx).start_block + (sb.inode idx).size) := by
    intro j
    rw [covers_iff]
    tauto
  have hnocov : ∀ j, L ≤ j → j < (sb.inode idx).start_block → ∀ i, i < 126 →
      covers (sb.inode i) j = false := by
    intro j hj1 hj2 i hi
    cases hc : covers (sb.inode i) j with
    | false => rfl
    | true =>
      have := (hb j (by omega) (by omega)).2 ⟨i, hi, hc⟩
      rw [hfree j hj1 hj2] at this
      exact Bool.noConfusion this
  refine ⟨?_, ?_, ?_, ?_, ?_, ?_, ?_⟩
  · intro i hi
    show ((ino2 i).isused = false → _) ∧
      ((ino2 i).isused = true → _)
    rw [(hfld i).1, (hfld i).2.2.2.2]
    refine ⟨fun hui => ?_, (h1 i hi).2⟩
    have hne2 : i ≠ idx := by
      intro hh
      rw [hh, hu] at hui
      exact Bool.noConfusion hui
    show ino2 i = zeroInode
    rw [hne i hne2]
    exact (h1 i hi).1 hui
  · intro i hi
    show (ino2 i).isused = true →
      (ino2 i).isdir = false → _
    rw [(hfld i).1, (hfld i).2.1]
    intro hui hdi
    by_cases hh : i = idx
    · show 1 ≤ (ino2 i).start_block ∧
        (ino2 i).start_block +
          (ino2 i).size - 1 ≤ 127 ∧
        1 ≤ (ino2 i).size
      rw [(hfld i).2.2.1, hh, hsame]
      show 1 ≤ L ∧ L + (sb.inode idx).size - 1 ≤ 127 ∧ 1 ≤ (sb.inode idx).size
      omega
    · show 1 ≤ (ino2 i).start_block ∧
        (ino2 i).start_block +
          (ino2 i).size - 1 ≤ 127 ∧
        1 ≤ (ino2 i).size
      rw [hne i hh]
      exact h2 i hi hui hdi
  · intro i hi
    show (ino2 i).isused = true →
      (ino2 i).isdir = true → _
    rw [(hfld i).1, (hfld i).2.1]
    intro hui hdi
    have hh : i ≠ idx := by
      intro hh
      rw [hh, hdir] at hdi
      exact Bool.noConfusion hdi
    show (ino2 i).size = 0 ∧
      (ino2 i).start_block = 0
    rw [hne i hh]
    exact h3 i hi hui hdi
  · intro i hi
    show (ino2 i).isused = true →
      (ino2 i).parent ≠ i ∧
      (ino2 i).parent ≠ 126 ∧
      ((ino2 i).parent ≤ 125 →
        (ino2 (ino2 i).parent).isused = true ∧
        (ino2 (ino2 i).parent).isdir = true)
    rw [(hfld i).1, (hfld i).2.2.2.1, (hfld _).1, (hfld _).2.1]
    exact h4 i hi
  · intro i hi k hk
    show (i ≠ k ∧ (ino2 i).isused = true ∧
      (ino2 k).isused = true ∧
      (ino2 i).parent =
        (ino2 k).parent) →
      (ino2 i).name ≠ (ino2 k).name
    rw [(hfld i).1, (hfld k).1, (hfld i).2.2.2.1, (hfld k).2.2.2.1, (hfld i).2.2.2.2,
      (hfld k).2.2.2.2]
    exact h5 i hi k hk
  · intro j hj1 hj2
    show bit_is_set fbl2 j = true ↔
      ∃ i, i < 126 ∧ covers (ino2 i) j = true
    rw [hbits j]
    by_cases hin : L ≤ j ∧ j < L + (sb.inode idx).size ∧ j ≠ 0
    · rw [if_pos hin]
      exact ⟨fun _ => ⟨idx, hidx, (hcov j).2 ⟨hin.1, hin.2.1⟩⟩, fun _ => rfl⟩
    · rw [if_neg hin]
      by_cases hold : (sb.inode idx).start_block ≤ j ∧
          j < (sb.inode idx).start_block + (sb.inode idx).size ∧ j ≠ 0
      · rw [if_pos hold]
        constructor
        · intro hh
          exact Bool.noConfusion hh
        · rintro ⟨i, hi, hc⟩
          exfalso
          by_cases hh : i = idx
          · rw [hh, hcov] at hc
            exact hin ⟨hc.1, hc.2, by omega⟩
          · rw [hne i hh] at hc
            exact hh (hd j i idx hi hidx hc ((hcov0 j).2 ⟨hold.1, hold.2.1⟩))
      · rw [if_neg hold, hb j hj1 hj2]
        constructor
        · rintro ⟨i, hi, hc⟩
          have hh : i ≠ idx := by
            intro hh
            rw [hh, hcov0] at hc
            exact hold ⟨hc.1, hc.2, by omega⟩
          exact ⟨i, hi, by rw [hne i hh]; exact hc⟩
        · rintro ⟨i, hi, hc⟩
          have hh : i ≠ idx := by
            intro hh
            rw [hh, hcov] at hc
            exact hin ⟨hc.1, hc.2, by omega⟩
          rw [hne i hh] at hc
          exact ⟨i, hi, hc⟩
  · intro j i k hi hk
    show covers (ino2 i) j = true →
      covers (ino2 k) j = true → i = k
    intro hci hck
    have key : ∀ m, m < 126 → m ≠ idx → covers (sb.inode m) j = true →
        ¬ (L ≤ j ∧ j < L + (sb.inode idx).size) := by
      intro m hm hmi hcm hj
      by_cases hlow : j < (sb.inode idx).start_block
      · have := hnocov j hj.1 hlow m hm
        rw [this] at hcm
        exact Bool.noConfusion hcm
      · exact hmi (hd j m idx hm hidx hcm ((hcov0 j).2 ⟨by omega, by omega⟩))
    by_cases hii : i = idx
    · by_cases hki : k = idx
      · rw [hii, hki]
      · exfalso
        rw [hii, hcov] at hci
        rw [hne k hki] at hck
        exact key k hk hki hck hci
    · by_cases hki : k = idx
      · exfalso
        rw [hki, hcov] at hck
        rw [hne i hii] at hci
        exact key i hi hii hci hck
      · rw [hne i hii] at hci
        rw [hne k hki] at hck
        exact hd j i k hi hk hci hck

/-! ## The outer loop of `fs_defrag` -/

/-- What `defrag_find` returns is a used file below 126 with the start block
that was asked for. -/
theorem defrag_find_some (sb : Superblock) (U idx : Nat) (h : defrag_find sb U = some idx) :
    idx < 126 ∧ (sb.inode idx).start_block = U ∧ (sb.inode idx).isfile = true := by
  have hs := find_range_spec (fun i =>
    decide ((sb.inode i).start_block = U) && !(sb.inode i).isdir && (sb.inode i).isused) 126
  unfold defrag_find at h
  rw [h] at hs
  obtain ⟨h1, h2, _⟩ := hs
  simp only [Bool.and_eq_true, decide_eq_true_eq, Bool.not_eq_true'] at h2
  exact ⟨h1, h2.1.1, (isfile_iff _).2 ⟨h2.2, h2.1.2⟩⟩

/-- The search of `defrag_find` succeeds when a used file starts at the block. -/
theorem defrag_find_exists (sb : Superblock) (U i : Nat) (hi : i < 126)
    (hs : (sb.inode i).start_block = U) (hf : (sb.inode i).isfile = true) :
    ∃ idx, defrag_find sb U = some idx := by
  have hsp := find_range_spec (fun i =>
    decide ((sb.inode i).start_block = U) && !(sb.inode i).isdir && (sb.inode i).isused) 126
  unfold defrag_find
  cases hfd : (List.range 126).find? (fun i =>
    decide ((sb.inode i).start_block = U) && !(sb.inode i).isdir && (sb.inode i).isused) with
  | some idx => exact ⟨idx, rfl⟩
  | none =>
    rw [hfd] at hsp
    have := hsp i hi
    obtain ⟨hu, hd⟩ := (isfile_iff _).1 hf
    simp [hs, hu, hd] at this

/-- In a consistent state a used block whose predecessor in the data region
is free is the start block of a used file. -/
theorem start_of_used_after_free (sb : Superblock) (h : Consistent sb) (U : Nat)
    (hU1 : 2 ≤ U) (hU2 : U ≤ 127) (hset : bit_is_set sb.free_block_list U = true)
    (hfree : bit_is_set sb.free_block_list (U - 1) = false) :
    ∃ i, i < 126 ∧ (sb.inode i).isfile = true ∧ (sb.inode i).start_block = U := by
  obtain ⟨_, _, _, _, _, hb, _⟩ := h
  obtain ⟨i, hi, hc⟩ := (hb U (by omega) hU2).1 hset
  refine ⟨i, hi, ((covers_iff_isfile _ _).1 hc).1, ?_⟩
  by_contra hne
  have hc2 := (covers_iff_isfile _ _).1 hc
  have hc1 : covers (sb.inode i) (U - 1) = true :=
    (covers_iff_isfile _ _).2 ⟨hc2.1, by omega, by omega⟩
  have := (hb (U - 1) (by omega) (by omega)).2 ⟨i, hi, hc1⟩
  rw [hfree] at this
  exact Bool.noConfusion this

theorem defragRel_refl (st : State) : DefragRel st st :=
  ⟨rfl, rfl, fun _ => ⟨rfl, rfl, rfl⟩, fun _ _ => rfl, fun _ _ _ _ _ => rfl,
    fun _ _ _ _ _ _ h => h⟩

theorem isfile_of_fields (a b : Inode) (h1 : a.isused_size = b.isused_size)
    (h2 : a.isdir_parent = b.isdir_parent) :
    a.isfile = b.isfile ∧ a.size = b.size ∧ a.isused = b.isused ∧ a.isdir = b.isdir ∧
      a.parent = b.parent := by
  unfold Inode.isfile Inode.size Inode.isused Inode.isdir Inode.parent
  rw [h1, h2]
  exact ⟨rfl, rfl, rfl, rfl, rfl⟩

theorem defragRel_trans (a b c : State) (h1 : DefragRel a b) (h2 : DefragRel b c) :
    DefragRel a c := by
  obtain ⟨a1, a2, a3, a4, a5, a6⟩ := h1
  obtain ⟨b1, b2, b3, b4, b5, b6⟩ := h2
  have hf : ∀ i, (b.sb.inode i).isfile = (a.sb.inode i).isfile ∧
      (b.sb.inode i).size = (a.sb.inode i).size := fun i =>
    ⟨(isfile_of_fields _ _ (a3 i).2.1 (a3 i).2.2).1, (isfile_of_fields _ _ (a3 i).2.1 (a3 i).2.2).2.1⟩
  refine ⟨b1.trans a1, b2.trans a2, ?_, ?_, ?_, ?_⟩
  · intro i
    exact ⟨(b3 i).1.trans (a3 i).1, (b3 i).2.1.trans (a3 i).2.1, (b3 i).2.2.trans (a3 i).2.2⟩
  · intro i hi
    rw [b4 i (by rw [(hf i).1]; exact hi), a4 i hi]
  · intro i hi hfi k hk
    rw [b5 i hi (by rw [(hf i).1]; exact hfi) k (by rw [(hf i).2]; exact hk), a5 i hi hfi k hk]
  · intro i g hi hg hfi hfg hlt
    exact b6 i g hi hg (by rw [(hf i).1]; exact hfi) (by rw [(hf g).1]; exact hfg)
      (a6 i g hi hg hfi hfg hlt)

/-- The outer loop ends when the scan finds no used block after a free
block. -/
theorem defrag_step_finished (st : State) (f : Nat)
    (h : (defrag_scan st.sb.free_block_list (List.range' f (128 - f)) none).2 = none) :
    defrag_step st f = DefragStep.finished := by
  unfold defrag_step
  cases hsc : defrag_scan st.sb.free_block_list (List.range' f (128 - f)) none with
  | mk lo r =>
    rw [hsc] at h
    simp only at h
    rw [h]
    cases lo <;> rfl

/-- One iteration of the outer loop of `fs_defrag` on a consistent state
whose blocks below the resume index are used: either the loop ends and no
free block precedes a used block, or one file moves, the state is consistent
again, and the resume index grows. -/
theorem defrag_step_spec (st : State) (f : Nat) (h : DefragInv st f) :
    (defrag_step st f = DefragStep.finished ∧ Packed st.sb) ∨
    ∃ st2 f2, defrag_step st f = DefragStep.moved st2 f2 ∧ DefragInv st2 f2 ∧ f < f2 ∧
      DefragRel st st2 := by
  obtain ⟨hc, hf, hpre⟩ := h
  have hn : f + (128 - f) = 128 := by omega
  rcases defrag_scan_none st.sb.free_block_list (128 - f) f with
    ⟨h1, h2⟩ | ⟨L, U, h1, h2, h3, h4, h5, h6, h7, h8, h9⟩
  · left
    constructor
    · exact defrag_step_finished st f h1
    · intro i j hi hij hj hbi
      have hif : f ≤ i := by
        by_contra hlt
        rw [hpre i hi (by omega)] at hbi
        exact Bool.noConfusion hbi
      exact h2 i j hif hij (by omega) (by omega) hbi
  · right
    rw [hn] at h5
    have hfreeU : bit_is_set st.sb.free_block_list (U - 1) = false := by
      by_cases hUL : U - 1 = L
      · rw [hUL]; exact h6
      · exact h9 (U - 1) (by omega) (by omega)
    obtain ⟨i0, hi0, hfi0, hsi0⟩ := start_of_used_after_free st.sb hc U (by omega) (by omega)
      h7 hfreeU
    obtain ⟨idx, hidx⟩ := defrag_find_exists st.sb U i0 hi0 hsi0 hfi0
    obtain ⟨hi126, hstart, hfile⟩ := defrag_find_some st.sb U idx hidx
    obtain ⟨hu, hdir⟩ := (isfile_iff _).1 hfile
    have hinv2 := hc.2.1 idx hi126 hu hdir
    have hL256 : L % 256 = L := Nat.mod_eq_of_lt (by omega)
    have hfreeLU : ∀ j, L ≤ j → j < (st.sb.inode idx).start_block →
        bit_is_set st.sb.free_block_list j = false := by
      intro j hj1 hj2
      by_cases hjl : j = L
      · rw [hjl]; exact h6
      · exact h9 j (by omega) (by omega)
    have hino : ∀ i, i ≠ idx → (defrag_move st idx L).sb.inode i = st.sb.inode i := by
      intro i hi
      rw [defrag_move_inode]
      exact Function.update_noteq hi _ _
    have hino2 : (defrag_move st idx L).sb.inode idx =
        ⟨(st.sb.inode idx).name, (st.sb.inode idx).isused_size, L,
          (st.sb.inode idx).isdir_parent⟩ := by
      rw [defrag_move_inode, Function.update_same, hL256]
    have hcons : Consistent (defrag_move st idx L).sb :=
      consistent_move st.sb (defrag_move st idx L).sb.free_block_list
        (defrag_move st idx L).sb.inode idx L hino hino2 hc hi126 hfile (by omega)
        (by omega) hfreeLU (defrag_move_bit st idx L)
    have hdisk : ∀ k, k ≠ 0 → (defrag_move st idx L).disk k =
        if L ≤ k ∧ k < L + (st.sb.inode idx).size then
          st.disk ((st.sb.inode idx).start_block + (k - L))
        else if (st.sb.inode idx).start_block ≤ k ∧
          k < (st.sb.inode idx).start_block + (st.sb.inode idx).size then zero_buff
        else st.disk k := by
      intro k hk
      rw [defrag_move_disk st idx L k hk, move_blocks_spec _ _ _ (by omega)]
    have hcovidx : ∀ j, (st.sb.inode idx).start_block ≤ j →
        j < (st.sb.inode idx).start_block + (st.sb.inode idx).size →
        covers (st.sb.inode idx) j = true :=
      fun j hj1 hj2 => (covers_iff_isfile _ _).2 ⟨hfile, hj1, hj2⟩
    have hother : ∀ i, i < 126 → i ≠ idx → ∀ j, covers (st.sb.inode i) j = true →
        ¬ (L ≤ j ∧ j < (st.sb.inode idx).start_block + (st.sb.inode idx).size) := by
      intro i hi hne j hcv hj
      have hr := covers_range_of_inv2 st.sb hc.2.1 i j hi hcv
      by_cases hlow : j < (st.sb.inode idx).start_block
      · have := (hc.2.2.2.2.2.1 j hr.1 hr.2).2 ⟨i, hi, hcv⟩
        rw [hfreeLU j hj.1 hlow] at this
        exact Bool.noConfusion this
      · exact hne (hc.2.2.2.2.2.2 j i idx hi hi126 hcv (hcovidx j (by omega) hj.2))
    refine ⟨defrag_move st idx L, L + (st.sb.inode idx).size, ?_, ⟨hcons, by omega, ?_⟩,
      by omega, ?_⟩
    · unfold defrag_step
      rw [h1]
      simp only
      rw [hidx]
    · intro j hj1 hj2
      rw [defrag_move_bit]
      by_cases hjL : L ≤ j
      · rw [if_pos ⟨hjL, hj2, by omega⟩]
      · rw [if_neg (by omega), if_neg (by omega)]
        by_cases hjf : j < f
        · exact hpre j hj1 hjf
        · exact h8 j (by omega) (by omega) (by omega)
    · refine ⟨rfl, rfl, ?_, ?_, ?_, ?_⟩
      · intro i
        by_cases hi : i = idx
        · rw [hi, hino2]
          exact ⟨rfl, rfl, rfl⟩
        · rw [hino i hi]
          exact ⟨rfl, rfl, rfl⟩
      · intro i hi
        apply hino
        intro hh
        rw [hh] at hi
        exact hi ⟨hi126, hfile⟩
      · intro i hi hfi k hk
        by_cases hh : i = idx
        · rw [hh, hino2]
          show (defrag_move st idx L).disk (L + k) = _
          rw [hh] at hk
          rw [hdisk (L + k) (by omega), if_pos (by omega)]
          congr 1
          omega
        · rw [hino i hh]
          have hcv : covers (st.sb.inode i) ((st.sb.inode i).start_block + k) = true :=
            (covers_iff_isfile _ _).2 ⟨hfi, by omega, by omega⟩
          have hr := covers_range_of_inv2 st.sb hc.2.1 i _ hi hcv
          have hno := hother i hi hh _ hcv
          rw [hdisk _ (by omega), if_neg (by omega), if_neg (by omega)]
      · intro i g hi hg hfi hfg hlt
        obtain ⟨hui, hdi⟩ := (isfile_iff _).1 hfi
        have hsz := hc.2.1 i hi hui hdi
        have hcvi : covers (st.sb.inode i) (st.sb.inode i).start_block = true :=
          (covers_iff_isfile _ _).2 ⟨hfi, le_refl _, by omega⟩
        by_cases hii : i = idx
        · by_cases hgi : g = idx
          · rw [hii, hgi] at hlt
            omega
          · rw [hii, hino2, hino g hgi]
            rw [hii] at hlt
            show L < (st.sb.inode g).start_block
            omega
        · by_cases hgi : g = idx
          · rw [hgi, hino2, hino i hii]
            rw [hgi] at hlt
            show (st.sb.inode i).start_block < L
            have hno := hother i hi hii _ hcvi
            omega
          · rw [hino i hii, hino g hgi]
            exact hlt

/-- The outer loop of `fs_defrag` ends within 128 iterations on a consistent
state; the final state is consistent, no free block precedes a used block,
and every state after a move is consistent. -/
theorem defrag_loop_spec (fuel : Nat) :
    ∀ (st : State) (f : Nat), DefragInv st f → 128 ≤ fuel + f →
      ∃ s2, defrag_loop fuel st f = DefragResult.done s2 ∧ Consistent s2.sb ∧
        Packed s2.sb ∧ DefragRel st s2 ∧
        ∀ s, s ∈ defrag_moves fuel st f → Consistent s.sb := by
  induction fuel with
  | zero =>
    intro st f h hf
    have := h.2.1
    omega
  | succ fuel ih =>
    intro st f h hf
    rcases defrag_step_spec st f h with ⟨h1, h2⟩ | ⟨st2, f2, h1, h2, h3, h4⟩
    · refine ⟨st, ?_, h.1, h2, defragRel_refl st, ?_⟩
      · show (match defrag_step st f with
          | DefragStep.finished => DefragResult.done st
          | DefragStep.undefined => DefragResult.undefined
          | DefragStep.moved st2 fbl_idx2 => defrag_loop fuel st2 fbl_idx2) = _
        rw [h1]
      · intro s hs
        have : defrag_moves (fuel + 1) st f = [] := by
          show (match defrag_step st f with
            | DefragStep.moved st2 fbl_idx2 => st2 :: defrag_moves fuel st2 fbl_idx2
            | _ => []) = _
          rw [h1]
        rw [this] at hs
        exact absurd hs (List.not_mem_nil _)
    · obtain ⟨s2, g1, g2, g3, g4, g5⟩ := ih st2 f2 h2 (by omega)
      refine ⟨s2, ?_, g2, g3, defragRel_trans st st2 s2 h4 g4, ?_⟩
      · show (match defrag_step st f with
          | DefragStep.finished => DefragResult.done st
          | DefragStep.undefined => DefragResult.undefined
          | DefragStep.moved st2 fbl_idx2 => defrag_loop fuel st2 fbl_idx2) = _
        rw [h1]
        exact g1
      · intro s hs
        have : defrag_moves (fuel + 1) st f = st2 :: defrag_moves fuel st2 f2 := by
          show (match defrag_step st f with
            | DefragStep.moved st2 fbl_idx2 => st2 :: defrag_moves fuel st2 fbl_idx2
            | _ => []) = _
          rw [h1]
        rw [this] at hs
        rcases List.mem_cons.1 hs with hs | hs
        · rw [hs]; exact h2.1
        · exact g5 s hs

/-- Helper for the claims on `fs_defrag`: from a consistent state the run
ends within 128 iterations in a consistent state where no free block precedes
a used block. -/
theorem fs_defrag_spec (st : State) (h : Consistent st.sb) :
    ∃ s2, fs_defrag 128 st = DefragResult.done s2 ∧ Consistent s2.sb ∧
      Packed s2.sb ∧ DefragRel st s2 ∧
      ∀ s, s ∈ defrag_moves 128 st 0 → Consistent s.sb :=
  defrag_loop_spec 128 st 0 ⟨h, by omega, fun j h1 h2 => by omega⟩ (by omega)

/-- On a state where no free block precedes a used block the first scan of
`fs_defrag` ends the loop. -/
theorem defrag_step_packed (st : State) (h : Packed st.sb) :
    defrag_step st 0 = DefragStep.finished := by
  rcases defrag_scan_none st.sb.free_block_list 128 0 with
    ⟨h1, _⟩ | ⟨L, U, _, _, h3, h4, h5, h6, h7, _, _⟩
  · exact defrag_step_finished st 0 h1
  · have := h L U (by omega) h4 (by omega) h6
    rw [h7] at this
    exact Bool.noConfusion this

/-- A run of `fs_defrag` on a state where no free block precedes a used block
changes nothing. -/
theorem fs_defrag_packed (st : State) (h : Packed st.sb) (fuel : Nat) :
    fs_defrag (fuel + 1) st = DefragResult.done st := by
  show (match defrag_step st 0 with
    | DefragStep.finished => DefragResult.done st
    | DefragStep.undefined => DefragResult.undefined
    | DefragStep.moved st2 fbl_idx2 => defrag_loop fuel st2 fbl_idx2) = _
  rw [defrag_step_packed st h]

/-! ## Counting the blocks below a boundary -/

theorem list_sum_range (f : Nat → Nat) (n : Nat) :
    ((List.range n).map f).sum = Finset.sum (Finset.range n) f := by
  induction n with
  | zero => rfl
  | succ n ih =>
    rw [List.range_succ, List.map_append, List.sum_append, Finset.sum_range_succ, ih]
    simp

/-- In a consistent state, when every block of 1..B-1 is used and no file
reaches across `B`, the files that start below `B` have `B - 1` blocks in
all. -/
theorem sizeBelow_boundary (sb : Superblock) (h : Consistent sb) (B : Nat)
    (hB1 : 1 ≤ B) (hB : B ≤ 128)
    (hset : ∀ j, 1 ≤ j → j < B → bit_is_set sb.free_block_list j = true)
    (hns : ∀ i, i < 126 → (sb.inode i).isfile = true → (sb.inode i).start_block < B →
      (sb.inode i).start_block + (sb.inode i).size ≤ B) :
    sizeBelow sb B + 1 = B := by
  obtain ⟨_, h2, _, _, _, hb, hd⟩ := h
  have hI : Finset.Ico 1 B =
      ((Finset.range 126).filter (fun i =>
        (sb.inode i).isfile = true ∧ (sb.inode i).start_block < B)).biUnion
        (fun i => Finset.Ico (sb.inode i).start_block
          ((sb.inode i).start_block + (sb.inode i).size)) := by
    ext j
    simp only [Finset.mem_Ico, Finset.mem_biUnion, Finset.mem_filter, Finset.mem_range]
    constructor
    · rintro ⟨hj1, hj2⟩
      have hB128 : j ≤ 127 := by omega
      obtain ⟨i, hi, hc⟩ := (hb j hj1 hB128).1 (hset j hj1 hj2)
      have hc2 := (covers_iff_isfile _ _).1 hc
      exact ⟨i, ⟨hi, hc2.1, by omega⟩, hc2.2.1, hc2.2.2⟩
    · rintro ⟨i, ⟨hi, hf, hlt⟩, hj1, hj2⟩
      obtain ⟨hu, hdr⟩ := (isfile_iff _).1 hf
      have := h2 i hi hu hdr
      have := hns i hi hf hlt
      omega
  have hcard := congrArg Finset.card hI
  rw [Nat.card_Ico, Finset.card_biUnion] at hcard
  · have hsum : sizeBelow sb B = Finset.sum ((Finset.range 126).filter (fun i =>
        (sb.inode i).isfile = true ∧ (sb.inode i).start_block < B))
        (fun i => (Finset.Ico (sb.inode i).start_block
          ((sb.inode i).start_block + (sb.inode i).size)).card) := by
      unfold sizeBelow
      rw [list_sum_range, Finset.sum_filter]
      apply Finset.sum_congr rfl
      intro i _
      simp only [Nat.card_Ico, Nat.add_sub_cancel_left, Bool.and_eq_true, decide_eq_true_eq]
    rw [hsum, ← hcard]
    omega
  · intro x hx y hy hxy
    simp only [Finset.mem_filter, Finset.mem_range] at hx hy
    rw [Finset.disjoint_left]
    intro a hax hay
    rw [Finset.mem_Ico] at hax hay
    exact hxy (hd a x y hx.1 hy.1 ((covers_iff_isfile _ _).2 ⟨hx.2.1, hax.1, hax.2⟩)
      ((covers_iff_isfile _ _).2 ⟨hy.2.1, hay.1, hay.2⟩))

/-! ## The state at the end of `fs_defrag` -/

/-- In a consistent state where no free block precedes a used block, a file
starts right after the blocks of the files that start below it. -/
theorem packed_start (sb : Superblock) (h : Consistent sb) (hp : Packed sb) (i : Nat)
    (hi : i < 126) (hf : (sb.inode i).isfile = true) :
    (sb.inode i).start_block = 1 + sizeBelow sb (sb.inode i).start_block := by
  obtain ⟨hu, hdr⟩ := (isfile_iff _).1 hf
  have hi2 := h.2.1 i hi hu hdr
  have hcv : covers (sb.inode i) (sb.inode i).start_block = true :=
    (covers_iff_isfile _ _).2 ⟨hf, le_refl _, by omega⟩
  have hbit : bit_is_set sb.free_block_list (sb.inode i).start_block = true :=
    (h.2.2.2.2.2.1 _ (by omega) (by omega)).2 ⟨i, hi, hcv⟩
  have hset : ∀ j, 1 ≤ j → j < (sb.inode i).start_block →
      bit_is_set sb.free_block_list j = true := by
    intro j hj1 hj2
    cases hb : bit_is_set sb.free_block_list j with
    | true => rfl
    | false =>
      have := hp j _ hj1 hj2 (by omega) hb
      rw [hbit] at this
      exact Bool.noConfusion this
  have hns : ∀ g, g < 126 → (sb.inode g).isfile = true →
      (sb.inode g).start_block < (sb.inode i).start_block →
      (sb.inode g).start_block + (sb.inode g).size ≤ (sb.inode i).start_block := by
    intro g hg hfg hlt
    by_contra hgt
    have hcg : covers (sb.inode g) (sb.inode i).start_block = true :=
      (covers_iff_isfile _ _).2 ⟨hfg, by omega, by omega⟩
    have := h.2.2.2.2.2.2 _ g i hg hi hcg hcv
    rw [this] at hlt
    omega
  have := sizeBelow_boundary sb h _ hi2.1 (by omega) hset hns
  omega

/-- In a consistent state where no free block precedes a used block, the set
bits of the data region are the bits 1..T, with T the total size of the
files. -/
theorem packed_bits (sb : Superblock) (h : Consistent sb) (hp : Packed sb) :
    ∀ j, 1 ≤ j → j ≤ 127 →
      (bit_is_set sb.free_block_list j = true ↔ j ≤ totalSize sb) := by
  have hex : ∃ B, 1 ≤ B ∧ (B = 128 ∨ bit_is_set sb.free_block_list B = false) :=
    ⟨128, by omega, Or.inl rfl⟩
  obtain ⟨hB1, hBor⟩ := Nat.find_spec hex
  have hmin := fun m (hm : m < Nat.find hex) => Nat.find_min hex hm
  have hB128 : Nat.find hex ≤ 128 := Nat.find_min' hex ⟨by omega, Or.inl rfl⟩
  generalize Nat.find hex = B at hB1 hBor hmin hB128
  have hset : ∀ j, 1 ≤ j → j < B → bit_is_set sb.free_block_list j = true := by
    intro j hj1 hj2
    cases hb : bit_is_set sb.free_block_list j with
    | true => rfl
    | false => exact absurd ⟨hj1, Or.inr hb⟩ (hmin j hj2)
  have hclear : ∀ j, B ≤ j → j ≤ 127 → bit_is_set sb.free_block_list j = false := by
    intro j hj1 hj2
    rcases hBor with h128 | hbB
    · omega
    · by_cases hjB : j = B
      · rw [hjB]; exact hbB
      · exact hp B j hB1 (by omega) hj2 hbB
  have hfile : ∀ g, g < 126 → (sb.inode g).isfile = true →
      ∀ j, (sb.inode g).start_block ≤ j → j < (sb.inode g).start_block + (sb.inode g).size →
        j < B := by
    intro g hg hfg j hj1 hj2
    obtain ⟨hu, hdr⟩ := (isfile_iff _).1 hfg
    have hi2 := h.2.1 g hg hu hdr
    by_contra hge
    have hbit : bit_is_set sb.free_block_list j = true :=
      (h.2.2.2.2.2.1 j (by omega) (by omega)).2 ⟨g, hg, (covers_iff_isfile _ _).2 ⟨hfg, hj1, hj2⟩⟩
    rw [hclear j (by omega) (by omega)] at hbit
    exact Bool.noConfusion hbit
  have hns : ∀ g, g < 126 → (sb.inode g).isfile = true → (sb.inode g).start_block < B →
      (sb.inode g).start_block + (sb.inode g).size ≤ B := by
    intro g hg hfg _
    obtain ⟨hu, hdr⟩ := (isfile_iff _).1 hfg
    have hi2 := h.2.1 g hg hu hdr
    have := hfile g hg hfg ((sb.inode g).start_block + (sb.inode g).size - 1) (by omega)
      (by omega)
    omega
  have hcount := sizeBelow_boundary sb h B hB1 hB128 hset hns
  have htot : sizeBelow sb B = totalSize sb := by
    unfold sizeBelow totalSize
    congr 1
    apply List.map_congr_left
    intro g hg
    rw [List.mem_range] at hg
    cases hfg : (sb.inode g).isfile with
    | false => simp
    | true =>
      obtain ⟨hu, hdr⟩ := (isfile_iff _).1 hfg
      have hi2 := h.2.1 g hg hu hdr
      have hlt := hfile g hg hfg (sb.inode g).start_block (le_refl _) (by omega)
      simp [hlt]
  intro j hj1 hj2
  constructor
  · intro hb
    by_contra hgt
    rw [hclear j (by omega) hj2] at hb
    exact Bool.noConfusion hb
  · intro hle
    exact hset j hj1 (by omega)

/-- File moves keep the total size of the files. -/
theorem totalSize_rel (st s2 : State) (hr : DefragRel st s2) :
    totalSize s2.sb = totalSize st.sb := by
  unfold totalSize
  congr 1
  apply List.map_congr_left
  intro g _
  have hf := isfile_of_fields _ _ (hr.2.2.1 g).2.1 (hr.2.2.1 g).2.2
  rw [hf.1, hf.2.1]

/-- File moves keep the order of the files on the disk, in both directions. -/
theorem order_rel (st s2 : State) (hc : Consistent st.sb) (hr : DefragRel st s2) (i g : Nat)
    (hi : i < 126) (hg : g < 126) (hfi : (st.sb.inode i).isfile = true)
    (hfg : (st.sb.inode g).isfile = true) :
    (s2.sb.inode g).start_block < (s2.sb.inode i).start_block ↔
      (st.sb.inode g).start_block < (st.sb.inode i).start_block := by
  constructor
  · intro hlt
    by_contra hge
    by_cases heq : (st.sb.inode i).start_block = (st.sb.inode g).start_block
    · obtain ⟨hu, hdr⟩ := (isfile_iff _).1 hfi
      have hi2 := hc.2.1 i hi hu hdr
      obtain ⟨hug, hdrg⟩ := (isfile_iff _).1 hfg
      have hg2 := hc.2.1 g hg hug hdrg
      have := hc.2.2.2.2.2.2 (st.sb.inode i).start_block i g hi hg
        ((covers_iff_isfile _ _).2 ⟨hfi, le_refl _, by omega⟩)
        ((covers_iff_isfile _ _).2 ⟨hfg, by omega, by omega⟩)
      rw [this] at hlt
      omega
    · have := hr.2.2.2.2.2 i g hi hg hfi hfg (by omega)
      omega
  · exact hr.2.2.2.2.2 g i hg hi hfg hfi

/-- File moves keep, for every file, the total size of the files that start
below it. -/
theorem sizeBelow_rel (st s2 : State) (hc : Consistent st.sb) (hr : DefragRel st s2) (i : Nat)
    (hi : i < 126) (hfi : (st.sb.inode i).isfile = true) :
    sizeBelow s2.sb (s2.sb.inode i).start_block =
      sizeBelow st.sb (st.sb.inode i).start_block := by
  unfold sizeBelow
  congr 1
  apply List.map_congr_left
  intro g hg
  rw [List.mem_range] at hg
  have hf := isfile_of_fields _ _ (hr.2.2.1 g).2.1 (hr.2.2.1 g).2.2
  rw [hf.1, hf.2.1]
  cases hfg : (st.sb.inode g).isfile with
  | false => simp
  | true =>
    have := order_rel st s2 hc hr i g hi hg hfi hfg
    simp only [Bool.true_and, decide_eq_true_eq]
    by_cases hlt : (st.sb.inode g).start_block < (st.sb.inode i).start_block
    · rw [if_pos hlt, if_pos (this.2 hlt)]
    · rw [if_neg hlt, if_neg (fun hh => hlt (this.1 hh))]

/-- Every state after a file move of `fs_defrag` is consistent, whatever the
number of iterations. -/
theorem defrag_moves_consistent (fuel : Nat) :
    ∀ (st : State) (f : Nat), DefragInv st f →
      ∀ s, s ∈ defrag_moves fuel st f → Consistent s.sb := by
  induction fuel with
  | zero =>
    intro st f _ s hs
    exact absurd hs (List.not_mem_nil _)
  | succ fuel ih =>
    intro st f h s hs
    rcases defrag_step_spec st f h with ⟨h1, _⟩ | ⟨st2, f2, h1, h2, _, _⟩
    · have : defrag_moves (fuel + 1) st f = [] := by
        show (match defrag_step st f with
          | DefragStep.moved st2 fbl_idx2 => st2 :: defrag_moves fuel st2 fbl_idx2
          | _ => []) = _
        rw [h1]
      rw [this] at hs
      exact absurd hs (List.not_mem_nil _)
    · have : defrag_moves (fuel + 1) st f = st2 :: defrag_moves fuel st2 f2 := by
        show (match defrag_step st f with
          | DefragStep.moved st2 fbl_idx2 => st2 :: defrag_moves fuel st2 fbl_idx2
          | _ => []) = _
        rw [h1]
      rw [this] at hs
      rcases List.mem_cons.1 hs with hs | hs
      · rw [hs]; exact h2.1
      · exact ih st2 f2 h2 s hs

/-- The blocks of a file are the same lists when its size is the same and
each of its blocks is the same. -/
theorem file_blocks_congr (st s2 : State) (i : Nat)
    (hsz : (s2.sb.inode i).size = (st.sb.inode i).size)
    (hblk : ∀ k, k < (st.sb.inode i).size →
      s2.disk ((s2.sb.inode i).start_block + k) = st.disk ((st.sb.inode i).start_block + k)) :
    file_blocks s2 i = file_blocks st i := by
  unfold file_blocks
  rw [hsz]
  apply List.map_congr_left
  intro k hk
  rw [List.mem_range] at hk
  exact hblk k hk

/-! ## The invariants of the example states -/

theorem gapState_zero (i : Nat) (hi : 2 ≤ i) : gapState.sb.inode i = zeroInode := by
  show (if i = 1 then _ else zeroInode) = zeroInode
  rw [if_neg (by omega)]

/-- The state `gapState` satisfies the six invariants. -/
theorem gapState_invariants : Invariants gapState.sb :=
  invariants_of_below gapState.sb 2 (by omega) gapState_zero (by decide!) (by decide!)
    (by decide!)

/-- The files of `gapState` do not overlap. -/
theorem gapState_noOverlap : NoOverlap gapState.sb :=
  noOverlap_of_below gapState.sb 2 (by omega) gapState_zero (by decide!)

/-- The one file of `dirState` overlaps nothing. -/
theorem dirState_noOverlap : NoOverlap dirState.sb :=
  noOverlap_of_below dirState.sb 2 (by omega) (fun i hi => two_inodes_zero _ _ i hi)
    (by decide!)

/-- The state `dirState` satisfies the six invariants. -/
theorem dirState_invariants : Invariants dirState.sb :=
  invariants_of_below dirState.sb 2 (by omega) (fun i hi => two_inodes_zero _ _ i hi)
    (by decide!) (by decide!) (by decide!)

theorem shiftState_zero (i : Nat) (hi : 1 ≤ i) : shiftState.sb.inode i = zeroInode := by
  show (if i = 0 then _ else zeroInode) = zeroInode
  rw [if_neg (by omega)]

/-- The state `shiftState` satisfies the six invariants. -/
theorem shiftState_invariants : Invariants shiftState.sb :=
  invariants_of_below shiftState.sb 1 (by omega) shiftState_zero (by decide!) (by decide!)
    (by decide!)

/-- The state `shiftState` has one file: nothing overlaps. -/
theorem shiftState_noOverlap : NoOverlap shiftState.sb :=
  noOverlap_of_below shiftState.sb 1 (by omega) shiftState_zero (by decide!)

/-- The state `orderState` satisfies the six invariants. -/
theorem orderState_invariants : Invariants orderState.sb :=
  invariants_of_below orderState.sb 2 (by omega) (fun i hi => two_inodes_zero _ _ i hi)
    (by decide!) (by decide!) (by decide!)

/-- The files of `orderState` do not overlap. -/
theorem orderState_noOverlap : NoOverlap orderState.sb :=
  noOverlap_of_below orderState.sb 2 (by omega) (fun i hi => two_inodes_zero _ _ i hi)
    (by decide!)

/-! ## The claim on `fs_delete` of a directory -/

/-- C11: on a state with the six invariants whose current directory has a
parent chain that arrives at 127, as it has in every state of the program,
`fs_delete(name)` on an inode `D` of the current directory returns within 127
nested calls; it zeroes `D` and every used inode whose parent chain passes
through `D`, zeroes every block of every file among them and clears the bits
of these blocks; every other inode, every other bit of the bitmap and every
other data block is as before, and so are the current directory and the
buffer. -/
theorem fs_delete_subtree (st : State) (name : Name) (k D : Nat)
    (hinv : Invariants st.sb) (hroot : reachesRoot st.sb k st.cwd = true)
    (hD : file_exists st name = some D) :
    ∃ s2, fs_delete 127 st name = some (s2, none) ∧
      s2.cwd = st.cwd ∧ s2.fs_buffer = st.fs_buffer ∧
      (∀ i, InSubtree st.sb D i → s2.sb.inode i = zeroInode) ∧
      (∀ i, ¬ InSubtree st.sb D i → s2.sb.inode i = st.sb.inode i) ∧
      (∀ i j, InSubtree st.sb D i → covers (st.sb.inode i) j = true →
        s2.disk j = zero_buff ∧ bit_is_set s2.sb.free_block_list j = false) ∧
      (∀ j, (¬ ∃ i, InSubtree st.sb D i ∧ covers (st.sb.inode i) j = true) →
        bit_is_set s2.sb.free_block_list j = bit_is_set st.sb.free_block_list j ∧
        (j ≠ 0 → s2.disk j = st.disk j)) :=
  fs_delete_effect st name k D hinv.2.2.2.1 hinv.2.1 hroot hD

/-- Witness of C11: `D dir` after `C dir 0`, `Y dir`, `C f 1`, `Y ..`: both
inodes are zeroed, the block of `f` is zeroed and freed, and the current
directory is 127 as before. -/
theorem fs_delete_subtree_witness :
    ∃ s2, fs_delete 127 dirState ⟨100, 105, 114, 0, 0⟩ = some (s2, none) ∧
      s2.cwd = 127 ∧
      s2.sb.inode 0 = zeroInode ∧ s2.sb.inode 1 = zeroInode ∧
      s2.disk 1 = zero_buff ∧ bit_is_set s2.sb.free_block_list 1 = false := by
  obtain ⟨s2, h1, hc, _, h2, _, h4, _⟩ :=
    fs_delete_subtree dirState ⟨100, 105, 114, 0, 0⟩ 0 0 dirState_invariants
      (by decide) (by decide)
  have hs0 : InSubtree dirState.sb 0 0 := ⟨0, by decide⟩
  have hs1 : InSubtree dirState.sb 0 1 := ⟨1, by decide⟩
  exact ⟨s2, h1, hc, h2 0 hs0, h2 1 hs1, h4 1 1 hs1 (by decide)⟩

/-! ## The claims on `fs_defrag` -/

/-- C14: on a state with the six invariants, where rule 6 leaves no block in
the ranges of two used files, `fs_defrag` ends within 128 iterations of its
outer loop; with T the sum of the sizes of all used file inodes, the bits
1..T are then set and the bits T+1..127 are clear, so no free block precedes a
used block. -/
theorem fs_defrag_contiguous_prefix (st : State) (hinv : Invariants st.sb)
    (hno : NoOverlap st.sb) :
    ∃ s2, fs_defrag 128 st = DefragResult.done s2 ∧
      totalSize s2.sb = totalSize st.sb ∧
      (∀ j, 1 ≤ j → j ≤ 127 →
        (bit_is_set s2.sb.free_block_list j = true ↔ j ≤ totalSize st.sb)) ∧
      Packed s2.sb := by
  obtain ⟨s2, h1, h2, h3, h4, _⟩ := fs_defrag_spec st ((consistent_iff st.sb).2 ⟨hinv, hno⟩)
  refine ⟨s2, h1, totalSize_rel st s2 h4, ?_, h3⟩
  rw [← totalSize_rel st s2 h4]
  exact packed_bits s2.sb h2 h3

/-- Witness of C14: after `C a 2`, `C b 2`, `D a`, the run of
`fs_defrag` leaves `b` with start block 1 and exactly the bits 1..2 set in the
data region. -/
theorem fs_defrag_contiguous_prefix_witness :
    ∃ s2, fs_defrag 128 gapState = DefragResult.done s2 ∧
      (s2.sb.inode 1).start_block = 1 ∧
      ∀ j, 1 ≤ j → j ≤ 127 → (bit_is_set s2.sb.free_block_list j = true ↔ j ≤ 2) := by
  obtain ⟨s2, h1, _, h3, _⟩ :=
    fs_defrag_contiguous_prefix gapState gapState_invariants gapState_noOverlap
  have hrun : fs_defrag 128 gapState = DefragResult.done (defrag_move gapState 1 1) := rfl
  have hs : defrag_move gapState 1 1 = s2 := DefragResult.done.inj (hrun.symm.trans h1)
  have hT : totalSize gapState.sb = 2 := by decide
  rw [hT] at h3
  refine ⟨s2, h1, ?_, h3⟩
  rw [← hs]
  decide

/-- C15: on a state with the six invariants, where rule 6 leaves no block in
the ranges of two used files, `fs_defrag` ends within 128 iterations of its
outer loop, and for every used file inode the blocks `start_block ..
start_block + size - 1` read after the run, from the new start block, are the
blocks read before the run from the old start block; so is their
concatenation. -/
theorem fs_defrag_preserves_content (st : State) (hinv : Invariants st.sb)
    (hno : NoOverlap st.sb) :
    ∃ s2, fs_defrag 128 st = DefragResult.done s2 ∧
      ∀ i, i < 126 → (st.sb.inode i).isused = true → (st.sb.inode i).isdir = false →
        (s2.sb.inode i).size = (st.sb.inode i).size ∧
        file_blocks s2 i = file_blocks st i ∧ file_content s2 i = file_content st i := by
  obtain ⟨s2, h1, _, _, h4, _⟩ := fs_defrag_spec st ((consistent_iff st.sb).2 ⟨hinv, hno⟩)
  refine ⟨s2, h1, ?_⟩
  intro i hi hu hd
  have hf := isfile_of_fields _ _ (h4.2.2.1 i).2.1 (h4.2.2.1 i).2.2
  have hb : file_blocks s2 i = file_blocks st i :=
    file_blocks_congr st s2 i hf.2.1 (h4.2.2.2.2.1 i hi ((isfile_iff _).2 ⟨hu, hd⟩))
  refine ⟨hf.2.1, hb, ?_⟩
  unfold file_content
  rw [hb]

/-- Witness of C15: a file of three blocks that moves from the
blocks 2..4 to the blocks 1..3, two of which it had before. -/
theorem fs_defrag_preserves_content_witness :
    ∃ s2, fs_defrag 128 shiftState = DefragResult.done s2 ∧
      (s2.sb.inode 0).start_block = 1 ∧
      file_content s2 0 = file_content shiftState 0 := by
  obtain ⟨s2, h1, h2⟩ :=
    fs_defrag_preserves_content shiftState shiftState_invariants shiftState_noOverlap
  have hrun : fs_defrag 128 shiftState = DefragResult.done (defrag_move shiftState 0 1) := rfl
  have hs : defrag_move shiftState 0 1 = s2 := DefragResult.done.inj (hrun.symm.trans h1)
  refine ⟨s2, h1, ?_, (h2 0 (by omega) (by decide) (by decide)).2.2⟩
  rw [← hs]
  decide

/-- C16: on a state with the six invariants, where rule 6 leaves no block in
the ranges of two used files, `fs_defrag` ends within 128 iterations of its
outer loop, and a second run of `fs_defrag` on the result ends in the same
state: the same superblock and the same content of every block. -/
theorem fs_defrag_idempotent (st : State) (hinv : Invariants st.sb) (hno : NoOverlap st.sb) :
    ∃ s1, fs_defrag 128 st = DefragResult.done s1 ∧
      fs_defrag 128 s1 = DefragResult.done s1 := by
  obtain ⟨s1, h1, _, h3, _, _⟩ := fs_defrag_spec st ((consistent_iff st.sb).2 ⟨hinv, hno⟩)
  exact ⟨s1, h1, fs_defrag_packed s1 h3 127⟩

/-- Witness of C16: two runs of `fs_defrag` after `C a 2`, `C b 2`,
`D a`. -/
theorem fs_defrag_idempotent_witness :
    ∃ s1, fs_defrag 128 gapState = DefragResult.done s1 ∧
      fs_defrag 128 s1 = DefragResult.done s1 :=
  fs_defrag_idempotent gapState gapState_invariants gapState_noOverlap

/-- C17: on a state with the six invariants, where rule 6 leaves no block in
the ranges of two used files, `fs_defrag` ends within 128 iterations of its
outer loop; two used files keep the order of their start blocks, whatever
their inode indices, and the new start block of a file is 1 plus the total
size of the files that started below it. -/
theorem fs_defrag_keeps_order (st : State) (hinv : Invariants st.sb) (hno : NoOverlap st.sb) :
    ∃ s2, fs_defrag 128 st = DefragResult.done s2 ∧
      (∀ i g, i < 126 → g < 126 →
        (st.sb.inode i).isused = true → (st.sb.inode i).isdir = false →
        (st.sb.inode g).isused = true → (st.sb.inode g).isdir = false →
        (st.sb.inode i).start_block < (st.sb.inode g).start_block →
        (s2.sb.inode i).start_block < (s2.sb.inode g).start_block) ∧
      (∀ i, i < 126 → (st.sb.inode i).isused = true → (st.sb.inode i).isdir = false →
        (s2.sb.inode i).start_block = 1 + sizeBelow st.sb (st.sb.inode i).start_block) := by
  have hc := (consistent_iff st.sb).2 ⟨hinv, hno⟩
  obtain ⟨s2, h1, h2, h3, h4, _⟩ := fs_defrag_spec st hc
  refine ⟨s2, h1, ?_, ?_⟩
  · intro i g hi hg hui hdi hug hdg hlt
    exact h4.2.2.2.2.2 i g hi hg ((isfile_iff _).2 ⟨hui, hdi⟩) ((isfile_iff _).2 ⟨hug, hdg⟩) hlt
  · intro i hi hu hd
    have hfi : (st.sb.inode i).isfile = true := (isfile_iff _).2 ⟨hu, hd⟩
    have hf := isfile_of_fields _ _ (h4.2.2.1 i).2.1 (h4.2.2.1 i).2.2
    rw [← sizeBelow_rel st s2 hc h4 i hi hfi]
    exact packed_start s2.sb h2 h3 i hi (by rw [hf.1]; exact hfi)

/-- Witness of C17: file `b` of inode 1 starts at block 2 and file
`c` of inode 0 at block 5; after `fs_defrag` file `b` starts at block 1 and
file `c` at block 3. -/
theorem fs_defrag_keeps_order_witness :
    ∃ s2, fs_defrag 128 orderState = DefragResult.done s2 ∧
      (s2.sb.inode 1).start_block < (s2.sb.inode 0).start_block ∧
      (s2.sb.inode 1).start_block = 1 ∧ (s2.sb.inode 0).start_block = 3 := by
  obtain ⟨s2, h1, h2, h3⟩ :=
    fs_defrag_keeps_order orderState orderState_invariants orderState_noOverlap
  have a0 := h3 0 (by omega) (by decide) (by decide)
  have a1 := h3 1 (by omega) (by decide) (by decide)
  have b0 : sizeBelow orderState.sb (orderState.sb.inode 0).start_block = 2 := by decide
  have b1 : sizeBelow orderState.sb (orderState.sb.inode 1).start_block = 0 := by decide
  rw [b0] at a0
  rw [b1] at a1
  exact ⟨s2, h1, h2 1 0 (by omega) (by omega) (by decide) (by decide) (by decide) (by decide)
    (by decide), a1, a0⟩

/-- C18: on a state with the six invariants, where rule 6 leaves no block in
the ranges of two used files, `fs_defrag` ends within 128 iterations of its
outer loop; the name, the used bit, the size, the directory bit and the parent
of every inode are as before, an inode that is not a used file is as before
in all its bytes, and the current directory and the buffer are as before. -/
theorem fs_defrag_frame (st : State) (hinv : Invariants st.sb) (hno : NoOverlap st.sb) :
    ∃ s2, fs_defrag 128 st = DefragResult.done s2 ∧
      s2.cwd = st.cwd ∧ s2.fs_buffer = st.fs_buffer ∧
      (∀ i, (s2.sb.inode i).name = (st.sb.inode i).name ∧
        (s2.sb.inode i).isused = (st.sb.inode i).isused ∧
        (s2.sb.inode i).size = (st.sb.inode i).size ∧
        (s2.sb.inode i).isdir = (st.sb.inode i).isdir ∧
        (s2.sb.inode i).parent = (st.sb.inode i).parent) ∧
      (∀ i, ((st.sb.inode i).isused = false ∨ (st.sb.inode i).isdir = true) →
        s2.sb.inode i = st.sb.inode i) := by
  obtain ⟨s2, h1, _, _, h4, _⟩ := fs_defrag_spec st ((consistent_iff st.sb).2 ⟨hinv, hno⟩)
  refine ⟨s2, h1, h4.1, h4.2.1, ?_, ?_⟩
  · intro i
    have hf := isfile_of_fields _ _ (h4.2.2.1 i).2.1 (h4.2.2.1 i).2.2
    exact ⟨(h4.2.2.1 i).1, hf.2.2.1, hf.2.1, hf.2.2.2.1, hf.2.2.2.2⟩
  · intro i hi
    apply h4.2.2.2.1 i
    rintro ⟨_, hf⟩
    obtain ⟨hu, hd⟩ := (isfile_iff _).1 hf
    rcases hi with hi | hi
    · rw [hu] at hi
      exact Bool.noConfusion hi
    · rw [hd] at hi
      exact Bool.noConfusion hi

/-- Witness of C18: `fs_defrag` after `C a 2`, `C b 2`, `D a` keeps
the current directory, the free slot 0, and the name and the size of `b`. -/
theorem fs_defrag_frame_witness :
    ∃ s2, fs_defrag 128 gapState = DefragResult.done s2 ∧
      s2.cwd = 127 ∧ s2.sb.inode 0 = zeroInode ∧
      (s2.sb.inode 1).name = name1 98 ∧ (s2.sb.inode 1).size = 2 := by
  obtain ⟨s2, h1, h2, _, h4, h5⟩ :=
    fs_defrag_frame gapState gapState_invariants gapState_noOverlap
  exact ⟨s2, h1, h2, h5 0 (Or.inl (by decide)), (h4 1).1, (h4 1).2.2.1⟩

/-- C19: on a state with the six invariants (rule 6 as an equivalence that
leaves no block in the ranges of two used files), the state
after each file move of `fs_defrag` and the state at the end of the run, which
comes within 128 iterations of the outer loop, satisfy the six invariants
again: a bit of 1..127 is set exactly when a used file has the block in its
range, and no two files overlap. -/
theorem fs_defrag_keeps_invariants (st : State) (hinv : Invariants st.sb)
    (hno : NoOverlap st.sb) :
    (∀ fuel s, s ∈ defrag_moves fuel st 0 →
      Invariants s.sb ∧ BitmapExact s.sb ∧ RangesDisjoint s.sb) ∧
    ∃ s2, fs_defrag 128 st = DefragResult.done s2 ∧
      Invariants s2.sb ∧ BitmapExact s2.sb ∧ RangesDisjoint s2.sb := by
  have hc := (consistent_iff st.sb).2 ⟨hinv, hno⟩
  constructor
  · intro fuel s hs
    have := defrag_moves_consistent fuel st 0 ⟨hc, by omega, fun j h1 h2 => by omega⟩ s hs
    exact ⟨((consistent_iff s.sb).1 this).1, this.2.2.2.2.2.1, this.2.2.2.2.2.2⟩
  · obtain ⟨s2, h1, h2, _, _, _⟩ := fs_defrag_spec st hc
    exact ⟨s2, h1, ((consistent_iff s2.sb).1 h2).1, h2.2.2.2.2.2.1, h2.2.2.2.2.2.2⟩

/-- Witness of C19: the two file moves of `fs_defrag` on the files
`b` and `c` with the free blocks 1 and 4. -/
theorem fs_defrag_keeps_invariants_witness :
    (defrag_moves 128 orderState 0).length = 2 ∧
    (∀ fuel s, s ∈ defrag_moves fuel orderState 0 → Invariants s.sb) ∧
    ∃ s2, fs_defrag 128 orderState = DefragResult.done s2 ∧ Invariants s2.sb := by
  obtain ⟨h1, s2, h2, h3, _⟩ :=
    fs_defrag_keeps_invariants orderState orderState_invariants orderState_noOverlap
  exact ⟨rfl, fun fuel s hs => (h1 fuel s hs).1, s2, h2, h3⟩

/-! ## The invariants across `fs_create` and `fs_delete` -/

/-- C1: on a state with the six invariants, where rule 6 leaves no block in
the ranges of two files, whose current directory is 127 or a used directory
and has a parent chain that arrives at 127, as it has in every state of the
program, and for a validated name and any size, the state after `fs_create`
and the state after `fs_delete` (which returns within 127 nested calls)
satisfy the six invariants without overlap, and `consistency_check` returns 0
on their superblock. -/
theorem create_delete_preserve_invariants (st : State) (name : Name) (size k : Nat)
    (hinv : Invariants st.sb) (hno : NoOverlap st.sb) (hcwd : CwdOK st)
    (hroot : reachesRoot st.sb k st.cwd = true) (hname : name.validated) :
    (Invariants (fs_create st name size).1.sb ∧ NoOverlap (fs_create st name size).1.sb ∧
      consistency_check (fs_create st name size).1.sb = 0) ∧
    (∃ s2 e, fs_delete 127 st name = some (s2, e) ∧ Invariants s2.sb ∧ NoOverlap s2.sb ∧
      consistency_check s2.sb = 0) := by
  have hc : Consistent st.sb := (consistent_iff st.sb).2 ⟨hinv, hno⟩
  constructor
  · have h := fs_create_consistent st name size hc hcwd hname
    exact ⟨((consistent_iff _).1 h).1, ((consistent_iff _).1 h).2, consistent_check _ h⟩
  · obtain ⟨s2, e, hs, h, _, _⟩ := fs_delete_consistent st name k hc hroot
    exact ⟨s2, e, hs, ((consistent_iff _).1 h).1, ((consistent_iff _).1 h).2,
      consistent_check _ h⟩

/-- Witness of C1: `C foo 3` succeeds on a fresh disk, and `D dir` succeeds
after `C dir 0`, `Y dir`, `C f 1`, `Y ..`; the invariants hold after each and
the checker returns 0. -/
theorem create_delete_preserve_invariants_witness :
    ((fs_create freshState ⟨102, 111, 111, 0, 0⟩ 3).2 = none ∧
      Invariants (fs_create freshState ⟨102, 111, 111, 0, 0⟩ 3).1.sb ∧
      consistency_check (fs_create freshState ⟨102, 111, 111, 0, 0⟩ 3).1.sb = 0) ∧
    ∃ s2, fs_delete 127 dirState ⟨100, 105, 114, 0, 0⟩ = some (s2, none) ∧
      Invariants s2.sb ∧ consistency_check s2.sb = 0 := by
  obtain ⟨⟨h1, _, h1c⟩, _⟩ :=
    create_delete_preserve_invariants freshState ⟨102, 111, 111, 0, 0⟩ 3 0
      freshSb_invariants freshSb_noOverlap (by decide) (by decide) (by decide)
  obtain ⟨_, s2, e, h2, h3, _, h3c⟩ :=
    create_delete_preserve_invariants dirState ⟨100, 105, 114, 0, 0⟩ 0 0
      dirState_invariants dirState_noOverlap (by decide) (by decide) (by decide)
  obtain ⟨s3, g1, _⟩ :=
    fs_delete_effect dirState ⟨100, 105, 114, 0, 0⟩ 0 0 dirState_invariants.2.2.2.1
      dirState_invariants.2.1 (by decide) (by decide)
  have he : s2 = s3 ∧ e = none := by
    rw [h2] at g1
    simp only [Option.some.injEq, Prod.mk.injEq] at g1
    exact g1
  rw [he.1, he.2] at h2
  rw [he.1] at h3 h3c
  exact ⟨⟨by decide, h1, h1c⟩, s3, h2, h3, h3c⟩

/-! ## `fs_cd` -/

/-- The loop of `fs_cd("..")` finds the current directory when it is an index
below 126 with the directory flag. -/
theorem cd_find_cwd (st : State) (h1 : st.cwd < 126) (h2 : (st.sb.inode st.cwd).isdir = true) :
    (List.range 126).find? (fun i => (st.sb.inode i).isdir && decide (i = st.cwd))
      = some st.cwd := by
  have hs := find_range_spec (fun i => (st.sb.inode i).isdir && decide (i = st.cwd)) 126
  cases hf : (List.range 126).find? (fun i => (st.sb.inode i).isdir && decide (i = st.cwd)) with
  | none =>
    rw [hf] at hs
    have := hs st.cwd h1
    simp [h2] at this
  | some i =>
    rw [hf] at hs
    have := hs.2.1
    simp only [Bool.and_eq_true, decide_eq_true_eq] at this
    rw [this.2]

/-- The function `fs_cd` changes nothing but the current directory. -/
theorem fs_cd_frame (st : State) (name : Name) :
    (fs_cd st name).1.sb = st.sb ∧ (fs_cd st name).1.disk = st.disk ∧
    (fs_cd st name).1.fs_buffer = st.fs_buffer := by
  unfold fs_cd
  split_ifs
  · exact ⟨rfl, rfl, rfl⟩
  · exact ⟨rfl, rfl, rfl⟩
  · cases (List.range 126).find? (fun i => (st.sb.inode i).isdir && decide (i = st.cwd)) <;>
      exact ⟨rfl, rfl, rfl⟩
  · cases file_exists st name with
    | none => exact ⟨rfl, rfl, rfl⟩
    | some idx =>
      simp only
      split_ifs <;> exact ⟨rfl, rfl, rfl⟩

/-- The outcomes of `fs_cd` in a state whose current directory is 127 or the
index of a used directory. -/
theorem fs_cd_cases (st : State) (name : Name) (hcwd : CwdOK st) :
    ((fs_cd st name).1.sb = st.sb ∧ (fs_cd st name).1.disk = st.disk ∧
      (fs_cd st name).1.fs_buffer = st.fs_buffer) ∧
    (name = dot → fs_cd st name = (st, none)) ∧
    (name = dotdot → (fs_cd st name).2 = none ∧
      (fs_cd st name).1.cwd = if st.cwd = 127 then 127 else (st.sb.inode st.cwd).parent) ∧
    (name ≠ dot → name ≠ dotdot →
      (((∀ i, i < 126 → ¬ ((st.sb.inode i).isused = true ∧ name = (st.sb.inode i).name ∧
            (st.sb.inode i).parent = st.cwd)) ∨
          (∃ idx, file_exists st name = some idx ∧ (st.sb.inode idx).isdir = false)) →
        fs_cd st name = (st, some CdError.does_not_exist)) ∧
      (∀ idx, file_exists st name = some idx → (st.sb.inode idx).isdir = true →
        fs_cd st name = ({ st with cwd := idx }, none))) := by
  refine ⟨fs_cd_frame st name, ?_, ?_, ?_⟩
  · intro h
    unfold fs_cd
    rw [if_pos h]
  · intro h
    have hne : name ≠ dot := by rw [h]; decide
    unfold fs_cd
    rw [if_neg hne, if_pos h]
    by_cases hc : st.cwd = 127
    · rw [if_pos hc, if_pos hc]
      exact ⟨rfl, hc⟩
    · rw [if_neg hc, if_neg hc]
      rcases hcwd with h127 | ⟨h1, _, h3⟩
      · exact absurd h127 hc
      · rw [cd_find_cwd st h1 h3]
        exact ⟨rfl, rfl⟩
  · intro h1 h2
    constructor
    · rintro (hnone | ⟨idx, hf, hd⟩)
      · unfold fs_cd
        rw [if_neg h1, if_neg h2, (file_exists_none_iff st name).2 hnone]
      · unfold fs_cd
        rw [if_neg h1, if_neg h2, hf]
        simp only [hd, Bool.not_false, if_true]
    · intro idx hf hd
      unfold fs_cd
      rw [if_neg h1, if_neg h2, hf]
      simp only [hd, Bool.not_true, Bool.false_eq_true, if_false]

/-- C22: in a state whose current directory is 127 or the index of a used
directory, as it is in every state of the program, `fs_cd(".")` changes
nothing; `fs_cd("..")` keeps the
current directory 127 and else sets it to the parent field of `inode[cwd]`;
for another name, `fs_cd` reports an error and changes nothing when no used
inode has the name in the current directory or the inode found is not a
directory, and else sets the current directory to the index found.  The
superblock, the disk and the buffer are as before in every case. -/
theorem fs_cd_spec (st : State) (name : Name) (hcwd : CwdOK st) :
    ((fs_cd st name).1.sb = st.sb ∧ (fs_cd st name).1.disk = st.disk ∧
      (fs_cd st name).1.fs_buffer = st.fs_buffer) ∧
    (name = dot → fs_cd st name = (st, none)) ∧
    (name = dotdot → (fs_cd st name).2 = none ∧
      (fs_cd st name).1.cwd = if st.cwd = 127 then 127 else (st.sb.inode st.cwd).parent) ∧
    (name ≠ dot → name ≠ dotdot →
      (((∀ i, i < 126 → ¬ ((st.sb.inode i).isused = true ∧ name = (st.sb.inode i).name ∧
            (st.sb.inode i).parent = st.cwd)) ∨
          (∃ idx, file_exists st name = some idx ∧ (st.sb.inode idx).isdir = false)) →
        fs_cd st name = (st, some CdError.does_not_exist)) ∧
      (∀ idx, file_exists st name = some idx → (st.sb.inode idx).isdir = true →
        fs_cd st name = ({ st with cwd := idx }, none))) :=
  fs_cd_cases st name hcwd

/-- Witness of C22: in the directory `dir` of `dirState`,
`fs_cd("..")` sets the current directory to 127. -/
theorem fs_cd_spec_witness :
    (fs_cd { dirState with cwd := 0 } dotdot).1.cwd = 127 := by
  have h := ((fs_cd_spec { dirState with cwd := 0 } dotdot
    (Or.inr ⟨by decide, by decide, by decide⟩)).2.2.1 rfl).2
  rw [h]
  decide

/-! ## `set_fbl_bits` -/

/-- C28: after `set_fbl_bits(start, size, set)` with `start + size <= 128`,
every bit `i` of the run with `i != 0` equals `set`, where bit `i` is bit
`7 - i % 8` of byte `i / 8`; bit 0 and every bit outside the run are as
before, the bytes stay below 256, and the inodes are as before. -/
theorem set_fbl_bits_run (sb : Superblock) (start size : Nat) (set : Bool)
    (h : start + size ≤ 128) :
    (∀ i, start ≤ i → i < start + size → i ≠ 0 →
      ((set_fbl_bits sb start size set).free_block_list (i / 8)).testBit (7 - i % 8) = set) ∧
    (∀ i, ¬ (start ≤ i ∧ i < start + size ∧ i ≠ 0) →
      ((set_fbl_bits sb start size set).free_block_list (i / 8)).testBit (7 - i % 8) =
        (sb.free_block_list (i / 8)).testBit (7 - i % 8)) ∧
    (∀ b, sb.free_block_list b < 256 → (set_fbl_bits sb start size set).free_block_list b < 256) ∧
    (∀ b, 16 ≤ b →
      (set_fbl_bits sb start size set).free_block_list b = sb.free_block_list b) ∧
    (set_fbl_bits sb start size set).inode = sb.inode := by
  refine ⟨?_, ?_, ?_, ?_, rfl⟩
  · intro i h1 h2 h3
    rw [← bit_is_set_eq, bit_is_set_set_fbl_bits, if_pos ⟨h1, h2, h3⟩]
  · intro i hi
    rw [← bit_is_set_eq, ← bit_is_set_eq, bit_is_set_set_fbl_bits, if_neg hi]
  · intro b hb
    exact fold_lt set sb.free_block_list start size b hb
  · intro b hb
    exact fold_untouched set sb.free_block_list start size b (fun i _ h2 => by omega)

/-- Witness of C28: clearing the run 3..4 of the bitmap with the bits 0, 3 and
4 set leaves bit 0 alone. -/
theorem set_fbl_bits_run_witness :
    ((set_fbl_bits gapState.sb 3 2 false).free_block_list (4 / 8)).testBit (7 - 4 % 8) = false ∧
    ((set_fbl_bits gapState.sb 3 2 false).free_block_list (0 / 8)).testBit (7 - 0 % 8) =
      (gapState.sb.free_block_list (0 / 8)).testBit (7 - 0 % 8) :=
  ⟨(set_fbl_bits_run gapState.sb 3 2 false (by omega)).1 4 (by omega) (by omega) (by omega),
   (set_fbl_bits_run gapState.sb 3 2 false (by omega)).2.1 0 (by omega)⟩

/-! ## The frame of `fs_write` and `fs_read` -/

/-- C30: on a state with the six invariants, where rule 6 leaves no block in
the ranges of two used files, a successful `fs_write(name, k)` writes the
buffer to block `start_block + k` of the file found, a block of 1..127 in the
range of that file, and changes no other block: block 0, every block of
another file and every block whose bit is clear are as before; the superblock,
the current directory and the buffer are as before.  A successful `fs_read`
changes the buffer only. -/
theorem fs_write_frame (st : State) (name : Name) (k : Int)
    (hinv : Invariants st.sb) (hno : NoOverlap st.sb) :
    ((fs_write st name k).2 = none →
      ∃ (idx b : Nat), file_exists st name = some idx ∧
        ((st.sb.inode idx).start_block : Int) + k = (b : Int) ∧
        1 ≤ b ∧ b ≤ 127 ∧ covers (st.sb.inode idx) b = true ∧
        (fs_write st name k).1.disk b = st.fs_buffer ∧
        (∀ j, j ≠ b → (fs_write st name k).1.disk j = st.disk j) ∧
        (fs_write st name k).1.disk 0 = st.disk 0 ∧
        (∀ i j, i < 126 → i ≠ idx → covers (st.sb.inode i) j = true →
          (fs_write st name k).1.disk j = st.disk j) ∧
        (∀ j, 1 ≤ j → j ≤ 127 → bit_is_set st.sb.free_block_list j = false →
          (fs_write st name k).1.disk j = st.disk j) ∧
        (fs_write st name k).1.sb = st.sb ∧ (fs_write st name k).1.cwd = st.cwd ∧
        (fs_write st name k).1.fs_buffer = st.fs_buffer) ∧
    ((fs_read st name k).2 = none →
      (fs_read st name k).1.sb = st.sb ∧ (fs_read st name k).1.disk = st.disk ∧
      (fs_read st name k).1.cwd = st.cwd) := by
  obtain ⟨_, h2, _, _, _, hb, hd⟩ := (consistent_iff st.sb).2 ⟨hinv, hno⟩
  constructor
  · intro hw
    rcases fs_write_cases st name k with ⟨_, h⟩ | ⟨_, _, _, h⟩ | ⟨_, _, _, _, h⟩ |
        ⟨idx, hf, hdir, hk0, hk1, h⟩
    · rw [h] at hw; exact absurd hw (by simp)
    · rw [h] at hw; exact absurd hw (by simp)
    · rw [h] at hw; exact absurd hw (by simp)
    · obtain ⟨hi, hu, _⟩ := file_exists_some st name idx hf
      have hi2 := h2 idx hi hu hdir
      obtain ⟨m, hm⟩ := Int.eq_ofNat_of_zero_le hk0
      have hb1 : ((st.sb.inode idx).start_block : Int) + k =
          (((st.sb.inode idx).start_block + m : Nat) : Int) := by
        rw [hm]
        push_cast
        rfl
      have hm2 : m < (st.sb.inode idx).size := by
        rw [hm] at hk1
        exact_mod_cast hk1
      have htn : (((st.sb.inode idx).start_block : Int) + k).toNat =
          (st.sb.inode idx).start_block + m := by
        rw [hb1]
        exact Int.toNat_natCast _
      have hcov : covers (st.sb.inode idx) ((st.sb.inode idx).start_block + m) = true :=
        (covers_iff _ _).2 ⟨hu, hdir, by omega, by omega⟩
      rw [h, htn]
      refine ⟨idx, (st.sb.inode idx).start_block + m, hf, hb1, by omega, by omega, hcov,
        Function.update_same _ _ _, fun j hj => Function.update_noteq hj _ _,
        Function.update_noteq (by omega) _ _, ?_, ?_, rfl, rfl, rfl⟩
      · intro i j hi126 hne hc
        apply Function.update_noteq
        intro hj
        rw [hj] at hc
        exact hne (hd _ i idx hi126 hi hc hcov)
      · intro j hj1 hj2 hbit
        apply Function.update_noteq
        intro hj
        have := (hb j hj1 hj2).2 ⟨idx, hi, by rw [hj]; exact hcov⟩
        rw [hbit] at this
        exact Bool.noConfusion this
  · intro hr
    rcases fs_read_cases st name k with ⟨_, h⟩ | ⟨_, _, _, h⟩ | ⟨_, _, _, _, h⟩ |
        ⟨idx, _, _, _, _, h⟩
    · rw [h]; exact ⟨rfl, rfl, rfl⟩
    · rw [h]; exact ⟨rfl, rfl, rfl⟩
    · rw [h]; exact ⟨rfl, rfl, rfl⟩
    · rw [h]; exact ⟨rfl, rfl, rfl⟩

/-- Witness of C30: after `C a 2`, `C b 2`, `D a` and with bytes 9 in the
buffer, the write of block 1 of `b` puts the buffer in block 4, which held
zeros, and leaves block 3. -/
theorem fs_write_frame_witness :
    (fs_write gapWriteState (name1 98) 1).2 = none ∧
    (fs_write gapWriteState (name1 98) 1).1.disk 4 = List.replicate 1024 9 ∧
    gapWriteState.disk 4 ≠ List.replicate 1024 9 ∧
    (fs_write gapWriteState (name1 98) 1).1.disk 3 = gapWriteState.disk 3 := by
  have hok : (fs_write gapWriteState (name1 98) 1).2 = none := by decide
  obtain ⟨idx, b, h1, h2, _, _, _, h6, h7, _⟩ :=
    (fs_write_frame gapWriteState (name1 98) 1 gapState_invariants gapState_noOverlap).1 hok
  have hidx : idx = 1 := by
    have : file_exists gapWriteState (name1 98) = some 1 := by decide
    rw [this] at h1
    exact (Option.some.inj h1).symm
  have hb : b = 4 := by
    rw [hidx] at h2
    have : ((gapWriteState.sb.inode 1).start_block : Int) = 3 := by decide
    rw [this] at h2
    omega
  rw [hb] at h6 h7
  exact ⟨hok, h6, by decide, h7 3 (by omega)⟩

/-! ## The inode search of `fs_defrag` -/

/-- On a superblock with the six invariants where no block lies in the ranges
of two used files, when the scan of `fs_defrag` finds a
used block `U` after a free block, exactly one used file inode has the start
block `U`, and the inode search returns its index. -/
theorem defrag_find_unique (sb : Superblock) (hinv : Invariants sb) (hno : NoOverlap sb)
    (f L U : Nat)
    (hscan : defrag_scan sb.free_block_list (List.range' f (128 - f)) none = (some L, some U)) :
    ∃ idx, defrag_find sb U = some idx ∧ idx < 126 ∧
      (sb.inode idx).isused = true ∧ (sb.inode idx).isdir = false ∧
      (sb.inode idx).start_block = U ∧
      ∀ i, i < 126 → (sb.inode i).isused = true → (sb.inode i).isdir = false →
        (sb.inode i).start_block = U → i = idx := by
  have hc := (consistent_iff sb).2 ⟨hinv, hno⟩
  rcases defrag_scan_none sb.free_block_list (128 - f) f with
    ⟨h1, _⟩ | ⟨L2, U2, h1, h2, h3, h4, h5, h6, h7, h8, h9⟩
  · rw [hscan] at h1
    exact absurd h1 (by simp)
  · rw [hscan] at h1
    simp only [Prod.mk.injEq, Option.some.injEq] at h1
    obtain ⟨hL, hU⟩ := h1
    subst hL hU
    have hfreeU : bit_is_set sb.free_block_list (U - 1) = false := by
      by_cases hUL : U - 1 = L
      · rw [hUL]; exact h6
      · exact h9 (U - 1) (by omega) (by omega)
    have hU127 : U ≤ 127 := by
      by_contra hgt
      have hf : 128 ≤ f := by omega
      rw [show 128 - f = 0 by omega] at hscan
      simp [defrag_scan] at hscan
    obtain ⟨i0, hi0, hfi0, hsi0⟩ :=
      start_of_used_after_free sb hc U (by omega) hU127 h7 hfreeU
    obtain ⟨idx, hidx⟩ := defrag_find_exists sb U i0 hi0 hsi0 hfi0
    obtain ⟨hi126, hstart, hfile⟩ := defrag_find_some sb U idx hidx
    obtain ⟨hu, hdir⟩ := (isfile_iff _).1 hfile
    refine ⟨idx, hidx, hi126, hu, hdir, hstart, ?_⟩
    intro i hi hui hdi hsi
    have s1 := hc.2.1 i hi hui hdi
    have s2 := hc.2.1 idx hi126 hu hdir
    exact hc.2.2.2.2.2.2 U i idx hi hi126
      ((covers_iff _ _).2 ⟨hui, hdi, by omega, by omega⟩)
      ((covers_iff _ _).2 ⟨hu, hdir, by omega, by omega⟩)

/-- On the files `b` and `c` with the free blocks 1 and 4, the first scan
finds block 2 after the free block 1, and inode 1 is the file that starts
there. -/
theorem defrag_find_unique_order :
    defrag_scan orderState.sb.free_block_list (List.range' 0 (128 - 0)) none = (some 1, some 2) ∧
    defrag_find orderState.sb 2 = some 1 := by
  have hs : defrag_scan orderState.sb.free_block_list (List.range' 0 (128 - 0)) none
      = (some 1, some 2) := by decide
  obtain ⟨idx, h1, _, _, _, _, h6⟩ :=
    defrag_find_unique orderState.sb orderState_invariants orderState_noOverlap 0 1 2 hs
  have := h6 1 (by omega) (by decide) (by decide) (by decide)
  rw [← this] at h1
  exact ⟨hs, h1⟩

/-- C26 (code bug): `consistency_check` returns 0 on the superblock with the
bits 0 and 2 set and no inode, because its last loop tests only the blocks
whose bit is clear; the scan of `fs_defrag` finds the used block 2 after the
free block 1, no used file inode has the start block 2, and the inode search
ends without a value for the pointer `inode`. -/
theorem defrag_find_stray_bit :
    consistency_check (Superblock.decode (strayDisk 0)) = 0 ∧
    defrag_scan (Superblock.decode (strayDisk 0)).free_block_list
      (List.range' 0 (128 - 0)) none = (some 1, some 2) ∧
    (∀ i, i < 126 → ((Superblock.decode (strayDisk 0)).inode i).isused = false) ∧
    defrag_find (Superblock.decode (strayDisk 0)) 2 = none ∧
    defrag_step ⟨Superblock.decode (strayDisk 0), strayDisk, 127, zero_buff⟩ 0
      = DefragStep.undefined := by
  refine ⟨by decide!, by decide!, by decide!, by decide!, rfl⟩

/-! ## `fs_ls` -/

theorem foldl_count (p : Nat → Bool) (l : List Nat) :
    ∀ a, l.foldl (fun n i => if p i then n + 1 else n) a = a + (l.filter p).length := by
  induction l with
  | nil => intro a; rfl
  | cons x l ih =>
    intro a
    rw [List.foldl_cons, ih]
    cases hp : p x with
    | false => simp [hp]
    | true =>
      simp only [if_true, List.filter_cons_of_pos hp, List.length_cons]
      omega

/-- The counting loop of `fs_ls` gives the number of the specification. -/
theorem count_children_eq (sb : Superblock) (d : Nat) :
    count_children sb d = childCount sb d := by
  unfold count_children childCount
  rw [foldl_count (fun i => decide ((sb.inode i).parent = d) && (sb.inode i).isused)]
  congr 2
  apply List.filter_congr
  intro i _
  exact Bool.and_comm _ _

theorem filterMap_if (f : Nat → Option LsRecord) (q : Nat → Bool) (g : Nat → LsRecord)
    (h : ∀ i, f i = if q i then some (g i) else none) (l : List Nat) :
    l.filterMap f = (l.filter q).map g := by
  induction l with
  | nil => rfl
  | cons x l ih =>
    rw [List.filterMap_cons, h x]
    cases hq : q x with
    | false =>
      simp only [Bool.false_eq_true, if_false]
      rw [List.filter_cons_of_neg (by simp [hq]), ih]
    | true =>
      simp only [if_true]
      rw [List.filter_cons_of_pos hq, List.map_cons, ih]

/-- The second loop of `fs_ls` finds the current directory when it is a used
directory. -/
theorem ls_find_cwd (st : State) (h1 : st.cwd < 126) (h2 : (st.sb.inode st.cwd).isused = true)
    (h3 : (st.sb.inode st.cwd).isdir = true) :
    (List.range 126).find? (fun i =>
      (st.sb.inode i).isdir && decide (i = st.cwd) && (st.sb.inode i).isused) = some st.cwd := by
  have hs := find_range_spec (fun i =>
    (st.sb.inode i).isdir && decide (i = st.cwd) && (st.sb.inode i).isused) 126
  cases hf : (List.range 126).find? (fun i =>
    (st.sb.inode i).isdir && decide (i = st.cwd) && (st.sb.inode i).isused) with
  | none =>
    rw [hf] at hs
    have := hs st.cwd h1
    simp [h2, h3] at this
  | some i =>
    rw [hf] at hs
    have := hs.2.1
    simp only [Bool.and_eq_true, decide_eq_true_eq] at this
    rw [this.1.2]

/-- The line of inode `i` in the last loop of `fs_ls`. -/
theorem ls_entry_eq (st : State) (i : Nat) :
    ls_entry st i =
      if (st.sb.inode i).isused && decide ((st.sb.inode i).parent = st.cwd) then
        some (if (st.sb.inode i).isdir then
          ⟨printed_name (st.sb.inode i).name, childCount st.sb i, false⟩
          else ⟨printed_name (st.sb.inode i).name, (st.sb.inode i).size, true⟩)
      else none := by
  unfold ls_entry
  rw [count_children_eq]
  cases hd : (st.sb.inode i).isdir <;> cases hu : (st.sb.inode i).isused <;>
    by_cases hp : (st.sb.inode i).parent = st.cwd <;> simp [hp]

/-- A name with a zero byte is printed as its characters. -/
theorem printed_name_chars (n : Name) (h : [n.c0, n.c1, n.c2, n.c3, n.c4].contains 0 = true) :
    printed_name n = some n.chars := by
  unfold printed_name Name.chars
  rw [if_pos h]

/-- In a state whose current directory is 127 or the index of a used
directory, and where the name of every entry of the current directory has a
zero byte, the lines of `fs_ls` are: `"."` with 2 plus the number of used
inodes whose parent is the current directory; `".."` with the same number when
the current directory is 127 and else with 2 plus the number of used inodes
whose parent is the parent of `inode[cwd]`; then, for each used inode whose
parent is the current directory, by ascending index, its name with 2 plus the
number of used inodes whose parent is that inode when it is a directory, and
its name with its size and `KB` when it is a file. -/
theorem fs_ls_records (st : State) (hcwd : CwdOK st)
    (hshort : ∀ i, i < 126 → (st.sb.inode i).isused = true →
      (st.sb.inode i).parent = st.cwd →
      [(st.sb.inode i).name.c0, (st.sb.inode i).name.c1, (st.sb.inode i).name.c2,
        (st.sb.inode i).name.c3, (st.sb.inode i).name.c4].contains 0 = true) :
    fs_ls st = ls_spec st := by
  unfold fs_ls ls_spec
  rw [count_children_eq]
  have h2 : ls_prevwd st = if st.cwd = 127 then childCount st.sb st.cwd
      else childCount st.sb (st.sb.inode st.cwd).parent := by
    unfold ls_prevwd
    by_cases hc : st.cwd = 127
    · rw [if_pos hc, if_pos hc, count_children_eq]
    · rw [if_neg hc, if_neg hc]
      rcases hcwd with h127 | ⟨a1, a2, a3⟩
      · exact absurd h127 hc
      · rw [ls_find_cwd st a1 a2 a3]
        exact count_children_eq _ _
  rw [h2, filterMap_if (ls_entry st)
    (fun i => (st.sb.inode i).isused && decide ((st.sb.inode i).parent = st.cwd))
    (fun i => if (st.sb.inode i).isdir then
      ⟨printed_name (st.sb.inode i).name, childCount st.sb i, false⟩
      else ⟨printed_name (st.sb.inode i).name, (st.sb.inode i).size, true⟩)
    (ls_entry_eq st)]
  congr 2
  apply List.map_congr_left
  intro i hi
  obtain ⟨hr, hq⟩ := List.mem_filter.1 hi
  simp only [Bool.and_eq_true, decide_eq_true_eq] at hq
  rw [printed_name_chars _ (hshort i (List.mem_range.1 hr) hq.1 hq.2)]

/-- In the directory `dir` of `dirState` the listing has `"."` with 3, `".."`
with 3 and the file `f` with 1 KB. -/
theorem fs_ls_records_dir :
    fs_ls { dirState with cwd := 0 } =
      [⟨some [46], 3, false⟩, ⟨some [46, 46], 3, false⟩, ⟨some [102], 1, true⟩] := by
  decide

/-- C23 (code bug): after `C abcde 1` on a fresh disk, a validated name of
five bytes, the last loop of `fs_ls` copies the five bytes to `char name[5]`
and passes the array to `printf` for `%-5s`; none of the five bytes is zero,
so `printf` reads past the array: the line of the file does not have the name
`abcde` that the listing of the specification has. -/
theorem fs_ls_five_byte_name :
    (⟨97, 98, 99, 100, 101⟩ : Name).validated ∧
    (fs_create freshState ⟨97, 98, 99, 100, 101⟩ 1).2 = none ∧
    CwdOK (fs_create freshState ⟨97, 98, 99, 100, 101⟩ 1).1 ∧
    fs_ls (fs_create freshState ⟨97, 98, 99, 100, 101⟩ 1).1 =
      [⟨some [46], 3, false⟩, ⟨some [46, 46], 3, false⟩, ⟨none, 1, true⟩] ∧
    ls_spec (fs_create freshState ⟨97, 98, 99, 100, 101⟩ 1).1 =
      [⟨some [46], 3, false⟩, ⟨some [46, 46], 3, false⟩,
        ⟨some [97, 98, 99, 100, 101], 1, true⟩] := by
  refine ⟨by decide, by decide, Or.inl rfl, by decide, by decide⟩

/-! ## The superblock on the disk -/

theorem write_superblock_block0 (s : State) :
    (write_superblock s).disk 0 = (write_superblock s).sb.image := by
  show Function.update s.disk 0 s.sb.image 0 = s.sb.image
  exact Function.update_same _ _ _

/-- After `fs_create`, block 0 holds the superblock when it did before. -/
theorem fs_create_block0 (st : State) (name : Name) (size : Nat)
    (hblk : st.disk 0 = st.sb.image) :
    (fs_create st name size).1.disk 0 = (fs_create st name size).1.sb.image := by
  cases he : (fs_create st name size).2 with
  | some e =>
    rw [fs_create_error_state st name size e he]
    exact hblk
  | none =>
    have hpair : fs_create st name size = ((fs_create st name size).1, none) :=
      Prod.ext rfl he
    obtain ⟨_, _, _, _, hcase⟩ := fs_create_ok st _ name size hpair
    rcases hcase with ⟨_, hst⟩ | ⟨_, s, _, hst⟩
    · rw [hst]
      exact write_superblock_block0 _
    · rw [hst]
      exact write_superblock_block0 _

/-- After `fs_delete`, block 0 holds the superblock when it did before. -/
theorem fs_delete_block0 (fuel : Nat) (st s2 : State) (name : Name) (e : Option FsError)
    (hblk : st.disk 0 = st.sb.image) (h : fs_delete fuel st name = some (s2, e)) :
    s2.disk 0 = s2.sb.image := by
  unfold fs_delete at h
  cases hf : file_exists st name with
  | none =>
    rw [hf] at h
    simp only [Option.some.injEq, Prod.mk.injEq] at h
    rw [← h.1]
    exact hblk
  | some idx =>
    rw [hf] at h
    simp only at h
    cases hd : delete_file fuel idx st with
    | none =>
      rw [hd] at h
      exact absurd h (by simp)
    | some s =>
      rw [hd] at h
      simp only [Option.map_some', Option.some.injEq, Prod.mk.injEq] at h
      rw [← h.1]
      exact write_superblock_block0 s

/-- After a file move of `fs_defrag`, block 0 holds the superblock. -/
theorem defrag_step_block0 (st st2 : State) (f f2 : Nat)
    (h : defrag_step st f = DefragStep.moved st2 f2) : st2.disk 0 = st2.sb.image := by
  unfold defrag_step at h
  cases hsc : defrag_scan st.sb.free_block_list (List.range' f (128 - f)) none with
  | mk lo r =>
    rw [hsc] at h
    cases r with
    | none => cases lo <;> simp at h
    | some U =>
      cases lo with
      | none => simp at h
      | some L =>
        simp only at h
        cases hfd : defrag_find st.sb U with
        | none =>
          rw [hfd] at h
          simp at h
        | some idx =>
          rw [hfd] at h
          simp only [DefragStep.moved.injEq] at h
          rw [← h.1]
          exact write_superblock_block0 _

/-- After `fs_defrag`, block 0 holds the superblock when it did before. -/
theorem defrag_loop_block0 (fuel : Nat) :
    ∀ (st s2 : State) (f : Nat), st.disk 0 = st.sb.image →
      defrag_loop fuel st f = DefragResult.done s2 → s2.disk 0 = s2.sb.image := by
  induction fuel with
  | zero =>
    intro st s2 f _ h
    exact absurd h (by simp [defrag_loop])
  | succ fuel ih =>
    intro st s2 f hblk h
    change (match defrag_step st f with
      | DefragStep.finished => DefragResult.done st
      | DefragStep.undefined => DefragResult.undefined
      | DefragStep.moved st2 fbl_idx2 => defrag_loop fuel st2 fbl_idx2) = _ at h
    cases hs : defrag_step st f with
    | finished =>
      rw [hs] at h
      simp only [DefragResult.done.injEq] at h
      rw [← h]
      exact hblk
    | undefined =>
      rw [hs] at h
      exact absurd h (by simp)
    | moved st2 f2 =>
      rw [hs] at h
      exact ih st2 s2 f2 (defrag_step_block0 st st2 f f2 hs) h

/-- C24: on a state with the six invariants, where rule 6 leaves no block in
the ranges of two used files, and whose current directory has a parent chain
that arrives at 127, as it has in every state of the program, when block 0 of the disk holds the superblock before the
operation, it holds the superblock after `fs_create`, after `fs_delete` (which
returns within 127 nested calls) and after `fs_defrag` (which ends within 128
iterations), whether they succeed or fail; `fs_read`, `fs_write`, `fs_buff`
and `fs_cd` change neither the superblock nor block 0.  The function `fs_ls`
assigns no global. -/
theorem superblock_persisted (st : State) (k : Nat) (hblk : st.disk 0 = st.sb.image)
    (hinv : Invariants st.sb) (hno : NoOverlap st.sb)
    (hroot : reachesRoot st.sb k st.cwd = true) :
    (∀ name size,
      (fs_create st name size).1.disk 0 = (fs_create st name size).1.sb.image) ∧
    (∀ name, ∃ s2 e, fs_delete 127 st name = some (s2, e) ∧ s2.disk 0 = s2.sb.image) ∧
    (∃ s2, fs_defrag 128 st = DefragResult.done s2 ∧ s2.disk 0 = s2.sb.image) ∧
    (∀ name b, (fs_read st name b).1.sb = st.sb ∧ (fs_read st name b).1.disk 0 = st.disk 0) ∧
    (∀ name b, (fs_write st name b).1.sb = st.sb ∧
      (fs_write st name b).1.disk 0 = st.disk 0) ∧
    (∀ buff, (fs_buff st buff).sb = st.sb ∧ (fs_buff st buff).disk 0 = st.disk 0) ∧
    (∀ name, (fs_cd st name).1.sb = st.sb ∧ (fs_cd st name).1.disk 0 = st.disk 0) := by
  have hc := (consistent_iff st.sb).2 ⟨hinv, hno⟩
  refine ⟨fun name size => fs_create_block0 st name size hblk, ?_, ?_, ?_, ?_,
    fun _ => ⟨rfl, rfl⟩, ?_⟩
  · intro name
    obtain ⟨s2, e, h, _⟩ := fs_delete_consistent st name k hc hroot
    exact ⟨s2, e, h, fs_delete_block0 127 st s2 name e hblk h⟩
  · obtain ⟨s2, h, _⟩ := fs_defrag_spec st hc
    exact ⟨s2, h, defrag_loop_block0 128 st s2 0 hblk h⟩
  · intro name b
    rcases fs_read_cases st name b with ⟨_, h⟩ | ⟨_, _, _, h⟩ | ⟨_, _, _, _, h⟩ |
        ⟨idx, _, _, _, _, h⟩ <;> rw [h] <;> exact ⟨rfl, rfl⟩
  · intro name b
    rcases fs_write_cases st name b with ⟨_, h⟩ | ⟨_, _, _, h⟩ | ⟨_, _, _, _, h⟩ |
        ⟨idx, hf, hdir, hk0, hk1, h⟩
    · rw [h]; exact ⟨rfl, rfl⟩
    · rw [h]; exact ⟨rfl, rfl⟩
    · rw [h]; exact ⟨rfl, rfl⟩
    · rw [h]
      refine ⟨rfl, ?_⟩
      obtain ⟨hi, hu, _⟩ := file_exists_some st name idx hf
      have hi2 := hinv.2.1 idx hi hu hdir
      apply Function.update_noteq
      intro h0
      have : (((st.sb.inode idx).start_block : Int) + b).toNat ≠ 0 := by omega
      exact this h0.symm
  · intro name
    exact ⟨(fs_cd_frame st name).1, by rw [(fs_cd_frame st name).2.1]⟩

/-- Witness of C24: `D b` and `O` on the state after `C a 2`,
`C b 2`, `D a`, with the superblock written to block 0. -/
theorem superblock_persisted_witness :
    (∃ s2 e, fs_delete 127 (write_superblock gapState) (name1 98) = some (s2, e) ∧
      s2.disk 0 = s2.sb.image) ∧
    (∃ s2, fs_defrag 128 (write_superblock gapState) = DefragResult.done s2 ∧
      s2.disk 0 = s2.sb.image) := by
  obtain ⟨_, h2, h3, _⟩ := superblock_persisted (write_superblock gapState) 0
    (write_superblock_block0 gapState) gapState_invariants gapState_noOverlap (by decide)
  exact ⟨h2 (name1 98), h3⟩

/-! ## The command tokenizer -/

theorem dropWhile_leading (p : Nat → Bool) (pre t : List Nat) (h : ∀ c ∈ pre, p c = true) :
    (pre ++ t).dropWhile p = t.dropWhile p := by
  induction pre with
  | nil => rfl
  | cons c pre ih =>
    rw [List.cons_append, List.dropWhile_cons_of_pos (h c (List.mem_cons_self _ _))]
    exact ih (fun x hx => h x (List.mem_cons_of_mem _ hx))

theorem takeWhile_leading (q : Nat → Bool) (f t : List Nat) (h : ∀ c ∈ f, q c = true)
    (ht : t.head?.all (fun d => !q d) = true) :
    (f ++ t).takeWhile q = f ∧ (f ++ t).dropWhile q = t := by
  induction f with
  | nil =>
    cases t with
    | nil => exact ⟨rfl, rfl⟩
    | cons d t =>
      simp only [List.head?_cons, Option.all_some, Bool.not_eq_true'] at ht
      simp [List.takeWhile_cons, List.dropWhile_cons, ht]
  | cons c f ih =>
    have hc := h c (List.mem_cons_self _ _)
    obtain ⟨i1, i2⟩ := ih (fun x hx => h x (List.mem_cons_of_mem _ hx))
    rw [List.cons_append, List.takeWhile_cons_of_pos hc, List.dropWhile_cons_of_pos hc, i1, i2]
    exact ⟨rfl, rfl⟩

/-- One call of `strtok` on a string that starts with delimiters, a field and
a run of separators: the token is the field, and the rest starts behind the
first separator. -/
theorem strtok_field (delim pre field sep tail : CString)
    (hpre : ∀ c ∈ pre, delim.contains c = true)
    (hne : field ≠ []) (hfield : ∀ c ∈ field, delim.contains c = false)
    (hsep : ∀ c ∈ sep, delim.contains c = true) (htail : sep = [] → tail = []) :
    strtok delim (pre ++ (field ++ sep ++ tail)) = some (field, (sep ++ tail).drop 1) := by
  unfold strtok
  rw [dropWhile_leading _ pre _ hpre]
  obtain ⟨c, f, hcf⟩ := List.exists_cons_of_ne_nil hne
  have hc : delim.contains c = false := hfield c (by rw [hcf]; exact List.mem_cons_self _ _)
  have hdw : (field ++ sep ++ tail).dropWhile (fun c => delim.contains c)
      = c :: (f ++ sep ++ tail) := by
    rw [hcf]
    simp only [List.cons_append]
    rw [List.dropWhile_cons_of_neg (by rw [hc]; exact Bool.false_ne_true)]
  rw [hdw]
  simp only
  have ht : (sep ++ tail).head?.all (fun d => !(!delim.contains d)) = true := by
    cases hs : sep with
    | nil =>
      rw [htail hs]
      rfl
    | cons d sep2 =>
      have := hsep d (by rw [hs]; exact List.mem_cons_self _ _)
      show (!(!delim.contains d)) = true
      rw [this]
      rfl
  have hq : ∀ x ∈ field, (!delim.contains x) = true := by
    intro x hx
    rw [hfield x hx]
    rfl
  have := takeWhile_leading (fun c => !delim.contains c) field (sep ++ tail) hq ht
  rw [← List.cons_append, ← List.cons_append, ← hcf, List.append_assoc, this.1, this.2]

theorem wellSeparated_length (delim : CString) :
    ∀ items, WellSeparated delim items → items.length ≤ (build_line items).length := by
  intro items
  induction items with
  | nil => intro _; exact Nat.le_refl _
  | cons x rest ih =>
    obtain ⟨field, sep⟩ := x
    intro h
    obtain ⟨h1, _, _, _, h5⟩ := h
    have := ih h5
    have hl : 1 ≤ field.length := List.length_pos.2 h1
    simp only [build_line, List.length_cons, List.length_append]
    omega

/-- The loop of `parse_command` returns the fields of a line of fields and
separator runs. -/
theorem parse_tokens_fields (delim : CString) :
    ∀ (items : List (CString × CString)) (pre : CString) (fuel : Nat),
      (∀ c ∈ pre, delim.contains c = true) → WellSeparated delim items →
      items.length ≤ fuel →
      parse_tokens delim fuel (pre ++ build_line items) = items.map Prod.fst := by
  intro items
  induction items with
  | nil =>
    intro pre fuel hpre _ _
    cases fuel with
    | zero => rfl
    | succ fuel =>
      have : strtok delim (pre ++ build_line []) = none := by
        unfold strtok
        rw [dropWhile_leading _ pre _ hpre]
        rfl
      simp only [parse_tokens, this, List.map_nil]
  | cons x rest ih =>
    obtain ⟨field, sep⟩ := x
    intro pre fuel hpre hw hfuel
    obtain ⟨h1, h2, h3, h4, h5⟩ := hw
    cases fuel with
    | zero => simp at hfuel
    | succ fuel =>
      have htail : sep = [] → build_line rest = [] := by
        intro hs
        cases rest with
        | nil => rfl
        | cons y r => exact absurd hs (h4 (by simp))
      have hst := strtok_field delim pre field sep (build_line rest) hpre h1 h2 h3 htail
      have hb : build_line ((field, sep) :: rest) = field ++ sep ++ build_line rest := rfl
      rw [hb]
      simp only [parse_tokens, hst, List.map_cons]
      congr 1
      cases hs : sep with
      | nil =>
        have hr : rest = [] := by
          by_contra hne
          exact h4 hne hs
        subst hr
        have := ih [] fuel (fun c hc => absurd hc (List.not_mem_nil _)) h5 (by simp)
        simpa using this
      | cons d sep2 =>
        have := ih sep2 fuel
          (fun c hc => h3 c (by rw [hs]; exact List.mem_cons_of_mem _ hc)) h5
          (by simp only [List.length_cons] at hfuel; omega)
        simpa using this

/-- The function `parse_command` on a line of fields and separator runs whose
first field is not `B`. -/
theorem parse_command_fields (delim : CString) (items : List (CString × CString))
    (pre : CString) (hpre : ∀ c ∈ pre, delim.contains c = true)
    (hw : WellSeparated delim items) (hB : ∀ x ∈ items.head?, x.1 ≠ [66]) :
    parse_command (pre ++ build_line items) delim =
      ⟨items.map Prod.fst, items.length, (items.map Prod.fst).head?, zero_buff⟩ := by
  cases items with
  | nil =>
    have : strtok delim (pre ++ build_line []) = none := by
      unfold strtok
      rw [dropWhile_leading _ pre _ hpre]
      rfl
    unfold parse_command
    rw [this]
    rfl
  | cons x rest =>
    obtain ⟨field, sep⟩ := x
    obtain ⟨h1, h2, h3, h4, h5⟩ := hw
    have htail : sep = [] → build_line rest = [] := by
      intro hs
      cases rest with
      | nil => rfl
      | cons y r => exact absurd hs (h4 (by simp))
    have hst := strtok_field delim pre field sep (build_line rest) hpre h1 h2 h3 htail
    have hb : build_line ((field, sep) :: rest) = field ++ sep ++ build_line rest := rfl
    have hfB : field ≠ [66] := hB (field, sep) (by simp)
    have hrest : parse_tokens delim ((sep ++ build_line rest).drop 1).length
        ((sep ++ build_line rest).drop 1) = rest.map Prod.fst := by
      cases hs : sep with
      | nil =>
        have hr : rest = [] := by
          by_contra hne
          exact h4 hne hs
        subst hr
        rfl
      | cons d sep2 =>
        have hlen := wellSeparated_length delim rest h5
        have := parse_tokens_fields delim rest sep2 (sep2 ++ build_line rest).length
          (fun c hc => h3 c (by rw [hs]; exact List.mem_cons_of_mem _ hc)) h5
          (by rw [List.length_append]; omega)
        simpa using this
    unfold parse_command
    rw [hb, hst]
    simp only [if_neg hfB, hrest, List.map_cons, List.length_cons, List.length_map,
      List.head?_cons]

theorem respace_fields : ∀ items : List (CString × CString),
    (respace items).map Prod.fst = items.map Prod.fst ∧
    build_line (respace items) = spaced_line (items.map Prod.fst) ∧
    (respace items).length = items.length
  | [] => ⟨rfl, rfl, rfl⟩
  | [(field, _)] => ⟨rfl, by simp [respace, build_line, spaced_line], rfl⟩
  | (field, _) :: y :: rest => by
    obtain ⟨i1, i2, i3⟩ := respace_fields (y :: rest)
    refine ⟨?_, ?_, ?_⟩
    · simp only [respace, List.map_cons] at i1 ⊢
      rw [i1]
    · show field ++ [32] ++ build_line (respace (y :: rest)) = _
      rw [i2]
      simp [spaced_line]
    · simp only [respace, List.length_cons] at i3 ⊢
      rw [i3]

theorem respace_wellSeparated (delim : CString) (hsp : delim.contains 32 = true) :
    ∀ items : List (CString × CString), WellSeparated delim items →
      WellSeparated delim (respace items)
  | [], _ => trivial
  | [(field, _)], h =>
    ⟨h.1, h.2.1, fun c hc => absurd hc (List.not_mem_nil _), fun hne => absurd rfl hne, trivial⟩
  | (field, _) :: y :: rest, h => by
    have ih := respace_wellSeparated delim hsp (y :: rest) h.2.2.2.2
    refine ⟨h.1, h.2.1, ?_, fun _ => by simp, ih⟩
    intro c hc
    rw [List.mem_singleton] at hc
    rw [hc]
    exact hsp

/-- C25 (amended): the tokenizer splits a line at spaces, newlines and double
quotes.  For a line of fields separated by runs of these three characters,
whose first field is not `B`, `parse_command` stores the fields in `argv`, in
order, and gives the same command as for the fields separated by single
spaces. -/
theorem parse_command_separators (items : List (CString × CString)) (pre : CString)
    (hpre : ∀ c ∈ pre, main_delim.contains c = true)
    (hw : WellSeparated main_delim items) (hB : ∀ x ∈ items.head?, x.1 ≠ [66]) :
    (parse_command (pre ++ build_line items) main_delim).argv = items.map Prod.fst ∧
    (parse_command (pre ++ build_line items) main_delim).size = items.length ∧
    parse_command (pre ++ build_line items) main_delim =
      parse_command (spaced_line (items.map Prod.fst)) main_delim := by
  have h1 := parse_command_fields main_delim items pre hpre hw hB
  obtain ⟨r1, r2, r3⟩ := respace_fields items
  have hB2 : ∀ x ∈ (respace items).head?, x.1 ≠ [66] := by
    intro x hx
    cases items with
    | nil => simp [respace] at hx
    | cons a rest =>
      obtain ⟨field, sep⟩ := a
      have hf := hB (field, sep) (by simp)
      cases rest with
      | nil =>
        simp only [respace, List.head?_cons, Option.mem_def, Option.some.injEq] at hx
        rw [← hx]
        exact hf
      | cons y r =>
        simp only [respace, List.head?_cons, Option.mem_def, Option.some.injEq] at hx
        rw [← hx]
        exact hf
  have h2 := parse_command_fields main_delim (respace items) []
    (fun c hc => absurd hc (List.not_mem_nil _))
    (respace_wellSeparated main_delim (by decide) items hw) hB2
  rw [List.nil_append, r2, r1, r3] at h2
  rw [h1, h2]
  exact ⟨rfl, rfl, rfl⟩

/-- Witness of C25 (amended): the line `C "foo"  3` with a newline at the end
gives the arguments `C`, `foo` and `3`. -/
theorem parse_command_separators_witness :
    (parse_command [67, 32, 34, 102, 111, 111, 34, 32, 32, 51, 10] main_delim).argv =
      [[67], [102, 111, 111], [51]] :=
  (parse_command_separators [([67], [32, 34]), ([102, 111, 111], [34, 32, 32]), ([51], [10])]
    [] (fun c hc => absurd hc (List.not_mem_nil _)) (by decide) (by decide)).1

/-- Counterexample to C25 as stated: the tab is not a delimiter; the line
`C<TAB>foo<TAB>3` gives one argument and the line `C foo 3` gives three. -/
theorem parse_command_separators_counterexample :
    (parse_command [67, 9, 102, 111, 111, 9, 51, 10] main_delim).argv =
      [[67, 9, 102, 111, 111, 9, 51]] ∧
    (parse_command [67, 32, 102, 111, 111, 32, 51, 10] main_delim).argv =
      [[67], [102, 111, 111], [51]] := by
  decide

/-! ## The moves of `fs_defrag`, one by one -/

/-- What `defrag_pick` finds is what `defrag_step` moves. -/
theorem defrag_pick_some (st : State) (f idx L : Nat)
    (h : defrag_pick st f = some (idx, L)) :
    defrag_step st f =
      DefragStep.moved (defrag_move st idx L) (L + (st.sb.inode idx).size) ∧
    ∃ U, defrag_scan st.sb.free_block_list (List.range' f (128 - f)) none = (some L, some U) ∧
      defrag_find st.sb U = some idx := by
  unfold defrag_pick at h
  unfold defrag_step
  cases hsc : defrag_scan st.sb.free_block_list (List.range' f (128 - f)) none with
  | mk lo r =>
    rw [hsc] at h
    cases lo with
    | none => cases r <;> simp at h
    | some L2 =>
      cases r with
      | none => simp at h
      | some U =>
        simp only at h ⊢
        cases hfd : defrag_find st.sb U with
        | none =>
          rw [hfd] at h
          simp at h
        | some i =>
          rw [hfd] at h
          simp only [Option.map_some', Option.some.injEq, Prod.mk.injEq] at h
          obtain ⟨h1, h2⟩ := h
          subst h1 h2
          exact ⟨rfl, U, rfl, hfd⟩

/-- When `defrag_pick` finds nothing, `defrag_step` does not move a file. -/
theorem defrag_pick_none (st : State) (f : Nat) (h : defrag_pick st f = none) :
    defrag_step st f = DefragStep.finished ∨ defrag_step st f = DefragStep.undefined := by
  unfold defrag_pick at h
  unfold defrag_step
  cases hsc : defrag_scan st.sb.free_block_list (List.range' f (128 - f)) none with
  | mk lo r =>
    rw [hsc] at h
    cases lo with
    | none => cases r <;> exact Or.inl rfl
    | some L2 =>
      cases r with
      | none => exact Or.inl rfl
      | some U =>
        simp only at h ⊢
        cases hfd : defrag_find st.sb U with
        | none => exact Or.inr rfl
        | some i =>
          rw [hfd] at h
          simp at h

/-- The trace has one entry for each move of `fs_defrag`. -/
theorem defrag_trace_length (fuel : Nat) :
    ∀ (st : State) (f : Nat),
      (defrag_trace fuel st f).length = (defrag_moves fuel st f).length := by
  induction fuel with
  | zero => intro st f; rfl
  | succ fuel ih =>
    intro st f
    cases hp : defrag_pick st f with
    | none =>
      have h1 : defrag_trace (fuel + 1) st f = [] := by
        simp only [defrag_trace, hp]
      have h2 : defrag_moves (fuel + 1) st f = [] := by
        rcases defrag_pick_none st f hp with h | h <;> simp only [defrag_moves, h]
      rw [h1, h2]
      rfl
    | some p =>
      obtain ⟨idx, L⟩ := p
      have hs := (defrag_pick_some st f idx L hp).1
      have h1 : defrag_trace (fuel + 1) st f =
          (idx, L + (st.sb.inode idx).size) ::
            defrag_trace fuel (defrag_move st idx L) (L + (st.sb.inode idx).size) := by
        simp only [defrag_trace, hp]
      have h2 : defrag_moves (fuel + 1) st f =
          defrag_move st idx L ::
            defrag_moves fuel (defrag_move st idx L) (L + (st.sb.inode idx).size) := by
        simp only [defrag_moves, hs]
      rw [h1, h2, List.length_cons, List.length_cons, ih]

/-- One move of `fs_defrag` on a consistent state whose blocks below the
resume index are used: the file moved starts above the resume index, lands
below the new resume index, and no other inode changes. -/
theorem defrag_pick_spec (st : State) (f idx L : Nat) (h : DefragInv st f)
    (hp : defrag_pick st f = some (idx, L)) :
    idx < 126 ∧ f ≤ L ∧ L < (st.sb.inode idx).start_block ∧ 1 ≤ (st.sb.inode idx).size ∧
    DefragInv (defrag_move st idx L) (L + (st.sb.inode idx).size) ∧
    ((defrag_move st idx L).sb.inode idx).start_block = L ∧
    (∀ i, i ≠ idx → (defrag_move st idx L).sb.inode i = st.sb.inode i) := by
  obtain ⟨hstep, U, hscan, hfind⟩ := defrag_pick_some st f idx L hp
  obtain ⟨hi126, hstart, hfile⟩ := defrag_find_some st.sb U idx hfind
  obtain ⟨hu, hdir⟩ := (isfile_iff _).1 hfile
  have hi2 := h.1.2.1 idx hi126 hu hdir
  have hLU : f ≤ L ∧ L < U ∧ U ≤ 127 := by
    rcases defrag_scan_none st.sb.free_block_list (128 - f) f with
      ⟨h1, _⟩ | ⟨L2, U2, h1, h2, _, h4, h5, _⟩
    · rw [hscan] at h1
      exact absurd h1 (by simp)
    · rw [hscan] at h1
      simp only [Prod.mk.injEq, Option.some.injEq] at h1
      have := h.2.1
      omega
  have hinv2 : DefragInv (defrag_move st idx L) (L + (st.sb.inode idx).size) := by
    rcases defrag_step_spec st f h with ⟨h1, _⟩ | ⟨st2, f2, h1, h2, _, _⟩
    · rw [hstep] at h1
      exact absurd h1 (by simp)
    · rw [hstep] at h1
      simp only [DefragStep.moved.injEq] at h1
      rw [h1.1, h1.2]
      exact h2
  refine ⟨hi126, hLU.1, by omega, hi2.2.2, hinv2, ?_, ?_⟩
  · rw [defrag_move_inode, Function.update_same]
    exact Nat.mod_eq_of_lt (by omega)
  · intro i hi
    rw [defrag_move_inode]
    exact Function.update_noteq hi _ _

/-- The moves of `fs_defrag` from a consistent state whose blocks below the
resume index are used: every file moved starts above the resume index at the
time of the scan, no inode is moved twice, and the resume index grows with
every move. -/
theorem defrag_trace_spec (fuel : Nat) :
    ∀ (st : State) (f : Nat), DefragInv st f →
      (∀ p ∈ defrag_trace fuel st f,
        p.1 < 126 ∧ f < (st.sb.inode p.1).start_block ∧ f < p.2) ∧
      ((defrag_trace fuel st f).map Prod.fst).Nodup ∧
      ((defrag_trace fuel st f).map Prod.snd).Pairwise (fun a b => a < b) := by
  induction fuel with
  | zero =>
    intro st f _
    exact ⟨fun p hp => absurd hp (List.not_mem_nil _), List.nodup_nil, List.Pairwise.nil⟩
  | succ fuel ih =>
    intro st f h
    cases hp : defrag_pick st f with
    | none =>
      have h1 : defrag_trace (fuel + 1) st f = [] := by
        simp only [defrag_trace, hp]
      rw [h1]
      exact ⟨fun p hp => absurd hp (List.not_mem_nil _), List.nodup_nil, List.Pairwise.nil⟩
    | some p =>
      obtain ⟨idx, L⟩ := p
      have h1 : defrag_trace (fuel + 1) st f =
          (idx, L + (st.sb.inode idx).size) ::
            defrag_trace fuel (defrag_move st idx L) (L + (st.sb.inode idx).size) := by
        simp only [defrag_trace, hp]
      obtain ⟨a1, a2, a3, a4, a5, a6, a7⟩ := defrag_pick_spec st f idx L h hp
      obtain ⟨b1, b2, b3⟩ := ih (defrag_move st idx L) (L + (st.sb.inode idx).size) a5
      have hne : ∀ p ∈ defrag_trace fuel (defrag_move st idx L) (L + (st.sb.inode idx).size),
          p.1 ≠ idx := by
        intro p hp hpi
        have := (b1 p hp).2.1
        rw [hpi, a6] at this
        omega
      rw [h1]
      refine ⟨?_, ?_, ?_⟩
      · intro p hp
        rcases List.mem_cons.1 hp with hp | hp
        · rw [hp]
          exact ⟨a1, show f < (st.sb.inode idx).start_block by omega,
            show f < L + (st.sb.inode idx).size by omega⟩
        · obtain ⟨c1, c2, c3⟩ := b1 p hp
          rw [a7 p.1 (hne p hp)] at c2
          exact ⟨c1, by omega, by omega⟩
      · rw [List.map_cons]
        apply List.nodup_cons.2
        refine ⟨?_, b2⟩
        intro hmem
        obtain ⟨p, hp, hpi⟩ := List.mem_map.1 hmem
        exact hne p hp hpi
      · rw [List.map_cons]
        apply List.pairwise_cons.2
        refine ⟨?_, b3⟩
        intro x hx
        obtain ⟨p, hp, hpx⟩ := List.mem_map.1 hx
        rw [← hpx]
        exact (b1 p hp).2.2

theorem nodup_length_le (l : List Nat) (n : Nat) (hn : l.Nodup) (hl : ∀ x ∈ l, x < n) :
    l.length ≤ n := by
  rw [← List.toFinset_card_of_nodup hn]
  have hsub : l.toFinset ⊆ Finset.range n := by
    intro x hx
    rw [List.mem_toFinset] at hx
    exact Finset.mem_range.2 (hl x hx)
  have := Finset.card_le_card hsub
  rw [Finset.card_range] at this
  exact this

/-- C29: on a state with the six invariants, where rule 6 leaves no block in
the ranges of two used files, the outer loop of `fs_defrag` ends within 128
iterations; no inode is moved twice, so there are at most 126 moves, and the
resume index, 0 at the start, grows with every move. -/
theorem fs_defrag_terminates (st : State) (hinv : Invariants st.sb) (hno : NoOverlap st.sb) :
    (∃ s2, fs_defrag 128 st = DefragResult.done s2) ∧
    ∀ fuel,
      (defrag_trace fuel st 0).length = (defrag_moves fuel st 0).length ∧
      ((defrag_trace fuel st 0).map Prod.fst).Nodup ∧
      (defrag_trace fuel st 0).length ≤ 126 ∧
      (0 :: (defrag_trace fuel st 0).map Prod.snd).Pairwise (fun a b => a < b) := by
  have hc := (consistent_iff st.sb).2 ⟨hinv, hno⟩
  obtain ⟨s2, h, _⟩ := fs_defrag_spec st hc
  refine ⟨⟨s2, h⟩, ?_⟩
  intro fuel
  obtain ⟨b1, b2, b3⟩ :=
    defrag_trace_spec fuel st 0 ⟨hc, by omega, fun j h1 h2 => by omega⟩
  refine ⟨defrag_trace_length fuel st 0, b2, ?_, ?_⟩
  · have := nodup_length_le _ 126 b2 (by
      intro x hx
      obtain ⟨p, hp, hpx⟩ := List.mem_map.1 hx
      rw [← hpx]
      exact (b1 p hp).1)
    rw [List.length_map] at this
    exact this
  · apply List.pairwise_cons.2
    refine ⟨?_, b3⟩
    intro x hx
    obtain ⟨p, hp, hpx⟩ := List.mem_map.1 hx
    rw [← hpx]
    exact (b1 p hp).2.2

/-- Witness of C29: on the files `b` and `c` with the free blocks 1
and 4, `fs_defrag` moves inode 1 and then inode 0, and resumes at 3 and at
4. -/
theorem fs_defrag_terminates_witness :
    (∃ s2, fs_defrag 128 orderState = DefragResult.done s2) ∧
    defrag_trace 128 orderState 0 = [(1, 3), (0, 4)] ∧
    ((defrag_trace 128 orderState 0).map Prod.fst).Nodup :=
  ⟨(fs_defrag_terminates orderState orderState_invariants orderState_noOverlap).1,
    by decide,
    ((fs_defrag_terminates orderState orderState_invariants orderState_noOverlap).2 128).2.1⟩

/-! ## The current directory in a session -/

theorem depthIs_reachesRoot (sb : Superblock) :
    ∀ d i, depthIs sb d i = true → reachesRoot sb d i = true := by
  intro d
  induction d with
  | zero =>
    intro i h
    simpa [reachesRoot, depthIs] using h
  | succ d ih =>
    intro i h
    obtain ⟨hi, hp⟩ := (depthIs_succ sb d i).1 h
    simp only [reachesRoot, Bool.or_eq_true, beq_iff_eq, Bool.and_eq_true, decide_eq_true_eq]
    exact Or.inr ⟨hi, ih _ hp⟩

/-- The depth of an index that is 127 or a used inode is the same in a
superblock that has the same used inodes. -/
theorem depthIs_used_transfer (sb sb2 : Superblock) (h4 : Rule4 sb)
    (h : ∀ i, i < 126 → (sb.inode i).isused = true → sb2.inode i = sb.inode i) :
    ∀ d i, (i = 127 ∨ (i < 126 ∧ (sb.inode i).isused = true)) →
      depthIs sb d i = true → depthIs sb2 d i = true := by
  intro d
  induction d with
  | zero =>
    intro i _ hd
    rw [depthIs_zero] at hd ⊢
    exact hd
  | succ d ih =>
    intro i hi hd
    obtain ⟨hi126, hp⟩ := (depthIs_succ sb d i).1 hd
    rcases hi with h127 | ⟨_, hu⟩
    · omega
    · rw [depthIs_succ, h i hi126 hu]
      refine ⟨hi126, ih _ ?_ hp⟩
      have h4i := h4 i hi126 hu
      have hle := parent_le (sb.inode i)
      by_cases hp125 : (sb.inode i).parent ≤ 125
      · exact Or.inr ⟨by omega, (h4i.2.2 hp125).1⟩
      · exact Or.inl (by omega)

/-- The depth of an index depends on the parent fields only. -/
theorem depthIs_congr (sb sb2 : Superblock)
    (h : ∀ i, (sb2.inode i).parent = (sb.inode i).parent) :
    ∀ d i, depthIs sb2 d i = depthIs sb d i := by
  intro d
  induction d with
  | zero => intro i; rfl
  | succ d ih =>
    intro i
    simp only [depthIs]
    rw [h i, ih]

/-- An inode whose subtree has the inode `i` is not deeper than `i`. -/
theorem ancestor_depth (sb : Superblock) (a : Nat) :
    ∀ k i d, inSubtree sb a k i = true → depthIs sb d i = true →
      ∃ e, e ≤ d ∧ depthIs sb e a = true := by
  intro k
  induction k with
  | zero =>
    intro i d h hd
    have := ((inSubtree_zero sb a i).1 h).2.2
    rw [this] at hd
    exact ⟨d, le_refl _, hd⟩
  | succ k ih =>
    intro i d h hd
    obtain ⟨hi, _, hor⟩ := (inSubtree_succ sb a k i).1 h
    rcases hor with hia | hrec
    · rw [hia] at hd
      exact ⟨d, le_refl _, hd⟩
    · cases d with
      | zero =>
        rw [depthIs_zero] at hd
        omega
      | succ d =>
        obtain ⟨_, hp⟩ := (depthIs_succ sb d i).1 hd
        obtain ⟨e, he, hea⟩ := ih _ d hrec hp
        exact ⟨e, by omega, hea⟩

/-- The checker returns 0 only when rule 4 holds. -/
theorem check_zero_rule4 (sb : Superblock) (h : consistency_check sb = 0) : Rule4 sb := by
  by_contra h4
  by_cases h1 : Rule1 sb
  · by_cases h2 : Rule2 sb
    · by_cases h3 : Rule3 sb
      · have := (consistency_check_ladder sb h1 h2).2.1 h3 h4
        omega
      · have := (consistency_check_ladder sb h1 h2).1 h3
        omega
    · have := (consistency_check_eq_two_iff sb h1).2 h2
      omega
  · have := consistency_check_eq_one sb h1
    omega

/-- The inode that `fs_create` stores is used and has the current directory
as its parent. -/
theorem new_inode_parent (cwd : Nat) (name : Name) (size s : Nat) (hcw : cwd < 128) :
    (new_inode cwd name size s).isused = true ∧ (new_inode cwd name size s).parent = cwd := by
  refine ⟨enc_used size, ?_⟩
  by_cases h0 : size = 0
  · simp only [new_inode, Inode.parent, h0, if_true]
    exact enc_low _ hcw
  · simp only [new_inode, Inode.parent, h0, if_false]
    exact enc_plain_low _ hcw

/-- Rule 4 and the current directory depend on the flags and the parent
fields only. -/
theorem cwdInv_of_fields (st s2 : State) (hcwd : s2.cwd = st.cwd)
    (hf : ∀ i, (s2.sb.inode i).isused_size = (st.sb.inode i).isused_size ∧
      (s2.sb.inode i).isdir_parent = (st.sb.inode i).isdir_parent)
    (h : CwdInv st) : CwdInv s2 := by
  obtain ⟨h4, hc, d, hd⟩ := h
  have hu : ∀ i, (s2.sb.inode i).isused = (st.sb.inode i).isused := by
    intro i
    unfold Inode.isused
    rw [(hf i).1]
  have hdir : ∀ i, (s2.sb.inode i).isdir = (st.sb.inode i).isdir := by
    intro i
    unfold Inode.isdir
    rw [(hf i).2]
  have hp : ∀ i, (s2.sb.inode i).parent = (st.sb.inode i).parent := by
    intro i
    unfold Inode.parent
    rw [(hf i).2]
  refine ⟨?_, ?_, d, ?_⟩
  · intro i hi hui
    rw [hu i] at hui
    rw [hp i, hu, hdir]
    exact h4 i hi hui
  · rw [CwdOK, hcwd, hu, hdir]
    exact hc
  · rw [hcwd, depthIs_congr st.sb s2.sb hp]
    exact hd

/-- The function `fs_create` keeps rule 4 and the current directory, whatever
the name and the size. -/
theorem fs_create_cwdInv (st : State) (name : Name) (size : Nat) (h : CwdInv st) :
    CwdInv (fs_create st name size).1 := by
  obtain ⟨h4, hcwd, d, hd⟩ := h
  cases he : (fs_create st name size).2 with
  | some e =>
    rw [fs_create_error_state st name size e he]
    exact ⟨h4, hcwd, d, hd⟩
  | none =>
    have hpair : fs_create st name size = ((fs_create st name size).1, none) :=
      Prod.ext rfl he
    obtain ⟨c1, _, _, _, hcase⟩ := fs_create_ok st _ name size hpair
    obtain ⟨hidx, hfree, _⟩ := create_scan_idx st.sb c1
    have hcw128 : st.cwd < 128 := by
      rcases hcwd with c | ⟨c, _⟩ <;> omega
    obtain ⟨size2, s, hst⟩ : ∃ size2 s, (fs_create st name size).1 =
        create_commit st (create_scan st.sb 126 ⟨false, 0, 0⟩).idx name size2 s := by
      rcases hcase with ⟨_, hst⟩ | ⟨_, s, _, hst⟩
      · exact ⟨0, 0, hst⟩
      · exact ⟨size, s, hst⟩
    have hcwd2 : (fs_create st name size).1.cwd = st.cwd := by
      rw [hst]
      rfl
    have hino : ∀ i, (fs_create st name size).1.sb.inode i =
        if i = (create_scan st.sb 126 ⟨false, 0, 0⟩).idx then new_inode st.cwd name size2 s
        else st.sb.inode i := by
      intro i
      rw [hst, create_commit_sb]
      show Function.update st.sb.inode _ _ i = _
      by_cases hi : i = (create_scan st.sb 126 ⟨false, 0, 0⟩).idx
      · rw [if_pos hi, hi, Function.update_same]
      · rw [if_neg hi, Function.update_noteq hi]
    have hused : ∀ i, i < 126 → (st.sb.inode i).isused = true →
        (fs_create st name size).1.sb.inode i = st.sb.inode i := by
      intro i _ hu
      have hi : i ≠ (create_scan st.sb 126 ⟨false, 0, 0⟩).idx := by
        intro hi
        rw [hi, hfree] at hu
        exact Bool.noConfusion hu
      rw [hino, if_neg hi]
    have hcwdne : st.cwd ≠ (create_scan st.sb 126 ⟨false, 0, 0⟩).idx := by
      rcases hcwd with c | ⟨_, c2, _⟩
      · omega
      · intro hc
        rw [hc, hfree] at c2
        exact Bool.noConfusion c2
    have hcwdsame : ∀ p, p = st.cwd → p ≤ 125 →
        ((fs_create st name size).1.sb.inode p).isused = true ∧
        ((fs_create st name size).1.sb.inode p).isdir = true := by
      intro p hp hle
      rcases hcwd with c | ⟨c1, c2, c3⟩
      · omega
      · rw [hp, hused st.cwd c1 c2]
        exact ⟨c2, c3⟩
    refine ⟨?_, ?_, d, ?_⟩
    · intro i hi hu
      by_cases hidx2 : i = (create_scan st.sb 126 ⟨false, 0, 0⟩).idx
      · have hn := new_inode_parent st.cwd name size2 s hcw128
        have hpar : ((fs_create st name size).1.sb.inode i).parent = st.cwd := by
          rw [hino, if_pos hidx2]
          exact hn.2
        rw [hpar]
        refine ⟨by rw [hidx2]; exact hcwdne, ?_, hcwdsame st.cwd rfl⟩
        rcases hcwd with c | ⟨c, _⟩ <;> omega
      · have hsame : (fs_create st name size).1.sb.inode i = st.sb.inode i := by
          rw [hino, if_neg hidx2]
        rw [hsame] at hu ⊢
        obtain ⟨r1, r2, r3⟩ := h4 i hi hu
        refine ⟨r1, r2, fun hle => ?_⟩
        obtain ⟨q1, q2⟩ := r3 hle
        rw [hused _ (by omega) q1]
        exact ⟨q1, q2⟩
    · rcases hcwd with h1 | ⟨h1, h2, h3⟩
      · exact Or.inl (by rw [hcwd2]; exact h1)
      · right
        rw [hcwd2, hused st.cwd h1 h2]
        exact ⟨h1, h2, h3⟩
    · rw [hcwd2]
      apply depthIs_used_transfer st.sb _ h4 hused d st.cwd _ hd
      rcases hcwd with h1 | ⟨h1, h2, _⟩
      · exact Or.inl h1
      · exact Or.inr ⟨h1, h2⟩

/-- The function `fs_delete` returns within 127 nested calls, keeps rule 4 and
the current directory, and leaves the inode of the current directory and of
each of its ancestors as it was. -/
theorem fs_delete_cwdInv (st : State) (name : Name) (h : CwdInv st) :
    ∃ s2 e, fs_delete 127 st name = some (s2, e) ∧ CwdInv s2 ∧ s2.cwd = st.cwd ∧
      ∀ a, InSubtree st.sb a st.cwd → s2.sb.inode a = st.sb.inode a := by
  obtain ⟨h4, hcwd, d, hd⟩ := h
  cases hf : file_exists st name with
  | none =>
    have : fs_delete 127 st name = some (st, some FsError.does_not_exist) := by
      unfold fs_delete
      rw [hf]
    exact ⟨st, _, this, ⟨h4, hcwd, d, hd⟩, rfl, fun _ _ => rfl⟩
  | some D =>
    obtain ⟨hD126, hDu, _, hDp, _⟩ := file_exists_some st name D hf
    have hdD : depthIs st.sb (d + 1) D = true := by
      rw [depthIs_succ, hDp]
      exact ⟨hD126, hd⟩
    obtain ⟨s2, hs2, gR4, gcwd, _, _, gF, _⟩ :=
      delete_file_effect 127 st D (d + 1) h4 hD126 hDu hdD (by omega)
    have hret : fs_delete 127 st name = some (write_superblock s2, none) := by
      unfold fs_delete
      rw [hf]
      simp only
      rw [hs2]
      rfl
    have hlow : ∀ i e, depthIs st.sb e i = true → e ≤ d → s2.sb.inode i = st.sb.inode i := by
      intro i e hei hed
      apply gF i e hei (by omega)
      intro hiD
      rw [hiD] at hei
      have := depthIs_unique st.sb e (d + 1) D hei hdD
      omega
    refine ⟨write_superblock s2, none, hret, ⟨gR4, ?_, d, ?_⟩, gcwd, ?_⟩
    · show (write_superblock s2).cwd = 127 ∨ _
      rcases hcwd with c1 | ⟨c1, c2, c3⟩
      · exact Or.inl (by show s2.cwd = 127; rw [gcwd]; exact c1)
      · right
        show s2.cwd < 126 ∧ (s2.sb.inode s2.cwd).isused = true ∧
          (s2.sb.inode s2.cwd).isdir = true
        rw [gcwd, hlow st.cwd d hd (le_refl _)]
        exact ⟨c1, c2, c3⟩
    · show depthIs s2.sb d s2.cwd = true
      rw [gcwd]
      exact depthIs_transfer st.sb s2.sb d hlow d st.cwd (le_refl _) hd
    · rintro a ⟨k, hk⟩
      obtain ⟨e, he, hea⟩ := ancestor_depth st.sb a k st.cwd d hk hd
      exact hlow a e hea he

/-- A file move of `fs_defrag` changes no flag, no size and no parent field,
and keeps the current directory. -/
theorem defrag_step_fields (st st2 : State) (f f2 : Nat)
    (h : defrag_step st f = DefragStep.moved st2 f2) :
    st2.cwd = st.cwd ∧
    ∀ i, (st2.sb.inode i).isused_size = (st.sb.inode i).isused_size ∧
      (st2.sb.inode i).isdir_parent = (st.sb.inode i).isdir_parent := by
  unfold defrag_step at h
  cases hsc : defrag_scan st.sb.free_block_list (List.range' f (128 - f)) none with
  | mk lo r =>
    rw [hsc] at h
    cases r with
    | none => cases lo <;> simp at h
    | some U =>
      cases lo with
      | none => simp at h
      | some L =>
        simp only at h
        cases hfd : defrag_find st.sb U with
        | none =>
          rw [hfd] at h
          simp at h
        | some idx =>
          rw [hfd] at h
          simp only [DefragStep.moved.injEq] at h
          rw [← h.1]
          refine ⟨rfl, fun i => ?_⟩
          rw [defrag_move_inode]
          by_cases hi : i = idx
          · rw [hi, Function.update_same]
            exact ⟨rfl, rfl⟩
          · rw [Function.update_noteq hi]
            exact ⟨rfl, rfl⟩

/-- A run of `fs_defrag` that ends changes no flag, no size and no parent
field, and keeps the current directory. -/
theorem defrag_loop_fields (fuel : Nat) :
    ∀ (st s2 : State) (f : Nat), defrag_loop fuel st f = DefragResult.done s2 →
      s2.cwd = st.cwd ∧
      ∀ i, (s2.sb.inode i).isused_size = (st.sb.inode i).isused_size ∧
        (s2.sb.inode i).isdir_parent = (st.sb.inode i).isdir_parent := by
  induction fuel with
  | zero =>
    intro st s2 f h
    exact absurd h (by simp [defrag_loop])
  | succ fuel ih =>
    intro st s2 f h
    change (match defrag_step st f with
      | DefragStep.finished => DefragResult.done st
      | DefragStep.undefined => DefragResult.undefined
      | DefragStep.moved st2 fbl_idx2 => defrag_loop fuel st2 fbl_idx2) = _ at h
    cases hs : defrag_step st f with
    | finished =>
      rw [hs] at h
      simp only [DefragResult.done.injEq] at h
      rw [← h]
      exact ⟨rfl, fun _ => ⟨rfl, rfl⟩⟩
    | undefined =>
      rw [hs] at h
      exact absurd h (by simp)
    | moved st2 f2 =>
      rw [hs] at h
      obtain ⟨a1, a2⟩ := defrag_step_fields st st2 f f2 hs
      obtain ⟨b1, b2⟩ := ih st2 s2 f2 h
      refine ⟨by rw [b1, a1], fun i => ?_⟩
      rw [(b2 i).1, (b2 i).2]
      exact a2 i

/-- The function `fs_cd` keeps rule 4 and the current directory. -/
theorem fs_cd_cwdInv (st : State) (name : Name) (h : CwdInv st) :
    CwdInv (fs_cd st name).1 := by
  obtain ⟨hc, hcwd, d, hd⟩ := h
  obtain ⟨hfr, hdot, hdd, hoth⟩ := fs_cd_cases st name hcwd
  have hsb := hfr.1
  by_cases h1 : name = dot
  · rw [hdot h1]
    exact ⟨hc, hcwd, d, hd⟩
  · by_cases h2 : name = dotdot
    · obtain ⟨_, hcw⟩ := hdd h2
      rcases hcwd with c1 | ⟨c1, c2, c3⟩
      · rw [if_pos c1] at hcw
        refine ⟨by rw [hsb]; exact hc, Or.inl hcw, 0, ?_⟩
        rw [hsb, hcw, depthIs_zero]
      · rw [if_neg (by omega)] at hcw
        have h4 := hc st.cwd c1 c2
        have hle := parent_le (st.sb.inode st.cwd)
        cases d with
        | zero =>
          rw [depthIs_zero] at hd
          omega
        | succ d =>
          obtain ⟨_, hp⟩ := (depthIs_succ st.sb d st.cwd).1 hd
          refine ⟨by rw [hsb]; exact hc, ?_, d, by rw [hsb, hcw]; exact hp⟩
          rw [CwdOK, hsb, hcw]
          by_cases hp125 : (st.sb.inode st.cwd).parent ≤ 125
          · exact Or.inr ⟨by omega, (h4.2.2 hp125).1, (h4.2.2 hp125).2⟩
          · exact Or.inl (by omega)
    · obtain ⟨herr, hok⟩ := hoth h1 h2
      cases hf : file_exists st name with
      | none =>
        rw [herr (Or.inl ((file_exists_none_iff st name).1 hf))]
        exact ⟨hc, hcwd, d, hd⟩
      | some idx =>
        cases hdir : (st.sb.inode idx).isdir with
        | false =>
          rw [herr (Or.inr ⟨idx, hf, hdir⟩)]
          exact ⟨hc, hcwd, d, hd⟩
        | true =>
          rw [hok idx hf hdir]
          obtain ⟨hi, hu, _, hp, _⟩ := file_exists_some st name idx hf
          refine ⟨hc, Or.inr ⟨hi, hu, hdir⟩, d + 1, ?_⟩
          show depthIs st.sb (d + 1) idx = true
          rw [depthIs_succ, hp]
          exact ⟨hi, hd⟩

/-- Every operation that returns keeps rule 4 and the current directory,
however many iterations `fs_defrag` is given. -/
theorem step_cwdInv (iters : Nat) (st s2 : State) (op : Op) (h : CwdInv st)
    (hs : step iters st op = some s2) : CwdInv s2 := by
  cases op with
  | create name size =>
    simp only [step, Option.some.injEq] at hs
    rw [← hs]
    exact fs_create_cwdInv st name size h
  | delete name =>
    obtain ⟨s3, e, h1, h2, _⟩ := fs_delete_cwdInv st name h
    simp only [step, h1, Option.map_some', Option.some.injEq] at hs
    rw [← hs]
    exact h2
  | read name k =>
    simp only [step, Option.some.injEq] at hs
    rw [← hs]
    rcases fs_read_cases st name k with ⟨_, e⟩ | ⟨_, _, _, e⟩ | ⟨_, _, _, _, e⟩ |
        ⟨idx, _, _, _, _, e⟩ <;> rw [e] <;> exact h
  | write name k =>
    simp only [step, Option.some.injEq] at hs
    rw [← hs]
    rcases fs_write_cases st name k with ⟨_, e⟩ | ⟨_, _, _, e⟩ | ⟨_, _, _, _, e⟩ |
        ⟨idx, _, _, _, _, e⟩ <;> rw [e] <;> exact h
  | buff b =>
    simp only [step, Option.some.injEq] at hs
    rw [← hs]
    exact h
  | ls =>
    simp only [step, Option.some.injEq] at hs
    rw [← hs]
    exact h
  | defrag =>
    change (match fs_defrag iters st with
      | DefragResult.done s => some s
      | _ => none) = some s2 at hs
    cases hd : fs_defrag iters st with
    | done s =>
      rw [hd] at hs
      simp only [Option.some.injEq] at hs
      rw [← hs]
      obtain ⟨a1, a2⟩ := defrag_loop_fields iters st s 0 hd
      exact cwdInv_of_fields st s a1 a2 h
    | undefined =>
      rw [hd] at hs
      exact absurd hs (by simp)
    | out_of_fuel =>
      rw [hd] at hs
      exact absurd hs (by simp)
  | cd name =>
    simp only [step, Option.some.injEq] at hs
    rw [← hs]
    exact fs_cd_cwdInv st name h

theorem run_cons (iters : Nat) (st : State) (op : Op) (ops : List Op) :
    run iters st (op :: ops) = (step iters st op).bind (fun s => run iters s ops) := by
  show (op :: ops).foldlM (step iters) st = _
  rw [List.foldlM_cons]
  rfl

/-- Every sequence of operations that returns keeps rule 4 and the current
directory. -/
theorem run_cwdInv (iters : Nat) : ∀ (ops : List Op) (st s2 : State), CwdInv st →
    run iters st ops = some s2 → CwdInv s2 := by
  intro ops
  induction ops with
  | nil =>
    intro st s2 h hr
    have : st = s2 := Option.some.inj hr
    rw [← this]
    exact h
  | cons op ops ih =>
    intro st s2 h hr
    rw [run_cons] at hr
    cases hs : step iters st op with
    | none =>
      rw [hs] at hr
      exact absurd hr (by simp)
    | some s1 =>
      rw [hs] at hr
      exact ih s1 s2 (step_cwdInv iters st s1 op h hs) hr

/-- On a consistent state every operation returns, `fs_defrag` within 128
iterations, and the state is consistent again. -/
theorem step_session (st : State) (op : Op) (h : SessionInv st)
    (hv : ValidOps [op]) : ∃ s2, step 128 st op = some s2 ∧ SessionInv s2 := by
  obtain ⟨hc, hcwd, d, hd⟩ := h
  have hw : CwdInv st := ⟨hc.2.2.2.1, hcwd, d, hd⟩
  have key : ∀ s2, step 128 st op = some s2 → Consistent s2.sb →
      ∃ s2, step 128 st op = some s2 ∧ SessionInv s2 := by
    intro s2 hs hc2
    exact ⟨s2, hs, hc2, (step_cwdInv 128 st s2 op hw hs).2⟩
  cases op with
  | create name size => exact key _ rfl (fs_create_consistent st name size hc hcwd hv.1)
  | delete name =>
    obtain ⟨s2, e, h1, h2, _⟩ :=
      fs_delete_consistent st name d hc (depthIs_reachesRoot st.sb d st.cwd hd)
    refine key s2 ?_ h2
    show (fs_delete 127 st name).map Prod.fst = some s2
    rw [h1]
    rfl
  | read name k =>
    refine key _ rfl ?_
    rcases fs_read_cases st name k with ⟨_, e⟩ | ⟨_, _, _, e⟩ | ⟨_, _, _, _, e⟩ |
        ⟨idx, _, _, _, _, e⟩ <;> rw [e] <;> exact hc
  | write name k =>
    refine key _ rfl ?_
    rcases fs_write_cases st name k with ⟨_, e⟩ | ⟨_, _, _, e⟩ | ⟨_, _, _, _, e⟩ |
        ⟨idx, _, _, _, _, e⟩ <;> rw [e] <;> exact hc
  | buff b => exact key _ rfl hc
  | ls => exact key _ rfl hc
  | defrag =>
    obtain ⟨s2, h1, h2, _⟩ := fs_defrag_spec st hc
    refine key s2 ?_ h2
    show (match fs_defrag 128 st with
      | DefragResult.done s => some s
      | _ => none) = some s2
    rw [h1]
  | cd name =>
    refine key _ rfl ?_
    rw [(fs_cd_frame st name).1]
    exact hc

theorem validOps_cons (op : Op) (ops : List Op) (h : ValidOps (op :: ops)) :
    ValidOps [op] ∧ ValidOps ops := by
  cases op <;> first | exact ⟨⟨h.1, trivial⟩, h.2⟩ | exact ⟨trivial, h⟩

/-- On a consistent state every sequence of operations returns. -/
theorem run_session : ∀ (ops : List Op) (st : State), SessionInv st → ValidOps ops →
    ∃ s2, run 128 st ops = some s2 ∧ SessionInv s2 := by
  intro ops
  induction ops with
  | nil => intro st h _; exact ⟨st, rfl, h⟩
  | cons op ops ih =>
    intro st h hv
    obtain ⟨hv1, hv2⟩ := validOps_cons op ops hv
    obtain ⟨s1, h1, h2⟩ := step_session st op h hv1
    obtain ⟨s2, h3, h4⟩ := ih s1 h2 hv2
    refine ⟨s2, ?_, h4⟩
    rw [run_cons, h1]
    exact h3

/-- A mount succeeds exactly when `consistency_check` returns 0 on the
superblock read; it then installs that superblock and sets the current
directory to 127. -/
theorem fs_mount_ok (s : Session) (new_disk_name : List Nat) (vd_new : Nat → Block) :
    ((fs_mount s new_disk_name (some vd_new)).2 = none ↔
      consistency_check (Superblock.decode (vd_new 0)) = 0) ∧
    (consistency_check (Superblock.decode (vd_new 0)) = 0 →
      (fs_mount s new_disk_name (some vd_new)).1.state.sb = Superblock.decode (vd_new 0) ∧
      (fs_mount s new_disk_name (some vd_new)).1.state.cwd = 127) := by
  unfold fs_mount
  by_cases h : consistency_check (Superblock.decode (vd_new 0)) = 0
  · simp only [h, ne_eq, not_true_eq_false, if_false, true_iff, and_self, implies_true]
  · simp only [h, ne_eq, not_false_eq_true, if_true, false_implies, and_true]
    exact ⟨fun hh => Option.noConfusion hh, fun hh => False.elim hh⟩

/-- The zero bytes that a one-byte image reads as: every inode is zero. -/
theorem decode_one_byte (b : Nat) (i : Nat) : (Superblock.decode [b]).inode i = zeroInode := by
  unfold Superblock.decode
  simp only
  split_ifs
  · have hg : ∀ n, 1 ≤ n → [b].getD n 0 = 0 := by
      intro n hn
      obtain ⟨m, rfl⟩ : ∃ m, n = m + 1 := ⟨n - 1, by omega⟩
      rfl
    rw [hg _ (by omega), hg _ (by omega), hg _ (by omega), hg _ (by omega), hg _ (by omega),
      hg _ (by omega), hg _ (by omega), hg _ (by omega)]
    rfl
  · rfl

/-- The superblock of `freshDisk` satisfies the invariants, without overlap. -/
theorem freshDisk_consistent :
    Invariants (Superblock.decode (freshDisk 0)) ∧ NoOverlap (Superblock.decode (freshDisk 0)) :=
  ⟨invariants_of_below _ 0 (by omega) (fun i _ => decode_one_byte 128 i)
      (by decide!) (by decide!) (by decide!),
    noOverlap_of_below _ 0 (by omega) (fun i _ => decode_one_byte 128 i) (by decide!)⟩

/-- In every state that a sequence of create,
delete, read, write, buffer, ls, defragment and cd operations reaches after a
successful mount (however many iterations `fs_defrag` is given), the current
directory is 127 or the index of a used directory inode, and a `fs_delete` in
that state returns and leaves the inode of the current directory and the inode
of each of its ancestors as it was.  When the superblock mounted satisfies the
six invariants with no block in the ranges of two used files and the names
created are validated, the sequence does reach a state, `fs_defrag` ending
within 128 iterations. -/
theorem cwd_after_mount (s : Session) (new_disk_name : List Nat) (vd_new : Nat → Block)
    (ops : List Op) (hm : (fs_mount s new_disk_name (some vd_new)).2 = none) :
    (∀ iters st, run iters (fs_mount s new_disk_name (some vd_new)).1.state ops = some st →
      CwdOK st ∧
      ∀ name, ∃ s2 e, fs_delete 127 st name = some (s2, e) ∧ CwdOK s2 ∧ s2.cwd = st.cwd ∧
        ∀ a, InSubtree st.sb a st.cwd → s2.sb.inode a = st.sb.inode a) ∧
    (Invariants (Superblock.decode (vd_new 0)) → NoOverlap (Superblock.decode (vd_new 0)) →
      ValidOps ops →
      ∃ st, run 128 (fs_mount s new_disk_name (some vd_new)).1.state ops = some st) := by
  obtain ⟨m1, m2⟩ := fs_mount_ok s new_disk_name vd_new
  have hchk := m1.1 hm
  obtain ⟨m3, m4⟩ := m2 hchk
  have hdep : depthIs (fs_mount s new_disk_name (some vd_new)).1.state.sb 0
      (fs_mount s new_disk_name (some vd_new)).1.state.cwd = true := by
    rw [m4, depthIs_zero]
  have h0 : CwdInv (fs_mount s new_disk_name (some vd_new)).1.state :=
    ⟨by rw [m3]; exact check_zero_rule4 _ hchk, Or.inl m4, 0, hdep⟩
  constructor
  · intro iters st hr
    have h2 := run_cwdInv iters ops _ st h0 hr
    refine ⟨h2.2.1, fun name => ?_⟩
    obtain ⟨s2, e, g1, g2, g3, g4⟩ := fs_delete_cwdInv st name h2
    exact ⟨s2, e, g1, g2.2.1, g3, g4⟩
  · intro hinv hno hops
    have hc := (consistent_iff _).2 ⟨hinv, hno⟩
    obtain ⟨st, h1, _⟩ := run_session ops _ ⟨by rw [m3]; exact hc, Or.inl m4, 0, hdep⟩ hops
    exact ⟨st, h1⟩

/-- After the mount of a fresh disk, `C dir 0`, `Y dir`, `C f 1`, `Y ..`,
`D dir` reach a state, and its current directory is 127 or a used
directory. -/
theorem cwd_after_mount_fresh :
    (fs_mount noSession [] (some freshDisk)).2 = none ∧
    ∃ st, run 128 (fs_mount noSession [] (some freshDisk)).1.state
        [Op.create ⟨100, 105, 114, 0, 0⟩ 0, Op.cd ⟨100, 105, 114, 0, 0⟩,
          Op.create (name1 102) 1, Op.cd dotdot, Op.delete ⟨100, 105, 114, 0, 0⟩] = some st ∧
      CwdOK st := by
  have hm : (fs_mount noSession [] (some freshDisk)).2 = none :=
    ((fs_mount_ok noSession [] freshDisk).1).2
      (consistent_check _ ((consistent_iff _).2 freshDisk_consistent))
  have h := cwd_after_mount noSession [] freshDisk
    [Op.create ⟨100, 105, 114, 0, 0⟩ 0, Op.cd ⟨100, 105, 114, 0, 0⟩,
      Op.create (name1 102) 1, Op.cd dotdot, Op.delete ⟨100, 105, 114, 0, 0⟩] hm
  obtain ⟨st, hst⟩ := h.2 freshDisk_consistent.1 freshDisk_consistent.2
    ⟨by decide, by decide, trivial⟩
  exact ⟨hm, st, hst, (h.1 128 st hst).1⟩

theorem delete_file_calls_succ (fuel t : Nat) (st : State) :
    delete_file_calls (fuel + 1) t st =
      (if (st.sb.inode t).isdir then
          (List.range 126).foldlM (delete_calls_step fuel t) (st, [])
        else some ({ st with
          disk := zero_blocks st.disk (st.sb.inode t).start_block (st.sb.inode t).size
          sb := set_fbl_bits st.sb (st.sb.inode t).start_block (st.sb.inode t).size false },
          [])).map
        (fun p => ({ p.1 with sb := zero_inode p.1.sb t }, p.2 ++ [t])) := rfl

/-- An inode lies in the subtrees of two inodes of the same depth only when
the two are the same. -/
theorem subtree_root_unique (sb : Superblock) (c n D : Nat) (hc : depthIs sb D c = true)
    (hn : depthIs sb D n = true) :
    ∀ k i m, inSubtree sb c k i = true → inSubtree sb n m i = true → c = n := by
  have hroot : ∀ a b x, depthIs sb D a = true → depthIs sb D b = true →
      inSubtree sb b x a = true → a = b := by
    intro a b x ha hb hsub
    obtain ⟨e, he, _, heq⟩ := inSubtree_depth sb b D hb x a hsub
    exact heq (depthIs_unique sb e D a he ha)
  intro k
  induction k with
  | zero =>
    intro i m h1 h2
    have := ((inSubtree_zero sb c i).1 h1).2.2
    rw [this] at h2
    exact hroot c n m hc hn h2
  | succ k ih =>
    intro i m h1 h2
    obtain ⟨_, _, hor⟩ := (inSubtree_succ sb c k i).1 h1
    rcases hor with hic | hrec
    · rw [hic] at h2
      exact hroot c n m hc hn h2
    · cases m with
      | zero =>
        have := ((inSubtree_zero sb n i).1 h2).2.2
        rw [this] at h1
        exact (hroot n c (k + 1) hn hc h1).symm
      | succ m =>
        obtain ⟨_, _, hor2⟩ := (inSubtree_succ sb n m i).1 h2
        rcases hor2 with hin | hrec2
        · rw [hin] at h1
          exact (hroot n c (k + 1) hn hc h1).symm
        · exact ih _ m hrec hrec2

/-- The loop over the children in `delete_file_calls`: the state is the one
of `delete_file`, and the calls so far are, once each, the inodes of the
subtrees of the children below `n`. -/
theorem delete_calls_loop (fuel t d : Nat) (s0 : State)
    (IHc : ∀ (s : State) (c : Nat), Rule4 s.sb → c < 126 →
      (s.sb.inode c).isused = true → depthIs s.sb (d + 1) c = true →
      ∃ s2 calls, delete_file_calls fuel c s = some (s2, calls) ∧
        delete_file fuel c s = some s2 ∧ calls.Nodup ∧
        ∀ i, i ∈ calls ↔ InSubtree s.sb c i)
    (hfuel : 127 ≤ fuel + (d + 1))
    (h4 : Rule4 s0.sb) (ht : t < 126) (hut : (s0.sb.inode t).isused = true)
    (hdep : depthIs s0.sb d t = true) :
    ∀ n, n ≤ 126 →
      ∃ s acc, (List.range n).foldlM (delete_calls_step fuel t) (s0, []) = some (s, acc) ∧
        (List.range n).foldlM (delete_step fuel t) s0 = some s ∧
        (∀ i, s.sb.inode i ≠ s0.sb.inode i →
          ∃ c, c < n ∧ c ≠ t ∧ (s0.sb.inode c).isused = true ∧ (s0.sb.inode c).parent = t ∧
            InSubtree s0.sb c i) ∧
        acc.Nodup ∧
        (∀ i, i ∈ acc ↔
          ∃ c, c < n ∧ c ≠ t ∧ (s0.sb.inode c).isused = true ∧ (s0.sb.inode c).parent = t ∧
            InSubtree s0.sb c i) := by
  have IHe : ∀ (s : State) (c : Nat), Rule4 s.sb → c < 126 →
      (s.sb.inode c).isused = true → depthIs s.sb (d + 1) c = true →
      ∃ s2, delete_file fuel c s = some s2 ∧ DeleteEffect s c (d + 1) s2 :=
    fun s c a1 a2 a3 a4 => delete_file_effect fuel s c (d + 1) a1 a2 a3 a4 hfuel
  have hchild_depth : ∀ c, c < 126 → (s0.sb.inode c).parent = t →
      depthIs s0.sb (d + 1) c = true := by
    intro c hc hp
    rw [depthIs_succ, hp]
    exact ⟨hc, hdep⟩
  intro n
  induction n with
  | zero =>
    intro _
    refine ⟨s0, [], rfl, rfl, fun i h => absurd rfl h, List.nodup_nil, ?_⟩
    intro i
    constructor
    · intro h
      exact absurd h (List.not_mem_nil _)
    · rintro ⟨c, hc, _⟩
      omega
  | succ n ih =>
    intro hn
    obtain ⟨s, acc, hs1, hs2, hD, hnd, hmem⟩ := ih (by omega)
    obtain ⟨s', hs', hR4, _, _, hz, hlow, _, hL4, _⟩ :=
      delete_effect_loop fuel t d s0 IHe h4 ht hut hdep n (by omega)
    have hss : s' = s := by
      rw [hs2] at hs'
      exact (Option.some.inj hs').symm
    subst hss
    -- a used child of `t` in `s0` with index `n` is as it was
    have hkeep : (s0.sb.inode n).isused = true → (s0.sb.inode n).parent = t →
        s'.sb.inode n = s0.sb.inode n := by
      intro hu hp
      by_contra hne
      obtain ⟨c, hc, _, _, hcp, k, hk⟩ := hD n hne
      have hself := (inSubtree_zero s0.sb n n).2 ⟨by omega, hu, rfl⟩
      have := subtree_root_unique s0.sb c n (d + 1) (hchild_depth c (by omega) hcp)
        (hchild_depth n (by omega) hp) k n 0 hk hself
      omega
    rw [List.range_succ, List.foldlM_append, List.foldlM_append, hs1, hs2]
    simp only [Option.bind_eq_bind, Option.some_bind, List.foldlM_cons, List.foldlM_nil]
    have hskip : (n = t ∨ ¬ ((s'.sb.inode n).isused = true ∧ (s'.sb.inode n).parent = t)) →
        (∀ i, s'.sb.inode i ≠ s0.sb.inode i →
          ∃ c, c < n + 1 ∧ c ≠ t ∧ (s0.sb.inode c).isused = true ∧
            (s0.sb.inode c).parent = t ∧ InSubtree s0.sb c i) ∧
        (∀ i, i ∈ acc ↔
          ∃ c, c < n + 1 ∧ c ≠ t ∧ (s0.sb.inode c).isused = true ∧
            (s0.sb.inode c).parent = t ∧ InSubtree s0.sb c i) := by
      intro hcase
      constructor
      · intro i hne
        obtain ⟨c, hc, r⟩ := hD i hne
        exact ⟨c, by omega, r⟩
      · intro i
        rw [hmem i]
        constructor
        · rintro ⟨c, hc, r⟩
          exact ⟨c, by omega, r⟩
        · rintro ⟨c, hc, hct, hcu, hcp, hsub⟩
          by_cases hcn : c = n
          · subst hcn
            rcases hcase with h | h
            · exact absurd h hct
            · have he := hkeep hcu hcp
              exact absurd ⟨by rw [he]; exact hcu, by rw [he]; exact hcp⟩ h
          · exact ⟨c, by omega, hct, hcu, hcp, hsub⟩
    unfold delete_calls_step delete_step
    by_cases hnt : n = t
    · rw [if_pos hnt, if_pos hnt]
      obtain ⟨g1, g2⟩ := hskip (Or.inl hnt)
      exact ⟨s', acc, rfl, rfl, g1, hnd, g2⟩
    · rw [if_neg hnt, if_neg hnt]
      by_cases hchild : (s'.sb.inode n).isused = true ∧ (s'.sb.inode n).parent = t
      · have hcond : ((s'.sb.inode n).isused && decide ((s'.sb.inode n).parent = t)) = true := by
          simp [hchild.1, hchild.2]
        simp only [hcond, if_true]
        have hen := used_same s' s0 hz n hchild.1
        have hun0 : (s0.sb.inode n).isused = true := by rw [← hen]; exact hchild.1
        have hpn0 : (s0.sb.inode n).parent = t := by rw [← hen]; exact hchild.2
        have hdt : depthIs s'.sb d t = true :=
          depthIs_transfer s0.sb s'.sb d hlow d t (le_refl _) hdep
        have hdn : depthIs s'.sb (d + 1) n = true := by
          rw [depthIs_succ, hchild.2]
          exact ⟨by omega, hdt⟩
        obtain ⟨s2, calls, c1, c2, c3, c4⟩ := IHc s' n hR4 (by omega) hchild.1 hdn
        obtain ⟨s3, e1, _, _, _, _, _, eP3, _⟩ := IHe s' n hR4 (by omega) hchild.1 hdn
        have hs3 : s3 = s2 := by
          rw [c2] at e1
          exact (Option.some.inj e1).symm
        subst hs3
        rw [c1, c2]
        simp only [Option.map_some']
        -- the subtree of `n` is the same in `s0` and in the state of the call
        have hsame : ∀ i, InSubtree s'.sb n i ↔ InSubtree s0.sb n i := by
          intro i
          constructor
          · rintro ⟨k, hk⟩
            exact ⟨k, inSubtree_down s' s0 hz n k i hk⟩
          · rintro ⟨k, hk⟩
            have hu0 := (inSubtree_used s0.sb n k i hk).2
            have hi : s'.sb.inode i = s0.sb.inode i := by
              by_contra hne
              obtain ⟨c, hc, _, _, hcp, k2, hk2⟩ := hD i hne
              have := subtree_root_unique s0.sb c n (d + 1) (hchild_depth c (by omega) hcp)
                (hchild_depth n (by omega) hpn0) k2 i k hk2 hk
              omega
            exact ⟨k, inSubtree_up s' s0 hz hR4 n k i (by rw [hi]; exact hu0) hk⟩
        refine ⟨s3, acc ++ calls, rfl, rfl, ?_, ?_, ?_⟩
        · intro i hne
          by_cases hch : s3.sb.inode i = s'.sb.inode i
          · obtain ⟨c, hc, r⟩ := hD i (by rw [← hch]; exact hne)
            exact ⟨c, by omega, r⟩
          · exact ⟨n, by omega, hnt, hun0, hpn0, (hsame i).1 (eP3 i hch)⟩
        · apply List.Nodup.append hnd c3
          intro i hi1 hi2
          obtain ⟨c, hc, hct, hcu, hcp, hsub⟩ := (hmem i).1 hi1
          have hzero := hL4 c hc hct hcu hcp i hsub
          obtain ⟨k, hk⟩ := (c4 i).1 hi2
          have hu := (inSubtree_used s'.sb n k i hk).2
          rw [hzero, zeroInode_unused] at hu
          exact Bool.noConfusion hu
        · intro i
          rw [List.mem_append, hmem i, c4 i, hsame i]
          constructor
          · rintro (⟨c, hc, r⟩ | hsub)
            · exact ⟨c, by omega, r⟩
            · exact ⟨n, by omega, hnt, hun0, hpn0, hsub⟩
          · rintro ⟨c, hc, hct, hcu, hcp, hsub⟩
            by_cases hcn : c = n
            · rw [hcn] at hsub
              exact Or.inr hsub
            · exact Or.inl ⟨c, by omega, hct, hcu, hcp, hsub⟩
      · have hcond : ((s'.sb.inode n).isused && decide ((s'.sb.inode n).parent = t)) = false := by
          cases hu : (s'.sb.inode n).isused
          · rfl
          · by_cases hp : (s'.sb.inode n).parent = t
            · exact absurd ⟨hu, hp⟩ hchild
            · simp [hp]
        simp only [hcond, Bool.false_eq_true, if_false]
        obtain ⟨g1, g2⟩ := hskip (Or.inr hchild)
        exact ⟨s', acc, rfl, rfl, g1, hnd, g2⟩

/-- The calls of `delete_file` on a used inode whose parent chain arrives at
127: the state is the one of `delete_file`, and the calls are, once each, the
inodes of the subtree. -/
theorem delete_file_calls_spec (fuel : Nat) :
    ∀ (st : State) (t d : Nat), Rule4 st.sb → t < 126 →
      (st.sb.inode t).isused = true → depthIs st.sb d t = true → 127 ≤ fuel + d →
      ∃ s2 calls, delete_file_calls fuel t st = some (s2, calls) ∧
        delete_file fuel t st = some s2 ∧ calls.Nodup ∧
        ∀ i, i ∈ calls ↔ InSubtree st.sb t i := by
  induction fuel with
  | zero =>
    intro st t d _ _ _ hdep hf
    have := depthIs_le st.sb d t hdep
    omega
  | succ fuel ih =>
    intro st t d h4 ht hu hdep hf
    rw [delete_file_calls_succ, delete_file_succ]
    have hself : InSubtree st.sb t t := InSubtree_self st.sb t ht hu
    cases hdir : (st.sb.inode t).isdir with
    | false =>
      simp only [Bool.false_eq_true, if_false, Option.map_some', List.nil_append]
      refine ⟨_, [t], rfl, rfl, List.nodup_singleton t, ?_⟩
      intro i
      rw [List.mem_singleton]
      constructor
      · intro hi
        rw [hi]
        exact hself
      · rintro ⟨k, hk⟩
        exact inSubtree_file st.sb t h4 hdir k i hk
    | true =>
      simp only [if_true]
      obtain ⟨s, acc, hs1, hs2, _, hnd, hmem⟩ :=
        delete_calls_loop fuel t d st
          (fun s c a1 a2 a3 a4 => ih s c (d + 1) a1 a2 a3 a4 (by omega)) (by omega)
          h4 ht hu hdep 126 (le_refl _)
      rw [hs1, hs2]
      simp only [Option.map_some']
      refine ⟨_, acc ++ [t], rfl, rfl, ?_, ?_⟩
      · apply List.Nodup.append hnd (List.nodup_singleton t)
        intro i hi1 hi2
        rw [List.mem_singleton] at hi2
        obtain ⟨c, hc, _, _, hcp, k, hk⟩ := (hmem i).1 hi1
        rw [hi2] at hk
        have hdc : depthIs st.sb (d + 1) c = true := by
          rw [depthIs_succ, hcp]
          exact ⟨hc, hdep⟩
        obtain ⟨e, he, hle, _⟩ := inSubtree_depth st.sb c (d + 1) hdc k t hk
        have := depthIs_unique st.sb e d t he hdep
        omega
      · intro i
        rw [List.mem_append, List.mem_singleton, hmem i]
        constructor
        · rintro (⟨c, hc, _, hcu, hcp, k, hk⟩ | hit)
          · exact InSubtree_child st.sb t c ht hu hcp k i hk
          · rw [hit]
            exact hself
        · rintro ⟨k, hk⟩
          rcases InSubtree_cases st.sb t k i hk with h | ⟨c, hc, huc, hpc, hsub⟩
          · exact Or.inr h
          · have hct : c ≠ t := by
              intro hct
              have := (h4 c hc huc).1
              rw [hct] at this hpc
              exact this hpc
            exact Or.inl ⟨c, hc, hct, huc, hpc, hsub⟩

/-- The helper behind C27: the calls of `delete_file` that `fs_delete` starts
on an inode of the current directory. -/
theorem fs_delete_calls_spec (st : State) (name : Name) (k D : Nat)
    (h4 : Rule4 st.sb) (hroot : reachesRoot st.sb k st.cwd = true)
    (hD : file_exists st name = some D) :
    ∃ s2 calls, fs_delete_calls 126 st name = some (s2, calls) ∧
      fs_delete 126 st name = some (s2, none) ∧ calls.Nodup ∧
      (∀ i, i ∈ calls ↔ InSubtree st.sb D i) ∧ calls.length ≤ 126 := by
  obtain ⟨ht, hu, _, hp, _⟩ := file_exists_some st name D hD
  obtain ⟨d, hd⟩ := reachesRoot_depth st.sb k st.cwd hroot
  have hdt : depthIs st.sb (d + 1) D = true := by
    rw [depthIs_succ, hp]
    exact ⟨ht, hd⟩
  obtain ⟨s2, calls, h1, h2, h3, h5⟩ :=
    delete_file_calls_spec 126 st D (d + 1) h4 ht hu hdt (by omega)
  refine ⟨write_superblock s2, calls, ?_, ?_, h3, h5, ?_⟩
  · unfold fs_delete_calls
    rw [hD]
    simp only
    rw [h1]
    rfl
  · unfold fs_delete
    rw [hD]
    simp only
    rw [h2]
    rfl
  · apply nodup_length_le calls 126 h3
    intro x hx
    obtain ⟨kk, hkk⟩ := (h5 x).1 hx
    exact (inSubtree_used st.sb D kk x hkk).1

/-- C27: on a state with the six invariants whose current directory is 127 or
has a parent chain that arrives at 127, the recursion of `delete_file` that
`fs_delete` starts on an inode of the current directory returns without
nesting deeper than 126 calls, and its calls are, once each, the inodes of the
subtree of the target. -/
theorem delete_file_visits_once (st : State) (name : Name) (k D : Nat)
    (hinv : Invariants st.sb) (hroot : reachesRoot st.sb k st.cwd = true)
    (hD : file_exists st name = some D) :
    ∃ s2 calls, fs_delete_calls 126 st name = some (s2, calls) ∧
      fs_delete 126 st name = some (s2, none) ∧ calls.Nodup ∧
      (∀ i, i ∈ calls ↔ InSubtree st.sb D i) ∧ calls.length ≤ 126 :=
  fs_delete_calls_spec st name k D hinv.2.2.2.1 hroot hD

/-- Witness of C27: `D dir` after `C dir 0`, `Y dir`, `C f 1`, `Y ..` calls
`delete_file` on inode 1 and on inode 0. -/
theorem delete_file_visits_once_witness :
    ∃ s2, fs_delete_calls 126 dirState ⟨100, 105, 114, 0, 0⟩ = some (s2, [1, 0]) ∧
      fs_delete 126 dirState ⟨100, 105, 114, 0, 0⟩ = some (s2, none) := by
  obtain ⟨s2, calls, h1, h2, _⟩ :=
    delete_file_visits_once dirState ⟨100, 105, 114, 0, 0⟩ 0 0 dirState_invariants
      (by decide) (by decide)
  have hc : (fs_delete_calls 126 dirState ⟨100, 105, 114, 0, 0⟩).map Prod.snd
      = some [1, 0] := by decide
  rw [h1] at hc
  simp only [Option.map_some', Option.some.injEq] at hc
  rw [hc] at h1
  exact ⟨s2, h1, h2⟩

/-! ## The free blocks hold zeros -/

/-- The function `fs_create` writes no data block and clears no bit. -/
theorem fs_create_zeroFree (st : State) (name : Name) (size : Nat) (hz : ZeroFree st) :
    ZeroFree (fs_create st name size).1 := by
  cases he : (fs_create st name size).2 with
  | some e =>
    rw [fs_create_error_state st name size e he]
    exact hz
  | none =>
    have hpair : fs_create st name size = ((fs_create st name size).1, none) :=
      Prod.ext rfl he
    obtain ⟨_, _, _, _, hcase⟩ := fs_create_ok st _ name size hpair
    obtain ⟨size2, s, hst⟩ : ∃ size2 s, (fs_create st name size).1 =
        create_commit st (create_scan st.sb 126 ⟨false, 0, 0⟩).idx name size2 s := by
      rcases hcase with ⟨_, hst⟩ | ⟨_, s, _, hst⟩
      · exact ⟨0, 0, hst⟩
      · exact ⟨size, s, hst⟩
    rw [hst]
    intro j h1 h2 hb
    rw [create_commit_bitmap, bit_is_set_set_fbl_bits] at hb
    rw [create_commit_disk _ _ _ _ _ j (by omega)]
    by_cases hr : s ≤ j ∧ j < s + size2 ∧ j ≠ 0
    · rw [if_pos hr] at hb
      exact absurd hb (by simp)
    · rw [if_neg hr] at hb
      exact hz j h1 h2 hb

/-- The function `fs_delete` zeroes the blocks whose bits it clears. -/
theorem fs_delete_zeroFree (st : State) (name : Name) (k : Nat)
    (h4 : Rule4 st.sb) (h2 : Inv2 st.sb) (hroot : reachesRoot st.sb k st.cwd = true)
    (hz : ZeroFree st) :
    ∃ s2 e, fs_delete 127 st name = some (s2, e) ∧ ZeroFree s2 := by
  cases hf : file_exists st name with
  | none =>
    have : fs_delete 127 st name = some (st, some FsError.does_not_exist) := by
      unfold fs_delete
      rw [hf]
    exact ⟨st, _, this, hz⟩
  | some D =>
    obtain ⟨s2, g1, _, _, _, _, g5, g6⟩ := fs_delete_effect st name k D h4 h2 hroot hf
    refine ⟨s2, none, g1, ?_⟩
    intro j hj1 hj2 hb
    by_cases hc : ∃ i, InSubtree st.sb D i ∧ covers (st.sb.inode i) j = true
    · obtain ⟨i, hi, hcov⟩ := hc
      exact (g5 i j hi hcov).1
    · obtain ⟨e1, e2⟩ := g6 j hc
      rw [e2 (by omega)]
      rw [e1] at hb
      exact hz j hj1 hj2 hb

/-- On a consistent state `fs_write` writes to a block whose bit is set. -/
theorem fs_write_zeroFree (st : State) (name : Name) (b : Int) (hc : Consistent st.sb)
    (hz : ZeroFree st) : ZeroFree (fs_write st name b).1 := by
  rcases fs_write_cases st name b with ⟨_, h⟩ | ⟨_, _, _, h⟩ | ⟨_, _, _, _, h⟩ |
      ⟨idx, hf, hdir, hk0, hk1, h⟩
  · rw [h]; exact hz
  · rw [h]; exact hz
  · rw [h]; exact hz
  · rw [h]
    obtain ⟨hi, hu, _⟩ := file_exists_some st name idx hf
    obtain ⟨s1, s2, _⟩ := hc.2.1 idx hi hu hdir
    intro j hj1 hj2 hb
    show Function.update st.disk _ st.fs_buffer j = zero_buff
    have hne : j ≠ (((st.sb.inode idx).start_block : Int) + b).toNat := by
      intro hj
      have hcov : covers (st.sb.inode idx) j = true := by
        rw [covers_iff]
        refine ⟨hu, hdir, ?_, ?_⟩ <;> omega
      have hset := (hc.2.2.2.2.2.1 j hj1 hj2).2 ⟨idx, hi, hcov⟩
      rw [hset] at hb
      exact Bool.noConfusion hb
    rw [Function.update_noteq hne]
    exact hz j hj1 hj2 hb

/-- A file move of `fs_defrag` zeroes the blocks that it leaves and sets the
bits of the blocks that it fills. -/
theorem defrag_step_zeroFree (st st2 : State) (f f2 : Nat) (hz : ZeroFree st)
    (h : defrag_step st f = DefragStep.moved st2 f2) : ZeroFree st2 := by
  unfold defrag_step at h
  rcases defrag_scan_none st.sb.free_block_list (128 - f) f with
    ⟨h1, _⟩ | ⟨L, U, h1, _, _, hLU, _⟩
  · cases hsc : defrag_scan st.sb.free_block_list (List.range' f (128 - f)) none with
    | mk lo r =>
      rw [hsc] at h h1
      simp only at h1
      rw [h1] at h
      simp at h
  · rw [h1] at h
    simp only at h
    cases hfd : defrag_find st.sb U with
    | none =>
      rw [hfd] at h
      simp at h
    | some idx =>
      rw [hfd] at h
      simp only [DefragStep.moved.injEq] at h
      rw [← h.1]
      obtain ⟨_, hstart, _⟩ := defrag_find_some st.sb U idx hfd
      intro j hj1 hj2 hb
      rw [defrag_move_bit] at hb
      rw [defrag_move_disk st idx L j (by omega), hstart, move_blocks_spec st.disk U L hLU]
      by_cases c1 : L ≤ j ∧ j < L + (st.sb.inode idx).size ∧ j ≠ 0
      · rw [if_pos c1] at hb
        exact absurd hb (by simp)
      · rw [if_neg c1] at hb
        rw [if_neg (by omega)]
        by_cases c2 : U ≤ j ∧ j < U + (st.sb.inode idx).size
        · rw [if_pos c2]
        · rw [if_neg c2]
          rw [hstart, if_neg (by omega)] at hb
          exact hz j hj1 hj2 hb

/-- Every state after a file move of `fs_defrag`, and the state at its end,
has zeros in its free blocks when the first state has. -/
theorem defrag_loop_zeroFree (fuel : Nat) :
    ∀ (st : State) (f : Nat), ZeroFree st →
      (∀ s2, defrag_loop fuel st f = DefragResult.done s2 → ZeroFree s2) ∧
      ∀ s, s ∈ defrag_moves fuel st f → ZeroFree s := by
  induction fuel with
  | zero =>
    intro st f _
    refine ⟨fun s2 h => absurd h (by simp [defrag_loop]), fun s hs => ?_⟩
    exact absurd hs (List.not_mem_nil _)
  | succ fuel ih =>
    intro st f hz
    have hl : defrag_loop (fuel + 1) st f = (match defrag_step st f with
      | DefragStep.finished => DefragResult.done st
      | DefragStep.undefined => DefragResult.undefined
      | DefragStep.moved st2 fbl_idx2 => defrag_loop fuel st2 fbl_idx2) := rfl
    have hm : defrag_moves (fuel + 1) st f = (match defrag_step st f with
      | DefragStep.moved st2 fbl_idx2 => st2 :: defrag_moves fuel st2 fbl_idx2
      | _ => []) := rfl
    rw [hl, hm]
    cases hs : defrag_step st f with
    | finished =>
      refine ⟨fun s2 h => ?_, fun s h => absurd h (List.not_mem_nil _)⟩
      simp only [DefragResult.done.injEq] at h
      rw [← h]
      exact hz
    | undefined =>
      exact ⟨fun s2 h => absurd h (by simp), fun s h => absurd h (List.not_mem_nil _)⟩
    | moved st2 f2 =>
      have hz2 := defrag_step_zeroFree st st2 f f2 hz hs
      obtain ⟨a1, a2⟩ := ih st2 f2 hz2
      refine ⟨fun s2 h => a1 s2 h, fun s h => ?_⟩
      rcases List.mem_cons.1 h with h | h
      · rw [h]; exact hz2
      · exact a2 s h

/-- In `shiftState` the free blocks hold zeros. -/
theorem shiftState_zeroFree : ZeroFree shiftState := by
  intro j _ _ hb
  by_cases h2 : j = 2
  · rw [h2] at hb; exact absurd hb (by decide)
  · by_cases h3 : j = 3
    · rw [h3] at hb; exact absurd hb (by decide)
    · by_cases h4 : j = 4
      · rw [h4] at hb; exact absurd hb (by decide)
      · show (if j = 2 then List.replicate 1024 1
          else if j = 3 then List.replicate 1024 2
          else if j = 4 then List.replicate 1024 3 else zero_buff) = zero_buff
        rw [if_neg h2, if_neg h3, if_neg h4]

/-- C31: on a state with the six invariants, where rule 6 leaves no block in
the ranges of two used files, and whose current directory has a parent chain
that arrives at 127, as it has in every state of the program, when every data block whose bit is clear holds zeros, the
same holds after `fs_create`, after `fs_delete` (which returns within 127
nested calls), after `fs_write`, after every file move of `fs_defrag` and at
the end of `fs_defrag` (which comes within 128 iterations); a block of the
range of a file before `fs_defrag` that is in the range of no file after it
holds zeros. -/
theorem zero_free_preserved (st : State) (k : Nat) (hinv : Invariants st.sb)
    (hno : NoOverlap st.sb) (hroot : reachesRoot st.sb k st.cwd = true) (hz : ZeroFree st) :
    (∀ name size, ZeroFree (fs_create st name size).1) ∧
    (∀ name, ∃ s2 e, fs_delete 127 st name = some (s2, e) ∧ ZeroFree s2) ∧
    (∀ name b, ZeroFree (fs_write st name b).1) ∧
    (∃ s2, fs_defrag 128 st = DefragResult.done s2 ∧ ZeroFree s2 ∧
      (∀ s, s ∈ defrag_moves 128 st 0 → ZeroFree s) ∧
      ∀ j, 1 ≤ j → j ≤ 127 → (∃ i, i < 126 ∧ covers (st.sb.inode i) j = true) →
        (∀ i, i < 126 → covers (s2.sb.inode i) j = false) → s2.disk j = zero_buff) := by
  have hc := (consistent_iff st.sb).2 ⟨hinv, hno⟩
  refine ⟨fun name size => fs_create_zeroFree st name size hz,
    fun name => fs_delete_zeroFree st name k hinv.2.2.2.1 hinv.2.1 hroot hz,
    fun name b => fs_write_zeroFree st name b hc hz, ?_⟩
  obtain ⟨s2, h1, hc2, _⟩ := fs_defrag_spec st hc
  obtain ⟨a1, a2⟩ := defrag_loop_zeroFree 128 st 0 hz
  have hz2 := a1 s2 h1
  refine ⟨s2, h1, hz2, a2, ?_⟩
  intro j hj1 hj2 _ hun
  apply hz2 j hj1 hj2
  cases hb : bit_is_set s2.sb.free_block_list j with
  | false => rfl
  | true =>
    obtain ⟨i, hi, hcov⟩ := (hc2.2.2.2.2.2.1 j hj1 hj2).1 hb
    rw [hun i hi] at hcov
    exact Bool.noConfusion hcov

/-- Witness of C31: `fs_defrag` moves the file of `shiftState` from
the blocks 2..4 to the blocks 1..3, and block 4, which it leaves, holds
zeros. -/
theorem zero_free_preserved_witness :
    ∃ s2, fs_defrag 128 shiftState = DefragResult.done s2 ∧
      (s2.sb.inode 0).start_block = 1 ∧ s2.disk 4 = zero_buff := by
  obtain ⟨s2, h1, _, _, h4⟩ :=
    (zero_free_preserved shiftState 0 shiftState_invariants shiftState_noOverlap (by decide)
      shiftState_zeroFree).2.2.2
  have hs : fs_defrag 128 shiftState = DefragResult.done (defrag_move shiftState 0 1) := rfl
  have he : s2 = defrag_move shiftState 0 1 := by
    rw [hs] at h1
    simp only [DefragResult.done.injEq] at h1
    exact h1.symm
  subst he
  exact ⟨_, hs, by decide, h4 4 (by omega) (by omega) ⟨0, by omega, by decide⟩ (by decide)⟩

/-! ## `fs_cd` into a directory and back -/

/-- The helper behind C32: a successful `fs_cd(name)` followed by
`fs_cd("..")` gives the first state back. -/
theorem fs_cd_back (st : State) (name : Name) (h1 : name ≠ dot) (h2 : name ≠ dotdot)
    (hok : (fs_cd st name).2 = none) :
    ∃ idx, file_exists st name = some idx ∧ (st.sb.inode idx).isdir = true ∧
      fs_cd st name = ({ st with cwd := idx }, none) ∧
      fs_cd (fs_cd st name).1 dotdot = (st, none) := by
  have hdd : dotdot ≠ dot := by decide
  cases hf : file_exists st name with
  | none =>
    unfold fs_cd at hok
    rw [if_neg h1, if_neg h2, hf] at hok
    exact absurd hok (by simp)
  | some idx =>
    obtain ⟨hi, _, _, hp, _⟩ := file_exists_some st name idx hf
    cases hdir : (st.sb.inode idx).isdir with
    | false =>
      unfold fs_cd at hok
      rw [if_neg h1, if_neg h2, hf] at hok
      simp only [hdir, Bool.not_false, if_true] at hok
      exact absurd hok (by simp)
    | true =>
      have hcd : fs_cd st name = ({ st with cwd := idx }, none) := by
        unfold fs_cd
        rw [if_neg h1, if_neg h2, hf]
        simp only [hdir, Bool.not_true, Bool.false_eq_true, if_false]
      refine ⟨idx, rfl, hdir, hcd, ?_⟩
      rw [hcd]
      unfold fs_cd
      rw [if_neg hdd, if_pos rfl]
      have hne : ¬ idx = 127 := by omega
      have hfind : (List.range 126).find? (fun i => (st.sb.inode i).isdir && decide (i = idx))
          = some idx := by
        have hs := find_range_spec (fun i => (st.sb.inode i).isdir && decide (i = idx)) 126
        cases hfd : (List.range 126).find?
            (fun i => (st.sb.inode i).isdir && decide (i = idx)) with
        | none =>
          rw [hfd] at hs
          have := hs idx hi
          simp [hdir] at this
        | some i =>
          rw [hfd] at hs
          obtain ⟨_, hpi, _⟩ := hs
          simp only [Bool.and_eq_true, decide_eq_true_eq] at hpi
          rw [hpi.2]
      show (if idx = 127 then _ else _) = _
      rw [if_neg hne]
      show (match (List.range 126).find?
          (fun i => (st.sb.inode i).isdir && decide (i = idx)) with
        | some i => (({ st with cwd := (st.sb.inode i).parent } : State), (none : Option CdError))
        | none => (({ st with cwd := idx } : State), none)) = _
      rw [hfind]
      show (({ st with cwd := (st.sb.inode idx).parent } : State), (none : Option CdError)) = _
      rw [hp]

/-- C32: for every name other than `"."` and `".."` for which `fs_cd(name)`
succeeds, a following `fs_cd("..")` succeeds and sets the current directory to
its value before the first call; the whole state is the one before the first
call.  This holds in every state, with or without the invariants. -/
theorem fs_cd_then_dotdot (st : State) (name : Name) (h1 : name ≠ dot) (h2 : name ≠ dotdot)
    (hok : (fs_cd st name).2 = none) :
    (fs_cd (fs_cd st name).1 dotdot).2 = none ∧
    (fs_cd (fs_cd st name).1 dotdot).1.cwd = st.cwd ∧
    (fs_cd (fs_cd st name).1 dotdot).1 = st := by
  obtain ⟨_, _, _, _, h⟩ := fs_cd_back st name h1 h2 hok
  rw [h]
  exact ⟨rfl, rfl, rfl⟩

/-- Witness of C32: in `dirState`, `fs_cd("dir")` sets the current directory
to inode 0 and `fs_cd("..")` sets it to 127 again. -/
theorem fs_cd_then_dotdot_witness :
    (fs_cd dirState ⟨100, 105, 114, 0, 0⟩).1.cwd = 0 ∧ dirState.cwd = 127 ∧
    (fs_cd (fs_cd dirState ⟨100, 105, 114, 0, 0⟩).1 dotdot).1.cwd = 127 :=
  ⟨by decide, by decide,
    (fs_cd_then_dotdot dirState ⟨100, 105, 114, 0, 0⟩ (by decide) (by decide) (by decide)).2.1⟩

end FS
